import Mathlib

/-!
# DynamicStateMachine (DSM): conditions, policies and the manager

A shallow embedding of

* `DSMConditionUtils.cpp` / `DSMConditionUtils.h`: validation, tokenisation,
  infix-to-postfix conversion and the construction of evaluators;
* `DSMDefaultNode.cpp`: validating the condition groups of a node, evaluating
  its enter conditions, and `GetData`;
* `DSMPolicy.cpp` / `DSMPolicy.h`: activating a policy and the two built-in
  policies;
* `DSMManager.cpp` / `DSMManager.h`: `FindPolicy`, `TransitionState`,
  `BeginState`, `EndState`, `UpdateStateMachine`, `StopStateMachine`,
  `RequestCustomTransition`, `RequestTransition_Internal`,
  `GetDataAssetCached` and `LoadSaveGame_Internal`;
* `DSMSaveGame.cpp` / `DSMSaveGame.h`: the history, `AddMemory` and
  `GetDataCopy`;
* `DSMCondition.cpp` / `DSMCondition.h`: `EvaluatePropertyChain` and
  `BindCondition` of the two compare conditions.

Conventions of the embedding

* `FString` and `FName` are lists of characters (`TCHAR`).
* `Checked α` is `Option α`: `none` stands for a failed `check` (an
  out-of-range `TArray::Last`/`Pop`, `TMap::operator[]` on a missing key,
  `TVariant::Get` on the wrong alternative, `check(cb)` on an unbound
  `TFunction`, `check(false)`), after which the program does not continue.
  Dereferencing a null object pointer is treated in the same way.
* `TOptional α` is `Option α`: `none` is the empty optional.
* An object pointer that may be null or invalid is an `Option`.
* A `TArray` used as a stack (`Push`/`Pop`/`Last`) is a list whose head is the
  element returned by `Last()`; a `TArray` that is only appended to is a list
  in index order. A `TMap` is the list of its entries in iteration order.
* Parameters that are only logged (`conditionName`) are left out, and so are
  logging and the debug data of the manager.
* Methods that change an object return the object afterwards.
* The virtual functions and blueprint hooks of nodes and policies are given by
  the values they return; they are taken not to call back into the manager.
* Where the order of calls matters, a function has a second version (its name
  ends in `Calls`) that also returns the list of the calls it makes.
-/

namespace DSM

abbrev TCHAR := Char
abbrev FString := List Char
abbrev FName := List Char
abbrev Checked (α : Type) := Option α
abbrev TOptional (α : Type) := Option α

/-! ## Nodes and conditions, as far as evaluators read them -/

/-- A condition object (`UDSMConditionBase`): its cached `bIsBound` flag and the
value its virtual `Evaluate(node)` returns in the current state of the node. -/
structure UDSMConditionBase where
  bIsBound : Bool
  Evaluate : Bool

/-- The part of `UDSMDefaultNode` read by compiled evaluators:
`_ConditionDefinitions : TMap<FName, TObjectPtr<UDSMConditionBase>>`, an
association list whose values are `none` for a null/stale object pointer. -/
structure UDSMDefaultNode where
  _ConditionDefinitions : List (FName × Option UDSMConditionBase)

/-- A `TWeakObjectPtr<const UDSMDefaultNode>`; `none` is an invalid pointer. -/
abbrev NodePtr := Option UDSMDefaultNode

/-- A bound `TFunction<bool(TWeakObjectPtr<const UDSMDefaultNode>)>`. -/
abbrev EvalFn := NodePtr → Checked Bool

/-- The type `EvalCB`: a `TFunction` that may be unbound (`nullptr`, here `none`). -/
abbrev EvalCB := Option EvalFn

/-- The type `CondValCB = TFunction<bool(FName)>`. -/
abbrev CondValCB := FName → Bool

/-- The struct `FExpressionEvaluator`. -/
structure FExpressionEvaluator where
  name : FName
  _evaluateFunction : EvalCB

/-- The default constructor `FExpressionEvaluator() {}`. -/
def FExpressionEvaluator.default : FExpressionEvaluator :=
  FExpressionEvaluator.mk [] none

/-- The closure `[toNegate](ptr) { return !toNegate(ptr); }`. -/
def negateClosure (toNegate : EvalFn) : EvalFn := fun ptr =>
  match toNegate ptr with
  | none => none
  | some b => some (!b)

/-- The closure `[left, right, bIsAnd](ptr)` of the AND/OR constructor: it calls
`left(ptr)`, then `right(ptr)`, and combines both results with `&&` or `||`. -/
def binaryClosure (left right : EvalFn) (bIsAnd : Bool) : EvalFn := fun ptr =>
  match left ptr with
  | none => none
  | some bleft =>
    match right ptr with
    | none => none
    | some bright => if bIsAnd then some (bleft && bright) else some (bleft || bright)

/-- Constructor for `!` operators: `check(toNegate)`, then the negating closure. -/
def FExpressionEvaluator.ofNegate (toNegate : EvalCB) : Checked FExpressionEvaluator :=
  match toNegate with
  | none => none
  | some f => some (FExpressionEvaluator.mk [] (some (negateClosure f)))

/-- Constructor for AND and OR operations: `check(left)`, `check(right)`, then
the combining closure. -/
def FExpressionEvaluator.ofBinary (left right : EvalCB) (bIsAnd : Bool) :
    Checked FExpressionEvaluator :=
  match left, right with
  | some l, some r => some (FExpressionEvaluator.mk [] (some (binaryClosure l r bIsAnd)))
  | _, _ => none

/-- The accessor `GetEvaluateFunction`. -/
def FExpressionEvaluator.GetEvaluateFunction (e : FExpressionEvaluator) : EvalCB :=
  e._evaluateFunction

/-! ## `UDSMConditionUtils` -/

/-- The loop of `EvaluateConditionGroups` over `evaluators[i]`, carrying `isValid`.
Calling an unbound `TFunction` is a failed check. -/
def evaluateGroupsLoop (ownerNode : NodePtr) :
    List FExpressionEvaluator → Bool → Checked Bool
  | [], isValid => some isValid
  | e :: rest, isValid =>
    match e.GetEvaluateFunction with
    | none => none
    | some f =>
      match f ownerNode with
      | none => none
      | some result => evaluateGroupsLoop ownerNode rest (isValid && result)

/-- The function `UDSMConditionUtils::EvaluateConditionGroups`. -/
def EvaluateConditionGroups (ownerNode : NodePtr) (evaluators : List FExpressionEvaluator) :
    Checked Bool :=
  evaluateGroupsLoop ownerNode evaluators true

/-- An element of the evaluation stack: `TVariant<FString, FExpressionEvaluator>`. -/
inductive StackElem where
  | str (s : FString)
  | eval (e : FExpressionEvaluator)

/-- The closure returned by `GetConditionByName` for a condition name. -/
def conditionLeaf (conditionName : FString) : EvalFn := fun node =>
  match node with
  | none => some false
  | some n =>
    match n._ConditionDefinitions.lookup conditionName with
    | none => none
    | some none => some false
    | some (some condition) =>
      if condition.bIsBound then some condition.Evaluate else some false

/-- The function `UDSMConditionUtils::GetConditionByName`. -/
def GetConditionByName (elem : StackElem) (condNameValidation : CondValCB) : EvalCB :=
  match elem with
  | StackElem.str conditionName =>
    if conditionName.isEmpty || !condNameValidation conditionName then none
    else some (conditionLeaf conditionName)
  | StackElem.eval e => e.GetEvaluateFunction

/-- The array `allowedCharsForVariables` of `ValidateConditionString`: the
digits `0`-`9`, the lowercase letters `a`-`z` and the uppercase letters `A`-`Z`,
in the order of the source. -/
def allowedCharsForVariables : List TCHAR :=
  "0123456789abcdefghijklmnopqrstuvwxyzABCDEFGHIJKLMNOPQRSTUVWXYZ".toList

/-- The checks after the loop of `ValidateConditionString`. -/
def validateFinish (bracketsCounter : Int) (bNeedVariableToTheRight : Bool) : Bool :=
  if bracketsCounter != 0 then false
  else if bNeedVariableToTheRight then false
  else true

/-- The `for (int32 i = 0; i < conditionString.Len(); ++i)` loop of
`ValidateConditionString`, one iteration per unit of fuel, with the loop
variables `i`, `bracketsCounter`, `bIsVariableToTheLeft` and
`bNeedVariableToTheRight`.  `s[i]?` is `none` exactly when `i < Len` fails;
every other character access of the source is in range where it is made. -/
def validateLoop (s : FString) : Nat → Nat → Int → Bool → Bool → Bool
  | 0, _, bracketsCounter, _, bNeedVariableToTheRight =>
    validateFinish bracketsCounter bNeedVariableToTheRight
  | fuel + 1, i, bracketsCounter, bIsVariableToTheLeft, bNeedVariableToTheRight =>
    match s[i]? with
    | none => validateFinish bracketsCounter bNeedVariableToTheRight
    | some currentChar =>
      if currentChar = '(' then
        validateLoop s fuel (i + 1) (bracketsCounter + 1) bIsVariableToTheLeft
          bNeedVariableToTheRight
      else if currentChar = ')' then
        validateLoop s fuel (i + 1) (bracketsCounter - 1) bIsVariableToTheLeft
          bNeedVariableToTheRight
      else if currentChar = '!' then
        if 0 < i && s[i - 1]? != some ' ' && s[i - 1]? != some '(' then false
        else if decide ((i : Int) > (s.length : Int) - 2) || s[i + 1]? == some '|'
            || s[i + 1]? == some '&' then false
        else validateLoop s fuel (i + 1) bracketsCounter bIsVariableToTheLeft
          bNeedVariableToTheRight
      else if currentChar = '|' ∨ currentChar = '&' then
        if !bIsVariableToTheLeft then false
        else if i != 0 && s[i - 1]? != some ' ' then false
        else if decide ((i : Int) ≤ (s.length : Int) - 3) && s[i + 1]? == s[i]? then
          if s[i + 2]? != some ' ' then false
          else validateLoop s fuel (i + 2) bracketsCounter false true
        else false
      else if currentChar = ' ' then
        validateLoop s fuel (i + 1) bracketsCounter bIsVariableToTheLeft
          bNeedVariableToTheRight
      else if !allowedCharsForVariables.contains currentChar then false
      else validateLoop s fuel (i + 1) bracketsCounter true false

/-- The function `UDSMConditionUtils::ValidateConditionString`.  Every iteration
advances `i` by at least one, so `Len` iterations always reach `i >= Len`. -/
def ValidateConditionString (conditionString : FString) : Bool :=
  validateLoop conditionString conditionString.length 0 0 false false

/-- The function `UDSMConditionUtils::CustomSplit`: `(left, foundDelimeter, right)`
around the first character of `input` contained in `delimeters`; without one,
`(input, "", "")`. -/
def CustomSplit (delimeters : List TCHAR) : FString → FString × FString × FString
  | [] => ([], [], [])
  | currentChar :: cs =>
    if delimeters.contains currentChar then ([], [currentChar], cs)
    else
      let r := CustomSplit delimeters cs
      (currentChar :: r.1, r.2.1, r.2.2)

/-- `mergedTokens.Last().Append(t)`. -/
def appendToLast (mergedTokens : List FString) (t : FString) : List FString :=
  match mergedTokens.getLast? with
  | none => mergedTokens
  | some l => mergedTokens.dropLast ++ [l ++ t]

/-- The loop `for (int32 i = 1; i < refTokens.Num(); ++i)` of
`MergePrecedingTokens` over the remaining tokens, carrying `mergedTokens` and
`currentToken`. -/
def mergeLoop (mergeTokens : List FString) :
    List FString → List FString → FString → List FString
  | [], mergedTokens, _ => mergedTokens
  | t :: rest, mergedTokens, currentToken =>
    if mergeTokens.contains currentToken && currentToken == t then
      mergeLoop mergeTokens rest (appendToLast mergedTokens t) currentToken
    else
      mergeLoop mergeTokens rest (mergedTokens ++ [t]) t

/-- The function `UDSMConditionUtils::MergePrecedingTokens`. -/
def MergePrecedingTokens (refTokens : List FString) (mergeTokens : List FString) :
    List FString :=
  match refTokens with
  | [] => []
  | t0 :: rest => mergeLoop mergeTokens rest [t0] t0

/-- The `while (!remainingString.IsEmpty())` loop of `TokenizeExpression`, one
iteration per unit of fuel. -/
def tokenizeLoop (splitOperators : List TCHAR) : Nat → FString → List FString → List FString
  | 0, _, tokens => tokens
  | fuel + 1, remainingString, tokens =>
    if remainingString.isEmpty then tokens
    else
      let r := CustomSplit splitOperators remainingString
      let tokens1 := if !r.1.isEmpty then tokens ++ [r.1] else tokens
      let tokens2 := if !r.2.1.isEmpty then tokens1 ++ [r.2.1] else tokens1
      tokenizeLoop splitOperators fuel r.2.2 tokens2

/-- The method `FString::RemoveSpacesInline`. -/
def RemoveSpacesInline (s : FString) : FString :=
  s.filter (fun c => c != ' ')

/-- The function `UDSMConditionUtils::TokenizeExpression`.  Every iteration of
the loop shortens `remainingString`, so its length bounds the iterations. -/
def TokenizeExpression (conditionString : FString) (splitOperators : List TCHAR)
    (mergeOperators : List FString) : List FString :=
  let remainingString := RemoveSpacesInline conditionString
  MergePrecedingTokens
    (tokenizeLoop splitOperators remainingString.length remainingString [])
    mergeOperators

/-- The array `parenthesis = { "(", ")" }`. -/
def parenthesis : List FString := [['('], [')']]

/-- The loop `while (!operators.Last().Equals("("))` of the `")"` branch, followed
by the final `operators.Pop()`; returns `(operators, result)`. -/
def unwindToParen : List FString → List FString → Checked (List FString × List FString)
  | [], _ => none
  | op :: operators, result =>
    if op = ['('] then some (operators, result)
    else unwindToParen operators (result ++ [op])

/-- The unwinding loop of the operator branch:
`while (!operators.IsEmpty() && !parenthesis.Contains(operators.Last()) &&
operatorPrecedence[operators.Last()] >= operatorPrecedence[token])`. -/
def unwindByPrecedence (operatorPrecedence : List (FString × Int)) (token : FString) :
    List FString → List FString → Checked (List FString × List FString)
  | [], result => some ([], result)
  | op :: operators, result =>
    if parenthesis.contains op then some (op :: operators, result)
    else
      match operatorPrecedence.lookup op, operatorPrecedence.lookup token with
      | some pLast, some pToken =>
        if pLast ≥ pToken then
          unwindByPrecedence operatorPrecedence token operators (result ++ [op])
        else some (op :: operators, result)
      | _, _ => none

/-- The loop `for (const FString& token : tokens)` of
`TransformExpressionToReversePolishOrder`; returns `(operators, result)`. -/
def rpoLoop (operatorPrecedence : List (FString × Int)) :
    List FString → List FString → List FString → Checked (List FString × List FString)
  | [], operators, result => some (operators, result)
  | token :: rest, operators, result =>
    if token = ['('] then rpoLoop operatorPrecedence rest (token :: operators) result
    else if token = [')'] then
      match unwindToParen operators result with
      | none => none
      | some st => rpoLoop operatorPrecedence rest st.1 st.2
    else if (operatorPrecedence.map Prod.fst).contains token then
      match unwindByPrecedence operatorPrecedence token operators result with
      | none => none
      | some st => rpoLoop operatorPrecedence rest (token :: st.1) st.2
    else rpoLoop operatorPrecedence rest operators (result ++ [token])

/-- The function `UDSMConditionUtils::TransformExpressionToReversePolishOrder`:
the new value of `tokens`.  The closing loop pushes `operators[i]` from the
last index down to 0, that is, the stack from its top downwards. -/
def TransformExpressionToReversePolishOrder (tokens : List FString)
    (operatorPrecedence : List (FString × Int)) : Checked (List FString) :=
  match rpoLoop operatorPrecedence tokens [] [] with
  | none => none
  | some st => some (st.2 ++ st.1)

/-- The loop `for (const FString& token : tokens)` of `EvaluateExpression` over
the evaluation stack.  `some none` is an early `return TOptional()`; `some (some
stack)` is the stack after the last token. -/
def evaluateLoop (condNameValidation : CondValCB) :
    List FString → List StackElem → Checked (TOptional (List StackElem))
  | [], evaluationStack => some (some evaluationStack)
  | token :: rest, evaluationStack =>
    if token = ['!'] then
      match evaluationStack with
      | [] => some none
      | top :: stack1 =>
        match GetConditionByName top condNameValidation with
        | none => some none
        | some cb =>
          match FExpressionEvaluator.ofNegate (some cb) with
          | none => none
          | some evaluator =>
            evaluateLoop condNameValidation rest (StackElem.eval evaluator :: stack1)
    else if token = ['|', '|'] ∨ token = ['&', '&'] then
      match evaluationStack with
      | e0 :: e1 :: stack2 =>
        match GetConditionByName e0 condNameValidation with
        | none => some none
        | some cb0 =>
          match GetConditionByName e1 condNameValidation with
          | none => some none
          | some cb1 =>
            match FExpressionEvaluator.ofBinary (some cb1) (some cb0)
                (decide (token = ['&', '&'])) with
            | none => none
            | some evaluator =>
              evaluateLoop condNameValidation rest (StackElem.eval evaluator :: stack2)
      | _ => some none
    else evaluateLoop condNameValidation rest (StackElem.str token :: evaluationStack)

/-- The function `UDSMConditionUtils::EvaluateExpression`. -/
def EvaluateExpression (tokens : List FString) (condNameValidation : CondValCB) :
    Checked (TOptional FExpressionEvaluator) :=
  match tokens with
  | [t] =>
    match GetConditionByName (StackElem.str t) condNameValidation with
    | some cb =>
      match FExpressionEvaluator.ofBinary (some cb) (some (fun _ => some false)) false with
      | none => none
      | some evaluator => some (some evaluator)
    | none => some none
  | _ =>
    match evaluateLoop condNameValidation tokens [] with
    | none => none
    | some none => some none
    | some (some evaluationStack) =>
      match evaluationStack with
      | [] => some none
      | [StackElem.eval e] => some (some e)
      | [StackElem.str _] => none
      | _ :: _ :: _ => some none

/-- The precedence table passed by `CompileConditionString`. -/
def operatorPrecedenceTable : List (FString × Int) :=
  [(['|', '|'], 0), (['&', '&'], 1), (['!'], 2)]

/-- The function `UDSMConditionUtils::CompileConditionString`. -/
def CompileConditionString (conditionString : FString) (condNameValidation : CondValCB) :
    Checked (TOptional FExpressionEvaluator) :=
  if ValidateConditionString conditionString then
    let tokens := TokenizeExpression conditionString ['(', ')', '|', '&', '!'] [['&'], ['|']]
    match TransformExpressionToReversePolishOrder tokens operatorPrecedenceTable with
    | none => none
    | some rpo => EvaluateExpression rpo condNameValidation
  else some none

/-! ## Properties of accepted strings -/

/-- Index `k` of `s` lies in an isolated pair: a pair of equal characters at
indices `j`, `j + 1` (so `k = j` or `k = j + 1`) with a space directly before
it, at `j - 1`, and a space directly after it, at `j + 2`. -/
def InIsolatedPair (s : FString) (k : Nat) : Prop :=
  ∃ j, (k = j ∨ k = j + 1) ∧ 1 ≤ j ∧ s[j - 1]? = some ' ' ∧ s[j + 1]? = s[j]? ∧
    s[j + 2]? = some ' '

/-- What an accepted string satisfies around index `k`. -/
def LocalOK (s : FString) (k : Nat) : Prop :=
  (s[k]? = some '!' →
    (k = 0 ∨ s[k - 1]? = some ' ' ∨ s[k - 1]? = some '(') ∧ k + 2 ≤ s.length ∧
      s[k + 1]? ≠ some '|' ∧ s[k + 1]? ≠ some '&') ∧
  ((s[k]? = some '&' ∨ s[k]? = some '|') → InIsolatedPair s k)

/-! ## The expression grammar of the specification -/

/-- Derivation trees of the grammar of condition-group expressions,
`E ::= id | !id | !(E) | (E) | E && E | E || E`. -/
inductive CondExpr where
  | ident (x : FString)
  | notIdent (x : FString)
  | notParen (e : CondExpr)
  | paren (e : CondExpr)
  | and (l r : CondExpr)
  | or (l r : CondExpr)

namespace CondExpr

/-- The expression string of a derivation tree: exactly one space on each side
of `&&` and `||`, no space after `!` or inside parentheses. -/
def render : CondExpr → FString
  | ident x => x
  | notIdent x => '!' :: x
  | notParen e => '!' :: '(' :: (render e ++ [')'])
  | paren e => '(' :: (render e ++ [')'])
  | and l r => render l ++ ([' ', '&', '&', ' '] ++ render r)
  | or l r => render l ++ ([' ', '|', '|', ' '] ++ render r)

/-- The identifiers of an expression, from left to right. -/
def idents : CondExpr → List FString
  | ident x => [x]
  | notIdent x => [x]
  | notParen e => idents e
  | paren e => idents e
  | and l r => idents l ++ idents r
  | or l r => idents l ++ idents r

/-- The boolean value of a derivation tree under a truth assignment to the
identifiers. -/
def value (σ : FName → Bool) : CondExpr → Bool
  | ident x => σ x
  | notIdent x => !σ x
  | notParen e => !value σ e
  | paren e => value σ e
  | and l r => value σ l && value σ r
  | or l r => value σ l || value σ r

/-- Binding strength of the outermost construct: 0 for `||`, 1 for `&&`, 2 for
an operand (identifier, negation, parenthesised group). -/
def level : CondExpr → Nat
  | or _ _ => 0
  | and _ _ => 1
  | _ => 2

/-- The derivation tree follows the precedences and left associativity: the
right operand of `&&` is an operand, its left operand is no `||`, and the right
operand of `||` is no `||`. -/
def canonical : CondExpr → Bool
  | ident _ => true
  | notIdent _ => true
  | notParen e => canonical e
  | paren e => canonical e
  | and l r => canonical l && canonical r && decide (1 ≤ level l) && decide (2 ≤ level r)
  | or l r => canonical l && canonical r && decide (1 ≤ level r)

/-- The tree of `l || r` (as a string) for canonical `l`, `r`. -/
def mkOr (l : CondExpr) : CondExpr → CondExpr
  | or c d => or (mkOr l c) d
  | ident x => or l (ident x)
  | notIdent x => or l (notIdent x)
  | notParen e => or l (notParen e)
  | paren e => or l (paren e)
  | and c d => or l (and c d)

/-- The tree of `l && r` (as a string) for canonical `l`, `r`, with `l` no `||`. -/
def mkAndRight (l : CondExpr) : CondExpr → CondExpr
  | or c d => or (mkAndRight l c) d
  | and c d => and (mkAndRight l c) d
  | ident x => and l (ident x)
  | notIdent x => and l (notIdent x)
  | notParen e => and l (notParen e)
  | paren e => and l (paren e)

/-- The tree of `l && r` (as a string) for canonical `l`, `r`. -/
def mkAnd : CondExpr → CondExpr → CondExpr
  | or a b, r => mkOr a (mkAnd b r)
  | ident x, r => mkAndRight (ident x) r
  | notIdent x, r => mkAndRight (notIdent x) r
  | notParen e, r => mkAndRight (notParen e) r
  | paren e, r => mkAndRight (paren e) r
  | and c d, r => mkAndRight (and c d) r

/-- The derivation tree of the same string that follows the precedences (`!`
over `&&` over `||`) and left associativity. -/
def parse : CondExpr → CondExpr
  | ident x => ident x
  | notIdent x => notIdent x
  | notParen e => notParen (parse e)
  | paren e => paren (parse e)
  | and l r => mkAnd (parse l) (parse r)
  | or l r => mkOr (parse l) (parse r)

/-- The tokens of the expression string. -/
def toks : CondExpr → List FString
  | ident x => [x]
  | notIdent x => [['!'], x]
  | notParen e => ['!'] :: ['('] :: (toks e ++ [[')']])
  | paren e => ['('] :: (toks e ++ [[')']])
  | and l r => toks l ++ (['&', '&'] :: toks r)
  | or l r => toks l ++ (['|', '|'] :: toks r)

/-- The tokens of the expression in reverse polish order. -/
def rpn : CondExpr → List FString
  | ident x => [x]
  | notIdent x => [x, ['!']]
  | notParen e => rpn e ++ [['!']]
  | paren e => rpn e
  | and l r => rpn l ++ (rpn r ++ [['&', '&']])
  | or l r => rpn l ++ (rpn r ++ [['|', '|']])

end CondExpr

/-- An identifier: a non-empty run of the characters `[0-9a-zA-Z]`. -/
def isIdentifier (x : FString) : Bool :=
  !x.isEmpty && x.all (fun c => allowedCharsForVariables.contains c)

/-- The node binds every identifier of `xs` to a valid, bound condition whose
`Evaluate` value is the one `σ` assigns. -/
def BoundBy (node : UDSMDefaultNode) (σ : FName → Bool) (xs : List FString) : Prop :=
  ∀ x ∈ xs, ∃ c : UDSMConditionBase,
    node._ConditionDefinitions.lookup x = some (some c) ∧ c.bIsBound = true ∧ c.Evaluate = σ x

/-! ## Auxiliary notions for the conversion to reverse polish order -/

namespace CondExpr

/-- The operators of `t` that are still on the operator stack (top first) when
the last token of `t` has been processed. -/
def pending : CondExpr → List FString
  | ident _ => []
  | notIdent _ => [['!']]
  | notParen _ => [['!']]
  | paren _ => []
  | and _ r => pending r ++ [['&', '&']]
  | or _ r => pending r ++ [['|', '|']]

/-- The tokens of `t` that have been appended to `result` when the last token of
`t` has been processed. -/
def emitted : CondExpr → List FString
  | ident x => [x]
  | notIdent x => [x]
  | notParen e => rpn e
  | paren e => rpn e
  | and l r => rpn l ++ emitted r
  | or l r => rpn l ++ emitted r

end CondExpr

/-- The top of the operator stack, if any, is `(` or an operator of precedence
below `p`. -/
def StackBelow (p : Int) (operators : List FString) : Prop :=
  match operators with
  | [] => True
  | op :: _ => op = ['('] ∨ ∃ q, operatorPrecedenceTable.lookup op = some q ∧ q < p

/-- The token `op` is an operator of precedence at least `p`. -/
def OpAtLeast (p : Int) (op : FString) : Prop :=
  ∃ q, operatorPrecedenceTable.lookup op = some q ∧ p ≤ q

/-! ## Auxiliary notions for tokenisation -/

/-- The delimiters passed to `TokenizeExpression` by `CompileConditionString`. -/
def splitOperators : List TCHAR := ['(', ')', '|', '&', '!']

/-- The merge operators passed to `TokenizeExpression` by `CompileConditionString`. -/
def mergeOperators : List FString := [['&'], ['|']]

/-- Splitting a string at delimiters in one pass: `w` is the word read so far;
every delimiter is a token of its own and every maximal delimiter-free run is
a token. -/
def splitWords (delimeters : List TCHAR) : FString → FString → List FString
  | [], w => if w.isEmpty then [] else [w]
  | c :: cs, w =>
    if delimeters.contains c then
      (if w.isEmpty then [] else [w]) ++ ([c] :: splitWords delimeters cs [])
    else splitWords delimeters cs (w ++ [c])

namespace CondExpr

/-- The expression string without its spaces. -/
def compact : CondExpr → FString
  | ident x => x
  | notIdent x => '!' :: x
  | notParen e => '!' :: '(' :: (compact e ++ [')'])
  | paren e => '(' :: (compact e ++ [')'])
  | and l r => compact l ++ ('&' :: '&' :: compact r)
  | or l r => compact l ++ ('|' :: '|' :: compact r)

/-- The tokens of the expression before `&`,`&` and `|`,`|` are merged. -/
def rawToks : CondExpr → List FString
  | ident x => [x]
  | notIdent x => [['!'], x]
  | notParen e => ['!'] :: ['('] :: (rawToks e ++ [[')']])
  | paren e => ['('] :: (rawToks e ++ [[')']])
  | and l r => rawToks l ++ (['&'] :: ['&'] :: rawToks r)
  | or l r => rawToks l ++ (['|'] :: ['|'] :: rawToks r)

/-- The last token of the expression. -/
def lastTok : CondExpr → FString
  | ident x => x
  | notIdent x => x
  | notParen _ => [')']
  | paren _ => [')']
  | and _ r => lastTok r
  | or _ r => lastTok r

end CondExpr

/-! ## The validation loop as a scan over the rest of the string -/

/-- The loop of `ValidateConditionString` restated over the characters not yet
read: `prev` is the character before the current one (`none` at index 0), the
list is the string from the current index on.  `validateLoop_eq_scan` proves
that it computes the same result as `validateLoop`. -/
def validateScan : Option TCHAR → FString → Int → Bool → Bool → Bool
  | _, [], bracketsCounter, _, bNeedVariableToTheRight =>
    validateFinish bracketsCounter bNeedVariableToTheRight
  | prev, c :: rest, bracketsCounter, bIsVariableToTheLeft, bNeedVariableToTheRight =>
    if c = '(' then
      validateScan (some c) rest (bracketsCounter + 1) bIsVariableToTheLeft
        bNeedVariableToTheRight
    else if c = ')' then
      validateScan (some c) rest (bracketsCounter - 1) bIsVariableToTheLeft
        bNeedVariableToTheRight
    else if c = '!' then
      if prev.isSome && prev != some ' ' && prev != some '(' then false
      else if rest.isEmpty || rest.head? == some '|' || rest.head? == some '&' then false
      else validateScan (some c) rest bracketsCounter bIsVariableToTheLeft
        bNeedVariableToTheRight
    else if c = '|' ∨ c = '&' then
      if !bIsVariableToTheLeft then false
      else if prev.isSome && prev != some ' ' then false
      else
        match rest with
        | [] => false
        | c1 :: tl =>
          match tl with
          | [] => false
          | c2 :: _ =>
            if c1 = c then
              if c2 ≠ ' ' then false
              else validateScan (some c1) tl bracketsCounter false true
            else false
    else if c = ' ' then
      validateScan (some c) rest bracketsCounter bIsVariableToTheLeft bNeedVariableToTheRight
    else if !allowedCharsForVariables.contains c then false
    else validateScan (some c) rest bracketsCounter true false

/-- The character before index `i` of `s`, `none` at index 0. -/
def prevChar (s : FString) (i : Nat) : Option TCHAR :=
  if i = 0 then none else s[i - 1]?

/-! ## The node of the condition tests -/

/-- The function `UDSMDefaultNode::ValidateConditionName`:
`_ConditionDefinitions.Contains(name)`. -/
def UDSMDefaultNode.ValidateConditionName (node : UDSMDefaultNode) (name : FName) : Bool :=
  (node._ConditionDefinitions.lookup name).isSome

/-- The class `UDSMConditionTrue` after binding: `BindCondition` returns true and
`Evaluate` returns true. -/
def UDSMConditionTrue : UDSMConditionBase := UDSMConditionBase.mk true true

/-- The class `UDSMConditionFalse` after binding: `BindCondition` returns true and
`Evaluate` returns false. -/
def UDSMConditionFalse : UDSMConditionBase := UDSMConditionBase.mk true false

/-- The node of `FDSMValidConditionTest`: condition definitions
`{ "true" : UDSMConditionTrue, "false" : UDSMConditionFalse }`. -/
def conditionTestNode : UDSMDefaultNode :=
  UDSMDefaultNode.mk
    [(['t', 'r', 'u', 'e'], some UDSMConditionTrue),
     (['f', 'a', 'l', 's', 'e'], some UDSMConditionFalse)]

/-! ## Auxiliary notions for rejected identifiers -/

/-- The names on the evaluation stack that have not been resolved yet. -/
def unresolvedNames : List StackElem → List FString
  | [] => []
  | StackElem.str s :: rest => s :: unresolvedNames rest
  | StackElem.eval _ :: rest => unresolvedNames rest

/-! ## Nodes as the state machine sees them -/

/-- The method `TMap::Add(key, value)` on a map kept as the list of its entries: the
value of a key that is present is replaced, a new key is appended. -/
def TMap.Add {α β : Type} [DecidableEq α] (m : List (α × β)) (key : α) (value : β) :
    List (α × β) :=
  if m.any (fun e => decide (e.1 = key)) then
    m.map (fun e => if e.1 = key then (key, value) else e)
  else m ++ [(key, value)]

/-- The type `float` of the argument `DeltaTime` of the update functions: the
value is only handed on to the hooks of the node and never computed with; a
rational number stands for it. -/
abbrev float := Rat

/-- A data asset (`UDSMDataAsset`): its object name (`GetFName()`) and a number
standing for the values of its properties. -/
structure UDSMDataAsset where
  name : FName
  payload : Nat

/-- A node object (`UDSMDefaultNode`) with the members the state machine uses; `n`
is the number of policy classes of the program, a `TSubclassOf<UDSMPolicy>` is a
class number or `none` (null).

* `_ConditionGroups : TMap<FName, FText>`, each text given by its string;
* `_expressionEvaluators`, the compiled condition groups;
* `_nodePolicies : TArray<TSubclassOf<UDSMPolicy>>`;
* `_writableDataReferences` / `_readOnlyDataReferences :
  TMap<FName, TObjectPtr<UDSMDataAsset>>`;
* `CanEnterState` / `CanEnterStateEvent`: the entries the virtual function and
  the blueprint hook put into their result map, for the given `IsSelfTransition`;
* `ComponentHasTag`: whether the owning component carries a tag;
* `OnBeginState` / `OnBeginStateEvent`: the value the virtual function and the
  hook leave in their `HasStateEnded` out-parameter;
* `OnUpdateState` / `OnUpdateStateEvent`: the same for the update functions,
  for the given `DeltaTime`.

The remaining hooks return nothing to the state machine and are left out. -/
structure DefaultNode (n : Nat) extends UDSMDefaultNode where
  _ConditionGroups : List (FName × FString)
  _expressionEvaluators : List FExpressionEvaluator
  _nodePolicies : List (Option (Fin n))
  _writableDataReferences : List (FName × Option UDSMDataAsset)
  _readOnlyDataReferences : List (FName × Option UDSMDataAsset)
  CanEnterState : Bool → List (FName × Bool)
  CanEnterStateEvent : Bool → List (FName × Bool)
  ComponentHasTag : FName → Bool
  OnBeginState : Bool
  OnBeginStateEvent : Bool
  OnUpdateState : float → Bool
  OnUpdateStateEvent : float → Bool

/-- The loop of `UDSMConditionUtils::ValidateConditionGroups` over the pairs of
`conditionGroups`, carrying `validExpressions`; `some none` is the `return false`
of the else branch. -/
def validateGroupsLoop (condNameValidation : CondValCB) :
    List (FName × FString) → List FExpressionEvaluator →
      Checked (Option (List FExpressionEvaluator))
  | [], validExpressions => some (some validExpressions)
  | pair :: rest, validExpressions =>
    match CompileConditionString pair.2 condNameValidation with
    | none => none
    | some none => some none
    | some (some expression) =>
      validateGroupsLoop condNameValidation rest
        (validExpressions ++ [{ expression with name := pair.1 }])

/-- The function `UDSMConditionUtils::ValidateConditionGroups`: the returned flag
together with the value of `outEvaluators` afterwards. -/
def ValidateConditionGroups (conditionGroups : List (FName × FString))
    (condNameValidation : CondValCB) (outEvaluators : List FExpressionEvaluator) :
    Checked (Bool × List FExpressionEvaluator) :=
  match validateGroupsLoop condNameValidation conditionGroups [] with
  | none => none
  | some none => some (false, outEvaluators)
  | some (some validExpressions) => some (true, validExpressions)

/-- The loop of `UDSMDefaultNode::ValidateConditionGroups` over
`_ConditionDefinitions`, carrying `CondGrpValid`. `BindCondition key cond` is the
value of the virtual call `elem.Value->BindCondition(this)` for the definition
stored under `key`. The first component is `none` when the loop left the function
with `return false` at a null definition; the second is the map with the
`bIsBound` flags as the loop leaves them. -/
def bindLoop (BindCondition : FName → UDSMConditionBase → Bool) (reset : Bool) :
    List (FName × Option UDSMConditionBase) → Bool →
      Option Bool × List (FName × Option UDSMConditionBase)
  | [], CondGrpValid => (some CondGrpValid, [])
  | (key, none) :: rest, _ => (none, (key, none) :: rest)
  | (key, some cond) :: rest, CondGrpValid =>
    let bIsBound := BindCondition key cond
    let r := bindLoop BindCondition reset rest (CondGrpValid && bIsBound)
    (r.1, (key, some { cond with bIsBound := if reset then false else bIsBound }) :: r.2)

/-- The method `UDSMDefaultNode::ValidateConditionGroups(reset)`: the returned flag
and the node afterwards. -/
def DefaultNode.ValidateConditionGroups {n : Nat} (node : DefaultNode n)
    (BindCondition : FName → UDSMConditionBase → Bool) (reset : Bool) :
    Checked (Bool × DefaultNode n) :=
  let r := bindLoop BindCondition reset node._ConditionDefinitions true
  let node1 : DefaultNode n := { node with _ConditionDefinitions := r.2 }
  match r.1 with
  | none => some (false, node1)
  | some CondGrpValid =>
    let node2 : DefaultNode n := { node1 with _expressionEvaluators := [] }
    if CondGrpValid then
      match DSM.ValidateConditionGroups node2._ConditionGroups
          (fun name => node2.toUDSMDefaultNode.ValidateConditionName name)
          node2._expressionEvaluators with
      | none => none
      | some (valid, evaluators) =>
        some (valid, { node2 with _expressionEvaluators := evaluators })
    else some (false, node2)

/-- The first two loops of `EvaluateEnterConditions`: every entry of a result map is
added to `debugElements.Conditions` and its value is and-ed to the flag. -/
def canEnterLoop : List (FName × Bool) → Bool → List (FName × Bool) →
    Bool × List (FName × Bool)
  | [], flag, Conditions => (flag, Conditions)
  | elem :: rest, flag, Conditions =>
    canEnterLoop rest (flag && elem.2) (TMap.Add Conditions elem.1 elem.2)

/-- The third loop of `EvaluateEnterConditions`, over `_expressionEvaluators[i]`.
Calling an unbound `TFunction` is a failed check. -/
def enterGroupsLoop (self : NodePtr) : List FExpressionEvaluator → Bool →
    List (FName × Bool) → Checked (Bool × List (FName × Bool))
  | [], flag, Conditions => some (flag, Conditions)
  | e :: rest, flag, Conditions =>
    match e.GetEvaluateFunction with
    | none => none
    | some f =>
      match f self with
      | none => none
      | some result =>
        enterGroupsLoop self rest (flag && result) (TMap.Add Conditions e.name result)

/-- The method `UDSMDefaultNode::EvaluateEnterConditions`: the returned verdict
and the map `debugInfo.Value.Conditions` (the node name of `debugInfo` is left
out). -/
def DefaultNode.EvaluateEnterConditions {n : Nat} (node : DefaultNode n)
    (IsSelfTransition : Bool) : Checked (Bool × List (FName × Bool)) :=
  let r1 := canEnterLoop (node.CanEnterState IsSelfTransition) true []
  let r2 := canEnterLoop (node.CanEnterStateEvent IsSelfTransition) true r1.2
  match enterGroupsLoop (some node.toUDSMDefaultNode) node._expressionEvaluators true r2.2 with
  | none => none
  | some r3 => some (r1.1 && r2.1 && r3.1, r3.2)

/-! ## Policies and the state of the manager -/

/-- A policy object (`UDSMPolicy`): the number of its class (`GetClass()`), the
properties `_priority` and `bTransitionAfterPolicy`, and the private members
`bAppliedSuccessful` and `_policyNodesOrdered`. A `UDSMDefaultNode*` in a node
array is a node or `none` (a null pointer). -/
structure UDSMPolicy (n : Nat) where
  policyClass : Fin n
  _priority : Int
  bTransitionAfterPolicy : Bool
  bAppliedSuccessful : Bool
  _policyNodesOrdered : List (Option (DefaultNode n))

/-- The accessor `GetPriority`. -/
def UDSMPolicy.GetPriority {n : Nat} (policy : UDSMPolicy n) : Int := policy._priority

/-- The accessor `GetPolicyNodes`. -/
def UDSMPolicy.GetPolicyNodes {n : Nat} (policy : UDSMPolicy n) :
    List (Option (DefaultNode n)) := policy._policyNodesOrdered

/-- The accessor `IsPolicyAppliedSuccesfully`. -/
def UDSMPolicy.IsPolicyAppliedSuccesfully {n : Nat} (policy : UDSMPolicy n) : Bool :=
  policy.bAppliedSuccessful

/-- The accessor `TransitionAfterPolicy`. -/
def UDSMPolicy.TransitionAfterPolicy {n : Nat} (policy : UDSMPolicy n) : Bool :=
  policy.bTransitionAfterPolicy

/-- The method `UDSMPolicy::HasPolicyFinished`. -/
def UDSMPolicy.HasPolicyFinished {n : Nat} (policy : UDSMPolicy n) : Bool :=
  policy._policyNodesOrdered.length == 0

/-- The method `UDSMPolicy::HandleNextNode`: the returned pointer and the policy
afterwards. The empty list is the case `HasPolicyFinished()`. -/
def UDSMPolicy.HandleNextNode {n : Nat} (policy : UDSMPolicy n) :
    Option (DefaultNode n) × UDSMPolicy n :=
  match policy._policyNodesOrdered with
  | [] => (none, policy)
  | nextNode :: rest => (nextNode, { policy with _policyNodesOrdered := rest })

/-- An entry of the history (`FDSMNodeID`): the node pointer and the map `_data`;
the labels and classes derived from the node are left out. -/
structure FDSMNodeID (n : Nat) where
  _node : Option (DefaultNode n)
  _data : List (FName × Option UDSMDataAsset)

/-- The save game object (`UDSMSaveGame`): `_stateMachineHistory` and the
properties `_keepState` and `_indexToLoad` (an `int32`, never computed with). -/
structure UDSMSaveGame (n : Nat) where
  _stateMachineHistory : List (FDSMNodeID n)
  _keepState : Bool
  _indexToLoad : Int

/-- The method `UDSMSaveGame::AddMemory`: `copiedInstances` is a copy of
`DataReferences` whose non-null values are assigned to themselves, and a new
entry with this map is appended. The cache filled by `UpdateData` is derived
from the history and is left out. -/
def UDSMSaveGame.AddMemory {n : Nat} (data : UDSMSaveGame n) (node : Option (DefaultNode n))
    (DataReferences : List (FName × Option UDSMDataAsset)) : UDSMSaveGame n :=
  { data with
    _stateMachineHistory := data._stateMachineHistory ++ [FDSMNodeID.mk node DataReferences] }

/-- The currently active node (`UDSMActiveNode`). -/
structure UDSMActiveNode (n : Nat) where
  _node : Option (DefaultNode n)
  _cachedReferences : List (FName × Option UDSMDataAsset)

/-- The helper `UDSMActiveNode::Create`. -/
def UDSMActiveNode.Create {n : Nat} (object : Option (DefaultNode n)) : UDSMActiveNode n :=
  UDSMActiveNode.mk object []

/-- The members of the manager (`ADSMGameMode`) the transitions read and write.
A null or invalid object pointer is `none`. Debug data is left out. -/
structure ADSMGameMode (n : Nat) where
  _stateMachineData : Option (UDSMSaveGame n)
  _defaultNodes : List (Option (DefaultNode n))
  _currentNode : Option (UDSMActiveNode n)
  _currentPolicy : Option (UDSMPolicy n)
  _hasStateEnded : Bool
  _IsTransitionAllowed : Bool

/-- The method `ADSMGameMode::IsActive`. -/
def ADSMGameMode.IsActive {n : Nat} (self : ADSMGameMode n) : Bool :=
  self._currentNode.isSome && self._currentPolicy.isSome

/-- What a policy class (a `TSubclassOf<UDSMPolicy>`) fixes: the values of
`_priority` and `bTransitionAfterPolicy` in its objects, the virtual function
`ApplyPolicy` (returned array and `bSuccess`; `none` when it fails a check) and
the blueprint hook `ApplyPolicyEvent` (`orderedOutputNodes` and `bSuccess`; a
class without the hook leaves them empty and false). Both read the input
nodes, the manager and `bSelfTransition`; they are taken not to call back
into the manager. -/
structure UDSMPolicyClass (n : Nat) where
  _priority : Int
  bTransitionAfterPolicy : Bool
  ApplyPolicy : List (Option (DefaultNode n)) → ADSMGameMode n → Bool →
    Checked (List (Option (DefaultNode n)) × Bool)
  ApplyPolicyEvent : List (Option (DefaultNode n)) → ADSMGameMode n → Bool →
    List (Option (DefaultNode n)) × Bool

/-- What the engine supplies to the manager: the policy classes of the program
and `TArray::Sort` with the predicate `R.GetPriority() < L.GetPriority()`. The
engine's sort is not stable, so the order it gives to policies of equal
priority is not fixed here; see `Engine.SortSpec`. -/
structure Engine (n : Nat) where
  policyClass : Fin n → UDSMPolicyClass n
  SortByPriority : List (UDSMPolicy n) → List (UDSMPolicy n)

/-- The contract of `TArray::Sort`: the result is a rearrangement of the array in
ascending order of priority. -/
def Engine.SortSpec {n : Nat} (engine : Engine n) : Prop :=
  ∀ l : List (UDSMPolicy n),
    (engine.SortByPriority l).Perm l ∧
      (engine.SortByPriority l).Pairwise (fun R L => R.GetPriority ≤ L.GetPriority)

/-- The call `NewObject<UDSMPolicy>(this, policy)`: a fresh object of the class; a
null class fails a check. -/
def Engine.NewObject {n : Nat} (engine : Engine n) (policy : Option (Fin n)) :
    Checked (UDSMPolicy n) :=
  match policy with
  | none => none
  | some c =>
    some (UDSMPolicy.mk c (engine.policyClass c)._priority
      (engine.policyClass c).bTransitionAfterPolicy false [])

/-- The method `UDSMPolicy::ActivatePolicy`: the hook is called first, then the
virtual function; `none` is a failed check, otherwise the policy afterwards. -/
def UDSMPolicy.ActivatePolicy {n : Nat} (policy : UDSMPolicy n) (engine : Engine n)
    (transitionableNodes : List (Option (DefaultNode n))) (gameMode : ADSMGameMode n)
    (bSelfTransition : Bool) : Checked (UDSMPolicy n) :=
  let event := (engine.policyClass policy.policyClass).ApplyPolicyEvent
    transitionableNodes gameMode bSelfTransition
  let eventNodes := event.1
  let eventSuccess := event.2
  match (engine.policyClass policy.policyClass).ApplyPolicy
      transitionableNodes gameMode bSelfTransition with
  | none => none
  | some (nodes, success) =>
    if (decide (eventNodes.length > 0) && decide (nodes.length > 0)) ||
        (eventSuccess && success) then none
    else
      some { policy with
        _policyNodesOrdered := nodes ++ eventNodes
        bAppliedSuccessful := eventSuccess || success }

/-! ## The built-in policies -/

/-- The loop of `UDSMDefaultPolicy::ApplyPolicy` over `inputNodes`, carrying
`transitionNodes`. Dereferencing a null node pointer ends the run, like a failed
check. -/
def applyDefaultLoop {n : Nat} (bSelfTransition : Bool) :
    List (Option (DefaultNode n)) → List (Option (DefaultNode n)) →
      Checked (List (Option (DefaultNode n)))
  | [], transitionNodes => some transitionNodes
  | none :: _, _ => none
  | some node :: rest, transitionNodes =>
    match node.EvaluateEnterConditions bSelfTransition with
    | none => none
    | some (true, _) => applyDefaultLoop bSelfTransition rest (transitionNodes ++ [some node])
    | some (false, _) => applyDefaultLoop bSelfTransition rest transitionNodes

/-- The function `UDSMDefaultPolicy::ApplyPolicy`: the returned array and `bSuccess`.
The manager is only used to store debug data and is left out. -/
def UDSMDefaultPolicy.ApplyPolicy {n : Nat} (inputNodes : List (Option (DefaultNode n)))
    (bSelfTransition : Bool) : Checked (List (Option (DefaultNode n)) × Bool) :=
  match applyDefaultLoop bSelfTransition inputNodes [] with
  | none => none
  | some transitionNodes =>
    match transitionNodes.length with
    | 0 => some (transitionNodes, false)
    | 1 => some (transitionNodes, true)
    | _ => some (transitionNodes, false)

/-- The class `UDSMDefaultPolicy`: priority 0, no hook. -/
def UDSMDefaultPolicy (n : Nat) : UDSMPolicyClass n :=
  { _priority := 0
    bTransitionAfterPolicy := true
    ApplyPolicy := fun inputNodes _ bSelfTransition =>
      UDSMDefaultPolicy.ApplyPolicy inputNodes bSelfTransition
    ApplyPolicyEvent := fun _ _ _ => ([], false) }

/-- The call `inputNodes.FilterByPredicate(node->ComponentHasTag(tag))`; the
predicate dereferences every pointer of the array. -/
def filterByTag {n : Nat} (tag : FName) :
    List (Option (DefaultNode n)) → Checked (List (Option (DefaultNode n)))
  | [] => some []
  | none :: _ => none
  | some node :: rest =>
    match filterByTag tag rest with
    | none => none
    | some filtered =>
      if node.ComponentHasTag tag then some (some node :: filtered) else some filtered

/-- The loop of `UDSMOrderByTagPolicy::ApplyPolicy` over `TagOrder`, carrying
`outputNodes`. -/
def orderByTagLoop {n : Nat} (inputNodes : List (Option (DefaultNode n))) :
    List FName → List (Option (DefaultNode n)) → Checked (List (Option (DefaultNode n)))
  | [], outputNodes => some outputNodes
  | tag :: rest, outputNodes =>
    match filterByTag tag inputNodes with
    | none => none
    | some filtered => orderByTagLoop inputNodes rest (outputNodes ++ filtered)

/-- The function `UDSMOrderByTagPolicy::ApplyPolicy` of a policy with the given
`TagOrder`: the returned array and `bSuccess`. -/
def UDSMOrderByTagPolicy.ApplyPolicy {n : Nat} (TagOrder : List FName)
    (inputNodes : List (Option (DefaultNode n))) :
    Checked (List (Option (DefaultNode n)) × Bool) :=
  match orderByTagLoop inputNodes TagOrder [] with
  | none => none
  | some outputNodes => some (outputNodes, decide (outputNodes.length > 0))

/-- The class `UDSMOrderByTagPolicy` with a value of `TagOrder`: priority 10, no hook. -/
def UDSMOrderByTagPolicy (n : Nat) (TagOrder : List FName) : UDSMPolicyClass n :=
  { _priority := 10
    bTransitionAfterPolicy := true
    ApplyPolicy := fun inputNodes _ _ => UDSMOrderByTagPolicy.ApplyPolicy TagOrder inputNodes
    ApplyPolicyEvent := fun _ _ _ => ([], false) }

/-! ## `ADSMGameMode::FindPolicy` -/

/-- The loop of `FindPolicy` over `transitionNodes`, carrying `applicablePolicies`:
`none` when a null node is dereferenced, `some none` at the early
`return {}` with `bSuccess = false`. -/
def intersectLoop {n : Nat} :
    List (Option (DefaultNode n)) → List (Option (Fin n)) →
      Checked (Option (List (Option (Fin n))))
  | [], applicablePolicies => some (some applicablePolicies)
  | none :: _, _ => none
  | some node :: rest, applicablePolicies =>
    let newApplicablePolicies := node._nodePolicies.filter
      (fun policy => policy.isSome && applicablePolicies.contains policy)
    if newApplicablePolicies.isEmpty then some none
    else intersectLoop rest newApplicablePolicies

/-- The loop `applicablePolicies.Remove(policyInstance->GetClass())` over
`appliedPolicies`. -/
def removeAppliedLoop {n : Nat} :
    List (UDSMPolicy n) → List (Option (Fin n)) → List (Option (Fin n))
  | [], applicablePolicies => applicablePolicies
  | policyInstance :: rest, applicablePolicies =>
    removeAppliedLoop rest
      (applicablePolicies.filter (fun c => !(c == some policyInstance.policyClass)))

/-- The value of `applicablePolicies` where `FindPolicy` tests
`applicablePolicies.Num() > 0`, for the non-empty array `first :: rest` of
transition nodes: `none` when a null node is dereferenced, `some none` when
the function has left at the early return. -/
def applicablePolicies {n : Nat} (first : Option (DefaultNode n))
    (rest : List (Option (DefaultNode n))) (appliedPolicies : List (UDSMPolicy n)) :
    Checked (Option (List (Option (Fin n)))) :=
  match first with
  | none => none
  | some node0 =>
    match intersectLoop (first :: rest) node0._nodePolicies with
    | none => none
    | some none => some none
    | some (some intersected) => some (some (removeAppliedLoop appliedPolicies intersected))

/-- The loop that fills `applicablePoliciesInstances` with `NewObject`. -/
def newObjects {n : Nat} (engine : Engine n) :
    List (Option (Fin n)) → Checked (List (UDSMPolicy n))
  | [] => some []
  | policy :: rest =>
    match engine.NewObject policy, newObjects engine rest with
    | some object, some objects => some (object :: objects)
    | _, _ => none

/-- What a call of `FindPolicy` leaves: the returned pointer, `bSuccess`, and the
value its local `appliedPolicies` has at the return that ends the recursion
(the caller does not see it; it records which policies were activated). -/
structure FindPolicyResult (n : Nat) where
  policy : Option (UDSMPolicy n)
  bSuccess : Bool
  appliedPolicies : List (UDSMPolicy n)

/-- The end of `FindPolicy`: of the applied policies that report success, sorted
by ascending priority, the last one. -/
def bestSuccessful {n : Nat} (engine : Engine n) (appliedPolicies : List (UDSMPolicy n)) :
    FindPolicyResult n :=
  let succesfuleElements := engine.SortByPriority
    (appliedPolicies.filter (fun policy => policy.IsPolicyAppliedSuccesfully))
  match succesfuleElements.getLast? with
  | some last => FindPolicyResult.mk (some last) true appliedPolicies
  | none => FindPolicyResult.mk none false appliedPolicies

/-- The recursion of `ADSMGameMode::FindPolicy`. The first argument bounds the
number of nested calls; the outer `none` says that the bound was reached, the
inner `none` is a failed check. `DuplicateObject` of the fresh object
`applicablePoliciesInstances.Last()` is an object with the same members. -/
def FindPolicyAux {n : Nat} (engine : Engine n) (self : ADSMGameMode n)
    (bSelfTransition : Bool) :
    Nat → List (Option (DefaultNode n)) → List (UDSMPolicy n) →
      Option (Checked (FindPolicyResult n))
  | 0, _, _ => none
  | fuel + 1, transitionNodes, appliedPolicies =>
    match transitionNodes with
    | [] => some (some (bestSuccessful engine appliedPolicies))
    | first :: rest =>
      match applicablePolicies first rest appliedPolicies with
      | none => some none
      | some none => some (some (FindPolicyResult.mk none false appliedPolicies))
      | some (some applicable) =>
        if applicable.length > 0 then
          match newObjects engine applicable with
          | none => some none
          | some applicablePoliciesInstances =>
            match (engine.SortByPriority applicablePoliciesInstances).getLast? with
            | none => some none
            | some last =>
              match last.ActivatePolicy engine transitionNodes self bSelfTransition with
              | none => some none
              | some policy =>
                FindPolicyAux engine self bSelfTransition fuel policy.GetPolicyNodes
                  (appliedPolicies ++ [policy])
        else some (some (bestSuccessful engine appliedPolicies))

/-- The method `ADSMGameMode::FindPolicy`. Every policy class is activated at most
once in a chain of calls, so `n + 1` nested calls are enough (see
`findPolicyAux_fuel`). -/
def ADSMGameMode.FindPolicy {n : Nat} (self : ADSMGameMode n) (engine : Engine n)
    (transitionNodes : List (Option (DefaultNode n))) (bSelfTransition : Bool)
    (appliedPolicies : List (UDSMPolicy n)) : Checked (FindPolicyResult n) :=
  match FindPolicyAux engine self bSelfTransition (n + 1) transitionNodes appliedPolicies with
  | some result => result
  | none => none

/-! ## Transitions of the manager -/

/-- The method `ADSMGameMode::EndState`. The hooks of the node return nothing to
the manager; the entry appended to the history holds the node and its cached
references. -/
def ADSMGameMode.EndState {n : Nat} (self : ADSMGameMode n) : ADSMGameMode n :=
  match self._currentNode, self._stateMachineData with
  | some currentNode, some stateMachineData =>
    { self with
      _stateMachineData :=
        some (stateMachineData.AddMemory currentNode._node currentNode._cachedReferences)
      _hasStateEnded := false }
  | _, _ => self

/-- The method `ADSMGameMode::BeginState`: `check(node.IsValid())`, then the new
active node; `_hasStateEnded` is what `OnBeginState` or `OnBeginStateEvent`
report. -/
def ADSMGameMode.BeginState {n : Nat} (self : ADSMGameMode n) (node : Option (DefaultNode n)) :
    Checked (ADSMGameMode n) :=
  match node with
  | none => none
  | some valid =>
    some { self with
      _currentNode := some (UDSMActiveNode.Create node)
      _hasStateEnded := valid.OnBeginState || valid.OnBeginStateEvent }

/-- The second half of `TransitionState`, from the test
`!_currentPolicy->HasPolicyFinished()` on. -/
def ADSMGameMode.handleNextNode {n : Nat} (self : ADSMGameMode n) : Checked (ADSMGameMode n) :=
  match self._currentPolicy with
  | none => none
  | some currentPolicy =>
    if !currentPolicy.HasPolicyFinished then
      let next := currentPolicy.HandleNextNode
      match next.1 with
      | none => some { self with _currentPolicy := none, _currentNode := none }
      | some nextNode =>
        ADSMGameMode.BeginState { self with _currentPolicy := some next.2 } (some nextNode)
    else some { self with _currentPolicy := none, _currentNode := none }

/-- The method `ADSMGameMode::TransitionState`. -/
def ADSMGameMode.TransitionState {n : Nat} (self : ADSMGameMode n) (engine : Engine n) :
    Checked (ADSMGameMode n) :=
  if !self._IsTransitionAllowed then some self
  else
    let ended := self.EndState
    let bTransitionAfterPolicy :=
      match ended._currentPolicy with
      | some currentPolicy => currentPolicy.TransitionAfterPolicy
      | none => true
    let bNeedNewPolicy :=
      (match ended._currentPolicy with
        | some currentPolicy => currentPolicy.HasPolicyFinished
        | none => true) && bTransitionAfterPolicy
    if bNeedNewPolicy then
      match ended.FindPolicy engine ended._defaultNodes false [] with
      | none => none
      | some found =>
        if found.bSuccess then
          ADSMGameMode.handleNextNode { ended with _currentPolicy := found.policy }
        else some { ended with _currentPolicy := none, _currentNode := none }
    else ended.handleNextNode

/-- The method `ADSMGameMode::RequestCustomTransition`: the returned flag and the
manager afterwards. -/
def ADSMGameMode.RequestCustomTransition {n : Nat} (self : ADSMGameMode n) (engine : Engine n)
    (node : Option (DefaultNode n)) : Checked (Bool × ADSMGameMode n) :=
  if !self.IsActive then
    match self.FindPolicy engine [node] true [] with
    | none => none
    | some found =>
      if found.bSuccess then
        match ADSMGameMode.TransitionState { self with _currentPolicy := found.policy } engine with
        | none => none
        | some after => some (true, after)
      else some (false, self)
  else some (false, self)

/-- Whether `EvaluateEnterConditions` returns true on the node. -/
def DefaultNode.CanEnter {n : Nat} (node : DefaultNode n) (bSelfTransition : Bool) : Bool :=
  match node.EvaluateEnterConditions bSelfTransition with
  | some (true, _) => true
  | _ => false

/-! ## A small program: two policy classes and plain nodes -/

/-- A node without condition definitions and condition groups: its native
`CanEnterState` reports the single entry `enter` with the given value, its hook
reports nothing, it references no data assets, it carries the tags `tags` and
declares the policy classes `policies`. -/
def plainNode (n : Nat) (enter : Bool) (tags : List FName) (policies : List (Option (Fin n))) :
    DefaultNode n :=
  { _ConditionDefinitions := []
    _ConditionGroups := []
    _expressionEvaluators := []
    _nodePolicies := policies
    _writableDataReferences := []
    _readOnlyDataReferences := []
    CanEnterState := fun _ => [(['e', 'n', 't', 'e', 'r'], enter)]
    CanEnterStateEvent := fun _ => []
    ComponentHasTag := fun tag => tags.contains tag
    OnBeginState := false
    OnBeginStateEvent := false
    OnUpdateState := fun _ => false
    OnUpdateStateEvent := fun _ => false }

/-- An engine with two policy classes, `UDSMDefaultPolicy` (class 0) and
`UDSMOrderByTagPolicy` with the tag order `[A, B]` (class 1), which sorts by
insertion. -/
def plainEngine : Engine 2 :=
  { policyClass := fun c =>
      if c = 0 then UDSMDefaultPolicy 2 else UDSMOrderByTagPolicy 2 [['A'], ['B']]
    SortByPriority := List.insertionSort (fun R L => R.GetPriority ≤ L.GetPriority) }

/-- A manager without save game, nodes, current node and current policy, with
transitions allowed. -/
def idleGameMode (n : Nat) : ADSMGameMode n :=
  { _stateMachineData := none
    _defaultNodes := []
    _currentNode := none
    _currentPolicy := none
    _hasStateEnded := false
    _IsTransitionAllowed := true }

/-- A manager in the middle of a run: an empty history, one registered node that
cannot be entered and declares `UDSMDefaultPolicy`, a current node, and a
current policy (of class 0) whose node queue is empty. -/
def runningGameMode : ADSMGameMode 2 :=
  { _stateMachineData := some (UDSMSaveGame.mk [] false (-1))
    _defaultNodes := [some (plainNode 2 false [] [some 0])]
    _currentNode := some (UDSMActiveNode.Create (some (plainNode 2 true [] [some 0])))
    _currentPolicy := some (UDSMPolicy.mk 0 0 true true [])
    _hasStateEnded := true
    _IsTransitionAllowed := true }

/-- The node of the condition tests with the given condition groups, nothing
compiled yet. -/
def conditionGroupNode (groups : List (FName × FString)) : DefaultNode 0 :=
  { toUDSMDefaultNode := conditionTestNode
    _ConditionGroups := groups
    _expressionEvaluators := []
    _nodePolicies := []
    _writableDataReferences := []
    _readOnlyDataReferences := []
    CanEnterState := fun _ => []
    CanEnterStateEvent := fun _ => []
    ComponentHasTag := fun _ => false
    OnBeginState := false
    OnBeginStateEvent := false
    OnUpdateState := fun _ => false
    OnUpdateStateEvent := fun _ => false }

/-! ## Data assets of a node and the history -/

/-- The call `DuplicateObject<UDSMDataAsset>(source, GetTransientPackage())`: a new
object with the property values of the source, under the name `uniqueName` the
engine gives it; a null source gives null. The hook `OnRequestDeepCopy` called
on the copy replaces object pointers inside it by copies and is taken to leave
these values as they are. -/
def DuplicateObject (uniqueName : FName) (source : Option UDSMDataAsset) :
    Option UDSMDataAsset :=
  match source with
  | none => none
  | some asset => some { asset with name := uniqueName }

/-- The loop of `GetLatestDataAssetOfType` over `historyCopy`, the reversed
history: the first entry whose `_data` contains the name decides, and the
pointer stored there (possibly null) is returned. -/
def latestLoop {n : Nat} (name : FName) : List (FDSMNodeID n) → Option UDSMDataAsset
  | [] => none
  | node :: rest =>
    match node._data.lookup name with
    | some value => value
    | none => latestLoop name rest

/-- The method `UDSMSaveGame::GetLatestDataAssetOfType`. -/
def UDSMSaveGame.GetLatestDataAssetOfType {n : Nat} (data : UDSMSaveGame n)
    (DefaultDataAssetObject : Option UDSMDataAsset) : Option UDSMDataAsset :=
  match DefaultDataAssetObject with
  | some defaultAsset => latestLoop defaultAsset.name data._stateMachineHistory.reverse
  | none => none

/-- The method `UDSMSaveGame::GetDataCopy`. -/
def UDSMSaveGame.GetDataCopy {n : Nat} (data : UDSMSaveGame n)
    (DefaultDataAssetObject : Option UDSMDataAsset) (uniqueName : FName) :
    Option UDSMDataAsset :=
  let latestVersion := data.GetLatestDataAssetOfType DefaultDataAssetObject
  if latestVersion.isSome then DuplicateObject uniqueName latestVersion
  else DuplicateObject uniqueName DefaultDataAssetObject

/-- The method `ADSMGameMode::GetDataAssetCached`: the returned pointer and the
manager afterwards (the cache of the current node may have grown). -/
def ADSMGameMode.GetDataAssetCached {n : Nat} (self : ADSMGameMode n)
    (DefaultDataAssetObject : Option UDSMDataAsset) (uniqueName : FName) :
    Checked (Option UDSMDataAsset × ADSMGameMode n) :=
  match self._stateMachineData with
  | some stateMachineData =>
    match self._currentNode with
    | some currentNode =>
      match DefaultDataAssetObject with
      | none => none
      | some defaultAsset =>
        let defaultName := defaultAsset.name
        let cachedReferences :=
          if (currentNode._cachedReferences.lookup defaultName).isSome then
            currentNode._cachedReferences
          else
            TMap.Add currentNode._cachedReferences defaultName
              (stateMachineData.GetDataCopy DefaultDataAssetObject uniqueName)
        match cachedReferences.lookup defaultName with
        | none => none
        | some cached =>
          some (cached, { self with
            _currentNode := some { currentNode with _cachedReferences := cachedReferences } })
    | none => some (stateMachineData.GetDataCopy DefaultDataAssetObject uniqueName, self)
  | none => some (none, self)

/-- The method `UDSMDefaultNode::GetData(key)`: the returned pointer and the
manager afterwards. `gameMode` is what `GetDSMManager()` returns. -/
def DefaultNode.GetData {n : Nat} (node : DefaultNode n) (gameMode : Option (ADSMGameMode n))
    (key : FName) (uniqueName : FName) :
    Checked (Option UDSMDataAsset × Option (ADSMGameMode n)) :=
  match gameMode with
  | none => some (none, none)
  | some manager =>
    if (node._writableDataReferences.lookup key).isSome =
        (node._readOnlyDataReferences.lookup key).isSome then some (none, gameMode)
    else
      match node._writableDataReferences.lookup key with
      | some writable =>
        if writable.isSome then
          match manager.GetDataAssetCached writable uniqueName with
          | none => none
          | some (asset, after) => some (asset, some after)
        else some (none, gameMode)
      | none =>
        match node._readOnlyDataReferences.lookup key with
        | none => none
        | some readOnly =>
          if readOnly.isSome then
            match manager._stateMachineData with
            | none => none
            | some stateMachineData =>
              some (stateMachineData.GetDataCopy readOnly uniqueName, gameMode)
          else some (none, gameMode)

/-- The blueprint overload `UDSMDefaultNode::GetData(key, castToType, dataAsset,
success)`: the out-parameters `dataAsset` and `success`, and the manager
afterwards. `castToType` is only logged. -/
def DefaultNode.GetDataOut {n : Nat} (node : DefaultNode n) (gameMode : Option (ADSMGameMode n))
    (key : FName) (uniqueName : FName) :
    Checked ((Option UDSMDataAsset × Bool) × Option (ADSMGameMode n)) :=
  match node.GetData gameMode key uniqueName with
  | none => none
  | some (found, after) =>
    if found.isSome then some ((found, true), after) else some ((none, false), after)

/-- A node that can be entered, declares `UDSMDefaultPolicy`, and references the
data assets `w` (writable), `r` (read only) and `x` (in both maps). -/
def dataNode : DefaultNode 2 :=
  { plainNode 2 true [] [some 0] with
    _writableDataReferences :=
      [(['w'], some (UDSMDataAsset.mk ['w'] 1)), (['x'], some (UDSMDataAsset.mk ['x'] 2))]
    _readOnlyDataReferences :=
      [(['r'], some (UDSMDataAsset.mk ['r'] 3)), (['x'], some (UDSMDataAsset.mk ['x'] 2))] }

/-- A save game whose history has two entries: the older one stores an asset
with payload 1 under the name `d`, the newer one stores a null pointer under
the same name. -/
def nullEntrySaveGame : UDSMSaveGame 0 :=
  UDSMSaveGame.mk
    [FDSMNodeID.mk none [(['d'], some (UDSMDataAsset.mk ['c'] 1))],
      FDSMNodeID.mk none [(['d'], none)]] false (-1)

/-! ## Requests and loading a save game -/

/-- The method `ADSMGameMode::RequestTransition_Internal`: the returned flag and
the manager afterwards. -/
def ADSMGameMode.RequestTransition_Internal {n : Nat} (self : ADSMGameMode n)
    (engine : Engine n) : Checked (Bool × ADSMGameMode n) :=
  if !self._hasStateEnded && !self._currentNode.isSome then
    match self.TransitionState engine with
    | none => none
    | some after => some (true, after)
  else some (false, self)

/-- The struct `ADSMGameMode::SaveLoadInfo`. -/
structure SaveLoadInfo where
  _saveSlotName : FString
  _deleteSlotAfterLoad : Bool

/-- The method `UDSMSaveGame::GetStateMachineHistory`. -/
def UDSMSaveGame.GetStateMachineHistory {n : Nat} (data : UDSMSaveGame n) :
    List (FDSMNodeID n) := data._stateMachineHistory

/-- The method `UDSMSaveGame::SetStateMachineHistory`. -/
def UDSMSaveGame.SetStateMachineHistory {n : Nat} (data : UDSMSaveGame n)
    (history : List (FDSMNodeID n)) : UDSMSaveGame n :=
  { data with _stateMachineHistory := history }

/-- The method `UDSMSaveGame::PushStateMachineElement`. -/
def UDSMSaveGame.PushStateMachineElement {n : Nat} (data : UDSMSaveGame n)
    (node : FDSMNodeID n) : UDSMSaveGame n :=
  { data with _stateMachineHistory := data._stateMachineHistory ++ [node] }

/-- The method `ADSMGameMode::GetComponentFromNodeID`: a valid node pointer of the
entry is returned as it is; otherwise the node is searched in the world by the
labels of the entry, which `findComponent` stands for (`none` when the actor or
the component is not found). -/
def GetComponentFromNodeID {n : Nat} (findComponent : FDSMNodeID n → Option (DefaultNode n))
    (node : FDSMNodeID n) : Option (DefaultNode n) :=
  match node._node with
  | some valid => some valid
  | none => findComponent node

/-- The loop of `LoadSaveGame_Internal` over `i < _indexToLoad + 1`: the number
of iterations left, the index `i` and the manager. `none` is a failed range
check of `loadedSaveGameHistory[i]` or a null `_stateMachineData`; the flag of
the result is `false` when the loop left the function at its `return`. The
`ApplyState...` hooks of a found node run between setting and clearing
`_currentNode`. -/
def loadLoop {n : Nat} (findComponent : FDSMNodeID n → Option (DefaultNode n))
    (loadedSaveGameHistory : List (FDSMNodeID n)) :
    Nat → Nat → ADSMGameMode n → Checked (Bool × ADSMGameMode n)
  | 0, _, self => some (true, self)
  | remaining + 1, i, self =>
    match loadedSaveGameHistory[i]? with
    | none => none
    | some node =>
      match self._stateMachineData with
      | none => none
      | some stateMachineData =>
        let pushed : ADSMGameMode n :=
          { self with _stateMachineData := some (stateMachineData.PushStateMachineElement node) }
        match GetComponentFromNodeID findComponent node with
        | some _ =>
          loadLoop findComponent loadedSaveGameHistory remaining (i + 1)
            { pushed with _currentPolicy := none, _currentNode := none }
        | none => some (false, pushed)

/-- The method `ADSMGameMode::LoadSaveGame_Internal`. `loadedSaveGame` is what
`LoadGameFromSlot` returns for the slot, cast to `UDSMSaveGame` and after its
`PostDeserialization`; `_indexToLoad + 1` is taken not to overflow. -/
def ADSMGameMode.LoadSaveGame_Internal {n : Nat} (self : ADSMGameMode n)
    (saveLoadInfo : SaveLoadInfo) (loadedSaveGame : Option (UDSMSaveGame n))
    (findComponent : FDSMNodeID n → Option (DefaultNode n)) : Checked (ADSMGameMode n) :=
  if saveLoadInfo._saveSlotName.isEmpty then some self
  else
    let suppressed : ADSMGameMode n := { self with _IsTransitionAllowed := false }
    match loadedSaveGame with
    | none =>
      some { suppressed with
        _currentPolicy := none, _currentNode := none, _IsTransitionAllowed := true }
    | some loaded =>
      match suppressed._stateMachineData with
      | none => none
      | some stateMachineData =>
        match loadLoop findComponent loaded.GetStateMachineHistory
            (loaded._indexToLoad + 1).toNat 0
            { suppressed with
              _stateMachineData := some (stateMachineData.SetStateMachineHistory []) } with
        | none => none
        | some (false, left) => some left
        | some (true, reconstructed) =>
          let kept : Checked (ADSMGameMode n) :=
            if loaded._keepState then
              match reconstructed._stateMachineData with
              | none => none
              | some data =>
                some { reconstructed with
                  _stateMachineData :=
                    some (data.SetStateMachineHistory loaded.GetStateMachineHistory) }
            else some reconstructed
          match kept with
          | none => none
          | some final =>
            some { final with
              _currentPolicy := none, _currentNode := none, _IsTransitionAllowed := true }

/-- A manager before loading: an empty history, no nodes registered, idle. -/
def freshGameMode : ADSMGameMode 2 :=
  { idleGameMode 2 with _stateMachineData := some (UDSMSaveGame.mk [] false (-1)) }

/-- A save game with one history entry whose node pointer is no longer valid, to
be loaded up to index 0. -/
def staleSaveGame : UDSMSaveGame 2 :=
  UDSMSaveGame.mk [FDSMNodeID.mk none []] false 0

/-- A save game with one history entry whose node pointer is valid, to be loaded
up to index 0. -/
def validSaveGame : UDSMSaveGame 2 :=
  UDSMSaveGame.mk [FDSMNodeID.mk (some dataNode) []] false 0

/-- A manager after a load that left transitions suppressed: idle, one node
registered. -/
def suppressedGameMode : ADSMGameMode 2 :=
  { freshGameMode with _defaultNodes := [some dataNode], _IsTransitionAllowed := false }

/-- The contract that the header of `ApplyPolicyEvent` states for the
implementations of a policy, `orderedOutputNodes is a subset of the input
node`: every node returned by the virtual function or by the hook is among the
input nodes. -/
def Engine.OutputsAmongInputs {n : Nat} (engine : Engine n) : Prop :=
  ∀ (c : Fin n) (inputNodes : List (Option (DefaultNode n))) (gameMode : ADSMGameMode n)
    (bSelfTransition : Bool),
    (∀ nodes success,
      (engine.policyClass c).ApplyPolicy inputNodes gameMode bSelfTransition =
        some (nodes, success) → ∀ p ∈ nodes, p ∈ inputNodes) ∧
    ∀ p ∈ ((engine.policyClass c).ApplyPolicyEvent inputNodes gameMode bSelfTransition).1,
      p ∈ inputNodes

/-- An engine with one policy class whose `ApplyPolicy` ignores its input: it
returns one fixed node, which declares no policy, and reports success. -/
def strayEngine : Engine 1 :=
  { policyClass := fun _ =>
      { _priority := 0
        bTransitionAfterPolicy := true
        ApplyPolicy := fun _ _ _ => some ([some (plainNode 1 true [] [])], true)
        ApplyPolicyEvent := fun _ _ _ => ([], false) }
    SortByPriority := List.insertionSort (fun R L => R.GetPriority ≤ L.GetPriority) }

/-! ## Token sequences with operands that follow one another -/

/-- Token sequences built like expressions, with one more construction: `juxt`
puts two expressions one after the other with no operator between them. -/
inductive SeqExpr where
  | ident (x : FString)
  | neg (e : SeqExpr)
  | paren (e : SeqExpr)
  | and (l r : SeqExpr)
  | or (l r : SeqExpr)
  | juxt (l r : SeqExpr)

namespace SeqExpr

/-- The tokens of the sequence. -/
def toks : SeqExpr → List FString
  | ident x => [x]
  | neg e => ['!'] :: e.toks
  | paren e => ['('] :: (e.toks ++ [[')']])
  | and l r => l.toks ++ ['&', '&'] :: r.toks
  | or l r => l.toks ++ ['|', '|'] :: r.toks
  | juxt l r => l.toks ++ r.toks

/-- The identifiers of the sequence, from left to right. -/
def idents : SeqExpr → List FString
  | ident x => [x]
  | neg e => e.idents
  | paren e => e.idents
  | and l r => l.idents ++ r.idents
  | or l r => l.idents ++ r.idents
  | juxt l r => l.idents ++ r.idents

/-- The number of `&&` and `||` of the sequence. -/
def binaries : SeqExpr → Nat
  | ident _ => 0
  | neg e => e.binaries
  | paren e => e.binaries
  | and l r => l.binaries + r.binaries + 1
  | or l r => l.binaries + r.binaries + 1
  | juxt l r => l.binaries + r.binaries

/-- The number of places where two operands follow one another. -/
def juxts : SeqExpr → Nat
  | ident _ => 0
  | neg e => e.juxts
  | paren e => e.juxts
  | and l r => l.juxts + r.juxts
  | or l r => l.juxts + r.juxts
  | juxt l r => l.juxts + r.juxts + 1

end SeqExpr

/-- Whether `EvaluateExpression` combines two stack elements at the token. -/
def isBinary (token : FString) : Bool :=
  decide (token = ['|', '|'] ∨ token = ['&', '&'])

/-- Whether `EvaluateExpression` pushes the token as a variable. -/
def isPushed (token : FString) : Bool :=
  !decide (token = ['!']) && !isBinary token

/-- Whether the token is not a parenthesis. -/
def nonParen (token : FString) : Bool := !parenthesis.contains token

/-- A node that defines the conditions `a`, `b` and `ab`, all bound, of which
only `ab` is true. -/
def mergedNameNode : UDSMDefaultNode :=
  UDSMDefaultNode.mk
    [(['a'], some UDSMConditionFalse), (['b'], some UDSMConditionFalse),
      (['a', 'b'], some UDSMConditionTrue)]

/-- The token sequence of `true !false !true`: three operands that follow one
another. -/
def adjacentOperandsTest : SeqExpr :=
  SeqExpr.juxt
    (SeqExpr.juxt (SeqExpr.ident ['t', 'r', 'u', 'e'])
      (SeqExpr.neg (SeqExpr.ident ['f', 'a', 'l', 's', 'e'])))
    (SeqExpr.neg (SeqExpr.ident ['t', 'r', 'u', 'e']))

/-! ## The order in which an evaluator calls its leaves -/

/-- An evaluator function that also reports the condition names whose leaf
closures it has called, in the order of the calls. -/
abbrev TracedFn := NodePtr → Checked (Bool × List FName)

/-- The closure returned by `GetConditionByName` for a condition name, reporting
its own call. -/
def tracedLeaf (conditionName : FString) : TracedFn := fun node =>
  match conditionLeaf conditionName node with
  | none => none
  | some value => some (value, [conditionName])

/-- The closure `[toNegate](ptr) { return !toNegate(ptr); }` with the calls it
makes. -/
def tracedNegate (toNegate : TracedFn) : TracedFn := fun ptr =>
  match toNegate ptr with
  | none => none
  | some r => some (!r.1, r.2)

/-- The closure `[left, right, bIsAnd](ptr)` of the AND/OR constructor with the
calls it makes: `bleft = left(ptr)` first, then `bright = right(ptr)`, and only
then the two results are combined. -/
def tracedBinary (left right : TracedFn) (bIsAnd : Bool) : TracedFn := fun ptr =>
  match left ptr with
  | none => none
  | some bleft =>
    match right ptr with
    | none => none
    | some bright =>
      if bIsAnd then some (bleft.1 && bright.1, bleft.2 ++ bright.2)
      else some (bleft.1 || bright.1, bleft.2 ++ bright.2)

namespace CondExpr

/-- The closures that `EvaluateExpression` composes along a derivation: a leaf
for an identifier, the negating closure for `!`, the combining closure with the
left operand as `left` for `&&` and `||`. -/
def closure : CondExpr → EvalFn
  | ident x => conditionLeaf x
  | notIdent x => negateClosure (conditionLeaf x)
  | notParen e => negateClosure (closure e)
  | paren e => closure e
  | and l r => binaryClosure (closure l) (closure r) true
  | or l r => binaryClosure (closure l) (closure r) false

/-- The same composition of closures with the calls they make. -/
def traced : CondExpr → TracedFn
  | ident x => tracedLeaf x
  | notIdent x => tracedNegate (tracedLeaf x)
  | notParen e => tracedNegate (traced e)
  | paren e => traced e
  | and l r => tracedBinary (traced l) (traced r) true
  | or l r => tracedBinary (traced l) (traced r) false

/-- The function of the evaluator that `EvaluateExpression` returns: for a single
token the leaf is combined by `||` with the lambda that returns false. -/
def compiled (t : CondExpr) : EvalFn :=
  match t.rpn with
  | [_] => binaryClosure t.closure (fun _ => some false) false
  | _ => t.closure

/-- The function `compiled` with the calls it makes. -/
def tracedCompiled (t : CondExpr) : TracedFn :=
  match t.rpn with
  | [_] => tracedBinary t.traced (fun _ => some (false, [])) false
  | _ => t.traced

end CondExpr

/-- The derivation of `true || false && false`, an expression of the condition
tests whose value is decided by its first operand. -/
def firstOperandDecides : CondExpr :=
  CondExpr.or (CondExpr.ident ['t', 'r', 'u', 'e'])
    (CondExpr.and (CondExpr.ident ['f', 'a', 'l', 's', 'e'])
      (CondExpr.ident ['f', 'a', 'l', 's', 'e']))

/-! ## Properly nested parentheses and the variables of a token list -/

/-- Whether the parentheses of a token list are properly nested when `depth` of
them are open before the list: no `")"` comes without an open `"("`, and none
is left open at the end. -/
def nestedFrom : List FString → Nat → Bool
  | [], depth => depth == 0
  | token :: rest, depth =>
    if token = ['('] then nestedFrom rest (depth + 1)
    else if token = [')'] then
      match depth with
      | 0 => false
      | d + 1 => nestedFrom rest d
    else nestedFrom rest depth

/-- A token list with properly nested parentheses. -/
def ProperlyNested (tokens : List FString) : Bool := nestedFrom tokens 0

/-- Whether `TransformExpressionToReversePolishOrder` takes the token for a
variable (its last branch, `// Must be variable`): the token is neither a
parenthesis nor a key of the precedence map. -/
def isVariable (operatorPrecedence : List (FString × Int)) (token : FString) : Bool :=
  !decide (token = ['(']) && !decide (token = [')']) &&
    !(operatorPrecedence.map Prod.fst).contains token

/-- The tokens of `!(a || b) && (c || !d)`. -/
def nestedTokensTest : List FString :=
  [['!'], ['('], ['a'], ['|', '|'], ['b'], [')'], ['&', '&'], ['('], ['c'], ['|', '|'],
    ['!'], ['d'], [')']]

/-- The postfix tokens of `true && !false`. -/
def postfixTokensTest : List FString :=
  [['t', 'r', 'u', 'e'], ['f', 'a', 'l', 's', 'e'], ['!'], ['&', '&']]

/-- A node whose native `CanEnterState` and whose hook `CanEnterStateEvent` both
report under the name `enter`: the native function reports false, the hook
reports true. It has no condition groups. -/
def collidingNamesNode : DefaultNode 0 :=
  { plainNode 0 false [] [] with
    CanEnterStateEvent := fun _ => [(['e', 'n', 't', 'e', 'r'], true)] }

/-- The names under which `EvaluateEnterConditions` adds entries to the debug
map, in the order of the calls of `Conditions.Add`. -/
def DefaultNode.reportedNames {n : Nat} (node : DefaultNode n) (IsSelfTransition : Bool) :
    List FName :=
  (node.CanEnterState IsSelfTransition).map Prod.fst ++
    ((node.CanEnterStateEvent IsSelfTransition).map Prod.fst ++
      node._expressionEvaluators.map (fun e => e.name))

/-! ## The calls a transition makes -/

/-- The functions of a node that the manager calls in the phases of a state. -/
inductive NodeFunction where
  | InitNode
  | InitNodeEvent
  | OnBeginState
  | OnBeginStateEvent
  | ApplyStateBegin
  | ApplyStateBeginEvent
  | OnUpdateState
  | OnUpdateStateEvent
  | ApplyStateUpdate
  | ApplyStateUpdateEvent
  | OnEndState
  | OnEndStateEvent
  | ApplyStateEnd
  | ApplyStateEndEvent
  deriving DecidableEq

/-- A call made by the manager that the record of a transition keeps: a function
of a node, or `FindPolicy` with its arguments (the calls `FindPolicy` makes
itself are not recorded). -/
inductive Call (n : Nat) where
  | node (function : NodeFunction) (target : DefaultNode n)
  | FindPolicy (transitionNodes : List (Option (DefaultNode n))) (bSelfTransition : Bool)

/-- Whether the call is one of a node function. -/
def Call.isNodeFunction {n : Nat} (function : NodeFunction) : Call n → Bool
  | Call.node g _ => decide (g = function)
  | Call.FindPolicy _ _ => false

/-- Whether the call is a call of `FindPolicy`. -/
def Call.isFindPolicy {n : Nat} : Call n → Bool
  | Call.node _ _ => false
  | Call.FindPolicy _ _ => true

/-- Whether the call belongs to the update phase. -/
def Call.isUpdate {n : Nat} (call : Call n) : Bool :=
  call.isNodeFunction NodeFunction.OnUpdateState ||
    call.isNodeFunction NodeFunction.OnUpdateStateEvent ||
    call.isNodeFunction NodeFunction.ApplyStateUpdate ||
    call.isNodeFunction NodeFunction.ApplyStateUpdateEvent

/-- The calls of the begin phase on a node, in the order of `BeginState`. -/
def beginPhase {n : Nat} (node : DefaultNode n) : List (Call n) :=
  [Call.node NodeFunction.InitNode node, Call.node NodeFunction.InitNodeEvent node,
    Call.node NodeFunction.OnBeginState node, Call.node NodeFunction.OnBeginStateEvent node,
    Call.node NodeFunction.ApplyStateBegin node,
    Call.node NodeFunction.ApplyStateBeginEvent node]

/-- The calls of the update phase on a node, in the order of `UpdateStateMachine`. -/
def updatePhase {n : Nat} (node : DefaultNode n) : List (Call n) :=
  [Call.node NodeFunction.OnUpdateState node, Call.node NodeFunction.OnUpdateStateEvent node,
    Call.node NodeFunction.ApplyStateUpdate node,
    Call.node NodeFunction.ApplyStateUpdateEvent node]

/-- The calls of the end phase on a node, in the order of `EndState`. -/
def endPhase {n : Nat} (node : DefaultNode n) : List (Call n) :=
  [Call.node NodeFunction.OnEndState node, Call.node NodeFunction.OnEndStateEvent node,
    Call.node NodeFunction.ApplyStateEnd node, Call.node NodeFunction.ApplyStateEndEvent node]

/-- The method `ADSMGameMode::EndState` with the record of its calls: each node
function is called when `IsValid(_currentNode->_node)`. -/
def ADSMGameMode.EndStateCalls {n : Nat} (self : ADSMGameMode n) :
    ADSMGameMode n × List (Call n) :=
  match self._currentNode, self._stateMachineData with
  | some currentNode, some stateMachineData =>
    ({ self with
        _stateMachineData :=
          some (stateMachineData.AddMemory currentNode._node currentNode._cachedReferences)
        _hasStateEnded := false },
      match currentNode._node with
      | some node => endPhase node
      | none => [])
  | _, _ => (self, [])

/-- The method `ADSMGameMode::BeginState` with the record of its calls. -/
def ADSMGameMode.BeginStateCalls {n : Nat} (self : ADSMGameMode n)
    (node : Option (DefaultNode n)) : Checked (ADSMGameMode n × List (Call n)) :=
  match node with
  | none => none
  | some valid =>
    some ({ self with
        _currentNode := some (UDSMActiveNode.Create node)
        _hasStateEnded := valid.OnBeginState || valid.OnBeginStateEvent },
      beginPhase valid)

/-- The second half of `TransitionState`, from the test
`!_currentPolicy->HasPolicyFinished()` on, with the record of its calls. -/
def ADSMGameMode.handleNextNodeCalls {n : Nat} (self : ADSMGameMode n) :
    Checked (ADSMGameMode n × List (Call n)) :=
  match self._currentPolicy with
  | none => none
  | some currentPolicy =>
    if !currentPolicy.HasPolicyFinished then
      let next := currentPolicy.HandleNextNode
      match next.1 with
      | none => some ({ self with _currentPolicy := none, _currentNode := none }, [])
      | some nextNode =>
        ADSMGameMode.BeginStateCalls { self with _currentPolicy := some next.2 } (some nextNode)
    else some ({ self with _currentPolicy := none, _currentNode := none }, [])

/-- The method `ADSMGameMode::TransitionState` with the record of its calls, in
the order in which they are made. -/
def ADSMGameMode.TransitionStateCalls {n : Nat} (self : ADSMGameMode n) (engine : Engine n) :
    Checked (ADSMGameMode n × List (Call n)) :=
  if !self._IsTransitionAllowed then some (self, [])
  else
    let ended := self.EndStateCalls
    let bTransitionAfterPolicy :=
      match ended.1._currentPolicy with
      | some currentPolicy => currentPolicy.TransitionAfterPolicy
      | none => true
    let bNeedNewPolicy :=
      (match ended.1._currentPolicy with
        | some currentPolicy => currentPolicy.HasPolicyFinished
        | none => true) && bTransitionAfterPolicy
    if bNeedNewPolicy then
      match ended.1.FindPolicy engine ended.1._defaultNodes false [] with
      | none => none
      | some found =>
        if found.bSuccess then
          match ADSMGameMode.handleNextNodeCalls
              { ended.1 with _currentPolicy := found.policy } with
          | none => none
          | some next =>
            some (next.1,
              ended.2 ++ (Call.FindPolicy ended.1._defaultNodes false :: next.2))
        else
          some ({ ended.1 with _currentPolicy := none, _currentNode := none },
            ended.2 ++ [Call.FindPolicy ended.1._defaultNodes false])
    else
      match ended.1.handleNextNodeCalls with
      | none => none
      | some next => some (next.1, ended.2 ++ next.2)

/-- The method `ADSMGameMode::UpdateStateMachine` with the record of its calls.
The node functions of the update phase are called when
`IsValid(_currentNode->_node)`; without a valid node both local flags stay
false. -/
def ADSMGameMode.UpdateStateMachineCalls {n : Nat} (self : ADSMGameMode n) (engine : Engine n)
    (DeltaTime : float) : Checked (ADSMGameMode n × List (Call n)) :=
  if self._hasStateEnded then self.TransitionStateCalls engine
  else
    match self._currentNode with
    | some currentNode =>
      match currentNode._node with
      | some node =>
        some ({ self with
            _hasStateEnded := node.OnUpdateState DeltaTime || node.OnUpdateStateEvent DeltaTime },
          updatePhase node)
      | none => some ({ self with _hasStateEnded := false }, [])
    | none => some (self, [])

/-- The method `ADSMGameMode::UpdateStateMachine`: the manager afterwards. -/
def ADSMGameMode.UpdateStateMachine {n : Nat} (self : ADSMGameMode n) (engine : Engine n)
    (DeltaTime : float) : Checked (ADSMGameMode n) :=
  if self._hasStateEnded then self.TransitionState engine
  else
    match self._currentNode with
    | some currentNode =>
      match currentNode._node with
      | some node =>
        some { self with
          _hasStateEnded := node.OnUpdateState DeltaTime || node.OnUpdateStateEvent DeltaTime }
      | none => some { self with _hasStateEnded := false }
    | none => some self

/-- The method `ADSMGameMode::StopStateMachine`. -/
def ADSMGameMode.StopStateMachine {n : Nat} (self : ADSMGameMode n) : ADSMGameMode n :=
  let stopped : ADSMGameMode n :=
    match self._currentNode with
    | some _ => { self.EndState with _currentNode := none }
    | none => self
  { stopped with _defaultNodes := [], _hasStateEnded := false }

/-- A manager whose current node has reported its end: an empty history, one
registered node that can be entered and declares `UDSMDefaultPolicy`, a current
node, and a current policy (of class 0) whose node queue is empty. -/
def endedGameMode : ADSMGameMode 2 :=
  { runningGameMode with _defaultNodes := [some (plainNode 2 true [] [some 0])] }

/-- The manager `endedGameMode` while its current node has not reported its end. -/
def updatingGameMode : ADSMGameMode 2 :=
  { endedGameMode with _hasStateEnded := false }

/-- The manager `endedGameMode` while transitions are suppressed. -/
def suppressedEndedGameMode : ADSMGameMode 2 :=
  { endedGameMode with _IsTransitionAllowed := false }

/-- A manager without current node whose current policy (of class 1) has the
registered node `dataNode` in its queue. -/
def queuedGameMode : ADSMGameMode 2 :=
  { freshGameMode with
    _defaultNodes := [some dataNode]
    _currentPolicy := some (UDSMPolicy.mk 1 10 true true [some dataNode]) }

/-- The manager `queuedGameMode` while transitions are suppressed. -/
def suppressedQueuedGameMode : ADSMGameMode 2 :=
  { queuedGameMode with _IsTransitionAllowed := false }

/-- A manager without current node whose current policy has an empty queue and
does not allow a transition after it. -/
def drainedGameMode : ADSMGameMode 2 :=
  { freshGameMode with
    _defaultNodes := [some dataNode]
    _currentPolicy := some (UDSMPolicy.mk 1 10 false true []) }

/-! ## The states a manager reaches -/

/-- An initial state of the manager: the save game object of the constructor,
no current node, no current policy, the ended flag clear and transitions
allowed. The nodes that have registered are not fixed. -/
def ADSMGameMode.IsInitial {n : Nat} (self : ADSMGameMode n) : Bool :=
  self._stateMachineData.isSome && self._currentNode.isNone && self._currentPolicy.isNone &&
    !self._hasStateEnded && self._IsTransitionAllowed

/-- The states of the manager reachable from an initial state by calls of
`TransitionState`, `UpdateStateMachine`, `RequestTransition_Internal`,
`RequestCustomTransition` and `StopStateMachine` that return. -/
inductive Reachable {n : Nat} (engine : Engine n) : ADSMGameMode n → Prop where
  | initial (self : ADSMGameMode n) (h : self.IsInitial = true) : Reachable engine self
  | TransitionState (self after : ADSMGameMode n) (h : Reachable engine self)
      (hcall : self.TransitionState engine = some after) : Reachable engine after
  | UpdateStateMachine (self after : ADSMGameMode n) (DeltaTime : float)
      (h : Reachable engine self)
      (hcall : self.UpdateStateMachine engine DeltaTime = some after) : Reachable engine after
  | RequestTransition_Internal (self after : ADSMGameMode n) (result : Bool)
      (h : Reachable engine self)
      (hcall : self.RequestTransition_Internal engine = some (result, after)) :
      Reachable engine after
  | RequestCustomTransition (self after : ADSMGameMode n) (node : Option (DefaultNode n))
      (result : Bool) (h : Reachable engine self)
      (hcall : self.RequestCustomTransition engine node = some (result, after)) :
      Reachable engine after
  | StopStateMachine (self : ADSMGameMode n) (h : Reachable engine self) :
      Reachable engine self.StopStateMachine

/-- A manager on which `dataNode` has registered, before the first transition. -/
def registeredGameMode : ADSMGameMode 2 :=
  { freshGameMode with _defaultNodes := [some dataNode] }

/-- Whether a policy class is one of the built-in classes, with any values of
the properties `_priority` and `bTransitionAfterPolicy`: the hook
`ApplyPolicyEvent` is not implemented, and `ApplyPolicy` is the function of
`UDSMDefaultPolicy` or the one of `UDSMOrderByTagPolicy` for some `TagOrder`. -/
def UDSMPolicyClass.IsBuiltIn {n : Nat} (c : UDSMPolicyClass n) : Prop :=
  (∀ inputNodes gameMode bSelfTransition,
    c.ApplyPolicyEvent inputNodes gameMode bSelfTransition = ([], false)) ∧
  ((∀ inputNodes gameMode bSelfTransition,
      c.ApplyPolicy inputNodes gameMode bSelfTransition =
        UDSMDefaultPolicy.ApplyPolicy inputNodes bSelfTransition) ∨
    ∃ TagOrder : List FName, ∀ inputNodes gameMode bSelfTransition,
      c.ApplyPolicy inputNodes gameMode bSelfTransition =
        UDSMOrderByTagPolicy.ApplyPolicy TagOrder inputNodes)

/-- A program with only the built-in policies. -/
def Engine.OnlyBuiltIn {n : Nat} (engine : Engine n) : Prop :=
  ∀ c : Fin n, (engine.policyClass c).IsBuiltIn

/-! ## Conditions that compare the properties of data assets -/

/-- The type of a reflected property (`FProperty`), as far as `SameType` and
`CastField` tell properties apart: the property class, and for an object
property its `PropertyClass` (a class number). -/
inductive PropertyType where
  | FBoolProperty
  | FIntProperty
  | FFloatProperty
  | FNameProperty
  | FObjectProperty (PropertyClass : Nat)
  | other (tag : Nat)
  deriving DecidableEq

/-- The cast `CastField<FObjectProperty>` succeeds. -/
def PropertyType.isObjectProperty : PropertyType → Bool
  | PropertyType.FObjectProperty _ => true
  | _ => false

/-- An object as reflection sees it: the properties of its class by name, each
with its type and, for an object property, the object its value points to
(`none` for a null or invalid pointer). -/
inductive UObject where
  | mk (properties : List (FName × PropertyType × Option UObject))

/-- The call `object->GetClass()->FindPropertyByName(name)`, together with the
value `GetObjectPropertyValue_InContainer(object)` of the property found. -/
def UObject.FindPropertyByName (object : UObject) (name : FName) :
    Option (PropertyType × Option UObject) :=
  match object with
  | UObject.mk properties => properties.lookup name

/-- The struct `FDSMConditionProperty`; `_OptionalValidationClass` is given by the
default object of the class (`GetDefaultObject()`), `none` for a null class. -/
structure FDSMConditionProperty where
  _FieldName : FName
  _OptionalValidationClass : Option UObject

/-- The loop of `EvaluatePropertyChain` over `inPropertyChain`, carrying `outData`
and `outProperty`; a pair that is returned at once is a `return` inside the
loop. -/
def propertyChainLoop (IsValidation : Bool) :
    List FDSMConditionProperty → Option UObject → Option PropertyType →
      Option UObject × Option PropertyType
  | [], outData, outProperty => (outData, outProperty)
  | propInfo :: rest, outData, outProperty =>
    match outData with
    | none => (none, outProperty)
    | some object =>
      match object.FindPropertyByName propInfo._FieldName with
      | some (propertyType, value) =>
        if propertyType.isObjectProperty then
          match value with
          | some valid => propertyChainLoop IsValidation rest (some valid) (some propertyType)
          | none =>
            if IsValidation && propInfo._OptionalValidationClass.isSome then
              propertyChainLoop IsValidation rest propInfo._OptionalValidationClass
                (some propertyType)
            else propertyChainLoop IsValidation rest none none
        else propertyChainLoop IsValidation rest outData (some propertyType)
      | none => (outData, outProperty)

/-- The function `EvaluatePropertyChain`: the values of the reference parameters
`outData` and `outProperty` afterwards, given their values before. -/
def EvaluatePropertyChain (inPropertyChain : List FDSMConditionProperty)
    (inData : Option UObject) (outData : Option UObject) (outProperty : Option PropertyType)
    (IsValidation : Bool) : Option UObject × Option PropertyType :=
  match inData with
  | none => (outData, outProperty)
  | some _ => propertyChainLoop IsValidation inPropertyChain inData outProperty

/-- The test `FName::IsNone`: the empty name and the name `None`. -/
def FName.IsNone (name : FName) : Bool :=
  name.isEmpty || name == ['N', 'o', 'n', 'e']

/-- The method `UDSMDefaultNode::ValidateDataAssetByName`; `Map[name]` of a
contained key is the stored pointer. -/
def DefaultNode.ValidateDataAssetByName {n : Nat} (node : DefaultNode n) (name : FName) :
    Option UDSMDataAsset :=
  match node._readOnlyDataReferences.lookup name with
  | some asset => asset
  | none =>
    match node._writableDataReferences.lookup name with
    | some asset => asset
    | none => none

/-- The properties of a `UDSMConditionCompare`. -/
structure UDSMConditionCompare where
  _DataAssetLeft : FName
  _PropertyChainLeft : List FDSMConditionProperty
  _DataAssetRight : FName
  _PropertyChainRight : List FDSMConditionProperty

/-- The part that `UDSMConditionCompare::BindCondition` and
`UDSMConditionNumberTypeCompare::BindCondition` share, from the lookup of the
data assets on. `reflect` gives a data asset as reflection sees it. -/
def bindPropertyChains {n : Nat} (node : DefaultNode n) (reflect : UDSMDataAsset → UObject)
    (_DataAssetLeft : FName) (_PropertyChainLeft : List FDSMConditionProperty)
    (_DataAssetRight : FName) (_PropertyChainRight : List FDSMConditionProperty) : Bool :=
  let leftDataAsset := (node.ValidateDataAssetByName _DataAssetLeft).map reflect
  let rightDataAsset := (node.ValidateDataAssetByName _DataAssetRight).map reflect
  if !leftDataAsset.isSome || !rightDataAsset.isSome then false
  else
    let left := EvaluatePropertyChain _PropertyChainLeft leftDataAsset none none true
    let right := EvaluatePropertyChain _PropertyChainRight rightDataAsset none none true
    match left.2, right.2 with
    | some leftProperty, some rightProperty =>
      if rightProperty = leftProperty then true else false
    | _, _ => false

/-- The method `UDSMConditionCompare::BindCondition`. -/
def UDSMConditionCompare.BindCondition {n : Nat} (self : UDSMConditionCompare)
    (defaultNode : Option (DefaultNode n)) (reflect : UDSMDataAsset → UObject) : Bool :=
  match defaultNode with
  | none => false
  | some node =>
    if self._DataAssetLeft.IsNone || self._PropertyChainLeft.isEmpty ||
        self._DataAssetRight.IsNone || self._PropertyChainRight.isEmpty then false
    else
      bindPropertyChains node reflect self._DataAssetLeft self._PropertyChainLeft
        self._DataAssetRight self._PropertyChainRight

/-- The enumeration `ENumberComparison`. -/
inductive ENumberComparison where
  | NONE
  | EQUAL
  | NONEQUAL
  | GREATER
  | SMALLER
  | GREATEREQUAL
  | SMALLEREQUAL
  deriving DecidableEq

/-- The properties of a `UDSMConditionNumberTypeCompare`. -/
structure UDSMConditionNumberTypeCompare where
  _DataAssetLeft : FName
  _PropertyChainLeft : List FDSMConditionProperty
  _CompareType : ENumberComparison
  _DataAssetRight : FName
  _PropertyChainRight : List FDSMConditionProperty

/-- The method `UDSMConditionNumberTypeCompare::BindCondition`. -/
def UDSMConditionNumberTypeCompare.BindCondition {n : Nat}
    (self : UDSMConditionNumberTypeCompare) (defaultNode : Option (DefaultNode n))
    (reflect : UDSMDataAsset → UObject) : Bool :=
  match defaultNode with
  | none => false
  | some node =>
    if self._DataAssetLeft.IsNone || self._PropertyChainLeft.isEmpty ||
        self._DataAssetRight.IsNone || self._PropertyChainRight.isEmpty then false
    else if self._CompareType = ENumberComparison.NONE then false
    else
      bindPropertyChains node reflect self._DataAssetLeft self._PropertyChainLeft
        self._DataAssetRight self._PropertyChainRight

/-- Following the words of the specification: the type of the leaf field that a
property chain resolves to from an object, `none` when some name of the chain
does not resolve on the object reached by the names before it. A name that
resolves to an object property leads on to the object it points to (during
validation, to the default object of the declared class when the pointer is
null); any other property leaves the object as it is. -/
def resolvedLeaf (IsValidation : Bool) :
    List FDSMConditionProperty → Option UObject → Option PropertyType → Option PropertyType
  | [], _, leaf => leaf
  | _ :: _, none, _ => none
  | propInfo :: rest, some object, _ =>
    match object.FindPropertyByName propInfo._FieldName with
    | none => none
    | some (propertyType, value) =>
      if propertyType.isObjectProperty then
        match value with
        | some valid => resolvedLeaf IsValidation rest (some valid) (some propertyType)
        | none =>
          if IsValidation then
            resolvedLeaf IsValidation rest propInfo._OptionalValidationClass (some propertyType)
          else resolvedLeaf IsValidation rest none (some propertyType)
      else resolvedLeaf IsValidation rest (some object) (some propertyType)

/-- Whether a property type is one of the numeric types `int32` and `float`. -/
def PropertyType.isNumeric : PropertyType → Bool
  | PropertyType.FIntProperty => true
  | PropertyType.FFloatProperty => true
  | _ => false

/-- The data asset `r` of `dataNode` as reflection sees it: a `bool` property
`flag`, an `int32` property `count`, and an object property `target` that
points to an object with the `int32` property `health`. -/
def reflectedAsset : UDSMDataAsset → UObject := fun _ =>
  UObject.mk
    [(['f', 'l', 'a', 'g'], PropertyType.FBoolProperty, none),
      (['c', 'o', 'u', 'n', 't'], PropertyType.FIntProperty, none),
      (['t', 'a', 'r', 'g', 'e', 't'], PropertyType.FObjectProperty 0,
        some (UObject.mk [(['h', 'e', 'a', 'l', 't', 'h'], PropertyType.FIntProperty, none)]))]

/-- A compare condition on the data asset `r`: the left chain is `target`,
`missing`, the right chain is `target`. -/
def unresolvedNameCompare : UDSMConditionCompare :=
  { _DataAssetLeft := ['r']
    _PropertyChainLeft :=
      [FDSMConditionProperty.mk ['t', 'a', 'r', 'g', 'e', 't'] none,
        FDSMConditionProperty.mk ['m', 'i', 's', 's', 'i', 'n', 'g'] none]
    _DataAssetRight := ['r']
    _PropertyChainRight := [FDSMConditionProperty.mk ['t', 'a', 'r', 'g', 'e', 't'] none] }

/-- A numeric compare condition with the operator `EQUAL` whose chains both name
the `bool` property `flag` of the data asset `r`. -/
def boolNumberCompare : UDSMConditionNumberTypeCompare :=
  { _DataAssetLeft := ['r']
    _PropertyChainLeft := [FDSMConditionProperty.mk ['f', 'l', 'a', 'g'] none]
    _CompareType := ENumberComparison.EQUAL
    _DataAssetRight := ['r']
    _PropertyChainRight := [FDSMConditionProperty.mk ['f', 'l', 'a', 'g'] none] }

/-- A numeric compare condition with the operator `GREATER` whose left chain is
`count`, `missing` and whose right chain is `count`. -/
def unresolvedNumberCompare : UDSMConditionNumberTypeCompare :=
  { _DataAssetLeft := ['r']
    _PropertyChainLeft :=
      [FDSMConditionProperty.mk ['c', 'o', 'u', 'n', 't'] none,
        FDSMConditionProperty.mk ['m', 'i', 's', 's', 'i', 'n', 'g'] none]
    _CompareType := ENumberComparison.GREATER
    _DataAssetRight := ['r']
    _PropertyChainRight := [FDSMConditionProperty.mk ['c', 'o', 'u', 'n', 't'] none] }

/-- The manager `queuedGameMode` with a null pointer at the head of the queue of
its current policy, before `dataNode`. -/
def nullHeadGameMode : ADSMGameMode 2 :=
  { queuedGameMode with
    _currentPolicy := some (UDSMPolicy.mk 1 10 true true [none, some dataNode]) }

/-- The manager `endedGameMode` without its save game object. -/
def unsavedEndedGameMode : ADSMGameMode 2 :=
  { endedGameMode with _stateMachineData := none }

/-- The manager `updatingGameMode` after the node of its current node has been
destroyed. -/
def destroyedNodeGameMode : ADSMGameMode 2 :=
  { updatingGameMode with _currentNode := some (UDSMActiveNode.mk none []) }

/-! # Theorems -/

/-! ## The validation scan -/

theorem localOK_of_other (s : FString) (k : Nat) (c : Char) (h : s[k]? = some c)
    (h1 : c ≠ '!') (h2 : c ≠ '&') (h3 : c ≠ '|') : LocalOK s k := by
  constructor
  · intro h'
    rw [h] at h'
    exact absurd (Option.some.inj h') h1
  · rintro (h' | h')
    · rw [h] at h'
      exact absurd (Option.some.inj h') h2
    · rw [h] at h'
      exact absurd (Option.some.inj h') h3

theorem localOK_of_none (s : FString) (k : Nat) (h : s.length ≤ k) : LocalOK s k := by
  have hn : s[k]? = none := List.getElem?_eq_none h
  constructor
  · intro h'
    rw [hn] at h'
    cases h'
  · rintro (h' | h') <;> (rw [hn] at h'; cases h')

theorem validateLoop_localOK (s : FString) :
    ∀ (fuel i : Nat) (bc : Int) (bL bN : Bool), s.length ≤ i + fuel → (bL = true → 0 < i) →
      validateLoop s fuel i bc bL bN = true → ∀ k, i ≤ k → LocalOK s k := by
  intro fuel
  induction fuel with
  | zero =>
    intro i bc bL bN hlen _ _ k hk
    exact localOK_of_none s k (by omega)
  | succ fuel ih =>
    intro i bc bL bN hlen hL hv k hk
    unfold validateLoop at hv
    cases hc : s[i]? with
    | none =>
      have : s.length ≤ i := by
        by_contra hcon
        push_neg at hcon
        rw [List.getElem?_eq_getElem hcon] at hc
        cases hc
      exact localOK_of_none s k (by omega)
    | some c =>
      rw [hc] at hv
      simp only at hv
      have step : ∀ (bc1 : Int) (bL1 bN1 : Bool),
          validateLoop s fuel (i + 1) bc1 bL1 bN1 = true → LocalOK s i → LocalOK s k := by
        intro bc1 bL1 bN1 hv1 hi
        rcases Nat.eq_or_lt_of_le hk with h | h
        · subst h
          exact hi
        · exact ih (i + 1) bc1 bL1 bN1 (by omega) (fun _ => by omega) hv1 k h
      split_ifs at hv with h1 h2 h3 h4 h5 h6 h7 h8 h9 h10 h11 h12
      · subst h1
        exact step _ _ _ hv (localOK_of_other s i _ hc (by decide) (by decide) (by decide))
      · subst h2
        exact step _ _ _ hv (localOK_of_other s i _ hc (by decide) (by decide) (by decide))
      · subst h3
        refine step _ _ _ hv ⟨fun _ => ?_, ?_⟩
        · simp only [Bool.and_eq_true, decide_eq_true_eq, bne_iff_ne, ne_eq, not_and,
            Decidable.not_not, Bool.or_eq_true, beq_iff_eq, not_or] at h4 h5
          have h51 := h5.1.1
          refine ⟨?_, by omega, h5.1.2, h5.2⟩
          by_cases hi0 : i = 0
          · exact Or.inl hi0
          · by_cases hsp : s[i - 1]? = some ' '
            · exact Or.inr (Or.inl hsp)
            · exact Or.inr (Or.inr (h4 ⟨by omega, hsp⟩))
        · rintro (h' | h') <;> (rw [hc] at h'; exact absurd (Option.some.inj h') (by decide))
      · simp only [Bool.not_eq_true', Bool.not_eq_false, Bool.and_eq_true, decide_eq_true_eq,
          bne_iff_ne, ne_eq, not_and, Decidable.not_not, beq_iff_eq] at h7 h8 h9 h10
        have hi0 : 0 < i := hL h7
        have hpair : ∀ k', k' = i ∨ k' = i + 1 → LocalOK s k' := by
          intro k' hk'
          have hck : s[k']? = some c := by
            rcases hk' with h | h
            · rw [h, hc]
            · rw [h, h9.2]
          constructor
          · intro h'
            rw [hck] at h'
            have hcc := Option.some.inj h'
            rw [hcc] at h6
            exact absurd h6 (by decide)
          · intro _
            exact ⟨i, hk', hi0, h8 (by omega), by rw [h9.2, hc], h10⟩
        by_cases hki : k = i ∨ k = i + 1
        · exact hpair k hki
        · exact ih (i + 2) bc false true (by omega) (fun h => by cases h) hv k (by omega)
      · subst h11
        exact step _ _ _ hv (localOK_of_other s i _ hc (by decide) (by decide) (by decide))
      · refine step _ _ _ hv (localOK_of_other s i c hc h3 ?_ ?_)
        · exact fun h => h6 (Or.inr h)
        · exact fun h => h6 (Or.inl h)

theorem validate_localOK (s : FString) (h : ValidateConditionString s = true) (k : Nat) :
    LocalOK s k :=
  validateLoop_localOK s s.length 0 0 false false (by omega) (fun h => by cases h) h k
    (Nat.zero_le k)

theorem compile_of_not_validate (s : FString) (cb : CondValCB)
    (h : ValidateConditionString s = false) : CompileConditionString s cb = some none := by
  unfold CompileConditionString
  rw [h]
  rfl

theorem validate_false_of_double_bang (s : FString) (k : Nat) (h1 : s[k]? = some '!')
    (h2 : s[k + 1]? = some '!') : ValidateConditionString s = false := by
  by_contra hv
  have hv' : ValidateConditionString s = true := by simpa using hv
  have hl := (validate_localOK s hv' (k + 1)).1 h2
  rcases hl.1 with h | h | h
  · omega
  · rw [Nat.add_sub_cancel, h1] at h
    exact absurd (Option.some.inj h) (by decide)
  · rw [Nat.add_sub_cancel, h1] at h
    exact absurd (Option.some.inj h) (by decide)

/-- C5: for every identifier `x` (indeed for every string `x`) the expression
`"!!" ++ x` fails to compile, and `ValidateConditionString` rejects every string
that has two consecutive `!` characters (at some indices `k`, `k + 1`). -/
theorem C5_double_negation_rejected :
    (∀ (x : FString) (condNameValidation : CondValCB),
      CompileConditionString ('!' :: '!' :: x) condNameValidation = some none) ∧
    (∀ (s : FString) (k : Nat), s[k]? = some '!' → s[k + 1]? = some '!' →
      ValidateConditionString s = false) :=
  ⟨fun x cb => compile_of_not_validate _ cb
      (validate_false_of_double_bang ('!' :: '!' :: x) 0 (by simp) (by simp)),
    validate_false_of_double_bang⟩

/-- C5 at the concrete input `"a && !!b"`: the two `!` sit at indices 5 and 6. -/
theorem C5_double_negation_rejected_witness :
    ['a', ' ', '&', '&', ' ', '!', '!', 'b'][5]? = some '!' ∧
    ['a', ' ', '&', '&', ' ', '!', '!', 'b'][5 + 1]? = some '!' ∧
    ValidateConditionString ['a', ' ', '&', '&', ' ', '!', '!', 'b'] = false :=
  ⟨rfl, rfl, C5_double_negation_rejected.2 ['a', ' ', '&', '&', ' ', '!', '!', 'b'] 5 rfl rfl⟩

/-- C8: `ValidateConditionString` rejects every string in which some `&` or `|`
character (at index `k`) is not part of an isolated pair of the same character
with a space directly before and a space directly after the pair. -/
theorem C8_validate_rejects_unpaired_operator_char (s : FString) (k : Nat)
    (hk : s[k]? = some '&' ∨ s[k]? = some '|') (hpair : ¬ InIsolatedPair s k) :
    ValidateConditionString s = false := by
  by_contra hv
  have hv' : ValidateConditionString s = true := by simpa using hv
  exact hpair ((validate_localOK s hv' k).2 hk)

/-- C9: `ValidateConditionString` rejects every string in which a `!` (at index
`k`) is immediately followed by `&` or `|`, or is the last character. -/
theorem C9_validate_rejects_bang_before_operator_or_last (s : FString) (k : Nat)
    (hk : s[k]? = some '!')
    (hnext : s[k + 1]? = some '&' ∨ s[k + 1]? = some '|' ∨ k + 1 = s.length) :
    ValidateConditionString s = false := by
  by_contra hv
  have hv' : ValidateConditionString s = true := by simpa using hv
  have hl := (validate_localOK s hv' k).1 hk
  rcases hnext with h | h | h
  · exact hl.2.2.2 h
  · exact hl.2.2.1 h
  · have := hl.2.1
    omega

/-- C8 at the concrete input `"a&&b"`: the `&` at index 1 has no space before
its pair. -/
theorem C8_validate_rejects_unpaired_operator_char_witness :
    (['a', '&', '&', 'b'][1]? = some '&' ∨ ['a', '&', '&', 'b'][1]? = some '|') ∧
    ¬ InIsolatedPair ['a', '&', '&', 'b'] 1 ∧
    ValidateConditionString ['a', '&', '&', 'b'] = false := by
  have hk : ['a', '&', '&', 'b'][1]? = some '&' ∨ ['a', '&', '&', 'b'][1]? = some '|' :=
    Or.inl rfl
  have hpair : ¬ InIsolatedPair ['a', '&', '&', 'b'] 1 := by
    rintro ⟨j, hj, h1, h2, -, -⟩
    have hj1 : j = 1 := by omega
    subst hj1
    simp at h2
  exact ⟨hk, hpair, C8_validate_rejects_unpaired_operator_char _ 1 hk hpair⟩

/-- C9 at the concrete input `"a !&& b"`: the `!` at index 2 is followed by `&`. -/
theorem C9_validate_rejects_bang_before_operator_or_last_witness :
    ['a', ' ', '!', '&', '&', ' ', 'b'][2]? = some '!' ∧
    ['a', ' ', '!', '&', '&', ' ', 'b'][2 + 1]? = some '&' ∧
    ValidateConditionString ['a', ' ', '!', '&', '&', ' ', 'b'] = false :=
  ⟨rfl, rfl, C9_validate_rejects_bang_before_operator_or_last _ 2 rfl (Or.inl rfl)⟩

/-! ## Evaluating the condition groups of a node -/

theorem evaluateGroupsLoop_eq_true (ownerNode : NodePtr) :
    ∀ (evaluators : List FExpressionEvaluator) (isValid : Bool),
      evaluateGroupsLoop ownerNode evaluators isValid = some true ↔
        (isValid = true ∧ ∀ e ∈ evaluators,
          ∃ f, e.GetEvaluateFunction = some f ∧ f ownerNode = some true) := by
  intro evaluators
  induction evaluators with
  | nil =>
    intro isValid
    simp [evaluateGroupsLoop]
  | cons e rest ih =>
    intro isValid
    unfold evaluateGroupsLoop
    cases hf : e.GetEvaluateFunction with
    | none => simp [hf]
    | some f =>
      cases hr : f ownerNode with
      | none => simp [hf, hr]
      | some result =>
        simp only [ih, Bool.and_eq_true, List.mem_cons, forall_eq_or_imp, hf, Option.some.injEq,
          exists_eq_left', hr]
        tauto

theorem evaluateGroupsLoop_isSome (ownerNode : NodePtr) :
    ∀ (evaluators : List FExpressionEvaluator) (isValid : Bool),
      (∀ e ∈ evaluators, ∃ f b, e.GetEvaluateFunction = some f ∧ f ownerNode = some b) →
        ∃ r, evaluateGroupsLoop ownerNode evaluators isValid = some r := by
  intro evaluators
  induction evaluators with
  | nil =>
    intro isValid _
    exact ⟨isValid, rfl⟩
  | cons e rest ih =>
    intro isValid h
    obtain ⟨f, b, hf, hb⟩ := h e (List.mem_cons_self e rest)
    unfold evaluateGroupsLoop
    rw [hf]
    simp only [hb]
    exact ih (isValid && b) (fun e' he' => h e' (List.mem_cons_of_mem e he'))

/-- C10: `EvaluateConditionGroups` returns true iff every evaluator of the list,
called on the owner node, returns true; it returns (true or false) whenever
every evaluator returns; and with no condition groups it returns true. -/
theorem C10_evaluateConditionGroups_all (ownerNode : NodePtr)
    (evaluators : List FExpressionEvaluator) :
    (EvaluateConditionGroups ownerNode evaluators = some true ↔
      ∀ e ∈ evaluators, ∃ f, e.GetEvaluateFunction = some f ∧ f ownerNode = some true) ∧
    ((∀ e ∈ evaluators, ∃ f b, e.GetEvaluateFunction = some f ∧ f ownerNode = some b) →
      ∃ r, EvaluateConditionGroups ownerNode evaluators = some r) ∧
    EvaluateConditionGroups ownerNode [] = some true := by
  refine ⟨?_, evaluateGroupsLoop_isSome ownerNode evaluators true, rfl⟩
  unfold EvaluateConditionGroups
  rw [evaluateGroupsLoop_eq_true]
  simp

/-! ## Accepted strings that are not well-formed expressions -/

/-- C6 (the code at the failing input `")("`): `ValidateConditionString` accepts
the string, whose `)` has no `(` before it, and `CompileConditionString` then
fails the range check of `operators.Last()` on the empty operator stack. -/
theorem C6_validate_accepts_closing_before_opening :
    ValidateConditionString [')', '('] = true ∧
    CompileConditionString [')', '('] (fun _ => true) = none :=
  ⟨by decide, rfl⟩

/-- C7 (the code at the failing input `"a ( && b)"`, every name accepted): the
`&&` follows `(` with no operand in between, the string is accepted, its
postfix form is `a b &&`, and `CompileConditionString` returns an evaluator. -/
theorem C7_compiles_operator_without_left_operand :
    ValidateConditionString ['a', ' ', '(', ' ', '&', '&', ' ', 'b', ')'] = true ∧
    TransformExpressionToReversePolishOrder
      (TokenizeExpression ['a', ' ', '(', ' ', '&', '&', ' ', 'b', ')']
        ['(', ')', '|', '&', '!'] [['&'], ['|']]) operatorPrecedenceTable =
      some [['a'], ['b'], ['&', '&']] ∧
    ∃ ev, CompileConditionString ['a', ' ', '(', ' ', '&', '&', ' ', 'b', ')']
      (fun _ => true) = some (some ev) := by
  have hv : ValidateConditionString ['a', ' ', '(', ' ', '&', '&', ' ', 'b', ')'] = true := by
    decide
  have hr : TransformExpressionToReversePolishOrder
      (TokenizeExpression ['a', ' ', '(', ' ', '&', '&', ' ', 'b', ')']
        ['(', ')', '|', '&', '!'] [['&'], ['|']]) operatorPrecedenceTable =
      some [['a'], ['b'], ['&', '&']] := by
    decide
  refine ⟨hv, hr, ?_⟩
  simp [CompileConditionString, hv, hr, EvaluateExpression, evaluateLoop, GetConditionByName,
    FExpressionEvaluator.ofBinary]

/-! ## Identifiers -/

theorem isIdentifier_ne_nil {x : FString} (h : isIdentifier x = true) : x ≠ [] := by
  intro hx
  subst hx
  simp [isIdentifier] at h

theorem isIdentifier_mem {x : FString} (h : isIdentifier x = true) :
    ∀ c ∈ x, c ∈ allowedCharsForVariables := by
  intro c hc
  simp only [isIdentifier, Bool.and_eq_true, List.all_eq_true] at h
  simpa using h.2 c hc

theorem isIdentifier_ne {x : FString} (h : isIdentifier x = true) (y : FString) (c : Char)
    (hc : c ∈ y) (hn : c ∉ allowedCharsForVariables) : x ≠ y := by
  intro hxy
  subst hxy
  exact hn (isIdentifier_mem h c hc)

theorem isIdentifier_ne_bang {x : FString} (h : isIdentifier x = true) : x ≠ ['!'] :=
  isIdentifier_ne h _ '!' (by simp) (by decide)

theorem isIdentifier_ne_andand {x : FString} (h : isIdentifier x = true) : x ≠ ['&', '&'] :=
  isIdentifier_ne h _ '&' (by simp) (by decide)

theorem isIdentifier_ne_oror {x : FString} (h : isIdentifier x = true) : x ≠ ['|', '|'] :=
  isIdentifier_ne h _ '|' (by simp) (by decide)

theorem isIdentifier_ne_open {x : FString} (h : isIdentifier x = true) : x ≠ ['('] :=
  isIdentifier_ne h _ '(' (by simp) (by decide)

theorem isIdentifier_ne_close {x : FString} (h : isIdentifier x = true) : x ≠ [')'] :=
  isIdentifier_ne h _ ')' (by simp) (by decide)

/-! ## Building the evaluator from the reverse polish order -/

theorem getConditionByName_str {x : FString} {cb : CondValCB} (h : isIdentifier x = true)
    (hcb : cb x = true) :
    GetConditionByName (StackElem.str x) cb = some (conditionLeaf x) := by
  have hne := isIdentifier_ne_nil h
  cases x with
  | nil => exact absurd rfl hne
  | cons c cs => simp [GetConditionByName, hcb]

theorem conditionLeaf_bound (node : UDSMDefaultNode) (σ : FName → Bool) (x : FString)
    (h : BoundBy node σ [x]) : conditionLeaf x (some node) = some (σ x) := by
  obtain ⟨c, hl, hb, he⟩ := h x (List.mem_singleton.mpr rfl)
  simp [conditionLeaf, hl, hb, he]

theorem evaluateLoop_ident (cb : CondValCB) (x : FString) (h : isIdentifier x = true)
    (rest : List FString) (stack : List StackElem) :
    evaluateLoop cb (x :: rest) stack = evaluateLoop cb rest (StackElem.str x :: stack) := by
  simp [evaluateLoop, isIdentifier_ne_bang h, isIdentifier_ne_andand h, isIdentifier_ne_oror h]

theorem evaluateLoop_bang (cb : CondValCB) (top : StackElem) (f : EvalFn)
    (h : GetConditionByName top cb = some f) (rest : List FString) (stack : List StackElem) :
    evaluateLoop cb (['!'] :: rest) (top :: stack) =
      evaluateLoop cb rest
        (StackElem.eval (FExpressionEvaluator.mk [] (some (negateClosure f))) :: stack) := by
  simp [evaluateLoop, h, FExpressionEvaluator.ofNegate]

theorem evaluateLoop_andand (cb : CondValCB) (e0 e1 : StackElem) (f0 f1 : EvalFn)
    (h0 : GetConditionByName e0 cb = some f0) (h1 : GetConditionByName e1 cb = some f1)
    (rest : List FString) (stack : List StackElem) :
    evaluateLoop cb (['&', '&'] :: rest) (e0 :: e1 :: stack) =
      evaluateLoop cb rest
        (StackElem.eval (FExpressionEvaluator.mk [] (some (binaryClosure f1 f0 true))) ::
          stack) := by
  simp [evaluateLoop, h0, h1, FExpressionEvaluator.ofBinary]

theorem evaluateLoop_oror (cb : CondValCB) (e0 e1 : StackElem) (f0 f1 : EvalFn)
    (h0 : GetConditionByName e0 cb = some f0) (h1 : GetConditionByName e1 cb = some f1)
    (rest : List FString) (stack : List StackElem) :
    evaluateLoop cb (['|', '|'] :: rest) (e0 :: e1 :: stack) =
      evaluateLoop cb rest
        (StackElem.eval (FExpressionEvaluator.mk [] (some (binaryClosure f1 f0 false))) ::
          stack) := by
  simp [evaluateLoop, h0, h1, FExpressionEvaluator.ofBinary]

theorem rpn_length_pos (t : CondExpr) : 1 ≤ t.rpn.length := by
  induction t with
  | ident x => simp [CondExpr.rpn]
  | notIdent x => simp [CondExpr.rpn]
  | notParen e ih => simp [CondExpr.rpn]
  | paren e ih => simpa [CondExpr.rpn] using ih
  | and l r ihl ihr => simp [CondExpr.rpn]; omega
  | or l r ihl ihr => simp [CondExpr.rpn]; omega

theorem boundBy_append_left {node : UDSMDefaultNode} {σ : FName → Bool} {xs ys : List FString}
    (h : BoundBy node σ (xs ++ ys)) : BoundBy node σ xs :=
  fun x hx => h x (List.mem_append_left ys hx)

theorem boundBy_append_right {node : UDSMDefaultNode} {σ : FName → Bool} {xs ys : List FString}
    (h : BoundBy node σ (xs ++ ys)) : BoundBy node σ ys :=
  fun x hx => h x (List.mem_append_right xs hx)

theorem evaluateLoop_rpn (cb : CondValCB) (t : CondExpr)
    (hid : ∀ x ∈ t.idents, isIdentifier x = true ∧ cb x = true) :
    ∃ elem f,
      (∀ rest stack,
        evaluateLoop cb (t.rpn ++ rest) stack = evaluateLoop cb rest (elem :: stack)) ∧
      GetConditionByName elem cb = some f ∧
      (∀ node σ, BoundBy node σ t.idents → f (some node) = some (t.value σ)) ∧
      ((∃ x, elem = StackElem.str x ∧ t.rpn = [x]) ∨
        (∃ e, elem = StackElem.eval e ∧ 2 ≤ t.rpn.length)) := by
  induction t with
  | ident x =>
    have hx := hid x (by simp [CondExpr.idents])
    refine ⟨StackElem.str x, conditionLeaf x, ?_, getConditionByName_str hx.1 hx.2, ?_,
      Or.inl ⟨x, rfl, rfl⟩⟩
    · intro rest stack
      exact evaluateLoop_ident cb x hx.1 rest stack
    · intro node σ hb
      exact conditionLeaf_bound node σ x hb
  | notIdent x =>
    have hx := hid x (by simp [CondExpr.idents])
    refine ⟨StackElem.eval (FExpressionEvaluator.mk [] (some (negateClosure (conditionLeaf x)))),
      negateClosure (conditionLeaf x), ?_, rfl, ?_, Or.inr ⟨_, rfl, by simp [CondExpr.rpn]⟩⟩
    · intro rest stack
      show evaluateLoop cb (x :: ['!'] :: rest) stack = _
      rw [evaluateLoop_ident cb x hx.1,
        evaluateLoop_bang cb _ _ (getConditionByName_str hx.1 hx.2)]
    · intro node σ hb
      simp [negateClosure, conditionLeaf_bound node σ x hb, CondExpr.value]
  | notParen e ih =>
    obtain ⟨elem, f, hloop, hget, hval, -⟩ := ih hid
    refine ⟨StackElem.eval (FExpressionEvaluator.mk [] (some (negateClosure f))),
      negateClosure f, ?_, rfl, ?_, Or.inr ⟨_, rfl, ?_⟩⟩
    · intro rest stack
      show evaluateLoop cb ((e.rpn ++ [['!']]) ++ rest) stack = _
      rw [List.append_assoc, hloop, List.singleton_append, evaluateLoop_bang cb _ _ hget]
    · intro node σ hb
      simp [negateClosure, hval node σ hb, CondExpr.value]
    · have := rpn_length_pos e
      simp only [CondExpr.rpn, List.length_append, List.length_singleton]
      omega
  | paren e ih => exact ih hid
  | and l r ihl ihr =>
    obtain ⟨el, fl, hloopl, hgetl, hvall, -⟩ :=
      ihl (fun x hx => hid x (List.mem_append_left _ hx))
    obtain ⟨er, fr, hloopr, hgetr, hvalr, -⟩ :=
      ihr (fun x hx => hid x (List.mem_append_right _ hx))
    refine ⟨StackElem.eval (FExpressionEvaluator.mk [] (some (binaryClosure fl fr true))),
      binaryClosure fl fr true, ?_, rfl, ?_, Or.inr ⟨_, rfl, ?_⟩⟩
    · intro rest stack
      show evaluateLoop cb ((l.rpn ++ (r.rpn ++ [['&', '&']])) ++ rest) stack = _
      rw [List.append_assoc, hloopl, List.append_assoc, hloopr, List.singleton_append,
        evaluateLoop_andand cb _ _ _ _ hgetr hgetl]
    · intro node σ hb
      simp [binaryClosure, hvall node σ (boundBy_append_left hb),
        hvalr node σ (boundBy_append_right hb), CondExpr.value]
    · have := rpn_length_pos l
      have := rpn_length_pos r
      simp only [CondExpr.rpn, List.length_append, List.length_singleton]
      omega
  | or l r ihl ihr =>
    obtain ⟨el, fl, hloopl, hgetl, hvall, -⟩ :=
      ihl (fun x hx => hid x (List.mem_append_left _ hx))
    obtain ⟨er, fr, hloopr, hgetr, hvalr, -⟩ :=
      ihr (fun x hx => hid x (List.mem_append_right _ hx))
    refine ⟨StackElem.eval (FExpressionEvaluator.mk [] (some (binaryClosure fl fr false))),
      binaryClosure fl fr false, ?_, rfl, ?_, Or.inr ⟨_, rfl, ?_⟩⟩
    · intro rest stack
      show evaluateLoop cb ((l.rpn ++ (r.rpn ++ [['|', '|']])) ++ rest) stack = _
      rw [List.append_assoc, hloopl, List.append_assoc, hloopr, List.singleton_append,
        evaluateLoop_oror cb _ _ _ _ hgetr hgetl]
    · intro node σ hb
      simp [binaryClosure, hvall node σ (boundBy_append_left hb),
        hvalr node σ (boundBy_append_right hb), CondExpr.value]
    · have := rpn_length_pos l
      have := rpn_length_pos r
      simp only [CondExpr.rpn, List.length_append, List.length_singleton]
      omega

/-! ## Conversion to reverse polish order -/

theorem lookup_table_cases {op : FString} {q : Int}
    (h : operatorPrecedenceTable.lookup op = some q) :
    (op = ['|', '|'] ∧ q = 0) ∨ (op = ['&', '&'] ∧ q = 1) ∨ (op = ['!'] ∧ q = 2) := by
  unfold operatorPrecedenceTable at h
  simp only [List.lookup] at h
  split at h
  · rename_i heq
    simp at heq h
    exact Or.inl ⟨heq, h.symm⟩
  · split at h
    · rename_i heq
      simp at heq h
      exact Or.inr (Or.inl ⟨heq, h.symm⟩)
    · split at h
      · rename_i heq
        simp at heq h
        exact Or.inr (Or.inr ⟨heq, h.symm⟩)
      · cases h

theorem parenthesis_contains_of_lookup {op : FString} {q : Int}
    (h : operatorPrecedenceTable.lookup op = some q) : parenthesis.contains op = false := by
  rcases lookup_table_cases h with ⟨h, -⟩ | ⟨h, -⟩ | ⟨h, -⟩ <;> subst h <;> decide

theorem unwindByPrecedence_stop (token : FString) (pt : Int)
    (ht : operatorPrecedenceTable.lookup token = some pt) (ops res : List FString)
    (hs : StackBelow pt ops) :
    unwindByPrecedence operatorPrecedenceTable token ops res = some (ops, res) := by
  cases ops with
  | nil => rfl
  | cons op ops =>
    unfold unwindByPrecedence
    rcases hs with h | ⟨q, hq, hlt⟩
    · subst h
      simp [parenthesis]
    · simp [parenthesis_contains_of_lookup hq, hq, ht, not_le.mpr hlt]

theorem unwindByPrecedence_pending (token : FString) (pt : Int)
    (ht : operatorPrecedenceTable.lookup token = some pt) (ops : List FString)
    (hs : StackBelow pt ops) :
    ∀ (ps res : List FString), (∀ op ∈ ps, OpAtLeast pt op) →
      unwindByPrecedence operatorPrecedenceTable token (ps ++ ops) res =
        some (ops, res ++ ps) := by
  intro ps
  induction ps with
  | nil =>
    intro res _
    simpa using unwindByPrecedence_stop token pt ht ops res hs
  | cons p ps ih =>
    intro res hps
    obtain ⟨q, hq, hle⟩ := hps p (List.mem_cons_self p ps)
    rw [List.cons_append, unwindByPrecedence]
    simp only [parenthesis_contains_of_lookup hq, hq, ht, hle, ge_iff_le, if_true,
      Bool.false_eq_true, if_false]
    rw [ih (res ++ [p]) (fun op hop => hps op (List.mem_cons_of_mem p hop))]
    simp

theorem unwindToParen_pending (ops : List FString) :
    ∀ (ps res : List FString), (∀ op ∈ ps, op ≠ ['(']) →
      unwindToParen (ps ++ ['('] :: ops) res = some (ops, res ++ ps) := by
  intro ps
  induction ps with
  | nil =>
    intro res _
    simp [unwindToParen]
  | cons p ps ih =>
    intro res hps
    rw [List.cons_append, unwindToParen]
    simp only [hps p (List.mem_cons_self p ps), if_false]
    rw [ih (res ++ [p]) (fun op hop => hps op (List.mem_cons_of_mem p hop))]
    simp

theorem rpoLoop_open (rest ops res : List FString) :
    rpoLoop operatorPrecedenceTable (['('] :: rest) ops res =
      rpoLoop operatorPrecedenceTable rest (['('] :: ops) res := by
  simp [rpoLoop]

theorem rpoLoop_close (rest ops res o r : List FString)
    (h : unwindToParen ops res = some (o, r)) :
    rpoLoop operatorPrecedenceTable ([')'] :: rest) ops res =
      rpoLoop operatorPrecedenceTable rest o r := by
  simp [rpoLoop, h]

theorem rpoLoop_operator (token : FString) (q : Int)
    (ht : operatorPrecedenceTable.lookup token = some q) (rest ops res o r : List FString)
    (h : unwindByPrecedence operatorPrecedenceTable token ops res = some (o, r)) :
    rpoLoop operatorPrecedenceTable (token :: rest) ops res =
      rpoLoop operatorPrecedenceTable rest (token :: o) r := by
  have hk : (operatorPrecedenceTable.map Prod.fst).contains token = true := by
    rcases lookup_table_cases ht with ⟨h1, -⟩ | ⟨h1, -⟩ | ⟨h1, -⟩ <;> subst h1 <;> decide
  have h1 : token ≠ ['('] := by
    rcases lookup_table_cases ht with ⟨h1, -⟩ | ⟨h1, -⟩ | ⟨h1, -⟩ <;> subst h1 <;> decide
  have h2 : token ≠ [')'] := by
    rcases lookup_table_cases ht with ⟨h1, -⟩ | ⟨h1, -⟩ | ⟨h1, -⟩ <;> subst h1 <;> decide
  rw [rpoLoop]
  simp only [h1, h2, hk, h, if_false, if_true]

theorem rpoLoop_ident (x : FString) (hx : isIdentifier x = true) (rest ops res : List FString) :
    rpoLoop operatorPrecedenceTable (x :: rest) ops res =
      rpoLoop operatorPrecedenceTable rest ops (res ++ [x]) := by
  simp [rpoLoop, operatorPrecedenceTable, isIdentifier_ne_open hx, isIdentifier_ne_close hx,
    isIdentifier_ne_bang hx, isIdentifier_ne_andand hx, isIdentifier_ne_oror hx]

theorem stackBelow_mono {p p1 : Int} (h : p ≤ p1) {ops : List FString} (hs : StackBelow p ops) :
    StackBelow p1 ops := by
  cases ops with
  | nil => trivial
  | cons op ops =>
    rcases hs with h1 | ⟨q, hq, hlt⟩
    · exact Or.inl h1
    · exact Or.inr ⟨q, hq, lt_of_lt_of_le hlt h⟩

theorem opAtLeast_mono {p p1 : Int} (h : p1 ≤ p) {op : FString} (ho : OpAtLeast p op) :
    OpAtLeast p1 op := by
  obtain ⟨q, hq, hle⟩ := ho
  exact ⟨q, hq, le_trans h hle⟩

theorem opAtLeast_ne_open {p : Int} {op : FString} (ho : OpAtLeast p op) : op ≠ ['('] := by
  obtain ⟨q, hq, -⟩ := ho
  rcases lookup_table_cases hq with ⟨h1, -⟩ | ⟨h1, -⟩ | ⟨h1, -⟩ <;> subst h1 <;> decide

theorem level_le_two (t : CondExpr) : t.level ≤ 2 := by
  cases t <;> simp [CondExpr.level]

theorem pending_atLeast (t : CondExpr) (hc : t.canonical = true) :
    ∀ op ∈ t.pending, OpAtLeast (t.level : Int) op := by
  induction t with
  | ident x => simp [CondExpr.pending]
  | notIdent x =>
    intro op hop
    simp only [CondExpr.pending, List.mem_singleton] at hop
    subst hop
    exact ⟨2, rfl, by simp [CondExpr.level]⟩
  | notParen e ih =>
    intro op hop
    simp only [CondExpr.pending, List.mem_singleton] at hop
    subst hop
    exact ⟨2, rfl, by simp [CondExpr.level]⟩
  | paren e ih => simp [CondExpr.pending]
  | and l r ihl ihr =>
    intro op hop
    simp only [CondExpr.pending, List.mem_append, List.mem_singleton] at hop
    rcases hop with h | h
    · simp only [CondExpr.canonical, Bool.and_eq_true, decide_eq_true_eq] at hc
      refine opAtLeast_mono ?_ (ihr hc.1.1.2 op h)
      have h2 := hc.2
      show ((1 : Nat) : Int) ≤ (r.level : Int)
      exact_mod_cast (by omega : 1 ≤ r.level)
    · subst h
      exact ⟨1, rfl, by simp [CondExpr.level]⟩
  | or l r ihl ihr =>
    intro op hop
    simp only [CondExpr.pending, List.mem_append, List.mem_singleton] at hop
    rcases hop with h | h
    · simp only [CondExpr.canonical, Bool.and_eq_true, decide_eq_true_eq] at hc
      obtain ⟨q, hq, -⟩ := ihr hc.1.2 op h
      exact ⟨q, hq, by
        rcases lookup_table_cases hq with ⟨-, h2⟩ | ⟨-, h2⟩ | ⟨-, h2⟩ <;> subst h2 <;>
          simp [CondExpr.level]⟩
    · subst h
      exact ⟨0, rfl, by simp [CondExpr.level]⟩

theorem emitted_append_pending (t : CondExpr) : t.emitted ++ t.pending = t.rpn := by
  induction t with
  | ident x => rfl
  | notIdent x => rfl
  | notParen e ih => rfl
  | paren e ih => simp [CondExpr.emitted, CondExpr.pending, CondExpr.rpn]
  | and l r ihl ihr =>
    simp only [CondExpr.emitted, CondExpr.pending, CondExpr.rpn, List.append_assoc]
    rw [← List.append_assoc r.emitted, ihr]
  | or l r ihl ihr =>
    simp only [CondExpr.emitted, CondExpr.pending, CondExpr.rpn, List.append_assoc]
    rw [← List.append_assoc r.emitted, ihr]

theorem stackBelow_open (p : Int) (ops : List FString) : StackBelow p (['('] :: ops) :=
  Or.inl rfl

theorem stackBelow_cons (p : Int) (op : FString) (q : Int) (ops : List FString)
    (hq : operatorPrecedenceTable.lookup op = some q) (hlt : q < p) :
    StackBelow p (op :: ops) :=
  Or.inr ⟨q, hq, hlt⟩

theorem rpoLoop_toks (t : CondExpr) (hc : t.canonical = true)
    (hid : ∀ x ∈ t.idents, isIdentifier x = true) :
    ∀ (rest ops res : List FString), StackBelow (t.level : Int) ops →
      rpoLoop operatorPrecedenceTable (t.toks ++ rest) ops res =
        rpoLoop operatorPrecedenceTable rest (t.pending ++ ops) (res ++ t.emitted) := by
  induction t with
  | ident x =>
    intro rest ops res _
    exact rpoLoop_ident x (hid x (by simp [CondExpr.idents])) rest ops res
  | notIdent x =>
    intro rest ops res hs
    have h1 := rpoLoop_operator ['!'] 2 rfl (x :: rest) ops res ops res
      (unwindByPrecedence_stop ['!'] 2 rfl ops res hs)
    have h2 := rpoLoop_ident x (hid x (by simp [CondExpr.idents])) rest (['!'] :: ops) res
    show rpoLoop operatorPrecedenceTable (['!'] :: x :: rest) ops res =
      rpoLoop operatorPrecedenceTable rest (['!'] :: ops) (res ++ [x])
    rw [h1, h2]
  | notParen e ih =>
    intro rest ops res hs
    simp only [CondExpr.canonical] at hc
    have h1 := rpoLoop_operator ['!'] 2 rfl (['('] :: (e.toks ++ ([')'] :: rest))) ops res ops res
      (unwindByPrecedence_stop ['!'] 2 rfl ops res hs)
    have h2 := ih hc hid ([')'] :: rest) (['('] :: ['!'] :: ops) res (stackBelow_open _ _)
    have h3 := rpoLoop_close rest (e.pending ++ ['('] :: ['!'] :: ops) (res ++ e.emitted)
      (['!'] :: ops) (res ++ e.emitted ++ e.pending) (unwindToParen_pending _ _ _
        (fun op hop => opAtLeast_ne_open (pending_atLeast e hc op hop)))
    show rpoLoop operatorPrecedenceTable (['!'] :: ['('] :: ((e.toks ++ [[')']]) ++ rest)) ops res
      = rpoLoop operatorPrecedenceTable rest (['!'] :: ops) (res ++ e.rpn)
    rw [List.append_assoc, List.singleton_append, h1, rpoLoop_open, h2, h3, List.append_assoc,
      emitted_append_pending]
  | paren e ih =>
    intro rest ops res hs
    simp only [CondExpr.canonical] at hc
    have h2 := ih hc hid ([')'] :: rest) (['('] :: ops) res (stackBelow_open _ _)
    have h3 := rpoLoop_close rest (e.pending ++ ['('] :: ops) (res ++ e.emitted)
      ops (res ++ e.emitted ++ e.pending) (unwindToParen_pending _ _ _
        (fun op hop => opAtLeast_ne_open (pending_atLeast e hc op hop)))
    show rpoLoop operatorPrecedenceTable (['('] :: ((e.toks ++ [[')']]) ++ rest)) ops res
      = rpoLoop operatorPrecedenceTable rest ops (res ++ e.rpn)
    rw [List.append_assoc, List.singleton_append, rpoLoop_open, h2, h3, List.append_assoc,
      emitted_append_pending]
  | and l r ihl ihr =>
    intro rest ops res hs
    simp only [CondExpr.canonical, Bool.and_eq_true, decide_eq_true_eq] at hc
    obtain ⟨⟨⟨hcl, hcr⟩, hll⟩, hlr⟩ := hc
    have hs1 : StackBelow 1 ops := hs
    have h1 := ihl hcl (fun x hx => hid x (List.mem_append_left _ hx))
      (['&', '&'] :: (r.toks ++ rest)) ops res (stackBelow_mono (by exact_mod_cast hll) hs1)
    have h2 := rpoLoop_operator ['&', '&'] 1 rfl (r.toks ++ rest) (l.pending ++ ops)
      (res ++ l.emitted) ops (res ++ l.emitted ++ l.pending)
      (unwindByPrecedence_pending ['&', '&'] 1 rfl ops hs1 _ _
        (fun op hop => opAtLeast_mono (by exact_mod_cast hll) (pending_atLeast l hcl op hop)))
    have h3 := ihr hcr (fun x hx => hid x (List.mem_append_right _ hx)) rest
      (['&', '&'] :: ops) (res ++ l.emitted ++ l.pending)
      (stackBelow_cons _ _ 1 _ rfl (by exact_mod_cast hlr))
    show rpoLoop operatorPrecedenceTable ((l.toks ++ (['&', '&'] :: r.toks)) ++ rest) ops res =
      rpoLoop operatorPrecedenceTable rest ((r.pending ++ [['&', '&']]) ++ ops)
        (res ++ (l.rpn ++ r.emitted))
    rw [List.append_assoc, List.cons_append, h1, h2, h3, List.append_assoc res,
      emitted_append_pending]
    simp
  | or l r ihl ihr =>
    intro rest ops res hs
    simp only [CondExpr.canonical, Bool.and_eq_true, decide_eq_true_eq] at hc
    obtain ⟨⟨hcl, hcr⟩, hlr⟩ := hc
    have hs0 : StackBelow 0 ops := hs
    have h1 := ihl hcl (fun x hx => hid x (List.mem_append_left _ hx))
      (['|', '|'] :: (r.toks ++ rest)) ops res
      (stackBelow_mono (by exact_mod_cast Nat.zero_le _) hs0)
    have h2 := rpoLoop_operator ['|', '|'] 0 rfl (r.toks ++ rest) (l.pending ++ ops)
      (res ++ l.emitted) ops (res ++ l.emitted ++ l.pending)
      (unwindByPrecedence_pending ['|', '|'] 0 rfl ops hs0 _ _
        (fun op hop => opAtLeast_mono (by exact_mod_cast Nat.zero_le _)
          (pending_atLeast l hcl op hop)))
    have h3 := ihr hcr (fun x hx => hid x (List.mem_append_right _ hx)) rest
      (['|', '|'] :: ops) (res ++ l.emitted ++ l.pending)
      (stackBelow_cons _ _ 0 _ rfl (by exact_mod_cast hlr))
    show rpoLoop operatorPrecedenceTable ((l.toks ++ (['|', '|'] :: r.toks)) ++ rest) ops res =
      rpoLoop operatorPrecedenceTable rest ((r.pending ++ [['|', '|']]) ++ ops)
        (res ++ (l.rpn ++ r.emitted))
    rw [List.append_assoc, List.cons_append, h1, h2, h3, List.append_assoc res,
      emitted_append_pending]
    simp

theorem transform_toks (t : CondExpr) (hc : t.canonical = true)
    (hid : ∀ x ∈ t.idents, isIdentifier x = true) :
    TransformExpressionToReversePolishOrder t.toks operatorPrecedenceTable = some t.rpn := by
  have h := rpoLoop_toks t hc hid [] [] [] trivial
  simp only [List.append_nil, List.nil_append] at h
  unfold TransformExpressionToReversePolishOrder
  rw [h]
  simp [rpoLoop, emitted_append_pending]

/-! ## Tokenisation -/

theorem customSplit_cons_delim (delims : List TCHAR) (c : Char) (cs : FString)
    (h : delims.contains c = true) : CustomSplit delims (c :: cs) = ([], [c], cs) := by
  rw [CustomSplit]
  simp only [h, if_true]

theorem customSplit_cons_other (delims : List TCHAR) (c : Char) (cs : FString)
    (h : delims.contains c = false) :
    CustomSplit delims (c :: cs) =
      (c :: (CustomSplit delims cs).1, (CustomSplit delims cs).2.1,
        (CustomSplit delims cs).2.2) := by
  rw [CustomSplit]
  simp only [h, Bool.false_eq_true, if_false]

theorem splitWords_cons_delim (delims : List TCHAR) (c : Char) (cs w : FString)
    (h : delims.contains c = true) :
    splitWords delims (c :: cs) w =
      (if w.isEmpty then [] else [w]) ++ ([c] :: splitWords delims cs []) := by
  rw [splitWords]
  simp only [h, if_true]

theorem splitWords_cons_other (delims : List TCHAR) (c : Char) (cs w : FString)
    (h : delims.contains c = false) :
    splitWords delims (c :: cs) w = splitWords delims cs (w ++ [c]) := by
  rw [splitWords]
  simp only [h, Bool.false_eq_true, if_false]

theorem customSplit_length (delims : List TCHAR) :
    ∀ s : FString, s ≠ [] → (CustomSplit delims s).2.2.length < s.length := by
  intro s
  induction s with
  | nil => intro h; exact absurd rfl h
  | cons c cs ih =>
    intro _
    cases hc : delims.contains c with
    | true =>
      rw [customSplit_cons_delim delims c cs hc]
      simp
    | false =>
      rw [customSplit_cons_other delims c cs hc]
      by_cases hcs : cs = []
      · subst hcs
        simp [CustomSplit]
      · have := ih hcs
        simp only [List.length_cons]
        omega

theorem splitWords_customSplit (delims : List TCHAR) :
    ∀ (s w : FString), splitWords delims s w =
      (if (w ++ (CustomSplit delims s).1).isEmpty then [] else [w ++ (CustomSplit delims s).1]) ++
        ((if (CustomSplit delims s).2.1.isEmpty then [] else [(CustomSplit delims s).2.1]) ++
          splitWords delims (CustomSplit delims s).2.2 []) := by
  intro s
  induction s with
  | nil =>
    intro w
    simp [splitWords, CustomSplit]
  | cons c cs ih =>
    intro w
    cases hc : delims.contains c with
    | true =>
      rw [customSplit_cons_delim delims c cs hc, splitWords_cons_delim delims c cs w hc]
      simp
    | false =>
      rw [customSplit_cons_other delims c cs hc, splitWords_cons_other delims c cs w hc,
        ih (w ++ [c])]
      simp

theorem tokenizeLoop_eq (delims : List TCHAR) :
    ∀ (fuel : Nat) (s : FString) (tokens : List FString), s.length ≤ fuel →
      tokenizeLoop delims fuel s tokens = tokens ++ splitWords delims s [] := by
  intro fuel
  induction fuel with
  | zero =>
    intro s tokens h
    have hs : s = [] := List.length_eq_zero.mp (Nat.le_zero.mp h)
    subst hs
    simp [tokenizeLoop, splitWords]
  | succ fuel ih =>
    intro s tokens h
    rw [tokenizeLoop]
    by_cases hs : s = []
    · subst hs
      simp [splitWords]
    · have hlen := customSplit_length delims s hs
      simp only [List.isEmpty_iff, hs, if_false]
      rw [ih _ _ (by omega), splitWords_customSplit delims s []]
      by_cases h1 : (CustomSplit delims s).1 = [] <;>
        by_cases h2 : (CustomSplit delims s).2.1 = [] <;> simp [h1, h2]

theorem allowed_not_delim :
    ∀ c ∈ allowedCharsForVariables, splitOperators.contains c = false := by
  decide

theorem allowed_ne_space : ∀ c ∈ allowedCharsForVariables, c ≠ ' ' := by
  decide

theorem splitWords_word (delims : List TCHAR) :
    ∀ (x w rest : FString), (∀ c ∈ x, delims.contains c = false) →
      splitWords delims (x ++ rest) w = splitWords delims rest (w ++ x) := by
  intro x
  induction x with
  | nil =>
    intro w rest _
    simp
  | cons c cs ih =>
    intro w rest h
    rw [List.cons_append, splitWords_cons_other delims c _ w (h c (List.mem_cons_self c cs)),
      ih (w ++ [c]) rest (fun d hd => h d (List.mem_cons_of_mem c hd))]
    simp

theorem splitWords_ident (x : FString) (hx : isIdentifier x = true) (rest : FString)
    (hrest : rest = [] ∨ ∃ d r, rest = d :: r ∧ splitOperators.contains d = true) :
    splitWords splitOperators (x ++ rest) [] = x :: splitWords splitOperators rest [] := by
  have hne : x.isEmpty = false := by
    cases x with
    | nil => exact absurd rfl (isIdentifier_ne_nil hx)
    | cons c cs => rfl
  rw [splitWords_word splitOperators x [] rest
    (fun c hc => allowed_not_delim c (isIdentifier_mem hx c hc)), List.nil_append]
  rcases hrest with h | ⟨d, r, h, hd⟩
  · subst h
    simp [splitWords, hne]
  · subst h
    rw [splitWords_cons_delim _ d r x hd, splitWords_cons_delim _ d r [] hd]
    simp [hne]

theorem splitWords_delim (d : Char) (hd : splitOperators.contains d = true) (rest : FString) :
    splitWords splitOperators (d :: rest) [] = [d] :: splitWords splitOperators rest [] := by
  rw [splitWords_cons_delim _ d rest [] hd]
  simp

theorem splitWords_compact (t : CondExpr) (hid : ∀ x ∈ t.idents, isIdentifier x = true) :
    ∀ rest : FString,
      (rest = [] ∨ ∃ d r, rest = d :: r ∧ splitOperators.contains d = true) →
      splitWords splitOperators (t.compact ++ rest) [] =
        t.rawToks ++ splitWords splitOperators rest [] := by
  induction t with
  | ident x =>
    intro rest hrest
    exact splitWords_ident x (hid x (by simp [CondExpr.idents])) rest hrest
  | notIdent x =>
    intro rest hrest
    show splitWords splitOperators ('!' :: (x ++ rest)) [] = _
    rw [splitWords_delim '!' (by decide),
      splitWords_ident x (hid x (by simp [CondExpr.idents])) rest hrest]
    rfl
  | notParen e ih =>
    intro rest hrest
    have e1 : e.notParen.compact ++ rest = '!' :: '(' :: (e.compact ++ (')' :: rest)) := by
      simp [CondExpr.compact]
    rw [e1, splitWords_delim '!' (by decide), splitWords_delim '(' (by decide),
      ih hid _ (Or.inr ⟨')', rest, rfl, by decide⟩), splitWords_delim ')' (by decide)]
    simp [CondExpr.rawToks]
  | paren e ih =>
    intro rest hrest
    have e1 : e.paren.compact ++ rest = '(' :: (e.compact ++ (')' :: rest)) := by
      simp [CondExpr.compact]
    rw [e1, splitWords_delim '(' (by decide),
      ih hid _ (Or.inr ⟨')', rest, rfl, by decide⟩), splitWords_delim ')' (by decide)]
    simp [CondExpr.rawToks]
  | and l r ihl ihr =>
    intro rest hrest
    have e1 : (l.and r).compact ++ rest = l.compact ++ ('&' :: '&' :: (r.compact ++ rest)) := by
      simp [CondExpr.compact]
    rw [e1, ihl (fun x hx => hid x (List.mem_append_left _ hx)) _
        (Or.inr ⟨'&', _, rfl, by decide⟩),
      splitWords_delim '&' (by decide), splitWords_delim '&' (by decide),
      ihr (fun x hx => hid x (List.mem_append_right _ hx)) rest hrest]
    simp [CondExpr.rawToks]
  | or l r ihl ihr =>
    intro rest hrest
    have e1 : (l.or r).compact ++ rest = l.compact ++ ('|' :: '|' :: (r.compact ++ rest)) := by
      simp [CondExpr.compact]
    rw [e1, ihl (fun x hx => hid x (List.mem_append_left _ hx)) _
        (Or.inr ⟨'|', _, rfl, by decide⟩),
      splitWords_delim '|' (by decide), splitWords_delim '|' (by decide),
      ihr (fun x hx => hid x (List.mem_append_right _ hx)) rest hrest]
    simp [CondExpr.rawToks]

theorem removeSpaces_ident (x : FString) (hx : isIdentifier x = true) :
    RemoveSpacesInline x = x := by
  unfold RemoveSpacesInline
  rw [List.filter_eq_self]
  intro c hc
  simpa using allowed_ne_space c (isIdentifier_mem hx c hc)

theorem removeSpaces_append (a b : FString) :
    RemoveSpacesInline (a ++ b) = RemoveSpacesInline a ++ RemoveSpacesInline b := by
  simp [RemoveSpacesInline]

theorem removeSpaces_render (t : CondExpr) (hid : ∀ x ∈ t.idents, isIdentifier x = true) :
    RemoveSpacesInline t.render = t.compact := by
  induction t with
  | ident x => exact removeSpaces_ident x (hid x (by simp [CondExpr.idents]))
  | notIdent x =>
    show RemoveSpacesInline (['!'] ++ x) = _
    rw [removeSpaces_append, removeSpaces_ident x (hid x (by simp [CondExpr.idents]))]
    rfl
  | notParen e ih =>
    show RemoveSpacesInline (['!', '('] ++ (e.render ++ [')'])) = _
    rw [removeSpaces_append, removeSpaces_append, ih hid]
    rfl
  | paren e ih =>
    show RemoveSpacesInline (['('] ++ (e.render ++ [')'])) = _
    rw [removeSpaces_append, removeSpaces_append, ih hid]
    rfl
  | and l r ihl ihr =>
    show RemoveSpacesInline (l.render ++ ([' ', '&', '&', ' '] ++ r.render)) = _
    rw [removeSpaces_append, removeSpaces_append,
      ihl (fun x hx => hid x (List.mem_append_left _ hx)),
      ihr (fun x hx => hid x (List.mem_append_right _ hx))]
    rfl
  | or l r ihl ihr =>
    show RemoveSpacesInline (l.render ++ ([' ', '|', '|', ' '] ++ r.render)) = _
    rw [removeSpaces_append, removeSpaces_append,
      ihl (fun x hx => hid x (List.mem_append_left _ hx)),
      ihr (fun x hx => hid x (List.mem_append_right _ hx))]
    rfl

theorem merge_eq_loop (tokens : List FString) :
    MergePrecedingTokens tokens mergeOperators = mergeLoop mergeOperators tokens [] [] := by
  cases tokens with
  | nil => rfl
  | cons t0 rest =>
    rw [mergeLoop]
    have h : mergeOperators.contains ([] : FString) = false := by decide
    simp only [h, Bool.false_and, Bool.false_eq_true, if_false, List.nil_append]
    rfl

theorem mergeLoop_other (tok : FString) (h : mergeOperators.contains tok = false)
    (rest merged : List FString) (cur : FString) :
    mergeLoop mergeOperators (tok :: rest) merged cur =
      mergeLoop mergeOperators rest (merged ++ [tok]) tok := by
  rw [mergeLoop]
  have hc : (mergeOperators.contains cur && cur == tok) = false := by
    by_cases hct : cur = tok
    · subst hct
      rw [h]
      rfl
    · simp [hct]
  simp only [hc, Bool.false_eq_true, if_false]

theorem appendToLast_append (merged : List FString) (l t : FString) :
    appendToLast (merged ++ [l]) t = merged ++ [l ++ t] := by
  simp [appendToLast]

theorem mergeLoop_pair (op : FString) (hop : mergeOperators.contains op = true)
    (rest merged : List FString) (cur : FString) (hcur : cur ≠ op) :
    mergeLoop mergeOperators (op :: op :: rest) merged cur =
      mergeLoop mergeOperators rest (merged ++ [op ++ op]) op := by
  rw [mergeLoop]
  have hc : (mergeOperators.contains cur && cur == op) = false := by simp [hcur]
  simp only [hc, Bool.false_eq_true, if_false]
  rw [mergeLoop]
  simp only [hop, beq_self_eq_true, Bool.and_self, if_true, appendToLast_append]

theorem isIdentifier_not_merge {x : FString} (hx : isIdentifier x = true) :
    mergeOperators.contains x = false := by
  have h1 : x ≠ ['&'] := isIdentifier_ne hx _ '&' (by simp) (by decide)
  have h2 : x ≠ ['|'] := isIdentifier_ne hx _ '|' (by simp) (by decide)
  simp [mergeOperators, h1, h2]

theorem lastTok_not_merge (t : CondExpr) (hid : ∀ x ∈ t.idents, isIdentifier x = true) :
    mergeOperators.contains t.lastTok = false := by
  induction t with
  | ident x => exact isIdentifier_not_merge (hid x (by simp [CondExpr.idents]))
  | notIdent x => exact isIdentifier_not_merge (hid x (by simp [CondExpr.idents]))
  | notParen e ih =>
    show mergeOperators.contains [')'] = false
    decide
  | paren e ih =>
    show mergeOperators.contains [')'] = false
    decide
  | and l r ihl ihr => exact ihr (fun x hx => hid x (List.mem_append_right _ hx))
  | or l r ihl ihr => exact ihr (fun x hx => hid x (List.mem_append_right _ hx))

theorem mergeLoop_rawToks (t : CondExpr) (hid : ∀ x ∈ t.idents, isIdentifier x = true) :
    ∀ (rest merged : List FString) (cur : FString),
      mergeLoop mergeOperators (t.rawToks ++ rest) merged cur =
        mergeLoop mergeOperators rest (merged ++ t.toks) t.lastTok := by
  induction t with
  | ident x =>
    intro rest merged cur
    exact mergeLoop_other x (isIdentifier_not_merge (hid x (by simp [CondExpr.idents]))) _ _ _
  | notIdent x =>
    intro rest merged cur
    show mergeLoop mergeOperators (['!'] :: x :: rest) merged cur = _
    rw [mergeLoop_other ['!'] (by decide),
      mergeLoop_other x (isIdentifier_not_merge (hid x (by simp [CondExpr.idents])))]
    simp [CondExpr.toks, CondExpr.lastTok]
  | notParen e ih =>
    intro rest merged cur
    have e1 : e.notParen.rawToks ++ rest = ['!'] :: ['('] :: (e.rawToks ++ ([')'] :: rest)) := by
      simp [CondExpr.rawToks]
    rw [e1, mergeLoop_other ['!'] (by decide), mergeLoop_other ['('] (by decide), ih hid,
      mergeLoop_other [')'] (by decide)]
    simp [CondExpr.toks, CondExpr.lastTok]
  | paren e ih =>
    intro rest merged cur
    have e1 : e.paren.rawToks ++ rest = ['('] :: (e.rawToks ++ ([')'] :: rest)) := by
      simp [CondExpr.rawToks]
    rw [e1, mergeLoop_other ['('] (by decide), ih hid, mergeLoop_other [')'] (by decide)]
    simp [CondExpr.toks, CondExpr.lastTok]
  | and l r ihl ihr =>
    intro rest merged cur
    have hl := lastTok_not_merge l (fun x hx => hid x (List.mem_append_left _ hx))
    have hne : l.lastTok ≠ ['&'] := by
      intro h
      rw [h] at hl
      revert hl
      decide
    have e1 : (l.and r).rawToks ++ rest =
        l.rawToks ++ (['&'] :: ['&'] :: (r.rawToks ++ rest)) := by
      simp [CondExpr.rawToks]
    rw [e1, ihl (fun x hx => hid x (List.mem_append_left _ hx)),
      mergeLoop_pair ['&'] (by decide) _ _ _ hne,
      ihr (fun x hx => hid x (List.mem_append_right _ hx))]
    simp [CondExpr.toks, CondExpr.lastTok]
  | or l r ihl ihr =>
    intro rest merged cur
    have hl := lastTok_not_merge l (fun x hx => hid x (List.mem_append_left _ hx))
    have hne : l.lastTok ≠ ['|'] := by
      intro h
      rw [h] at hl
      revert hl
      decide
    have e1 : (l.or r).rawToks ++ rest =
        l.rawToks ++ (['|'] :: ['|'] :: (r.rawToks ++ rest)) := by
      simp [CondExpr.rawToks]
    rw [e1, ihl (fun x hx => hid x (List.mem_append_left _ hx)),
      mergeLoop_pair ['|'] (by decide) _ _ _ hne,
      ihr (fun x hx => hid x (List.mem_append_right _ hx))]
    simp [CondExpr.toks, CondExpr.lastTok]

theorem tokenize_render (t : CondExpr) (hid : ∀ x ∈ t.idents, isIdentifier x = true) :
    TokenizeExpression t.render ['(', ')', '|', '&', '!'] [['&'], ['|']] = t.toks := by
  unfold TokenizeExpression
  simp only
  rw [removeSpaces_render t hid]
  have h1 := tokenizeLoop_eq splitOperators t.compact.length t.compact [] (le_refl _)
  have h2 := splitWords_compact t hid [] (Or.inl rfl)
  have h4 : splitWords splitOperators [] [] = [] := rfl
  rw [List.append_nil, h4, List.append_nil] at h2
  rw [List.nil_append, h2] at h1
  have h3 := mergeLoop_rawToks t hid [] [] []
  rw [List.append_nil, List.nil_append] at h3
  show MergePrecedingTokens (tokenizeLoop splitOperators t.compact.length t.compact [])
    mergeOperators = t.toks
  rw [h1, merge_eq_loop, h3]
  rfl

/-! ## The validation loop and the scan agree -/

theorem prevChar_succ (s : FString) (i : Nat) (c : Char) (h : s[i]? = some c) :
    prevChar s (i + 1) = some c := by
  simp [prevChar, h]

theorem prevChar_isSome (s : FString) (i : Nat) (hi : i ≤ s.length) :
    (prevChar s i).isSome = decide (0 < i) := by
  unfold prevChar
  by_cases h0 : i = 0
  · simp [h0]
  · have hlt : i - 1 < s.length := by omega
    simp [h0, List.getElem?_eq_getElem hlt, Nat.pos_of_ne_zero h0]

theorem prevChar_pos (s : FString) (i : Nat) (h0 : 0 < i) : prevChar s i = s[i - 1]? := by
  unfold prevChar
  simp [Nat.ne_of_gt h0]

theorem validateScan_cons (prev : Option TCHAR) (c : Char) (rest : FString) (bc : Int)
    (bL bN : Bool) :
    validateScan prev (c :: rest) bc bL bN =
      if c = '(' then validateScan (some c) rest (bc + 1) bL bN
      else if c = ')' then validateScan (some c) rest (bc - 1) bL bN
      else if c = '!' then
        if prev.isSome && prev != some ' ' && prev != some '(' then false
        else if rest.isEmpty || rest.head? == some '|' || rest.head? == some '&' then false
        else validateScan (some c) rest bc bL bN
      else if c = '|' ∨ c = '&' then
        if !bL then false
        else if prev.isSome && prev != some ' ' then false
        else
          match rest with
          | [] => false
          | c1 :: tl =>
            match tl with
            | [] => false
            | c2 :: _ =>
              if c1 = c then
                if c2 ≠ ' ' then false
                else validateScan (some c1) tl bc false true
              else false
      else if c = ' ' then validateScan (some c) rest bc bL bN
      else if !allowedCharsForVariables.contains c then false
      else validateScan (some c) rest bc true false := by
  rw [validateScan.eq_def]
  rfl

theorem validateLoop_eq_scan (s : FString) :
    ∀ (fuel i : Nat) (bc : Int) (bL bN : Bool), s.length ≤ i + fuel → i ≤ s.length →
      validateLoop s fuel i bc bL bN = validateScan (prevChar s i) (s.drop i) bc bL bN := by
  intro fuel
  induction fuel with
  | zero =>
    intro i bc bL bN h1 h2
    have hd : s.drop i = [] := List.drop_eq_nil_of_le (by omega)
    rw [hd]
    simp [validateLoop, validateScan]
  | succ fuel ih =>
    intro i bc bL bN h1 h2
    rw [validateLoop]
    cases hc : s[i]? with
    | none =>
      have hlen : s.length ≤ i := by
        by_contra hcon
        push_neg at hcon
        rw [List.getElem?_eq_getElem hcon] at hc
        cases hc
      have hd : s.drop i = [] := List.drop_eq_nil_of_le hlen
      rw [hd]
      simp [validateScan]
    | some c =>
      have hlt : i < s.length := by
        by_contra hcon
        push_neg at hcon
        rw [List.getElem?_eq_none hcon] at hc
        cases hc
      have hci : s[i] = c := by
        rw [List.getElem?_eq_getElem hlt] at hc
        exact Option.some.inj hc
      have hd : s.drop i = c :: s.drop (i + 1) := by
        rw [← hci]
        exact List.drop_eq_getElem_cons hlt
      have hp := prevChar_succ s i c hc
      have step : ∀ (bc1 : Int) (bL1 bN1 : Bool),
          validateLoop s fuel (i + 1) bc1 bL1 bN1 =
            validateScan (some c) (s.drop (i + 1)) bc1 bL1 bN1 := by
        intro bc1 bL1 bN1
        rw [ih (i + 1) bc1 bL1 bN1 (by omega) (by omega), hp]
      have hA : (decide (0 < i) && s[i - 1]? != some ' ' && s[i - 1]? != some '(') =
          ((prevChar s i).isSome && prevChar s i != some ' ' && prevChar s i != some '(') := by
        rw [prevChar_isSome s i h2]
        by_cases h0 : 0 < i
        · rw [prevChar_pos s i h0]
        · simp [h0]
      have hC : (i != 0 && s[i - 1]? != some ' ') =
          ((prevChar s i).isSome && prevChar s i != some ' ') := by
        rw [prevChar_isSome s i h2]
        by_cases h0 : 0 < i
        · rw [prevChar_pos s i h0]
          simp [Nat.ne_of_gt h0, h0]
        · simp [h0]
          omega
      have hB : (decide ((i : Int) > (s.length : Int) - 2) || s[i + 1]? == some '|' ||
          s[i + 1]? == some '&') =
          ((s.drop (i + 1)).isEmpty || (s.drop (i + 1)).head? == some '|' ||
            (s.drop (i + 1)).head? == some '&') := by
        have e1 : (s.drop (i + 1)).head? = s[i + 1]? := by
          rw [List.head?_drop]
        have e2 : (s.drop (i + 1)).isEmpty = decide ((i : Int) > (s.length : Int) - 2) := by
          rw [Bool.eq_iff_iff]
          simp only [List.isEmpty_iff, List.drop_eq_nil_iff, decide_eq_true_eq]
          omega
        rw [e1, e2]
      have hD : (if (decide ((i : Int) ≤ (s.length : Int) - 3) && s[i + 1]? == some c) = true then
            (if (s[i + 2]? != some ' ') = true then false
              else validateLoop s fuel (i + 2) bc false true)
          else false) =
          (match s.drop (i + 1) with
          | [] => false
          | c1 :: tl =>
            match tl with
            | [] => false
            | c2 :: _ =>
              if c1 = c then
                if c2 ≠ ' ' then false
                else validateScan (some c1) tl bc false true
              else false) := by
        have hlen : (s.drop (i + 1)).length = s.length - (i + 1) := List.length_drop _ _
        rcases hdd : s.drop (i + 1) with _ | ⟨c1, tl⟩
        · rw [hdd] at hlen
          have hf : decide ((i : Int) ≤ (s.length : Int) - 3) = false := by
            simp only [List.length_nil] at hlen
            simp only [decide_eq_false_iff_not]
            omega
          simp [hf]
        · have h1c : s[i + 1]? = some c1 := by
            rw [← List.head?_drop, hdd]
            rfl
          have htl : s.drop (i + 2) = tl := by
            have := List.drop_drop 1 (i + 1) s
            rw [hdd] at this
            simpa using this.symm
          rcases tl with _ | ⟨c2, r2⟩
          · rw [hdd] at hlen
            have hf : decide ((i : Int) ≤ (s.length : Int) - 3) = false := by
              simp only [List.length_cons, List.length_nil] at hlen
              simp only [decide_eq_false_iff_not]
              omega
            simp [hf]
          · rw [hdd] at hlen
            have ht : decide ((i : Int) ≤ (s.length : Int) - 3) = true := by
              simp only [List.length_cons] at hlen
              simp only [decide_eq_true_eq]
              omega
            have h2c : s[i + 2]? = some c2 := by
              rw [← List.head?_drop, htl]
              rfl
            have hp2 : prevChar s (i + 2) = some c1 := prevChar_succ s (i + 1) c1 h1c
            have hlen2 : i + 2 ≤ s.length := by
              simp only [List.length_cons] at hlen
              omega
            rw [ih (i + 2) bc false true (by omega) hlen2, hp2, htl]
            simp [ht, h1c, h2c]
      rw [hd, validateScan_cons]
      simp only [step, hA, hB, hC, hD]
      rfl

/-! ## Every expression of the grammar is accepted -/

theorem allowed_ne_specials :
    ∀ c ∈ allowedCharsForVariables,
      c ≠ '(' ∧ c ≠ ')' ∧ c ≠ '!' ∧ c ≠ '|' ∧ c ≠ '&' ∧ c ≠ ' ' := by
  decide

theorem validateScan_allowed (c : Char) (hc : c ∈ allowedCharsForVariables)
    (prev : Option TCHAR) (rest : FString) (bc : Int) (bL bN : Bool) :
    validateScan prev (c :: rest) bc bL bN = validateScan (some c) rest bc true false := by
  obtain ⟨h1, h2, h3, h4, h5, h6⟩ := allowed_ne_specials c hc
  have hcont : allowedCharsForVariables.contains c = true := by simpa using hc
  rw [validateScan_cons]
  simp [h1, h2, h3, h4, h5, h6, hc]

theorem validateScan_open (prev : Option TCHAR) (rest : FString) (bc : Int) (bL bN : Bool) :
    validateScan prev ('(' :: rest) bc bL bN = validateScan (some '(') rest (bc + 1) bL bN := by
  rw [validateScan_cons]
  simp

theorem validateScan_close (prev : Option TCHAR) (rest : FString) (bc : Int) (bL bN : Bool) :
    validateScan prev (')' :: rest) bc bL bN = validateScan (some ')') rest (bc - 1) bL bN := by
  rw [validateScan_cons]
  simp

theorem validateScan_bang (prev : Option TCHAR)
    (hprev : prev = none ∨ prev = some ' ' ∨ prev = some '(') (d : Char) (rest : FString)
    (hd1 : d ≠ '|') (hd2 : d ≠ '&') (bc : Int) (bL bN : Bool) :
    validateScan prev ('!' :: d :: rest) bc bL bN =
      validateScan (some '!') (d :: rest) bc bL bN := by
  rw [validateScan_cons]
  rcases hprev with h | h | h <;> subst h <;> simp [hd1, hd2]

theorem validateScan_andand (prev : Option TCHAR) (rest : FString) (bc : Int) (bN : Bool) :
    validateScan prev (' ' :: '&' :: '&' :: ' ' :: rest) bc true bN =
      validateScan (some ' ') rest bc false true := by
  rw [validateScan_cons]
  simp only [Char.reduceEq, if_false, if_true, or_false, or_true]
  rw [validateScan_cons]
  simp only [Char.reduceEq, if_false, if_true, or_false, or_true]
  simp
  rw [validateScan_cons]
  simp

theorem validateScan_oror (prev : Option TCHAR) (rest : FString) (bc : Int) (bN : Bool) :
    validateScan prev (' ' :: '|' :: '|' :: ' ' :: rest) bc true bN =
      validateScan (some ' ') rest bc false true := by
  rw [validateScan_cons]
  simp only [Char.reduceEq, if_false, if_true, or_false, or_true]
  rw [validateScan_cons]
  simp only [Char.reduceEq, if_false, if_true, or_false, or_true]
  simp
  rw [validateScan_cons]
  simp

theorem validateScan_ident (x : FString) (hne : x ≠ [])
    (hx : ∀ c ∈ x, c ∈ allowedCharsForVariables) :
    ∃ c, ∀ (prev : Option TCHAR) (rest : FString) (bc : Int) (bL bN : Bool),
      validateScan prev (x ++ rest) bc bL bN = validateScan (some c) rest bc true false := by
  induction x with
  | nil => exact absurd rfl hne
  | cons d ds ih =>
    by_cases hds : ds = []
    · subst hds
      exact ⟨d, fun prev rest bc bL bN =>
        validateScan_allowed d (hx d (List.mem_cons_self d [])) prev rest bc bL bN⟩
    · obtain ⟨c, hc⟩ := ih hds (fun e he => hx e (List.mem_cons_of_mem d he))
      refine ⟨c, fun prev rest bc bL bN => ?_⟩
      rw [List.cons_append, validateScan_allowed d (hx d (List.mem_cons_self d ds)), hc]

theorem validateScan_render (t : CondExpr) (hid : ∀ x ∈ t.idents, isIdentifier x = true) :
    ∃ c, ∀ (prev : Option TCHAR) (rest : FString) (bc : Int) (bL bN : Bool),
      (prev = none ∨ prev = some ' ' ∨ prev = some '(') →
      validateScan prev (t.render ++ rest) bc bL bN =
        validateScan (some c) rest bc true false := by
  induction t with
  | ident x =>
    have hx := hid x (by simp [CondExpr.idents])
    obtain ⟨c, hc⟩ := validateScan_ident x (isIdentifier_ne_nil hx) (isIdentifier_mem hx)
    exact ⟨c, fun prev rest bc bL bN _ => hc prev rest bc bL bN⟩
  | notIdent x =>
    have hx := hid x (by simp [CondExpr.idents])
    obtain ⟨c, hc⟩ := validateScan_ident x (isIdentifier_ne_nil hx) (isIdentifier_mem hx)
    refine ⟨c, fun prev rest bc bL bN hprev => ?_⟩
    cases x with
    | nil => exact absurd rfl (isIdentifier_ne_nil hx)
    | cons d ds =>
      obtain ⟨-, -, -, h4, h5, -⟩ :=
        allowed_ne_specials d (isIdentifier_mem hx d (List.mem_cons_self d ds))
      show validateScan prev ('!' :: d :: (ds ++ rest)) bc bL bN = _
      rw [validateScan_bang prev hprev d _ h4 h5]
      exact hc (some '!') rest bc bL bN
  | notParen e ih =>
    obtain ⟨c, hc⟩ := ih hid
    refine ⟨')', fun prev rest bc bL bN hprev => ?_⟩
    have e1 : e.notParen.render ++ rest = '!' :: '(' :: (e.render ++ (')' :: rest)) := by
      simp [CondExpr.render]
    rw [e1, validateScan_bang prev hprev '(' _ (by decide) (by decide), validateScan_open,
      hc (some '(') _ _ _ _ (Or.inr (Or.inr rfl)), validateScan_close]
    congr 1
    omega
  | paren e ih =>
    obtain ⟨c, hc⟩ := ih hid
    refine ⟨')', fun prev rest bc bL bN hprev => ?_⟩
    have e1 : e.paren.render ++ rest = '(' :: (e.render ++ (')' :: rest)) := by
      simp [CondExpr.render]
    rw [e1, validateScan_open, hc (some '(') _ _ _ _ (Or.inr (Or.inr rfl)), validateScan_close]
    congr 1
    omega
  | and l r ihl ihr =>
    obtain ⟨cl, hl⟩ := ihl (fun x hx => hid x (List.mem_append_left _ hx))
    obtain ⟨cr, hr⟩ := ihr (fun x hx => hid x (List.mem_append_right _ hx))
    refine ⟨cr, fun prev rest bc bL bN hprev => ?_⟩
    have e1 : (l.and r).render ++ rest =
        l.render ++ (' ' :: '&' :: '&' :: ' ' :: (r.render ++ rest)) := by
      simp [CondExpr.render]
    rw [e1, hl prev _ bc bL bN hprev, validateScan_andand,
      hr (some ' ') rest bc false true (Or.inr (Or.inl rfl))]
  | or l r ihl ihr =>
    obtain ⟨cl, hl⟩ := ihl (fun x hx => hid x (List.mem_append_left _ hx))
    obtain ⟨cr, hr⟩ := ihr (fun x hx => hid x (List.mem_append_right _ hx))
    refine ⟨cr, fun prev rest bc bL bN hprev => ?_⟩
    have e1 : (l.or r).render ++ rest =
        l.render ++ (' ' :: '|' :: '|' :: ' ' :: (r.render ++ rest)) := by
      simp [CondExpr.render]
    rw [e1, hl prev _ bc bL bN hprev, validateScan_oror,
      hr (some ' ') rest bc false true (Or.inr (Or.inl rfl))]

theorem validate_render (t : CondExpr) (hid : ∀ x ∈ t.idents, isIdentifier x = true) :
    ValidateConditionString t.render = true := by
  obtain ⟨c, hc⟩ := validateScan_render t hid
  unfold ValidateConditionString
  rw [validateLoop_eq_scan t.render t.render.length 0 0 false false (by omega) (by omega)]
  have h := hc none [] 0 false false (Or.inl rfl)
  rw [List.append_nil] at h
  have hp : prevChar t.render 0 = none := rfl
  rw [hp, List.drop_zero, h]
  rfl

/-! ## Compiling an expression of the grammar -/

theorem evaluateExpression_rpn (cb : CondValCB) (t : CondExpr)
    (hid : ∀ x ∈ t.idents, isIdentifier x = true ∧ cb x = true) :
    ∃ ev f, EvaluateExpression t.rpn cb = some (some ev) ∧
      ev.GetEvaluateFunction = some f ∧
      ∀ node σ, BoundBy node σ t.idents → f (some node) = some (t.value σ) := by
  obtain ⟨elem, f, hloop, hget, hval, hshape⟩ := evaluateLoop_rpn cb t hid
  rcases hshape with ⟨x, hx, hr⟩ | ⟨e, he, hlen⟩
  · subst hx
    refine ⟨FExpressionEvaluator.mk [] (some (binaryClosure f (fun _ => some false) false)),
      binaryClosure f (fun _ => some false) false, ?_, rfl, ?_⟩
    · rw [hr]
      simp [EvaluateExpression, hget, FExpressionEvaluator.ofBinary]
    · intro node σ hb
      simp [binaryClosure, hval node σ hb]
  · subst he
    refine ⟨e, f, ?_, hget, hval⟩
    have h := hloop [] []
    rw [List.append_nil] at h
    rcases hrpn : t.rpn with _ | ⟨a, _ | ⟨b, rest⟩⟩
    · rw [hrpn] at hlen
      simp at hlen
    · rw [hrpn] at hlen
      simp at hlen
    · rw [hrpn] at h
      simp only [EvaluateExpression]
      rw [h]
      simp [evaluateLoop]

theorem compile_canonical (t : CondExpr) (cb : CondValCB) (hc : t.canonical = true)
    (hid : ∀ x ∈ t.idents, isIdentifier x = true ∧ cb x = true) :
    ∃ ev f, CompileConditionString t.render cb = some (some ev) ∧
      ev.GetEvaluateFunction = some f ∧
      ∀ node σ, BoundBy node σ t.idents → f (some node) = some (t.value σ) := by
  obtain ⟨ev, f, hev, hf, hval⟩ := evaluateExpression_rpn cb t hid
  refine ⟨ev, f, ?_, hf, hval⟩
  have hid1 : ∀ x ∈ t.idents, isIdentifier x = true := fun x hx => (hid x hx).1
  unfold CompileConditionString
  rw [validate_render t hid1]
  simp only [if_true]
  rw [tokenize_render t hid1, transform_toks t hc hid1]
  exact hev

/-! ## The parse that follows precedence and associativity -/

theorem render_mkOr (l r : CondExpr) :
    (CondExpr.mkOr l r).render = l.render ++ ([' ', '|', '|', ' '] ++ r.render) := by
  induction r with
  | or c d ihc ihd => simp [CondExpr.mkOr, CondExpr.render, ihc]
  | ident x => rfl
  | notIdent x => rfl
  | notParen e ih => rfl
  | paren e ih => rfl
  | and c d ihc ihd => rfl

theorem render_mkAndRight (l r : CondExpr) :
    (CondExpr.mkAndRight l r).render = l.render ++ ([' ', '&', '&', ' '] ++ r.render) := by
  induction r with
  | or c d ihc ihd => simp [CondExpr.mkAndRight, CondExpr.render, ihc]
  | and c d ihc ihd => simp [CondExpr.mkAndRight, CondExpr.render, ihc]
  | ident x => rfl
  | notIdent x => rfl
  | notParen e ih => rfl
  | paren e ih => rfl

theorem render_mkAnd (l r : CondExpr) :
    (CondExpr.mkAnd l r).render = l.render ++ ([' ', '&', '&', ' '] ++ r.render) := by
  induction l with
  | or a b iha ihb => simp [CondExpr.mkAnd, CondExpr.render, render_mkOr, ihb]
  | ident x => exact render_mkAndRight _ r
  | notIdent x => exact render_mkAndRight _ r
  | notParen e ih => exact render_mkAndRight _ r
  | paren e ih => exact render_mkAndRight _ r
  | and c d ihc ihd => exact render_mkAndRight _ r

theorem render_parse (t : CondExpr) : t.parse.render = t.render := by
  induction t with
  | ident x => rfl
  | notIdent x => rfl
  | notParen e ih => simp [CondExpr.parse, CondExpr.render, ih]
  | paren e ih => simp [CondExpr.parse, CondExpr.render, ih]
  | and l r ihl ihr => simp [CondExpr.parse, CondExpr.render, render_mkAnd, ihl, ihr]
  | or l r ihl ihr => simp [CondExpr.parse, CondExpr.render, render_mkOr, ihl, ihr]

theorem idents_mkOr (l r : CondExpr) : (CondExpr.mkOr l r).idents = l.idents ++ r.idents := by
  induction r with
  | or c d ihc ihd => simp [CondExpr.mkOr, CondExpr.idents, ihc]
  | ident x => rfl
  | notIdent x => rfl
  | notParen e ih => rfl
  | paren e ih => rfl
  | and c d ihc ihd => rfl

theorem idents_mkAndRight (l r : CondExpr) :
    (CondExpr.mkAndRight l r).idents = l.idents ++ r.idents := by
  induction r with
  | or c d ihc ihd => simp [CondExpr.mkAndRight, CondExpr.idents, ihc]
  | and c d ihc ihd => simp [CondExpr.mkAndRight, CondExpr.idents, ihc]
  | ident x => rfl
  | notIdent x => rfl
  | notParen e ih => rfl
  | paren e ih => rfl

theorem idents_mkAnd (l r : CondExpr) : (CondExpr.mkAnd l r).idents = l.idents ++ r.idents := by
  induction l with
  | or a b iha ihb => simp [CondExpr.mkAnd, CondExpr.idents, idents_mkOr, ihb]
  | ident x => exact idents_mkAndRight _ r
  | notIdent x => exact idents_mkAndRight _ r
  | notParen e ih => exact idents_mkAndRight _ r
  | paren e ih => exact idents_mkAndRight _ r
  | and c d ihc ihd => exact idents_mkAndRight _ r

theorem idents_parse (t : CondExpr) : t.parse.idents = t.idents := by
  induction t with
  | ident x => rfl
  | notIdent x => rfl
  | notParen e ih => simpa [CondExpr.parse, CondExpr.idents] using ih
  | paren e ih => simpa [CondExpr.parse, CondExpr.idents] using ih
  | and l r ihl ihr => simp [CondExpr.parse, CondExpr.idents, idents_mkAnd, ihl, ihr]
  | or l r ihl ihr => simp [CondExpr.parse, CondExpr.idents, idents_mkOr, ihl, ihr]

theorem canonical_mkOr (l r : CondExpr) (hl : l.canonical = true) (hr : r.canonical = true) :
    (CondExpr.mkOr l r).canonical = true := by
  induction r with
  | or c d ihc ihd =>
    simp only [CondExpr.canonical, Bool.and_eq_true, decide_eq_true_eq] at hr
    simp only [CondExpr.mkOr, CondExpr.canonical, Bool.and_eq_true, decide_eq_true_eq]
    exact ⟨⟨ihc hr.1.1, hr.1.2⟩, hr.2⟩
  | ident x => simp [CondExpr.mkOr, CondExpr.canonical, CondExpr.level, hl]
  | notIdent x => simp [CondExpr.mkOr, CondExpr.canonical, CondExpr.level, hl]
  | notParen e ih =>
    simp only [CondExpr.canonical] at hr
    simp [CondExpr.mkOr, CondExpr.canonical, CondExpr.level, hl, hr]
  | paren e ih =>
    simp only [CondExpr.canonical] at hr
    simp [CondExpr.mkOr, CondExpr.canonical, CondExpr.level, hl, hr]
  | and c d ihc ihd =>
    simp only [CondExpr.mkOr, CondExpr.canonical, Bool.and_eq_true, decide_eq_true_eq] at hr ⊢
    exact ⟨⟨hl, hr⟩, by simp [CondExpr.level]⟩

theorem canonical_and (l r : CondExpr) (hl : l.canonical = true) (hll : 1 ≤ l.level)
    (hr : r.canonical = true) (hlr : 2 ≤ r.level) : (CondExpr.and l r).canonical = true := by
  simp only [CondExpr.canonical, Bool.and_eq_true, decide_eq_true_eq]
  exact ⟨⟨⟨hl, hr⟩, hll⟩, hlr⟩

theorem canonical_mkAndRight (l r : CondExpr) (hl : l.canonical = true) (hll : 1 ≤ l.level)
    (hr : r.canonical = true) :
    (CondExpr.mkAndRight l r).canonical = true ∧
      (1 ≤ r.level → 1 ≤ (CondExpr.mkAndRight l r).level) := by
  induction r with
  | or c d ihc ihd =>
    simp only [CondExpr.canonical, Bool.and_eq_true, decide_eq_true_eq] at hr
    refine ⟨?_, fun h => by simp [CondExpr.level] at h⟩
    simp only [CondExpr.mkAndRight, CondExpr.canonical, Bool.and_eq_true, decide_eq_true_eq]
    exact ⟨⟨(ihc hr.1.1).1, hr.1.2⟩, hr.2⟩
  | and c d ihc ihd =>
    simp only [CondExpr.canonical, Bool.and_eq_true, decide_eq_true_eq] at hr
    refine ⟨?_, fun _ => by simp [CondExpr.mkAndRight, CondExpr.level]⟩
    simp only [CondExpr.mkAndRight, CondExpr.canonical, Bool.and_eq_true, decide_eq_true_eq]
    exact ⟨⟨⟨(ihc hr.1.1.1).1, hr.1.1.2⟩, (ihc hr.1.1.1).2 hr.1.2⟩, hr.2⟩
  | ident x =>
    exact ⟨canonical_and l _ hl hll hr (le_refl 2),
      fun _ => by simp [CondExpr.mkAndRight, CondExpr.level]⟩
  | notIdent x =>
    exact ⟨canonical_and l _ hl hll hr (le_refl 2),
      fun _ => by simp [CondExpr.mkAndRight, CondExpr.level]⟩
  | notParen e ih =>
    exact ⟨canonical_and l _ hl hll hr (le_refl 2),
      fun _ => by simp [CondExpr.mkAndRight, CondExpr.level]⟩
  | paren e ih =>
    exact ⟨canonical_and l _ hl hll hr (le_refl 2),
      fun _ => by simp [CondExpr.mkAndRight, CondExpr.level]⟩

theorem canonical_mkAnd (l r : CondExpr) (hl : l.canonical = true) (hr : r.canonical = true) :
    (CondExpr.mkAnd l r).canonical = true := by
  induction l with
  | or a b iha ihb =>
    simp only [CondExpr.canonical, Bool.and_eq_true, decide_eq_true_eq] at hl
    exact canonical_mkOr a _ hl.1.1 (ihb hl.1.2)
  | ident x => exact (canonical_mkAndRight _ r hl (by simp [CondExpr.level]) hr).1
  | notIdent x => exact (canonical_mkAndRight _ r hl (by simp [CondExpr.level]) hr).1
  | notParen e ih => exact (canonical_mkAndRight _ r hl (by simp [CondExpr.level]) hr).1
  | paren e ih => exact (canonical_mkAndRight _ r hl (by simp [CondExpr.level]) hr).1
  | and c d ihc ihd => exact (canonical_mkAndRight _ r hl (by simp [CondExpr.level]) hr).1

theorem canonical_parse (t : CondExpr) : t.parse.canonical = true := by
  induction t with
  | ident x => rfl
  | notIdent x => rfl
  | notParen e ih => simpa [CondExpr.parse, CondExpr.canonical] using ih
  | paren e ih => simpa [CondExpr.parse, CondExpr.canonical] using ih
  | and l r ihl ihr => exact canonical_mkAnd _ _ ihl ihr
  | or l r ihl ihr => exact canonical_mkOr _ _ ihl ihr

/-! ## The claims on compiled expressions -/

/-- C1: for every expression `t` of the grammar
`E ::= id | !id | !(E) | (E) | E && E | E || E` whose identifiers are non-empty
runs of `[A-Za-z0-9]` accepted by the name-validation callback,
`CompileConditionString` returns an evaluator.  On every node that binds the
identifiers to bound conditions with truth values `σ`, the evaluator returns
the value of `t.parse`, which is a derivation of the same string with the same
identifiers that follows the precedences `!` over `&&` over `||` and left
associativity (it is canonical); and it returns the value of every canonical
derivation `t1` of that string. -/
theorem C1_compile_grammar_expression (t : CondExpr) (condNameValidation : CondValCB)
    (hid : ∀ x ∈ t.idents, isIdentifier x = true ∧ condNameValidation x = true) :
    ∃ ev f, CompileConditionString t.render condNameValidation = some (some ev) ∧
      ev.GetEvaluateFunction = some f ∧
      (∀ (node : UDSMDefaultNode) (σ : FName → Bool), BoundBy node σ t.idents →
        f (some node) = some (t.parse.value σ)) ∧
      t.parse.render = t.render ∧ t.parse.idents = t.idents ∧ t.parse.canonical = true ∧
      (∀ t1 : CondExpr, t1.canonical = true → t1.render = t.render →
        (∀ x ∈ t1.idents, isIdentifier x = true ∧ condNameValidation x = true) →
        ∀ (node : UDSMDefaultNode) (σ : FName → Bool), BoundBy node σ t1.idents →
          f (some node) = some (t1.value σ)) := by
  obtain ⟨ev, f, hev, hf, hval⟩ := compile_canonical t.parse condNameValidation
    (canonical_parse t) (by rw [idents_parse]; exact hid)
  rw [render_parse] at hev
  rw [idents_parse] at hval
  refine ⟨ev, f, hev, hf, hval, render_parse t, idents_parse t, canonical_parse t, ?_⟩
  intro t1 hc1 hr1 hid1 node σ hb
  obtain ⟨ev1, f1, hev1, hf1, hval1⟩ := compile_canonical t1 condNameValidation hc1 hid1
  rw [hr1, hev] at hev1
  have hee : ev = ev1 := Option.some.inj (Option.some.inj hev1)
  subst hee
  rw [hf] at hf1
  have hff : f = f1 := Option.some.inj hf1
  subst hff
  exact hval1 node σ hb

/-- C1 at the derivation tree `and (or a b) (notParen (or c a))`, whose string is
`a || b && !(c || a)`, with every name accepted: the evaluator returns
`a || (b && !(c || a))`. -/
theorem C1_compile_grammar_expression_witness :
    (∀ x ∈ (CondExpr.and (CondExpr.or (CondExpr.ident ['a']) (CondExpr.ident ['b']))
        (CondExpr.notParen (CondExpr.or (CondExpr.ident ['c']) (CondExpr.ident ['a'])))).idents,
      isIdentifier x = true ∧ (fun _ => true) x = true) ∧
    ∃ ev f, CompileConditionString
        ['a', ' ', '|', '|', ' ', 'b', ' ', '&', '&', ' ', '!', '(', 'c', ' ', '|', '|', ' ',
          'a', ')'] (fun _ => true) = some (some ev) ∧
      ev.GetEvaluateFunction = some f ∧
      ∀ (node : UDSMDefaultNode) (σ : FName → Bool),
        BoundBy node σ [['a'], ['b'], ['c'], ['a']] →
        f (some node) = some (σ ['a'] || (σ ['b'] && !(σ ['c'] || σ ['a']))) := by
  have hid : ∀ x ∈ (CondExpr.and (CondExpr.or (CondExpr.ident ['a']) (CondExpr.ident ['b']))
      (CondExpr.notParen (CondExpr.or (CondExpr.ident ['c']) (CondExpr.ident ['a'])))).idents,
      isIdentifier x = true ∧ (fun _ => true) x = true := by
    decide
  obtain ⟨ev, f, hev, hf, hval, -⟩ := C1_compile_grammar_expression _ (fun _ => true) hid
  exact ⟨hid, ev, f, hev, hf, hval⟩

/-- C2: for identifiers `a`, `b`, `c` accepted by the callback, the compiled
group `a || b && c` evaluates to `a OR (b AND c)` and the compiled group
`(a || b) && c` evaluates to `(a OR b) AND c`, on every node that binds the
three names to bound conditions with truth values `σ`. -/
theorem C2_precedence_and_brackets (a b c : FString) (condNameValidation : CondValCB)
    (ha : isIdentifier a = true ∧ condNameValidation a = true)
    (hb : isIdentifier b = true ∧ condNameValidation b = true)
    (hc : isIdentifier c = true ∧ condNameValidation c = true) :
    (∃ ev f, CompileConditionString
        (a ++ ([' ', '|', '|', ' '] ++ (b ++ ([' ', '&', '&', ' '] ++ c))))
        condNameValidation = some (some ev) ∧
      ev.GetEvaluateFunction = some f ∧
      ∀ (node : UDSMDefaultNode) (σ : FName → Bool), BoundBy node σ [a, b, c] →
        f (some node) = some (σ a || (σ b && σ c))) ∧
    (∃ ev f, CompileConditionString
        ('(' :: ((a ++ ([' ', '|', '|', ' '] ++ b)) ++ [')']) ++ ([' ', '&', '&', ' '] ++ c))
        condNameValidation = some (some ev) ∧
      ev.GetEvaluateFunction = some f ∧
      ∀ (node : UDSMDefaultNode) (σ : FName → Bool), BoundBy node σ [a, b, c] →
        f (some node) = some ((σ a || σ b) && σ c)) := by
  have hid : ∀ x ∈ [a, b, c], isIdentifier x = true ∧ condNameValidation x = true := by
    intro x hx
    simp only [List.mem_cons, List.mem_singleton, List.not_mem_nil, or_false] at hx
    rcases hx with h | h | h <;> subst h <;> assumption
  exact ⟨compile_canonical
      (CondExpr.or (CondExpr.ident a) (CondExpr.and (CondExpr.ident b) (CondExpr.ident c)))
      condNameValidation rfl hid,
    compile_canonical
      (CondExpr.and (CondExpr.paren (CondExpr.or (CondExpr.ident a) (CondExpr.ident b)))
        (CondExpr.ident c))
      condNameValidation rfl hid⟩

/-- C2 on the node of the condition test, with the always-true and always-false
conditions: `true || false && false` evaluates to true and
`(true || false) && false` evaluates to false. -/
theorem C2_precedence_and_brackets_witness :
    (∃ ev f, CompileConditionString
        ['t', 'r', 'u', 'e', ' ', '|', '|', ' ', 'f', 'a', 'l', 's', 'e', ' ', '&', '&', ' ',
          'f', 'a', 'l', 's', 'e'] conditionTestNode.ValidateConditionName = some (some ev) ∧
      ev.GetEvaluateFunction = some f ∧ f (some conditionTestNode) = some true) ∧
    (∃ ev f, CompileConditionString
        ['(', 't', 'r', 'u', 'e', ' ', '|', '|', ' ', 'f', 'a', 'l', 's', 'e', ')', ' ', '&',
          '&', ' ', 'f', 'a', 'l', 's', 'e'] conditionTestNode.ValidateConditionName =
        some (some ev) ∧
      ev.GetEvaluateFunction = some f ∧ f (some conditionTestNode) = some false) := by
  have hb : BoundBy conditionTestNode (fun x => decide (x = ['t', 'r', 'u', 'e']))
      [['t', 'r', 'u', 'e'], ['f', 'a', 'l', 's', 'e'], ['f', 'a', 'l', 's', 'e']] := by
    intro x hx
    simp only [List.mem_cons, List.mem_singleton, List.not_mem_nil, or_false] at hx
    rcases hx with h | h | h <;> subst h
    · exact ⟨UDSMConditionTrue, rfl, rfl, rfl⟩
    · exact ⟨UDSMConditionFalse, rfl, rfl, rfl⟩
    · exact ⟨UDSMConditionFalse, rfl, rfl, rfl⟩
  obtain ⟨⟨ev1, f1, h1, hf1, hv1⟩, ⟨ev2, f2, h2, hf2, hv2⟩⟩ :=
    C2_precedence_and_brackets ['t', 'r', 'u', 'e'] ['f', 'a', 'l', 's', 'e']
      ['f', 'a', 'l', 's', 'e'] conditionTestNode.ValidateConditionName
      ⟨by decide, by decide⟩ ⟨by decide, by decide⟩ ⟨by decide, by decide⟩
  exact ⟨⟨ev1, f1, h1, hf1, hv1 conditionTestNode _ hb⟩,
    ⟨ev2, f2, h2, hf2, hv2 conditionTestNode _ hb⟩⟩

/-- C3: for every identifier `x` accepted by the callback, compiling the group
`x` gives an evaluator that returns exactly the `Evaluate` value of the bound
condition the node stores under `x`, and compiling `!x` gives an evaluator that
returns its negation. -/
theorem C3_single_identifier_and_negation (x : FString) (condNameValidation : CondValCB)
    (hx : isIdentifier x = true) (hcb : condNameValidation x = true) :
    (∃ ev f, CompileConditionString x condNameValidation = some (some ev) ∧
      ev.GetEvaluateFunction = some f ∧
      ∀ (node : UDSMDefaultNode) (condition : UDSMConditionBase),
        node._ConditionDefinitions.lookup x = some (some condition) →
        condition.bIsBound = true → f (some node) = some condition.Evaluate) ∧
    (∃ ev f, CompileConditionString ('!' :: x) condNameValidation = some (some ev) ∧
      ev.GetEvaluateFunction = some f ∧
      ∀ (node : UDSMDefaultNode) (condition : UDSMConditionBase),
        node._ConditionDefinitions.lookup x = some (some condition) →
        condition.bIsBound = true → f (some node) = some (!condition.Evaluate)) := by
  have hid : ∀ y ∈ [x], isIdentifier y = true ∧ condNameValidation y = true := by
    intro y hy
    rw [List.mem_singleton.mp hy]
    exact ⟨hx, hcb⟩
  have hbound : ∀ (node : UDSMDefaultNode) (condition : UDSMConditionBase),
      node._ConditionDefinitions.lookup x = some (some condition) →
      condition.bIsBound = true → BoundBy node (fun _ => condition.Evaluate) [x] := by
    intro node condition hl hb y hy
    rw [List.mem_singleton.mp hy]
    exact ⟨condition, hl, hb, rfl⟩
  obtain ⟨ev1, f1, h1, hf1, hv1⟩ := compile_canonical (CondExpr.ident x) condNameValidation rfl hid
  obtain ⟨ev2, f2, h2, hf2, hv2⟩ :=
    compile_canonical (CondExpr.notIdent x) condNameValidation rfl hid
  exact ⟨⟨ev1, f1, h1, hf1, fun node condition hl hb => hv1 node _ (hbound node condition hl hb)⟩,
    ⟨ev2, f2, h2, hf2, fun node condition hl hb => hv2 node _ (hbound node condition hl hb)⟩⟩

/-- C3 on the node of the condition test: `true` is true, `false` is false and
`!true` is false. -/
theorem C3_single_identifier_and_negation_witness :
    (∃ ev f, CompileConditionString ['t', 'r', 'u', 'e']
        conditionTestNode.ValidateConditionName = some (some ev) ∧
      ev.GetEvaluateFunction = some f ∧ f (some conditionTestNode) = some true) ∧
    (∃ ev f, CompileConditionString ['f', 'a', 'l', 's', 'e']
        conditionTestNode.ValidateConditionName = some (some ev) ∧
      ev.GetEvaluateFunction = some f ∧ f (some conditionTestNode) = some false) ∧
    (∃ ev f, CompileConditionString ['!', 't', 'r', 'u', 'e']
        conditionTestNode.ValidateConditionName = some (some ev) ∧
      ev.GetEvaluateFunction = some f ∧ f (some conditionTestNode) = some false) := by
  obtain ⟨⟨ev1, f1, h1, hf1, hv1⟩, ⟨ev2, f2, h2, hf2, hv2⟩⟩ :=
    C3_single_identifier_and_negation ['t', 'r', 'u', 'e']
      conditionTestNode.ValidateConditionName (by decide) (by decide)
  obtain ⟨⟨ev3, f3, h3, hf3, hv3⟩, -⟩ :=
    C3_single_identifier_and_negation ['f', 'a', 'l', 's', 'e']
      conditionTestNode.ValidateConditionName (by decide) (by decide)
  exact ⟨⟨ev1, f1, h1, hf1, hv1 conditionTestNode UDSMConditionTrue rfl rfl⟩,
    ⟨ev3, f3, h3, hf3, hv3 conditionTestNode UDSMConditionFalse rfl rfl⟩,
    ⟨ev2, f2, h2, hf2, hv2 conditionTestNode UDSMConditionTrue rfl rfl⟩⟩

/-! ## Identifiers rejected by the callback -/

theorem unwindToParen_mem :
    ∀ (ops res o r : List FString), unwindToParen ops res = some (o, r) →
      ∀ x ∈ res, x ∈ r := by
  intro ops
  induction ops with
  | nil =>
    intro res o r h
    simp [unwindToParen] at h
  | cons op ops ih =>
    intro res o r h x hx
    rw [unwindToParen] at h
    split_ifs at h with h1
    · simp only [Option.some.injEq, Prod.mk.injEq] at h
      rw [← h.2]
      exact hx
    · exact ih _ _ _ h x (List.mem_append_left _ hx)

theorem unwindByPrecedence_mem (token : FString) :
    ∀ (ops res o r : List FString),
      unwindByPrecedence operatorPrecedenceTable token ops res = some (o, r) →
      ∀ x ∈ res, x ∈ r := by
  intro ops
  induction ops with
  | nil =>
    intro res o r h x hx
    simp only [unwindByPrecedence, Option.some.injEq, Prod.mk.injEq] at h
    rw [← h.2]
    exact hx
  | cons op ops ih =>
    intro res o r h x hx
    rw [unwindByPrecedence] at h
    split_ifs at h with h1
    · simp only [Option.some.injEq, Prod.mk.injEq] at h
      rw [← h.2]
      exact hx
    · split at h
      · split_ifs at h with h2
        · exact ih _ _ _ h x (List.mem_append_left _ hx)
        · simp only [Option.some.injEq, Prod.mk.injEq] at h
          rw [← h.2]
          exact hx
      · cases h

theorem rpoLoop_mem :
    ∀ (tokens ops res o r : List FString),
      rpoLoop operatorPrecedenceTable tokens ops res = some (o, r) →
      (∀ x ∈ res, x ∈ r) ∧ (∀ x ∈ tokens, isIdentifier x = true → x ∈ r) := by
  intro tokens
  induction tokens with
  | nil =>
    intro ops res o r h
    simp only [rpoLoop, Option.some.injEq, Prod.mk.injEq] at h
    rw [← h.2]
    exact ⟨fun x hx => hx, fun x hx => absurd hx (List.not_mem_nil x)⟩
  | cons token rest ih =>
    intro ops res o r h
    rw [rpoLoop] at h
    split_ifs at h with h1 h2 h3
    · obtain ⟨ha, hb⟩ := ih _ _ _ _ h
      refine ⟨ha, fun x hx hid => ?_⟩
      rcases List.mem_cons.mp hx with hxt | hxr
      · exact absurd (hxt.trans h1) (isIdentifier_ne_open hid)
      · exact hb x hxr hid
    · cases hu : unwindToParen ops res with
      | none => simp [hu] at h
      | some st =>
        rw [hu] at h
        obtain ⟨ha, hb⟩ := ih _ _ _ _ h
        refine ⟨fun x hx => ha x (unwindToParen_mem ops res st.1 st.2 hu x hx),
          fun x hx hid => ?_⟩
        rcases List.mem_cons.mp hx with hxt | hxr
        · exact absurd (hxt.trans h2) (isIdentifier_ne_close hid)
        · exact hb x hxr hid
    · cases hu : unwindByPrecedence operatorPrecedenceTable token ops res with
      | none => simp [hu] at h
      | some st =>
        rw [hu] at h
        obtain ⟨ha, hb⟩ := ih _ _ _ _ h
        refine ⟨fun x hx => ha x (unwindByPrecedence_mem token ops res st.1 st.2 hu x hx),
          fun x hx hid => ?_⟩
        rcases List.mem_cons.mp hx with hxt | hxr
        · subst hxt
          exfalso
          revert h3
          simp [operatorPrecedenceTable, isIdentifier_ne_bang hid, isIdentifier_ne_andand hid,
            isIdentifier_ne_oror hid]
        · exact hb x hxr hid
    · obtain ⟨ha, hb⟩ := ih _ _ _ _ h
      refine ⟨fun x hx => ha x (List.mem_append_left _ hx), fun x hx hid => ?_⟩
      rcases List.mem_cons.mp hx with hxt | hxr
      · subst hxt
        exact ha x (List.mem_append_right _ (List.mem_singleton.mpr rfl))
      · exact hb x hxr hid

theorem transform_mem (tokens out : List FString)
    (h : TransformExpressionToReversePolishOrder tokens operatorPrecedenceTable = some out) :
    ∀ x ∈ tokens, isIdentifier x = true → x ∈ out := by
  unfold TransformExpressionToReversePolishOrder at h
  cases hl : rpoLoop operatorPrecedenceTable tokens [] [] with
  | none => simp [hl] at h
  | some st =>
    rw [hl] at h
    simp only [Option.some.injEq] at h
    intro x hx hid
    rw [← h]
    exact List.mem_append_left _ ((rpoLoop_mem tokens [] [] st.1 st.2 hl).2 x hx hid)

theorem getConditionByName_str_some {x : FString} {cb : CondValCB} {f : EvalFn}
    (h : GetConditionByName (StackElem.str x) cb = some f) : cb x = true := by
  simp only [GetConditionByName] at h
  split_ifs at h with h1
  have h2 : ¬x = [] ∧ cb x = true := by simpa using h1
  exact h2.2

theorem mem_unresolved_cons {x : FString} {e : StackElem} {stack : List StackElem}
    (h : x ∈ unresolvedNames (e :: stack)) :
    e = StackElem.str x ∨ x ∈ unresolvedNames stack := by
  cases e with
  | str s =>
    simp only [unresolvedNames, List.mem_cons] at h
    rcases h with h | h
    · exact Or.inl (by rw [h])
    · exact Or.inr h
  | eval ev => exact Or.inr h

theorem evaluateLoop_cons (cb : CondValCB) (token : FString) (rest : List FString)
    (evaluationStack : List StackElem) :
    evaluateLoop cb (token :: rest) evaluationStack =
      if token = ['!'] then
        match evaluationStack with
        | [] => some none
        | top :: stack1 =>
          match GetConditionByName top cb with
          | none => some none
          | some f =>
            match FExpressionEvaluator.ofNegate (some f) with
            | none => none
            | some evaluator => evaluateLoop cb rest (StackElem.eval evaluator :: stack1)
      else if token = ['|', '|'] ∨ token = ['&', '&'] then
        match evaluationStack with
        | e0 :: e1 :: stack2 =>
          match GetConditionByName e0 cb with
          | none => some none
          | some cb0 =>
            match GetConditionByName e1 cb with
            | none => some none
            | some cb1 =>
              match FExpressionEvaluator.ofBinary (some cb1) (some cb0)
                  (decide (token = ['&', '&'])) with
              | none => none
              | some evaluator => evaluateLoop cb rest (StackElem.eval evaluator :: stack2)
        | _ => some none
      else evaluateLoop cb rest (StackElem.str token :: evaluationStack) := by
  rw [evaluateLoop.eq_def]

/-- Every name that was on the stack or among the tokens is, after the loop,
still unresolved on the stack or was accepted by the callback. -/
theorem evaluateLoop_checked (cb : CondValCB) :
    ∀ (tokens : List FString) (stack final : List StackElem),
      evaluateLoop cb tokens stack = some (some final) →
      ∀ x, (x ∈ unresolvedNames stack ∨ (x ∈ tokens ∧ isIdentifier x = true)) →
        (x ∈ unresolvedNames final ∨ cb x = true) := by
  intro tokens
  induction tokens with
  | nil =>
    intro stack final h x hx
    simp only [evaluateLoop, Option.some.injEq] at h
    rcases hx with hx | ⟨hx, -⟩
    · exact Or.inl (h ▸ hx)
    · exact absurd hx (List.not_mem_nil x)
  | cons token rest ih =>
    intro stack final h x hx
    have hrest : (x ∈ token :: rest ∧ isIdentifier x = true) → token ≠ x →
        (x ∈ rest ∧ isIdentifier x = true) := by
      rintro ⟨hm, hid⟩ hne
      rcases List.mem_cons.mp hm with h1 | h1
      · exact absurd h1.symm hne
      · exact ⟨h1, hid⟩
    rw [evaluateLoop_cons] at h
    split_ifs at h with h1 h2
    · -- the token is "!"
      cases stack with
      | nil => simp at h
      | cons top stack1 =>
        simp only at h
        cases hg : GetConditionByName top cb with
        | none => simp [hg] at h
        | some f =>
          simp only [hg, FExpressionEvaluator.ofNegate] at h
          rcases hx with hx | hx
          · rcases mem_unresolved_cons hx with ht | ht
            · subst ht
              exact Or.inr (getConditionByName_str_some hg)
            · exact ih _ _ h x (Or.inl ht)
          · exact ih _ _ h x (Or.inr (hrest hx (by
              intro hcon
              exact isIdentifier_ne_bang hx.2 (hcon.symm.trans h1))))
    · -- the token is "||" or "&&"
      cases stack with
      | nil => simp at h
      | cons e0 stack1 =>
        cases stack1 with
        | nil => simp at h
        | cons e1 stack2 =>
          simp only at h
          cases hg0 : GetConditionByName e0 cb with
          | none => simp [hg0] at h
          | some f0 =>
            cases hg1 : GetConditionByName e1 cb with
            | none => simp [hg0, hg1] at h
            | some f1 =>
              simp only [hg0, hg1, FExpressionEvaluator.ofBinary] at h
              rcases hx with hx | hx
              · rcases mem_unresolved_cons hx with ht | ht
                · subst ht
                  exact Or.inr (getConditionByName_str_some hg0)
                · rcases mem_unresolved_cons ht with ht1 | ht1
                  · subst ht1
                    exact Or.inr (getConditionByName_str_some hg1)
                  · exact ih _ _ h x (Or.inl ht1)
              · exact ih _ _ h x (Or.inr (hrest hx (by
                  intro hcon
                  rcases h2 with h2 | h2
                  · exact isIdentifier_ne_oror hx.2 (hcon.symm.trans h2)
                  · exact isIdentifier_ne_andand hx.2 (hcon.symm.trans h2))))
    · -- the token is pushed as a name
      rcases hx with hx | hx
      · exact ih _ _ h x (Or.inl (List.mem_cons_of_mem _ hx))
      · by_cases hxt : token = x
        · subst hxt
          exact ih _ _ h token (Or.inl (List.mem_cons_self _ _))
        · exact ih _ _ h x (Or.inr (hrest hx hxt))

theorem evaluateExpression_checked (cb : CondValCB) (tokens : List FString)
    (ev : FExpressionEvaluator) (h : EvaluateExpression tokens cb = some (some ev)) :
    ∀ x ∈ tokens, isIdentifier x = true → cb x = true := by
  have hloop : ∀ final, evaluateLoop cb tokens [] = some (some final) →
      unresolvedNames final = [] → ∀ x ∈ tokens, isIdentifier x = true → cb x = true := by
    intro final hf hun x hx hid
    rcases evaluateLoop_checked cb tokens [] final hf x (Or.inr ⟨hx, hid⟩) with h1 | h1
    · rw [hun] at h1
      exact absurd h1 (List.not_mem_nil x)
    · exact h1
  unfold EvaluateExpression at h
  split at h
  · rename_i t
    cases hg : GetConditionByName (StackElem.str t) cb with
    | none => simp [hg] at h
    | some f =>
      intro x hx _
      rw [List.mem_singleton.mp hx]
      exact getConditionByName_str_some hg
  · cases hl : evaluateLoop cb tokens [] with
    | none => simp [hl] at h
    | some r =>
      cases r with
      | none => simp [hl] at h
      | some final =>
        simp only [hl] at h
        split at h
        · simp at h
        · exact hloop _ hl rfl
        · simp at h
        · simp at h

/-! ## `EvaluateExpression` fails no check -/

theorem evaluateLoop_ne_none (cb : CondValCB) :
    ∀ (tokens : List FString) (stack : List StackElem), evaluateLoop cb tokens stack ≠ none := by
  intro tokens
  induction tokens with
  | nil =>
    intro stack
    simp [evaluateLoop]
  | cons token rest ih =>
    intro stack
    rw [evaluateLoop_cons]
    split_ifs with h1 h2
    · cases stack with
      | nil => simp
      | cons top stack1 =>
        cases hg : GetConditionByName top cb with
        | none => simp [hg]
        | some f => simpa [hg, FExpressionEvaluator.ofNegate] using ih _
    · cases stack with
      | nil => simp
      | cons e0 stack1 =>
        cases stack1 with
        | nil => simp
        | cons e1 stack2 =>
          cases hg0 : GetConditionByName e0 cb with
          | none => simp [hg0]
          | some f0 =>
            cases hg1 : GetConditionByName e1 cb with
            | none => simp [hg0, hg1]
            | some f1 => simpa [hg0, hg1, FExpressionEvaluator.ofBinary] using ih _
    · exact ih _

/-- After at least one token on a non-empty stack, the stack has an evaluator on
top or at least two elements. -/
theorem evaluateLoop_final_shape (cb : CondValCB) :
    ∀ (tokens : List FString) (stack final : List StackElem), stack ≠ [] → tokens ≠ [] →
      evaluateLoop cb tokens stack = some (some final) →
      (∃ e rest, final = StackElem.eval e :: rest) ∨ 2 ≤ final.length := by
  intro tokens
  induction tokens with
  | nil =>
    intro stack final _ h
    exact absurd rfl h
  | cons token rest ih =>
    intro stack final hs _ h
    have next : ∀ stack1 : List StackElem, stack1 ≠ [] →
        ((∃ e r, stack1 = StackElem.eval e :: r) ∨ 2 ≤ stack1.length) →
        evaluateLoop cb rest stack1 = some (some final) →
        (∃ e r, final = StackElem.eval e :: r) ∨ 2 ≤ final.length := by
      intro stack1 hne hshape h1
      cases rest with
      | nil =>
        simp only [evaluateLoop, Option.some.injEq] at h1
        rw [← h1]
        exact hshape
      | cons t2 rest2 => exact ih stack1 final hne (List.cons_ne_nil _ _) h1
    rw [evaluateLoop_cons] at h
    split_ifs at h with h1 h2
    · cases stack with
      | nil => exact absurd rfl hs
      | cons top stack1 =>
        simp only at h
        cases hg : GetConditionByName top cb with
        | none => simp [hg] at h
        | some f =>
          simp only [hg, FExpressionEvaluator.ofNegate] at h
          exact next _ (List.cons_ne_nil _ _) (Or.inl ⟨_, _, rfl⟩) h
    · cases stack with
      | nil => exact absurd rfl hs
      | cons e0 stack1 =>
        cases stack1 with
        | nil => simp at h
        | cons e1 stack2 =>
          simp only at h
          cases hg0 : GetConditionByName e0 cb with
          | none => simp [hg0] at h
          | some f0 =>
            cases hg1 : GetConditionByName e1 cb with
            | none => simp [hg0, hg1] at h
            | some f1 =>
              simp only [hg0, hg1, FExpressionEvaluator.ofBinary] at h
              exact next _ (List.cons_ne_nil _ _) (Or.inl ⟨_, _, rfl⟩) h
    · refine next _ (List.cons_ne_nil _ _) (Or.inr ?_) h
      cases stack with
      | nil => exact absurd rfl hs
      | cons a stack1 => simp

theorem evaluateLoop_single_name (cb : CondValCB) (tokens : List FString) (s : FString)
    (h : evaluateLoop cb tokens [] = some (some [StackElem.str s])) : tokens = [s] := by
  cases tokens with
  | nil => simp [evaluateLoop] at h
  | cons token rest =>
    rw [evaluateLoop_cons] at h
    split_ifs at h with h1 h2
    · simp at h
    · simp at h
    · cases rest with
      | nil =>
        simp only [evaluateLoop, Option.some.injEq, List.cons.injEq, StackElem.str.injEq,
          and_true] at h
        rw [h]
      | cons t2 rest2 =>
        rcases evaluateLoop_final_shape cb (t2 :: rest2) [StackElem.str token] _
          (List.cons_ne_nil _ _) (List.cons_ne_nil _ _) h with ⟨e, r, he⟩ | hlen
        · cases he
        · simp at hlen

theorem evaluateExpression_ne_none (cb : CondValCB) (tokens : List FString) :
    EvaluateExpression tokens cb ≠ none := by
  unfold EvaluateExpression
  split
  · rename_i t
    cases hg : GetConditionByName (StackElem.str t) cb with
    | none => simp [hg]
    | some f => simp [hg, FExpressionEvaluator.ofBinary]
  · rename_i hnot
    cases hl : evaluateLoop cb tokens [] with
    | none => exact absurd hl (evaluateLoop_ne_none cb tokens [])
    | some r =>
      cases r with
      | none => simp
      | some final =>
        simp only
        split
        · simp
        · simp
        · rename_i s
          exact absurd (evaluateLoop_single_name cb tokens s hl) (hnot s)
        · simp

/-- C4: when some identifier token `x` of the expression string is rejected by
the name-validation callback, `CompileConditionString` returns no evaluator;
and it returns the empty result whenever the conversion to reverse polish
order passes its range checks. -/
theorem C4_rejected_identifier_no_evaluator (s : FString) (condNameValidation : CondValCB)
    (x : FString)
    (hx : x ∈ TokenizeExpression s ['(', ')', '|', '&', '!'] [['&'], ['|']])
    (hid : isIdentifier x = true) (hrej : condNameValidation x = false) :
    (∀ ev, CompileConditionString s condNameValidation ≠ some (some ev)) ∧
    (TransformExpressionToReversePolishOrder
        (TokenizeExpression s ['(', ')', '|', '&', '!'] [['&'], ['|']])
        operatorPrecedenceTable ≠ none →
      CompileConditionString s condNameValidation = some none) := by
  have hno : ∀ ev, CompileConditionString s condNameValidation ≠ some (some ev) := by
    intro ev hev
    unfold CompileConditionString at hev
    split_ifs at hev with hv
    swap
    · cases hev
    simp only at hev
    cases ht : TransformExpressionToReversePolishOrder
        (TokenizeExpression s ['(', ')', '|', '&', '!'] [['&'], ['|']])
        operatorPrecedenceTable with
    | none => simp [ht] at hev
    | some rpo =>
      rw [ht] at hev
      have h1 := transform_mem _ rpo ht x hx hid
      have h2 := evaluateExpression_checked condNameValidation rpo ev hev x h1 hid
      rw [hrej] at h2
      cases h2
  refine ⟨hno, fun hne => ?_⟩
  cases hc : CompileConditionString s condNameValidation with
  | none =>
    exfalso
    unfold CompileConditionString at hc
    split_ifs at hc with hv
    simp only at hc
    cases ht : TransformExpressionToReversePolishOrder
        (TokenizeExpression s ['(', ')', '|', '&', '!'] [['&'], ['|']])
        operatorPrecedenceTable with
    | none => exact hne ht
    | some rpo =>
      rw [ht] at hc
      exact evaluateExpression_ne_none condNameValidation rpo hc
  | some r =>
    cases r with
    | none => rfl
    | some ev => exact absurd hc (hno ev)

/-- C4 at the input of the condition test: `falses` is no key of the condition
definitions, and compiling `true && falses` returns the empty result. -/
theorem C4_rejected_identifier_no_evaluator_witness :
    ['f', 'a', 'l', 's', 'e', 's'] ∈
      TokenizeExpression ['t', 'r', 'u', 'e', ' ', '&', '&', ' ', 'f', 'a', 'l', 's', 'e', 's']
        ['(', ')', '|', '&', '!'] [['&'], ['|']] ∧
    isIdentifier ['f', 'a', 'l', 's', 'e', 's'] = true ∧
    conditionTestNode.ValidateConditionName ['f', 'a', 'l', 's', 'e', 's'] = false ∧
    CompileConditionString
      ['t', 'r', 'u', 'e', ' ', '&', '&', ' ', 'f', 'a', 'l', 's', 'e', 's']
      conditionTestNode.ValidateConditionName = some none := by
  have h1 : ['f', 'a', 'l', 's', 'e', 's'] ∈
      TokenizeExpression ['t', 'r', 'u', 'e', ' ', '&', '&', ' ', 'f', 'a', 'l', 's', 'e', 's']
        ['(', ')', '|', '&', '!'] [['&'], ['|']] := by
    decide
  have h2 : isIdentifier ['f', 'a', 'l', 's', 'e', 's'] = true := by decide
  have h3 : conditionTestNode.ValidateConditionName ['f', 'a', 'l', 's', 'e', 's'] = false := by
    decide
  exact ⟨h1, h2, h3,
    (C4_rejected_identifier_no_evaluator _ conditionTestNode.ValidateConditionName _ h1 h2 h3).2
      (by decide)⟩

/-! ## Validating and evaluating the conditions of a node -/

theorem bindLoop_fst (BindCondition : FName → UDSMConditionBase → Bool) (reset : Bool) :
    ∀ (defs : List (FName × Option UDSMConditionBase)) (CondGrpValid : Bool),
      (bindLoop BindCondition reset defs CondGrpValid).1 = some true ↔
        (CondGrpValid = true ∧
          ∀ e ∈ defs, ∃ cond, e.2 = some cond ∧ BindCondition e.1 cond = true) := by
  intro defs
  induction defs with
  | nil =>
    intro v
    simp [bindLoop]
  | cons e rest ih =>
    intro v
    obtain ⟨key, c⟩ := e
    cases c with
    | none => simp [bindLoop]
    | some cond =>
      simp only [bindLoop, ih, Bool.and_eq_true, List.mem_cons, forall_eq_or_imp]
      constructor
      · rintro ⟨⟨hv, hb⟩, hrest⟩
        exact ⟨hv, ⟨cond, rfl, hb⟩, hrest⟩
      · rintro ⟨hv, ⟨cond', hc, hb⟩, hrest⟩
        cases hc
        exact ⟨⟨hv, hb⟩, hrest⟩

theorem bindLoop_lookup (BindCondition : FName → UDSMConditionBase → Bool) (reset : Bool)
    (name : FName) :
    ∀ (defs : List (FName × Option UDSMConditionBase)) (CondGrpValid : Bool),
      ((bindLoop BindCondition reset defs CondGrpValid).2.lookup name).isSome =
        (defs.lookup name).isSome := by
  intro defs
  induction defs with
  | nil =>
    intro v
    simp [bindLoop]
  | cons e rest ih =>
    intro v
    obtain ⟨key, c⟩ := e
    cases c with
    | none => simp [bindLoop]
    | some cond =>
      simp only [bindLoop, List.lookup_cons]
      cases h : (name == key) with
      | true => simp
      | false => simpa using ih _

theorem validateGroupsLoop_some (condNameValidation : CondValCB) :
    ∀ (conditionGroups : List (FName × FString)) (validExpressions : List FExpressionEvaluator),
      (∃ evs, validateGroupsLoop condNameValidation conditionGroups validExpressions =
          some (some evs)) ↔
        ∀ g ∈ conditionGroups,
          ∃ ev, CompileConditionString g.2 condNameValidation = some (some ev) := by
  intro conditionGroups
  induction conditionGroups with
  | nil =>
    intro acc
    simp [validateGroupsLoop]
  | cons pair rest ih =>
    intro acc
    unfold validateGroupsLoop
    cases h : CompileConditionString pair.2 condNameValidation with
    | none => simp [h]
    | some o =>
      cases o with
      | none => simp [h]
      | some ev => simp [h, ih]

theorem validateGroupsLoop_ne_none (condNameValidation : CondValCB) :
    ∀ (conditionGroups : List (FName × FString)) (validExpressions : List FExpressionEvaluator),
      (∀ g ∈ conditionGroups, CompileConditionString g.2 condNameValidation ≠ none) →
        validateGroupsLoop condNameValidation conditionGroups validExpressions ≠ none := by
  intro conditionGroups
  induction conditionGroups with
  | nil =>
    intro acc _
    simp [validateGroupsLoop]
  | cons pair rest ih =>
    intro acc h
    unfold validateGroupsLoop
    have hp := h pair (List.mem_cons_self _ _)
    cases hc : CompileConditionString pair.2 condNameValidation with
    | none => exact absurd hc hp
    | some o =>
      cases o with
      | none => simp
      | some ev =>
        simp only
        exact ih _ (fun g hg => h g (List.mem_cons_of_mem _ hg))

theorem utilsValidateConditionGroups_true (conditionGroups : List (FName × FString))
    (condNameValidation : CondValCB) (outEvaluators : List FExpressionEvaluator) :
    (∃ evs, ValidateConditionGroups conditionGroups condNameValidation outEvaluators =
        some (true, evs)) ↔
      ∀ g ∈ conditionGroups,
        ∃ ev, CompileConditionString g.2 condNameValidation = some (some ev) := by
  rw [← validateGroupsLoop_some condNameValidation conditionGroups []]
  unfold ValidateConditionGroups
  cases h : validateGroupsLoop condNameValidation conditionGroups [] with
  | none => simp
  | some o =>
    cases o with
    | none => simp
    | some evs => simp

theorem utilsValidateConditionGroups_ne_none (conditionGroups : List (FName × FString))
    (condNameValidation : CondValCB) (outEvaluators : List FExpressionEvaluator)
    (h : ∀ g ∈ conditionGroups, CompileConditionString g.2 condNameValidation ≠ none) :
    ∃ r, ValidateConditionGroups conditionGroups condNameValidation outEvaluators = some r := by
  have h1 := validateGroupsLoop_ne_none condNameValidation conditionGroups [] h
  unfold ValidateConditionGroups
  cases hv : validateGroupsLoop condNameValidation conditionGroups [] with
  | none => exact absurd hv h1
  | some o =>
    cases o with
    | none => exact ⟨_, rfl⟩
    | some evs => exact ⟨_, rfl⟩

theorem validateConditionName_bindLoop {n : Nat} (node : DefaultNode n)
    (BindCondition : FName → UDSMConditionBase → Bool) (reset : Bool) :
    (fun name => UDSMDefaultNode.ValidateConditionName
        (UDSMDefaultNode.mk (bindLoop BindCondition reset node._ConditionDefinitions true).2) name) =
      fun name => node.toUDSMDefaultNode.ValidateConditionName name := by
  funext name
  simp only [UDSMDefaultNode.ValidateConditionName]
  exact bindLoop_lookup BindCondition reset name _ _

/-- C11: `UDSMDefaultNode::ValidateConditionGroups` returns true iff every
condition definition is non-null and binds against the node and every
condition-group string compiles to an evaluator; and it returns (true or false)
whenever no compilation of a group string fails a check. -/
theorem C11_node_validateConditionGroups_iff {n : Nat} (node : DefaultNode n)
    (BindCondition : FName → UDSMConditionBase → Bool) (reset : Bool) :
    ((∃ node', node.ValidateConditionGroups BindCondition reset = some (true, node')) ↔
      (∀ e ∈ node._ConditionDefinitions,
          ∃ cond, e.2 = some cond ∧ BindCondition e.1 cond = true) ∧
      (∀ g ∈ node._ConditionGroups,
          ∃ ev, CompileConditionString g.2
            (fun name => node.toUDSMDefaultNode.ValidateConditionName name) = some (some ev))) ∧
    ((∀ g ∈ node._ConditionGroups,
        CompileConditionString g.2
          (fun name => node.toUDSMDefaultNode.ValidateConditionName name) ≠ none) →
      ∃ r, node.ValidateConditionGroups BindCondition reset = some r) := by
  have hcb := validateConditionName_bindLoop node BindCondition reset
  have hb := bindLoop_fst BindCondition reset node._ConditionDefinitions true
  constructor
  · rw [← utilsValidateConditionGroups_true node._ConditionGroups _ []]
    unfold DefaultNode.ValidateConditionGroups
    simp only [hcb]
    cases h1 : (bindLoop BindCondition reset node._ConditionDefinitions true).1 with
    | none =>
      rw [h1] at hb
      constructor
      · rintro ⟨node', h⟩
        simp at h
      · rintro ⟨hP, _⟩
        have := hb.2 ⟨rfl, hP⟩
        simp at this
    | some v =>
      rw [h1] at hb
      cases v with
      | false =>
        constructor
        · rintro ⟨node', h⟩
          simp at h
        · rintro ⟨hP, _⟩
          have := hb.2 ⟨rfl, hP⟩
          simp at this
      | true =>
        have hP := (hb.1 rfl).2
        simp only [if_true]
        constructor
        · rintro ⟨node', h⟩
          refine ⟨hP, ?_⟩
          cases h2 : ValidateConditionGroups node._ConditionGroups
              (fun name => node.toUDSMDefaultNode.ValidateConditionName name) [] with
          | none => simp [h2] at h
          | some r =>
            obtain ⟨valid, evs⟩ := r
            simp only [h2, Option.some.injEq, Prod.mk.injEq] at h
            exact ⟨evs, by rw [h.1]⟩
        · rintro ⟨_, evs, h2⟩
          simp only [h2]
          exact ⟨_, rfl⟩
  · intro h
    obtain ⟨r, hr⟩ := utilsValidateConditionGroups_ne_none node._ConditionGroups _ [] h
    unfold DefaultNode.ValidateConditionGroups
    simp only [hcb]
    cases h1 : (bindLoop BindCondition reset node._ConditionDefinitions true).1 with
    | none => exact ⟨_, rfl⟩
    | some v =>
      cases v with
      | false => exact ⟨_, rfl⟩
      | true =>
        simp only [if_true, hr]
        exact ⟨_, rfl⟩

theorem canEnterLoop_fst :
    ∀ (entries : List (FName × Bool)) (flag : Bool) (Conditions : List (FName × Bool)),
      (canEnterLoop entries flag Conditions).1 = true ↔
        (flag = true ∧ ∀ e ∈ entries, e.2 = true) := by
  intro entries
  induction entries with
  | nil =>
    intro flag Conditions
    simp [canEnterLoop]
  | cons elem rest ih =>
    intro flag Conditions
    simp only [canEnterLoop, ih, Bool.and_eq_true, List.mem_cons, forall_eq_or_imp]
    tauto

theorem enterGroupsLoop_fst (self : NodePtr) :
    ∀ (evaluators : List FExpressionEvaluator) (flag : Bool) (Conditions : List (FName × Bool)),
      (enterGroupsLoop self evaluators flag Conditions).map Prod.fst =
        evaluateGroupsLoop self evaluators flag := by
  intro evaluators
  induction evaluators with
  | nil =>
    intro flag Conditions
    rfl
  | cons e rest ih =>
    intro flag Conditions
    unfold enterGroupsLoop evaluateGroupsLoop
    cases hf : e.GetEvaluateFunction with
    | none => rfl
    | some f =>
      cases hr : f self with
      | none => simp [hr]
      | some result =>
        simp only [hr]
        exact ih _ _

theorem evaluateEnterConditions_fst {n : Nat} (node : DefaultNode n) (IsSelfTransition : Bool) :
    (node.EvaluateEnterConditions IsSelfTransition).map Prod.fst =
      (evaluateGroupsLoop (some node.toUDSMDefaultNode) node._expressionEvaluators true).map
        (fun b => (canEnterLoop (node.CanEnterState IsSelfTransition) true []).1 &&
          (canEnterLoop (node.CanEnterStateEvent IsSelfTransition) true
            (canEnterLoop (node.CanEnterState IsSelfTransition) true []).2).1 && b) := by
  rw [← enterGroupsLoop_fst (some node.toUDSMDefaultNode) node._expressionEvaluators true
    (canEnterLoop (node.CanEnterStateEvent IsSelfTransition) true
      (canEnterLoop (node.CanEnterState IsSelfTransition) true []).2).2]
  unfold DefaultNode.EvaluateEnterConditions
  cases h : enterGroupsLoop (some node.toUDSMDefaultNode) node._expressionEvaluators true
      (canEnterLoop (node.CanEnterStateEvent IsSelfTransition) true
        (canEnterLoop (node.CanEnterState IsSelfTransition) true []).2).2 with
  | none => simp [h]
  | some r => simp [h]

theorem evaluateEnterConditions_true {n : Nat} (node : DefaultNode n) (IsSelfTransition : Bool) :
    (∃ Conditions, node.EvaluateEnterConditions IsSelfTransition = some (true, Conditions)) ↔
      (∀ e ∈ node.CanEnterState IsSelfTransition, e.2 = true) ∧
      (∀ e ∈ node.CanEnterStateEvent IsSelfTransition, e.2 = true) ∧
      (∀ ev ∈ node._expressionEvaluators,
        ∃ f, ev.GetEvaluateFunction = some f ∧ f (some node.toUDSMDefaultNode) = some true) := by
  have h := evaluateEnterConditions_fst node IsSelfTransition
  have h1 := canEnterLoop_fst (node.CanEnterState IsSelfTransition) true []
  have h2 := canEnterLoop_fst (node.CanEnterStateEvent IsSelfTransition) true
    (canEnterLoop (node.CanEnterState IsSelfTransition) true []).2
  have h3 := evaluateGroupsLoop_eq_true (some node.toUDSMDefaultNode)
    node._expressionEvaluators true
  simp only [true_and] at h1 h2 h3
  rw [← h1, ← h2, ← h3]
  constructor
  · rintro ⟨Conditions, hc⟩
    rw [hc] at h
    cases hg : evaluateGroupsLoop (some node.toUDSMDefaultNode) node._expressionEvaluators true with
    | none => simp [hg] at h
    | some b =>
      simp only [hg, Option.map_some', Option.some.injEq] at h
      have h' := h.symm
      simp only [Bool.and_eq_true] at h'
      exact ⟨h'.1.1, h'.1.2, by rw [h'.2]⟩
  · rintro ⟨a1, a2, a3⟩
    rw [a3, a1, a2] at h
    cases hr : node.EvaluateEnterConditions IsSelfTransition with
    | none => simp [hr] at h
    | some r =>
      obtain ⟨b, Conditions⟩ := r
      simp only [hr, Option.map_some', Option.some.injEq, Bool.and_self] at h
      exact ⟨Conditions, by rw [h]⟩

theorem evaluateEnterConditions_isSome {n : Nat} (node : DefaultNode n)
    (IsSelfTransition : Bool)
    (h : ∀ ev ∈ node._expressionEvaluators,
      ∃ f b, ev.GetEvaluateFunction = some f ∧ f (some node.toUDSMDefaultNode) = some b) :
    ∃ r, node.EvaluateEnterConditions IsSelfTransition = some r := by
  have h1 := evaluateEnterConditions_fst node IsSelfTransition
  obtain ⟨b, hb⟩ := evaluateGroupsLoop_isSome (some node.toUDSMDefaultNode)
    node._expressionEvaluators true h
  rw [hb] at h1
  cases hr : node.EvaluateEnterConditions IsSelfTransition with
  | none => simp [hr] at h1
  | some r => exact ⟨r, rfl⟩

/-- C12: `EvaluateEnterConditions` returns true iff every entry of the map filled
by the native `CanEnterState` is true, every entry of the map filled by the hook
`CanEnterStateEvent` is true, and every compiled condition-group evaluator
returns true on the node; it returns (true or false) whenever every evaluator
returns. -/
theorem C12_evaluateEnterConditions_iff {n : Nat} (node : DefaultNode n)
    (IsSelfTransition : Bool) :
    ((∃ Conditions, node.EvaluateEnterConditions IsSelfTransition = some (true, Conditions)) ↔
      (∀ e ∈ node.CanEnterState IsSelfTransition, e.2 = true) ∧
      (∀ e ∈ node.CanEnterStateEvent IsSelfTransition, e.2 = true) ∧
      (∀ ev ∈ node._expressionEvaluators,
        ∃ f, ev.GetEvaluateFunction = some f ∧ f (some node.toUDSMDefaultNode) = some true)) ∧
    ((∀ ev ∈ node._expressionEvaluators,
        ∃ f b, ev.GetEvaluateFunction = some f ∧ f (some node.toUDSMDefaultNode) = some b) →
      ∃ r, node.EvaluateEnterConditions IsSelfTransition = some r) :=
  ⟨evaluateEnterConditions_true node IsSelfTransition,
    evaluateEnterConditions_isSome node IsSelfTransition⟩

/-! ## The built-in policies -/

theorem applyDefaultLoop_eq {n : Nat} (bSelfTransition : Bool) :
    ∀ (nodes : List (DefaultNode n)) (transitionNodes : List (Option (DefaultNode n))),
      (∀ node ∈ nodes, ∃ r, node.EvaluateEnterConditions bSelfTransition = some r) →
      applyDefaultLoop bSelfTransition (nodes.map some) transitionNodes =
        some (transitionNodes ++
          (nodes.filter (fun node => node.CanEnter bSelfTransition)).map some) := by
  intro nodes
  induction nodes with
  | nil =>
    intro acc _
    simp [applyDefaultLoop]
  | cons node rest ih =>
    intro acc h
    obtain ⟨r, hr⟩ := h node (List.mem_cons_self _ _)
    have hrest : ∀ node ∈ rest, ∃ r, node.EvaluateEnterConditions bSelfTransition = some r :=
      fun x hx => h x (List.mem_cons_of_mem _ hx)
    obtain ⟨verdict, Conditions⟩ := r
    simp only [List.map_cons, applyDefaultLoop, hr]
    cases verdict with
    | true =>
      have hc : node.CanEnter bSelfTransition = true := by
        simp [DefaultNode.CanEnter, hr]
      simp only [ih _ hrest, List.filter_cons, hc, if_true, List.map_cons, List.append_assoc,
        List.singleton_append]
    | false =>
      have hc : node.CanEnter bSelfTransition = false := by
        simp [DefaultNode.CanEnter, hr]
      simp only [ih _ hrest, List.filter_cons, hc, Bool.false_eq_true, if_false]

/-- C13: on candidates whose enter conditions all return,
`UDSMDefaultPolicy::ApplyPolicy` returns exactly the candidates on which
`EvaluateEnterConditions` is true, in input order, and reports success iff there
is exactly one of them. -/
theorem C13_defaultPolicy_applyPolicy {n : Nat} (nodes : List (DefaultNode n))
    (bSelfTransition : Bool)
    (hreturn : ∀ node ∈ nodes, ∃ r, node.EvaluateEnterConditions bSelfTransition = some r) :
    UDSMDefaultPolicy.ApplyPolicy (nodes.map some) bSelfTransition =
      some ((nodes.filter (fun node => node.CanEnter bSelfTransition)).map some,
        decide ((nodes.filter (fun node => node.CanEnter bSelfTransition)).length = 1)) := by
  unfold UDSMDefaultPolicy.ApplyPolicy
  rw [applyDefaultLoop_eq bSelfTransition nodes [] hreturn]
  simp only [List.nil_append, List.length_map]
  generalize (nodes.filter (fun node => node.CanEnter bSelfTransition)) = l
  match l with
  | [] => rfl
  | [_] => rfl
  | _ :: _ :: _ => simp

theorem filterByTag_eq {n : Nat} (tag : FName) :
    ∀ nodes : List (DefaultNode n),
      filterByTag tag (nodes.map some) =
        some ((nodes.filter (fun node => node.ComponentHasTag tag)).map some) := by
  intro nodes
  induction nodes with
  | nil => rfl
  | cons node rest ih =>
    simp only [List.map_cons, filterByTag, ih, List.filter_cons]
    cases node.ComponentHasTag tag <;> simp

theorem orderByTagLoop_eq {n : Nat} (nodes : List (DefaultNode n)) :
    ∀ (TagOrder : List FName) (outputNodes : List (Option (DefaultNode n))),
      orderByTagLoop (nodes.map some) TagOrder outputNodes =
        some (outputNodes ++
          (TagOrder.flatMap
            (fun tag => nodes.filter (fun node => node.ComponentHasTag tag))).map some) := by
  intro TagOrder
  induction TagOrder with
  | nil =>
    intro acc
    simp [orderByTagLoop]
  | cons tag rest ih =>
    intro acc
    simp only [orderByTagLoop, filterByTag_eq, ih, List.flatMap_cons, List.map_append,
      List.append_assoc]

theorem countP_flatMap_filter {n : Nat} (nodes : List (DefaultNode n))
    (counted : DefaultNode n → Bool) :
    ∀ TagOrder : List FName,
      (TagOrder.flatMap
          (fun tag => nodes.filter (fun node => node.ComponentHasTag tag))).countP counted =
        (TagOrder.map (fun tag =>
          nodes.countP (fun node => node.ComponentHasTag tag && counted node))).sum := by
  intro TagOrder
  induction TagOrder with
  | nil => rfl
  | cons tag rest ih =>
    simp only [List.flatMap_cons, List.countP_append, ih, List.map_cons, List.sum_cons,
      List.countP_filter]
    congr 1
    apply List.countP_congr
    intro x _
    simp [Bool.and_comm]

/-- C14: `UDSMOrderByTagPolicy::ApplyPolicy` returns, for the tags of `TagOrder` in
order, the candidates carrying the tag in input order, one sub-list after the
other, and reports success iff that list is non-empty; so the candidates
selected by any test are counted once for every listed tag they carry; and for
the tag order `[A, B]` and the input `n1` (tag `B`), `n2`, `n3` (tag `A`) the
output is `[n2, n3, n1]`. -/
theorem C14_orderByTagPolicy_applyPolicy {n : Nat} (TagOrder : List FName)
    (nodes : List (DefaultNode n)) :
    UDSMOrderByTagPolicy.ApplyPolicy TagOrder (nodes.map some) =
      some ((TagOrder.flatMap
          (fun tag => nodes.filter (fun node => node.ComponentHasTag tag))).map some,
        !(TagOrder.flatMap
          (fun tag => nodes.filter (fun node => node.ComponentHasTag tag))).isEmpty) ∧
    (∀ counted : DefaultNode n → Bool,
      (TagOrder.flatMap
          (fun tag => nodes.filter (fun node => node.ComponentHasTag tag))).countP counted =
        (TagOrder.map (fun tag =>
          nodes.countP (fun node => node.ComponentHasTag tag && counted node))).sum) ∧
    (∀ (A B : FName) (n1 n2 n3 : DefaultNode n),
      n1.ComponentHasTag A = false → n1.ComponentHasTag B = true →
      n2.ComponentHasTag A = true → n2.ComponentHasTag B = false →
      n3.ComponentHasTag A = true → n3.ComponentHasTag B = false →
      UDSMOrderByTagPolicy.ApplyPolicy [A, B] [some n1, some n2, some n3] =
        some ([some n2, some n3, some n1], true)) := by
  have hmain : ∀ (order : List FName) (l : List (DefaultNode n)),
      UDSMOrderByTagPolicy.ApplyPolicy order (l.map some) =
        some ((order.flatMap
            (fun tag => l.filter (fun node => node.ComponentHasTag tag))).map some,
          !(order.flatMap
            (fun tag => l.filter (fun node => node.ComponentHasTag tag))).isEmpty) := by
    intro order l
    unfold UDSMOrderByTagPolicy.ApplyPolicy
    rw [orderByTagLoop_eq]
    simp only [List.nil_append, List.length_map]
    generalize (order.flatMap (fun tag => l.filter (fun node => node.ComponentHasTag tag))) = out
    cases out <;> simp
  refine ⟨hmain TagOrder nodes, fun counted => countP_flatMap_filter nodes counted TagOrder, ?_⟩
  intro A B n1 n2 n3 h1A h1B h2A h2B h3A h3B
  have h := hmain [A, B] [n1, n2, n3]
  simpa [List.flatMap_cons, List.filter_cons, h1A, h1B, h2A, h2B, h3A, h3B] using h

/-- C13 on two plain nodes, the first enterable and the second not: the policy
returns the first node and reports success. -/
theorem C13_defaultPolicy_applyPolicy_witness :
    (∀ node ∈ [plainNode 2 true [] [], plainNode 2 false [] []],
      ∃ r, node.EvaluateEnterConditions false = some r) ∧
    UDSMDefaultPolicy.ApplyPolicy
        ([plainNode 2 true [] [], plainNode 2 false [] []].map some) false =
      some ([some (plainNode 2 true [] [])], true) := by
  have h : ∀ node ∈ [plainNode 2 true [] [], plainNode 2 false [] []],
      ∃ r, node.EvaluateEnterConditions false = some r := by
    intro node hnode
    simp only [List.mem_cons, List.mem_singleton, List.not_mem_nil, or_false] at hnode
    rcases hnode with rfl | rfl
    · exact ⟨_, rfl⟩
    · exact ⟨_, rfl⟩
  exact ⟨h, C13_defaultPolicy_applyPolicy _ false h⟩

/-! ## Activating a policy -/

/-- C20: when the native `ApplyPolicy` returns, `ActivatePolicy` fails its check
iff the native function and the hook both return a non-empty node array or both
report success; otherwise at most one of the two arrays is non-empty, the stored
node array is that array, the stored success flag is the disjunction of the two
flags, and the other members are unchanged. -/
theorem C20_activatePolicy_check {n : Nat} (policy : UDSMPolicy n) (engine : Engine n)
    (transitionableNodes : List (Option (DefaultNode n))) (gameMode : ADSMGameMode n)
    (bSelfTransition : Bool)
    (nodes eventNodes : List (Option (DefaultNode n))) (success eventSuccess : Bool)
    (hnative : (engine.policyClass policy.policyClass).ApplyPolicy
      transitionableNodes gameMode bSelfTransition = some (nodes, success))
    (hevent : (engine.policyClass policy.policyClass).ApplyPolicyEvent
      transitionableNodes gameMode bSelfTransition = (eventNodes, eventSuccess)) :
    (policy.ActivatePolicy engine transitionableNodes gameMode bSelfTransition = none ↔
      (eventNodes ≠ [] ∧ nodes ≠ []) ∨ (eventSuccess = true ∧ success = true)) ∧
    (∀ activated,
      policy.ActivatePolicy engine transitionableNodes gameMode bSelfTransition =
        some activated →
      (eventNodes = [] ∨ nodes = []) ∧
      (eventNodes = [] → activated._policyNodesOrdered = nodes) ∧
      (nodes = [] → activated._policyNodesOrdered = eventNodes) ∧
      activated.bAppliedSuccessful = (eventSuccess || success) ∧
      activated.policyClass = policy.policyClass ∧
      activated._priority = policy._priority ∧
      activated.bTransitionAfterPolicy = policy.bTransitionAfterPolicy) := by
  have hlen : ∀ l : List (Option (DefaultNode n)), decide (l.length > 0) = true ↔ l ≠ [] := by
    intro l
    cases l <;> simp
  unfold UDSMPolicy.ActivatePolicy
  simp only [hnative, hevent]
  by_cases hc : ((decide (eventNodes.length > 0) && decide (nodes.length > 0)) ||
      (eventSuccess && success)) = true
  · have hc' := hc
    simp only [Bool.or_eq_true, Bool.and_eq_true, hlen] at hc'
    simp only [hc, if_true, true_iff]
    exact ⟨hc', fun _ h => by simp at h⟩
  · have hc' := hc
    simp only [Bool.or_eq_true, Bool.and_eq_true, hlen] at hc'
    simp only [hc, if_false]
    refine ⟨⟨fun h => by simp at h, fun h => absurd h hc'⟩, ?_⟩
    intro activated hact
    simp only [Bool.false_eq_true, if_false, Option.some.injEq] at hact
    subst hact
    have hempty : eventNodes = [] ∨ nodes = [] := by
      by_contra hne
      push_neg at hne
      exact hc' (Or.inl hne)
    refine ⟨hempty, ?_, ?_, rfl, rfl, rfl, rfl⟩
    · intro he
      simp [he]
    · intro hn
      simp [hn]

/-- C20 on the two built-in classes without hook: activating a fresh
`UDSMOrderByTagPolicy` on nodes tagged `B`, `A`, `A` passes the check, and stores
the nodes in tag order and success. -/
theorem C20_activatePolicy_check_witness :
    (plainEngine.policyClass 1).ApplyPolicy
        [some (plainNode 2 true [['B']] []), some (plainNode 2 false [['A']] []),
          some (plainNode 2 true [['A']] [])] (idleGameMode 2) false =
      some ([some (plainNode 2 false [['A']] []), some (plainNode 2 true [['A']] []),
        some (plainNode 2 true [['B']] [])], true) ∧
    (plainEngine.policyClass 1).ApplyPolicyEvent
        [some (plainNode 2 true [['B']] []), some (plainNode 2 false [['A']] []),
          some (plainNode 2 true [['A']] [])] (idleGameMode 2) false = ([], false) ∧
    (UDSMPolicy.mk 1 10 true false []).ActivatePolicy plainEngine
        [some (plainNode 2 true [['B']] []), some (plainNode 2 false [['A']] []),
          some (plainNode 2 true [['A']] [])] (idleGameMode 2) false ≠ none ∧
    ∀ activated,
      (UDSMPolicy.mk 1 10 true false []).ActivatePolicy plainEngine
          [some (plainNode 2 true [['B']] []), some (plainNode 2 false [['A']] []),
            some (plainNode 2 true [['A']] [])] (idleGameMode 2) false = some activated →
      activated._policyNodesOrdered =
        [some (plainNode 2 false [['A']] []), some (plainNode 2 true [['A']] []),
          some (plainNode 2 true [['B']] [])] ∧
      activated.bAppliedSuccessful = true := by
  have h := C20_activatePolicy_check (UDSMPolicy.mk 1 10 true false []) plainEngine
    [some (plainNode 2 true [['B']] []), some (plainNode 2 false [['A']] []),
      some (plainNode 2 true [['A']] [])] (idleGameMode 2) false _ _ _ _ rfl rfl
  refine ⟨rfl, rfl, ?_, ?_⟩
  · intro hnone
    rcases h.1.1 hnone with ⟨h1, _⟩ | ⟨h1, _⟩
    · exact h1 rfl
    · cases h1
  · intro activated hact
    exact ⟨(h.2 activated hact).2.1 rfl, (h.2 activated hact).2.2.2.1⟩

/-! ## The applicable policies of `FindPolicy` -/

theorem intersectLoop_isSome {n : Nat} :
    ∀ (nodes : List (Option (DefaultNode n))) (acc L : List (Option (Fin n))),
      (∀ x ∈ acc, x.isSome = true) →
      intersectLoop nodes acc = some (some L) → ∀ x ∈ L, x.isSome = true := by
  intro nodes
  induction nodes with
  | nil =>
    intro acc L hacc h
    simp only [intersectLoop, Option.some.injEq] at h
    subst h
    exact hacc
  | cons first rest ih =>
    intro acc L hacc h
    cases first with
    | none => simp [intersectLoop] at h
    | some node =>
      simp only [intersectLoop] at h
      split_ifs at h with hempty
      · simp at h
      · exact ih _ L (fun x hx => by
          have := (List.mem_filter.1 hx).2
          simp only [Bool.and_eq_true] at this
          exact this.1) h

theorem intersectLoop_cons_isSome {n : Nat} (first : Option (DefaultNode n))
    (rest : List (Option (DefaultNode n))) (acc L : List (Option (Fin n)))
    (h : intersectLoop (first :: rest) acc = some (some L)) : ∀ x ∈ L, x.isSome = true := by
  cases first with
  | none => simp [intersectLoop] at h
  | some node =>
    simp only [intersectLoop] at h
    split_ifs at h with hempty
    · simp at h
    · exact intersectLoop_isSome rest _ L (fun x hx => by
        have := (List.mem_filter.1 hx).2
        simp only [Bool.and_eq_true] at this
        exact this.1) h

theorem intersectLoop_mem {n : Nat} (t : Fin n) :
    ∀ (nodes : List (DefaultNode n)) (acc : List (Option (Fin n))),
      ∃ r, intersectLoop (nodes.map some) acc = some r ∧
        ((∃ L, r = some L ∧ some t ∈ L) ↔
          (some t ∈ acc ∧ ∀ node ∈ nodes, some t ∈ node._nodePolicies)) := by
  intro nodes
  induction nodes with
  | nil =>
    intro acc
    exact ⟨some acc, rfl, by simp⟩
  | cons node rest ih =>
    intro acc
    simp only [List.map_cons, intersectLoop]
    have hmem : some t ∈ node._nodePolicies.filter
        (fun policy => policy.isSome && acc.contains policy) ↔
        (some t ∈ node._nodePolicies ∧ some t ∈ acc) := by
      simp [List.mem_filter]
    split_ifs with hempty
    · refine ⟨none, rfl, ?_⟩
      have hnil : node._nodePolicies.filter
          (fun policy => policy.isSome && acc.contains policy) = [] := by
        simpa using hempty
      rw [hnil] at hmem
      constructor
      · rintro ⟨L, hL, -⟩
        cases hL
      · rintro ⟨hacc, hall⟩
        have := hmem.2 ⟨hall node (List.mem_cons_self _ _), hacc⟩
        simp at this
    · obtain ⟨r, hr, hiff⟩ := ih (node._nodePolicies.filter
        (fun policy => policy.isSome && acc.contains policy))
      refine ⟨r, hr, ?_⟩
      rw [hiff, hmem]
      simp only [List.mem_cons, forall_eq_or_imp]
      tauto

theorem removeAppliedLoop_mem {n : Nat} (x : Option (Fin n)) :
    ∀ (appliedPolicies : List (UDSMPolicy n)) (applicable : List (Option (Fin n))),
      x ∈ removeAppliedLoop appliedPolicies applicable ↔
        (x ∈ applicable ∧ ∀ p ∈ appliedPolicies, x ≠ some p.policyClass) := by
  intro appliedPolicies
  induction appliedPolicies with
  | nil =>
    intro applicable
    simp [removeAppliedLoop]
  | cons p rest ih =>
    intro applicable
    simp only [removeAppliedLoop, ih, List.mem_filter, List.mem_cons, forall_eq_or_imp,
      Bool.not_eq_true', beq_eq_false_iff_ne, ne_eq]
    tauto

theorem applicablePolicies_mem {n : Nat} (first : Option (DefaultNode n))
    (rest : List (Option (DefaultNode n))) (appliedPolicies : List (UDSMPolicy n))
    (L : List (Option (Fin n)))
    (h : applicablePolicies first rest appliedPolicies = some (some L)) :
    ∀ x ∈ L, ∃ c, x = some c ∧ ∀ p ∈ appliedPolicies, p.policyClass ≠ c := by
  intro x hx
  cases first with
  | none => simp [applicablePolicies] at h
  | some node0 =>
    simp only [applicablePolicies] at h
    cases hi : intersectLoop (some node0 :: rest) node0._nodePolicies with
    | none => simp [hi] at h
    | some o =>
      cases o with
      | none => simp [hi] at h
      | some intersected =>
        simp only [hi, Option.some.injEq] at h
        subst h
        obtain ⟨hx1, hx2⟩ := (removeAppliedLoop_mem x appliedPolicies intersected).1 hx
        have hsome := intersectLoop_cons_isSome _ _ _ _ hi x hx1
        cases x with
        | none => simp at hsome
        | some c =>
          refine ⟨c, rfl, ?_⟩
          intro p hp hpc
          exact hx2 p hp (by rw [hpc])

theorem newObjects_mem {n : Nat} (engine : Engine n) :
    ∀ (applicable : List (Option (Fin n))) (instances : List (UDSMPolicy n)),
      newObjects engine applicable = some instances →
      ∀ i ∈ instances, some i.policyClass ∈ applicable ∧
        engine.NewObject (some i.policyClass) = some i := by
  intro applicable
  induction applicable with
  | nil =>
    intro instances h i hi
    simp only [newObjects, Option.some.injEq] at h
    subst h
    simp at hi
  | cons policy rest ih =>
    intro instances h i hi
    simp only [newObjects] at h
    cases ho : engine.NewObject policy with
    | none => simp [ho] at h
    | some object =>
      cases hr : newObjects engine rest with
      | none => simp [ho, hr] at h
      | some objects =>
        simp only [ho, hr, Option.some.injEq] at h
        subst h
        have hclass : policy = some object.policyClass := by
          cases policy with
          | none => simp [Engine.NewObject] at ho
          | some c =>
            simp only [Engine.NewObject, Option.some.injEq] at ho
            subst ho
            rfl
        rcases List.mem_cons.1 hi with rfl | hi'
        · exact ⟨by rw [← hclass]; exact List.mem_cons_self _ _, by rw [← hclass]; exact ho⟩
        · exact ⟨List.mem_cons_of_mem _ (ih objects hr i hi').1, (ih objects hr i hi').2⟩

theorem activatePolicy_class {n : Nat} (policy activated : UDSMPolicy n) (engine : Engine n)
    (transitionableNodes : List (Option (DefaultNode n))) (gameMode : ADSMGameMode n)
    (bSelfTransition : Bool)
    (h : policy.ActivatePolicy engine transitionableNodes gameMode bSelfTransition =
      some activated) :
    activated.policyClass = policy.policyClass ∧ activated._priority = policy._priority := by
  unfold UDSMPolicy.ActivatePolicy at h
  cases hn : (engine.policyClass policy.policyClass).ApplyPolicy
      transitionableNodes gameMode bSelfTransition with
  | none => simp [hn] at h
  | some r =>
    obtain ⟨nodes, success⟩ := r
    simp only [hn] at h
    split_ifs at h
    simp only [Option.some.injEq] at h
    subst h
    exact ⟨rfl, rfl⟩

theorem pairwise_getLast {α : Type} (R : α → α → Prop) :
    ∀ (l : List α) (last : α), l.Pairwise R → l.getLast? = some last →
      ∀ q ∈ l, q = last ∨ R q last := by
  intro l
  induction l with
  | nil =>
    intro last _ h
    simp at h
  | cons a t ih =>
    intro last hp h q hq
    cases t with
    | nil =>
      simp only [List.getLast?_singleton, Option.some.injEq] at h
      simp only [List.mem_singleton] at hq
      exact Or.inl (hq.trans h)
    | cons b t' =>
      rw [List.getLast?_cons_cons] at h
      obtain ⟨ha, ht⟩ := List.pairwise_cons.1 hp
      rcases List.mem_cons.1 hq with rfl | hq'
      · exact Or.inr (ha last (List.mem_of_mem_getLast? h))
      · exact ih last ht h q hq'

theorem intersectLoop_ne_none {n : Nat} :
    ∀ (nodes : List (DefaultNode n)) (acc : List (Option (Fin n))),
      intersectLoop (nodes.map some) acc ≠ none := by
  intro nodes
  induction nodes with
  | nil =>
    intro acc
    simp [intersectLoop]
  | cons node rest ih =>
    intro acc
    simp only [List.map_cons, intersectLoop]
    split_ifs
    · simp
    · exact ih _

/-- C16: for a non-empty list of (non-null) candidates, the policy types that
`FindPolicy` considers for activation (the members of `applicablePolicies` where
it is tested; none at the early return) are exactly the types that occur in the
`_nodePolicies` list of every candidate and are not the class of an applied
policy; no null class is among them. -/
theorem C16_applicable_policies_intersection {n : Nat} (first : DefaultNode n)
    (rest : List (DefaultNode n)) (appliedPolicies : List (UDSMPolicy n)) :
    ∃ r, applicablePolicies (some first) (rest.map some) appliedPolicies = some r ∧
      (∀ t : Fin n, (∃ L, r = some L ∧ some t ∈ L) ↔
        ((∀ node ∈ first :: rest, some t ∈ node._nodePolicies) ∧
          ∀ p ∈ appliedPolicies, p.policyClass ≠ t)) ∧
      ∀ L, r = some L → none ∉ L := by
  cases hi : intersectLoop ((first :: rest).map some) first._nodePolicies with
  | none => exact absurd hi (intersectLoop_ne_none _ _)
  | some o =>
    have hap : applicablePolicies (some first) (rest.map some) appliedPolicies =
        some (o.map (removeAppliedLoop appliedPolicies)) := by
      simp only [applicablePolicies]
      rw [List.map_cons] at hi
      rw [hi]
      cases o <;> rfl
    refine ⟨_, hap, ?_, ?_⟩
    · intro t
      obtain ⟨r, hr, hiff⟩ := intersectLoop_mem t (first :: rest) first._nodePolicies
      rw [hi] at hr
      cases hr
      cases o with
      | none =>
        simp only [Option.map_none', reduceCtorEq, false_and, exists_false, false_iff, not_and]
        intro hall
        exfalso
        have := hiff.2 ⟨hall first (List.mem_cons_self _ _), hall⟩
        obtain ⟨L, hL, -⟩ := this
        cases hL
      | some intersected =>
        simp only [Option.map_some', Option.some.injEq, exists_eq_left', removeAppliedLoop_mem]
        have h1 : some t ∈ intersected ↔ ∀ node ∈ first :: rest, some t ∈ node._nodePolicies := by
          constructor
          · intro ht
            exact (hiff.1 ⟨intersected, rfl, ht⟩).2
          · intro hall
            obtain ⟨L, hL, ht⟩ := hiff.2 ⟨hall first (List.mem_cons_self _ _), hall⟩
            cases hL
            exact ht
        rw [h1]
        constructor
        · rintro ⟨ha, hb⟩
          exact ⟨ha, fun p hp hpc => hb p hp (by rw [hpc])⟩
        · rintro ⟨ha, hb⟩
          exact ⟨ha, fun p hp hpc => hb p hp (by
            simp only [Option.some.injEq] at hpc
            exact hpc.symm)⟩
    · intro L hL hnone
      cases o with
      | none => simp at hL
      | some intersected =>
        simp only [Option.map_some', Option.some.injEq] at hL
        subst hL
        have h1 := ((removeAppliedLoop_mem none appliedPolicies intersected).1 hnone).1
        rw [List.map_cons] at hi
        have := intersectLoop_cons_isSome _ _ _ _ hi none h1
        simp at this

/-! ## The chain of activations of `FindPolicy` -/

theorem findPolicyAux_succ {n : Nat} (engine : Engine n) (self : ADSMGameMode n)
    (bSelfTransition : Bool) (fuel : Nat) (transitionNodes : List (Option (DefaultNode n)))
    (appliedPolicies : List (UDSMPolicy n)) :
    FindPolicyAux engine self bSelfTransition (fuel + 1) transitionNodes appliedPolicies =
      match transitionNodes with
      | [] => some (some (bestSuccessful engine appliedPolicies))
      | first :: rest =>
        match applicablePolicies first rest appliedPolicies with
        | none => some none
        | some none => some (some (FindPolicyResult.mk none false appliedPolicies))
        | some (some applicable) =>
          if applicable.length > 0 then
            match newObjects engine applicable with
            | none => some none
            | some applicablePoliciesInstances =>
              match (engine.SortByPriority applicablePoliciesInstances).getLast? with
              | none => some none
              | some last =>
                match last.ActivatePolicy engine transitionNodes self bSelfTransition with
                | none => some none
                | some policy =>
                  FindPolicyAux engine self bSelfTransition fuel policy.GetPolicyNodes
                    (appliedPolicies ++ [policy])
          else some (some (bestSuccessful engine appliedPolicies)) := by
  cases transitionNodes <;> rfl

theorem findPolicy_step {n : Nat} (engine : Engine n) (hsort : engine.SortSpec)
    (self : ADSMGameMode n) (bSelfTransition : Bool)
    (first : Option (DefaultNode n)) (rest candidates : List (Option (DefaultNode n)))
    (appliedPolicies : List (UDSMPolicy n)) (applicable : List (Option (Fin n)))
    (instances : List (UDSMPolicy n)) (last policy : UDSMPolicy n)
    (happ : applicablePolicies first rest appliedPolicies = some (some applicable))
    (hnew : newObjects engine applicable = some instances)
    (hlast : (engine.SortByPriority instances).getLast? = some last)
    (hact : last.ActivatePolicy engine candidates self bSelfTransition = some policy) :
    some policy.policyClass ∈ applicable ∧
    engine.NewObject (some policy.policyClass) = some last ∧
    (∀ p ∈ appliedPolicies, p.policyClass ≠ policy.policyClass) ∧
    (∀ i ∈ instances, i.GetPriority ≤ policy.GetPriority) := by
  have hmem : last ∈ instances :=
    ((hsort instances).1.mem_iff).1 (List.mem_of_mem_getLast? hlast)
  obtain ⟨h1, h2⟩ := newObjects_mem engine applicable instances hnew last hmem
  obtain ⟨hc, hp⟩ := activatePolicy_class last policy engine candidates self bSelfTransition hact
  obtain ⟨c, hc1, hc2⟩ := applicablePolicies_mem first rest appliedPolicies applicable happ _ h1
  simp only [Option.some.injEq] at hc1
  refine ⟨by rw [hc]; exact h1, by rw [hc]; exact h2, ?_, ?_⟩
  · intro p hp'
    rw [hc, hc1]
    exact hc2 p hp'
  · intro i hi
    have hi' : i ∈ engine.SortByPriority instances := ((hsort instances).1.mem_iff).2 hi
    have := pairwise_getLast _ _ last (hsort instances).2 hlast i hi'
    simp only [UDSMPolicy.GetPriority, hp]
    rcases this with rfl | h
    · exact le_refl _
    · exact h

theorem bestSuccessful_applied {n : Nat} (engine : Engine n)
    (appliedPolicies : List (UDSMPolicy n)) :
    (bestSuccessful engine appliedPolicies).appliedPolicies = appliedPolicies := by
  unfold bestSuccessful
  simp only
  split <;> rfl

theorem bestSuccessful_success {n : Nat} (engine : Engine n) (hsort : engine.SortSpec)
    (appliedPolicies : List (UDSMPolicy n))
    (h : (bestSuccessful engine appliedPolicies).bSuccess = true) :
    ∃ p, (bestSuccessful engine appliedPolicies).policy = some p ∧ p ∈ appliedPolicies ∧
      p.IsPolicyAppliedSuccesfully = true ∧
      ∀ q ∈ appliedPolicies, q.IsPolicyAppliedSuccesfully = true →
        q.GetPriority ≤ p.GetPriority := by
  unfold bestSuccessful at h ⊢
  simp only at h ⊢
  cases hl : (engine.SortByPriority
      (appliedPolicies.filter (fun policy => policy.IsPolicyAppliedSuccesfully))).getLast? with
  | none => simp [hl] at h
  | some last =>
    simp only [hl]
    have hs := hsort (appliedPolicies.filter (fun policy => policy.IsPolicyAppliedSuccesfully))
    have hmem := (hs.1.mem_iff).1 (List.mem_of_mem_getLast? hl)
    obtain ⟨hm1, hm2⟩ := List.mem_filter.1 hmem
    refine ⟨last, rfl, hm1, hm2, ?_⟩
    intro q hq hqs
    have hq' : q ∈ engine.SortByPriority
        (appliedPolicies.filter (fun policy => policy.IsPolicyAppliedSuccesfully)) :=
      (hs.1.mem_iff).2 (List.mem_filter.2 ⟨hq, hqs⟩)
    rcases pairwise_getLast _ _ last hs.2 hl q hq' with rfl | hle
    · exact le_refl _
    · exact hle

theorem bestSuccessful_failure {n : Nat} (engine : Engine n) (hsort : engine.SortSpec)
    (appliedPolicies : List (UDSMPolicy n))
    (h : (bestSuccessful engine appliedPolicies).bSuccess = false) :
    ∀ q ∈ appliedPolicies, q.IsPolicyAppliedSuccesfully = false := by
  unfold bestSuccessful at h
  simp only at h
  cases hl : (engine.SortByPriority
      (appliedPolicies.filter (fun policy => policy.IsPolicyAppliedSuccesfully))).getLast? with
  | some last => simp [hl] at h
  | none =>
    have hnil := List.getLast?_eq_none_iff.1 hl
    have hs := hsort (appliedPolicies.filter (fun policy => policy.IsPolicyAppliedSuccesfully))
    rw [hnil] at hs
    have hf := hs.1.symm.eq_nil
    intro q hq
    by_contra hne
    have : q ∈ appliedPolicies.filter (fun policy => policy.IsPolicyAppliedSuccesfully) :=
      List.mem_filter.2 ⟨hq, by simpa using hne⟩
    rw [hf] at this
    simp at this

theorem unapplied_card_lt {n : Nat} (appliedPolicies : List (UDSMPolicy n))
    (policy : UDSMPolicy n)
    (h : ∀ p ∈ appliedPolicies, p.policyClass ≠ policy.policyClass) :
    (Finset.univ.filter (fun c : Fin n =>
        c ∉ (appliedPolicies ++ [policy]).map (fun p => p.policyClass))).card <
      (Finset.univ.filter (fun c : Fin n =>
        c ∉ appliedPolicies.map (fun p => p.policyClass))).card := by
  apply Finset.card_lt_card
  constructor
  · intro c hc
    simp only [Finset.mem_filter, Finset.mem_univ, true_and, List.map_append, List.mem_append,
      not_or] at hc ⊢
    exact hc.1
  · intro hsup
    have hin : policy.policyClass ∈ Finset.univ.filter (fun c : Fin n =>
        c ∉ appliedPolicies.map (fun p => p.policyClass)) := by
      simp only [Finset.mem_filter, Finset.mem_univ, true_and, List.mem_map, not_exists, not_and]
      exact fun p hp => h p hp
    have := hsup hin
    simp at this

theorem findPolicyAux_fuel {n : Nat} (engine : Engine n) (hsort : engine.SortSpec)
    (self : ADSMGameMode n) (bSelfTransition : Bool) :
    ∀ (fuel : Nat) (transitionNodes : List (Option (DefaultNode n)))
      (appliedPolicies : List (UDSMPolicy n)),
      (Finset.univ.filter (fun c : Fin n =>
        c ∉ appliedPolicies.map (fun p => p.policyClass))).card < fuel →
      FindPolicyAux engine self bSelfTransition fuel transitionNodes appliedPolicies ≠ none := by
  intro fuel
  induction fuel with
  | zero =>
    intro _ _ h
    exact absurd h (Nat.not_lt_zero _)
  | succ fuel ih =>
    intro transitionNodes appliedPolicies hcard
    rw [findPolicyAux_succ]
    cases transitionNodes with
    | nil => simp
    | cons first rest =>
      simp only
      cases happ : applicablePolicies first rest appliedPolicies with
      | none => simp
      | some o =>
        cases o with
        | none => simp
        | some applicable =>
          simp only
          split_ifs
          · cases hnew : newObjects engine applicable with
            | none => simp
            | some instances =>
              simp only
              cases hlast : (engine.SortByPriority instances).getLast? with
              | none => simp
              | some last =>
                simp only
                cases hact : last.ActivatePolicy engine (first :: rest) self bSelfTransition with
                | none => simp
                | some policy =>
                  simp only
                  apply ih
                  have hstep := findPolicy_step engine hsort self bSelfTransition first rest
                    (first :: rest) appliedPolicies applicable instances last policy
                    happ hnew hlast hact
                  have := unapplied_card_lt appliedPolicies policy hstep.2.2.1
                  omega
          · simp

theorem findPolicyAux_chain {n : Nat} (engine : Engine n) (hsort : engine.SortSpec)
    (self : ADSMGameMode n) (bSelfTransition : Bool) :
    ∀ (fuel : Nat) (transitionNodes : List (Option (DefaultNode n)))
      (appliedPolicies : List (UDSMPolicy n)) (res : FindPolicyResult n),
      FindPolicyAux engine self bSelfTransition fuel transitionNodes appliedPolicies =
        some (some res) →
      ∃ activated : List (UDSMPolicy n),
        res.appliedPolicies = appliedPolicies ++ activated ∧
        (activated.map (fun p => p.policyClass)).Nodup ∧
        (∀ p ∈ activated, ∀ q ∈ appliedPolicies, p.policyClass ≠ q.policyClass) ∧
        (∀ q ∈ activated, ∃ candidates fresh,
          engine.NewObject (some q.policyClass) = some fresh ∧
          fresh.ActivatePolicy engine candidates self bSelfTransition = some q) ∧
        activated.length < fuel ∧
        (res.bSuccess = true →
          ∃ p, res.policy = some p ∧ p ∈ res.appliedPolicies ∧
            p.IsPolicyAppliedSuccesfully = true ∧
            ∀ q ∈ res.appliedPolicies, q.IsPolicyAppliedSuccesfully = true →
              q.GetPriority ≤ p.GetPriority) := by
  intro fuel
  induction fuel with
  | zero =>
    intro _ _ _ h
    simp [FindPolicyAux] at h
  | succ fuel ih =>
    intro transitionNodes appliedPolicies res h
    rw [findPolicyAux_succ] at h
    have hbase : some (some (bestSuccessful engine appliedPolicies)) = some (some res) →
        ∃ activated : List (UDSMPolicy n),
          res.appliedPolicies = appliedPolicies ++ activated ∧
          (activated.map (fun p => p.policyClass)).Nodup ∧
          (∀ p ∈ activated, ∀ q ∈ appliedPolicies, p.policyClass ≠ q.policyClass) ∧
          (∀ q ∈ activated, ∃ candidates fresh,
            engine.NewObject (some q.policyClass) = some fresh ∧
            fresh.ActivatePolicy engine candidates self bSelfTransition = some q) ∧
          activated.length < fuel + 1 ∧
          (res.bSuccess = true →
            ∃ p, res.policy = some p ∧ p ∈ res.appliedPolicies ∧
              p.IsPolicyAppliedSuccesfully = true ∧
              ∀ q ∈ res.appliedPolicies, q.IsPolicyAppliedSuccesfully = true →
                q.GetPriority ≤ p.GetPriority) := by
      intro hb
      simp only [Option.some.injEq] at hb
      subst hb
      refine ⟨[], by simp [bestSuccessful_applied], List.nodup_nil, by simp, by simp,
        by simp, ?_⟩
      intro hs
      rw [bestSuccessful_applied]
      exact bestSuccessful_success engine hsort appliedPolicies hs
    cases transitionNodes with
    | nil => exact hbase h
    | cons first rest =>
      simp only at h
      cases happ : applicablePolicies first rest appliedPolicies with
      | none => simp [happ] at h
      | some o =>
        cases o with
        | none =>
          simp only [happ, Option.some.injEq] at h
          subst h
          exact ⟨[], by simp, List.nodup_nil, by simp, by simp, by simp, by simp⟩
        | some applicable =>
          simp only [happ] at h
          split_ifs at h
          · cases hnew : newObjects engine applicable with
            | none => simp [hnew] at h
            | some instances =>
              simp only [hnew] at h
              cases hlast : (engine.SortByPriority instances).getLast? with
              | none => simp [hlast] at h
              | some last =>
                simp only [hlast] at h
                cases hact : last.ActivatePolicy engine (first :: rest) self bSelfTransition with
                | none => simp [hact] at h
                | some policy =>
                  simp only [hact] at h
                  have hstep := findPolicy_step engine hsort self bSelfTransition first rest
                    (first :: rest) appliedPolicies applicable instances last policy
                    happ hnew hlast hact
                  obtain ⟨activated, h1, h2, h3, h4, h5, h6⟩ := ih _ _ res h
                  refine ⟨policy :: activated, ?_, ?_, ?_, ?_, ?_, h6⟩
                  · rw [h1]
                    simp
                  · rw [List.map_cons, List.nodup_cons]
                    refine ⟨?_, h2⟩
                    intro hmem
                    obtain ⟨p, hp, hpc⟩ := List.mem_map.1 hmem
                    exact h3 p hp policy (by simp) hpc
                  · intro p hp q hq
                    rcases List.mem_cons.1 hp with rfl | hp'
                    · exact fun heq => hstep.2.2.1 q hq heq.symm
                    · exact h3 p hp' q (List.mem_append_left _ hq)
                  · intro q hq
                    rcases List.mem_cons.1 hq with rfl | hq'
                    · exact ⟨first :: rest, last, hstep.2.1, hact⟩
                    · exact h4 q hq'
                  · simp only [List.length_cons]
                    omega
          · exact hbase h

theorem findPolicy_eq_some {n : Nat} (self : ADSMGameMode n) (engine : Engine n)
    (transitionNodes : List (Option (DefaultNode n))) (bSelfTransition : Bool)
    (appliedPolicies : List (UDSMPolicy n)) (res : FindPolicyResult n)
    (h : self.FindPolicy engine transitionNodes bSelfTransition appliedPolicies = some res) :
    FindPolicyAux engine self bSelfTransition (n + 1) transitionNodes appliedPolicies =
      some (some res) := by
  unfold ADSMGameMode.FindPolicy at h
  cases hf : FindPolicyAux engine self bSelfTransition (n + 1) transitionNodes
      appliedPolicies with
  | none => simp [hf] at h
  | some r =>
    simp only [hf] at h
    rw [h]

/-- C15: whenever `FindPolicy` (called with no applied policies) reports success,
the policy it returns is one of the policies activated during this chain of
calls, each of which is a fresh object of its class after `ActivatePolicy`; it
reports success; and its priority is greater than or equal to that of every
activated policy of the chain that reports success. -/
theorem C15_findPolicy_returns_best_successful {n : Nat} (engine : Engine n)
    (hsort : engine.SortSpec) (self : ADSMGameMode n)
    (transitionNodes : List (Option (DefaultNode n))) (bSelfTransition : Bool)
    (res : FindPolicyResult n)
    (hfind : self.FindPolicy engine transitionNodes bSelfTransition [] = some res)
    (hsuccess : res.bSuccess = true) :
    ∃ p, res.policy = some p ∧ p ∈ res.appliedPolicies ∧
      (∀ q ∈ res.appliedPolicies, ∃ candidates fresh,
        engine.NewObject (some q.policyClass) = some fresh ∧
        fresh.ActivatePolicy engine candidates self bSelfTransition = some q) ∧
      p.IsPolicyAppliedSuccesfully = true ∧
      ∀ q ∈ res.appliedPolicies, q.IsPolicyAppliedSuccesfully = true →
        q.GetPriority ≤ p.GetPriority := by
  obtain ⟨activated, h1, -, -, h4, -, h6⟩ :=
    findPolicyAux_chain engine hsort self bSelfTransition _ _ _ res
      (findPolicy_eq_some self engine transitionNodes bSelfTransition [] res hfind)
  obtain ⟨p, hp1, hp2, hp3, hp4⟩ := h6 hsuccess
  refine ⟨p, hp1, hp2, ?_, hp3, hp4⟩
  intro q hq
  rw [h1, List.nil_append] at hq
  exact h4 q hq

/-- C17: `FindPolicy` terminates: with `n` policy classes, `n + 1` nested calls
always suffice, for every list of transition nodes and of applied policies; and
in every chain of calls that returns, the classes of the policies activated by
the calls are pairwise different and different from the classes applied before,
so at most `n` calls activate a policy. -/
theorem C17_findPolicy_terminates {n : Nat} (engine : Engine n) (hsort : engine.SortSpec)
    (self : ADSMGameMode n) (bSelfTransition : Bool)
    (transitionNodes : List (Option (DefaultNode n)))
    (appliedPolicies : List (UDSMPolicy n)) :
    (∃ outcome, FindPolicyAux engine self bSelfTransition (n + 1) transitionNodes
        appliedPolicies = some outcome) ∧
    (∀ (fuel : Nat) (res : FindPolicyResult n),
      FindPolicyAux engine self bSelfTransition fuel transitionNodes appliedPolicies =
        some (some res) →
      ∃ activated : List (UDSMPolicy n),
        res.appliedPolicies = appliedPolicies ++ activated ∧
        (activated.map (fun p => p.policyClass)).Nodup ∧
        (∀ p ∈ activated, ∀ q ∈ appliedPolicies, p.policyClass ≠ q.policyClass) ∧
        activated.length ≤ n) := by
  constructor
  · have hcard : (Finset.univ.filter (fun c : Fin n =>
        c ∉ appliedPolicies.map (fun p => p.policyClass))).card < n + 1 := by
      have := Finset.card_filter_le (Finset.univ : Finset (Fin n))
        (fun c : Fin n => c ∉ appliedPolicies.map (fun p => p.policyClass))
      simp only [Finset.card_univ, Fintype.card_fin] at this
      omega
    have := findPolicyAux_fuel engine hsort self bSelfTransition (n + 1) transitionNodes
      appliedPolicies hcard
    cases hf : FindPolicyAux engine self bSelfTransition (n + 1) transitionNodes
        appliedPolicies with
    | none => exact absurd hf this
    | some outcome => exact ⟨outcome, rfl⟩
  · intro fuel res h
    obtain ⟨activated, h1, h2, h3, -, -, -⟩ :=
      findPolicyAux_chain engine hsort self bSelfTransition fuel _ _ res h
    refine ⟨activated, h1, h2, h3, ?_⟩
    have := List.Nodup.length_le_card h2
    simpa using this

theorem plainEngine_sortSpec : plainEngine.SortSpec := by
  intro l
  haveI : IsTotal (UDSMPolicy 2) (fun R L => R.GetPriority ≤ L.GetPriority) :=
    ⟨fun a b => le_total a.GetPriority b.GetPriority⟩
  haveI : IsTrans (UDSMPolicy 2) (fun R L => R.GetPriority ≤ L.GetPriority) :=
    ⟨fun _ _ _ hab hbc => le_trans hab hbc⟩
  exact ⟨List.perm_insertionSort _ l, List.sorted_insertionSort _ l⟩

/-- C15 on three plain nodes tagged `B`, `A`, `A` that declare both built-in
policies, the second not enterable: the tag policy (priority 10) succeeds, the
default policy then fails on two enterable nodes, and `FindPolicy` reports
success with a policy of the chain that is best among the successful ones. -/
theorem C15_findPolicy_returns_best_successful_witness :
    plainEngine.SortSpec ∧
    ∃ res, (idleGameMode 2).FindPolicy plainEngine
        [some (plainNode 2 true [['B']] [some 0, some 1]),
          some (plainNode 2 false [['A']] [some 1, none, some 0]),
          some (plainNode 2 true [['A']] [some 0, some 1])] false [] = some res ∧
      res.bSuccess = true ∧
      ∃ p, res.policy = some p ∧ p ∈ res.appliedPolicies ∧
        p.IsPolicyAppliedSuccesfully = true ∧
        ∀ q ∈ res.appliedPolicies, q.IsPolicyAppliedSuccesfully = true →
          q.GetPriority ≤ p.GetPriority := by
  refine ⟨plainEngine_sortSpec, _, rfl, rfl, ?_⟩
  obtain ⟨p, h1, h2, -, h4, h5⟩ := C15_findPolicy_returns_best_successful plainEngine
    plainEngine_sortSpec (idleGameMode 2)
    [some (plainNode 2 true [['B']] [some 0, some 1]),
      some (plainNode 2 false [['A']] [some 1, none, some 0]),
      some (plainNode 2 true [['A']] [some 0, some 1])] false _ rfl rfl
  exact ⟨p, h1, h2, h4, h5⟩

/-- C17 on the engine with the two built-in policy classes: three nested calls
suffice on three plain nodes. -/
theorem C17_findPolicy_terminates_witness :
    plainEngine.SortSpec ∧
    ∃ outcome, FindPolicyAux plainEngine (idleGameMode 2) false (2 + 1)
      [some (plainNode 2 true [['B']] [some 0, some 1]),
        some (plainNode 2 false [['A']] [some 1, none, some 0]),
        some (plainNode 2 true [['A']] [some 0, some 1])] [] = some outcome :=
  ⟨plainEngine_sortSpec,
    (C17_findPolicy_terminates plainEngine plainEngine_sortSpec (idleGameMode 2) false
      [some (plainNode 2 true [['B']] [some 0, some 1]),
        some (plainNode 2 false [['A']] [some 1, none, some 0]),
        some (plainNode 2 true [['A']] [some 0, some 1])] []).1⟩

/-! ## Transitions of the manager -/

theorem endState_currentPolicy {n : Nat} (self : ADSMGameMode n) :
    self.EndState._currentPolicy = self._currentPolicy := by
  unfold ADSMGameMode.EndState
  split <;> rfl

/-- C18: if transitions are allowed, `TransitionState` needs a new policy (there is
no current policy, or the current policy has finished and asks for a transition
after it) and `FindPolicy` reports failure, then `TransitionState` returns with
no current node and no current policy, so `IsActive` is false. -/
theorem C18_transitionState_failure_goes_idle {n : Nat} (self : ADSMGameMode n)
    (engine : Engine n) (found : FindPolicyResult n)
    (hallowed : self._IsTransitionAllowed = true)
    (hneed : ∀ p, self._currentPolicy = some p →
      p.HasPolicyFinished = true ∧ p.TransitionAfterPolicy = true)
    (hfind : self.EndState.FindPolicy engine self.EndState._defaultNodes false [] = some found)
    (hfail : found.bSuccess = false) :
    ∃ after, self.TransitionState engine = some after ∧
      after._currentNode = none ∧ after._currentPolicy = none ∧ after.IsActive = false := by
  have hpol := endState_currentPolicy self
  unfold ADSMGameMode.TransitionState
  simp only [hallowed, Bool.not_true, Bool.false_eq_true, if_false, hpol]
  have hcond : ((match self._currentPolicy with
      | some currentPolicy => currentPolicy.HasPolicyFinished
      | none => true) &&
      (match self._currentPolicy with
      | some currentPolicy => currentPolicy.TransitionAfterPolicy
      | none => true)) = true := by
    cases hp : self._currentPolicy with
    | none => rfl
    | some p =>
      obtain ⟨h1, h2⟩ := hneed p hp
      simp [h1, h2]
  simp only [hcond, if_true, hfind, hfail, Bool.false_eq_true, if_false]
  exact ⟨_, rfl, rfl, rfl, rfl⟩

/-- C18 on a running manager whose only registered node cannot be entered: the
default policy fails, and the transition leaves the manager idle. -/
theorem C18_transitionState_failure_goes_idle_witness :
    runningGameMode._IsTransitionAllowed = true ∧
    (∀ p, runningGameMode._currentPolicy = some p →
      p.HasPolicyFinished = true ∧ p.TransitionAfterPolicy = true) ∧
    (∃ found, runningGameMode.EndState.FindPolicy plainEngine
        runningGameMode.EndState._defaultNodes false [] = some found ∧
      found.bSuccess = false) ∧
    ∃ after, runningGameMode.TransitionState plainEngine = some after ∧
      after._currentNode = none ∧ after._currentPolicy = none ∧ after.IsActive = false := by
  have hneed : ∀ p, runningGameMode._currentPolicy = some p →
      p.HasPolicyFinished = true ∧ p.TransitionAfterPolicy = true := by
    intro p hp
    simp only [runningGameMode, Option.some.injEq] at hp
    subst hp
    exact ⟨rfl, rfl⟩
  exact ⟨rfl, hneed, ⟨_, rfl, rfl⟩,
    C18_transitionState_failure_goes_idle runningGameMode plainEngine _ rfl hneed rfl rfl⟩

/-- C19: whenever the state machine is active, `RequestCustomTransition` returns
false and leaves the manager as it is: the current node, the current policy,
the ended flag and the history are unchanged. -/
theorem C19_requestCustomTransition_when_active {n : Nat} (self : ADSMGameMode n)
    (engine : Engine n) (node : Option (DefaultNode n)) (hactive : self.IsActive = true) :
    ∃ after, self.RequestCustomTransition engine node = some (false, after) ∧
      after._currentNode = self._currentNode ∧ after._currentPolicy = self._currentPolicy ∧
      after._hasStateEnded = self._hasStateEnded ∧
      after._stateMachineData = self._stateMachineData ∧ after = self := by
  unfold ADSMGameMode.RequestCustomTransition
  simp only [hactive, Bool.not_true, Bool.false_eq_true, if_false]
  exact ⟨self, rfl, rfl, rfl, rfl, rfl, rfl⟩

/-- C19 on a running manager, with a node that could be entered as the argument. -/
theorem C19_requestCustomTransition_when_active_witness :
    runningGameMode.IsActive = true ∧
    ∃ after, runningGameMode.RequestCustomTransition plainEngine
        (some (plainNode 2 true [] [some 0])) = some (false, after) ∧
      after._currentNode = runningGameMode._currentNode ∧
      after._currentPolicy = runningGameMode._currentPolicy ∧
      after._hasStateEnded = runningGameMode._hasStateEnded ∧
      after._stateMachineData = runningGameMode._stateMachineData ∧
      after = runningGameMode :=
  ⟨rfl, C19_requestCustomTransition_when_active runningGameMode plainEngine
    (some (plainNode 2 true [] [some 0])) rfl⟩

/-! ## Instances on small nodes -/

/-- C11 on the node of the condition tests, every definition binding: with the
group `true || false && false` validation returns true, with the group `falses`
(no such condition) it does not. -/
theorem C11_node_validateConditionGroups_iff_witness :
    (∃ node', (conditionGroupNode [(['g'], ['t', 'r', 'u', 'e', ' ', '|', '|', ' ', 'f', 'a',
        'l', 's', 'e', ' ', '&', '&', ' ', 'f', 'a', 'l', 's', 'e'])]).ValidateConditionGroups
      (fun _ _ => true) false = some (true, node')) ∧
    ¬ ∃ node', (conditionGroupNode [(['g'], ['f', 'a', 'l', 's', 'e', 's'])]).ValidateConditionGroups
      (fun _ _ => true) false = some (true, node') := by
  constructor
  · apply (C11_node_validateConditionGroups_iff _ _ false).1.2
    constructor
    · intro e he
      simp only [conditionGroupNode, conditionTestNode, List.mem_cons, List.mem_singleton,
        List.not_mem_nil, or_false] at he
      rcases he with rfl | rfl
      · exact ⟨_, rfl, rfl⟩
      · exact ⟨_, rfl, rfl⟩
    · intro g hg
      simp only [conditionGroupNode, List.mem_singleton] at hg
      subst hg
      exact ⟨_, rfl⟩
  · intro h
    obtain ⟨ev, hev⟩ := ((C11_node_validateConditionGroups_iff _ _ false).1.1 h).2
      (['g'], ['f', 'a', 'l', 's', 'e', 's']) (by simp [conditionGroupNode])
    have hnone : CompileConditionString ['f', 'a', 'l', 's', 'e', 's']
        (fun name => (conditionGroupNode [(['g'],
          ['f', 'a', 'l', 's', 'e', 's'])]).toUDSMDefaultNode.ValidateConditionName name) =
        some none := rfl
    rw [hnone] at hev
    simp at hev

/-- C12 on a plain node: with the native entry true the node can be entered, with
the native entry false it cannot. -/
theorem C12_evaluateEnterConditions_iff_witness :
    (∃ Conditions, (plainNode 2 true [] []).EvaluateEnterConditions false =
      some (true, Conditions)) ∧
    ¬ ∃ Conditions, (plainNode 2 false [] []).EvaluateEnterConditions false =
      some (true, Conditions) := by
  constructor
  · apply (C12_evaluateEnterConditions_iff _ false).1.2
    refine ⟨?_, ?_, ?_⟩ <;> simp [plainNode]
  · intro h
    have := ((C12_evaluateEnterConditions_iff _ false).1.1 h).1
      (['e', 'n', 't', 'e', 'r'], false) (by simp [plainNode])
    simp at this

/-- C14 on plain nodes: for the tag order `[A, B]` and the input `n1` (tag `B`, not
enterable), `n2` (tag `A`, enterable), `n3` (tag `A`, not enterable) the output
is `[n2, n3, n1]`. -/
theorem C14_orderByTagPolicy_applyPolicy_witness :
    UDSMOrderByTagPolicy.ApplyPolicy [['A'], ['B']]
        [some (plainNode 2 false [['B']] []), some (plainNode 2 true [['A']] []),
          some (plainNode 2 false [['A']] [])] =
      some ([some (plainNode 2 true [['A']] []), some (plainNode 2 false [['A']] []),
        some (plainNode 2 false [['B']] [])], true) :=
  (C14_orderByTagPolicy_applyPolicy [] ([] : List (DefaultNode 2))).2.2 ['A'] ['B']
    (plainNode 2 false [['B']] []) (plainNode 2 true [['A']] [])
    (plainNode 2 false [['A']] []) rfl rfl rfl rfl rfl rfl

/-- C16 on three plain nodes declaring `[0, 1]`, `[1, null, 0]` and `[0, 1]`, after a
policy of class 0 was applied: class 1 is considered, class 0 is not. -/
theorem C16_applicable_policies_intersection_witness :
    ∃ r, applicablePolicies (some (plainNode 2 true [] [some 0, some 1]))
        ([plainNode 2 true [] [some 1, none, some 0],
          plainNode 2 true [] [some 0, some 1]].map some)
        [UDSMPolicy.mk 0 0 true false []] = some r ∧
      (∃ L, r = some L ∧ some (1 : Fin 2) ∈ L) ∧
      ¬ ∃ L, r = some L ∧ some (0 : Fin 2) ∈ L := by
  obtain ⟨r, hr, hiff, -⟩ := C16_applicable_policies_intersection
    (plainNode 2 true [] [some 0, some 1])
    [plainNode 2 true [] [some 1, none, some 0], plainNode 2 true [] [some 0, some 1]]
    [UDSMPolicy.mk 0 0 true false []]
  refine ⟨r, hr, (hiff 1).2 ?_, fun h => ?_⟩
  · constructor
    · intro node hnode
      simp only [List.mem_cons, List.mem_singleton, List.not_mem_nil, or_false] at hnode
      rcases hnode with rfl | rfl | rfl <;> simp [plainNode]
    · intro p hp
      simp only [List.mem_singleton] at hp
      subst hp
      decide
  · have := ((hiff 0).1 h).2 (UDSMPolicy.mk 0 0 true false []) (by simp)
    exact this rfl

/-! ## Data assets of a node and the history -/

/-- C22: for every key that is contained in both `_writableDataReferences` and
`_readOnlyDataReferences` of a node, or in neither, `GetData(key)` returns no
data asset, whatever the manager is (also none) and whatever its state; the
manager is left as it is, and the blueprint overload reports failure. -/
theorem C22_getData_both_or_neither {n : Nat} (node : DefaultNode n)
    (gameMode : Option (ADSMGameMode n)) (key uniqueName : FName)
    (hkey : ((node._writableDataReferences.lookup key).isSome = true ∧
        (node._readOnlyDataReferences.lookup key).isSome = true) ∨
      ((node._writableDataReferences.lookup key).isSome = false ∧
        (node._readOnlyDataReferences.lookup key).isSome = false)) :
    node.GetData gameMode key uniqueName = some (none, gameMode) ∧
    node.GetDataOut gameMode key uniqueName = some ((none, false), gameMode) := by
  have heq : (node._writableDataReferences.lookup key).isSome =
      (node._readOnlyDataReferences.lookup key).isSome := by
    rcases hkey with ⟨h1, h2⟩ | ⟨h1, h2⟩ <;> rw [h1, h2]
  have h : node.GetData gameMode key uniqueName = some (none, gameMode) := by
    unfold DefaultNode.GetData
    cases gameMode with
    | none => rfl
    | some manager => simp only [heq, if_true]
  refine ⟨h, ?_⟩
  unfold DefaultNode.GetDataOut
  simp only [h]
  rfl

theorem latestLoop_append {n : Nat} (name : FName) (entry : FDSMNodeID n)
    (value : Option UDSMDataAsset) (hentry : entry._data.lookup name = some value) :
    ∀ (newer older : List (FDSMNodeID n)),
      (∀ e ∈ newer, e._data.lookup name = none) →
      latestLoop name (newer ++ entry :: older) = value := by
  intro newer
  induction newer with
  | nil =>
    intro older _
    simp [latestLoop, hentry]
  | cons e rest ih =>
    intro older h
    have he := h e (List.mem_cons_self _ _)
    simp only [List.cons_append, latestLoop, he]
    exact ih older (fun x hx => h x (List.mem_cons_of_mem _ hx))

theorem latestLoop_none {n : Nat} (name : FName) :
    ∀ history : List (FDSMNodeID n),
      (∀ e ∈ history, e._data.lookup name = none) → latestLoop name history = none := by
  intro history
  induction history with
  | nil =>
    intro _
    rfl
  | cons e rest ih =>
    intro h
    have he := h e (List.mem_cons_self _ _)
    simp only [latestLoop, he]
    exact ih (fun x hx => h x (List.mem_cons_of_mem _ hx))

/-- C23 (as amended): for every history and every default data asset `d`, when
the most recently appended entry whose data map contains the name of `d`
stores a valid asset there, `GetDataCopy(d)` returns a copy of that asset; when
it stores a null pointer there, or when no entry contains the name,
`GetDataCopy(d)` returns a copy of `d` itself. A copy has the property values
of its source (and the name the engine gives it). -/
theorem C23_getDataCopy_latest_or_default {n : Nat} (data : UDSMSaveGame n)
    (d : UDSMDataAsset) (uniqueName : FName) :
    (∀ (older newer : List (FDSMNodeID n)) (entry : FDSMNodeID n) (stored : UDSMDataAsset),
      data._stateMachineHistory = older ++ entry :: newer →
      (∀ e ∈ newer, e._data.lookup d.name = none) →
      entry._data.lookup d.name = some (some stored) →
      data.GetDataCopy (some d) uniqueName = some (UDSMDataAsset.mk uniqueName stored.payload)) ∧
    (∀ (older newer : List (FDSMNodeID n)) (entry : FDSMNodeID n),
      data._stateMachineHistory = older ++ entry :: newer →
      (∀ e ∈ newer, e._data.lookup d.name = none) →
      entry._data.lookup d.name = some none →
      data.GetDataCopy (some d) uniqueName = some (UDSMDataAsset.mk uniqueName d.payload)) ∧
    ((∀ e ∈ data._stateMachineHistory, e._data.lookup d.name = none) →
      data.GetDataCopy (some d) uniqueName = some (UDSMDataAsset.mk uniqueName d.payload)) := by
  have hrev : ∀ (older newer : List (FDSMNodeID n)) (entry : FDSMNodeID n)
      (value : Option UDSMDataAsset),
      data._stateMachineHistory = older ++ entry :: newer →
      (∀ e ∈ newer, e._data.lookup d.name = none) →
      entry._data.lookup d.name = some value →
      data.GetLatestDataAssetOfType (some d) = value := by
    intro older newer entry value hh hnewer hentry
    unfold UDSMSaveGame.GetLatestDataAssetOfType
    simp only [hh, List.reverse_append, List.reverse_cons, List.append_assoc,
      List.singleton_append]
    exact latestLoop_append d.name entry value hentry newer.reverse older.reverse
      (fun e he => hnewer e (List.mem_reverse.1 he))
  refine ⟨?_, ?_, ?_⟩
  · intro older newer entry stored hh hnewer hentry
    unfold UDSMSaveGame.GetDataCopy
    simp only [hrev older newer entry (some stored) hh hnewer hentry]
    rfl
  · intro older newer entry hh hnewer hentry
    unfold UDSMSaveGame.GetDataCopy
    simp only [hrev older newer entry none hh hnewer hentry]
    rfl
  · intro hnone
    unfold UDSMSaveGame.GetDataCopy UDSMSaveGame.GetLatestDataAssetOfType
    simp only [latestLoop_none d.name _ (fun e he => hnone e (List.mem_reverse.1 he))]
    rfl

/-- C22 on a node that lists the key `x` in both maps and the key `z` in neither,
with a running manager. -/
theorem C22_getData_both_or_neither_witness :
    (((dataNode._writableDataReferences.lookup ['x']).isSome = true ∧
        (dataNode._readOnlyDataReferences.lookup ['x']).isSome = true) ∨
      ((dataNode._writableDataReferences.lookup ['x']).isSome = false ∧
        (dataNode._readOnlyDataReferences.lookup ['x']).isSome = false)) ∧
    dataNode.GetData (some runningGameMode) ['x'] ['u'] = some (none, some runningGameMode) ∧
    dataNode.GetDataOut (some runningGameMode) ['x'] ['u'] =
      some ((none, false), some runningGameMode) :=
  ⟨Or.inl ⟨rfl, rfl⟩,
    C22_getData_both_or_neither dataNode (some runningGameMode) ['x'] ['u']
      (Or.inl ⟨rfl, rfl⟩)⟩

/-- C23 (the claim as stated, at a history whose newest entry stores a null
pointer under the name `d`): the value stored in the most recently appended
entry that contains the name is null, whose copy is null, yet `GetDataCopy`
returns a copy of the default asset (payload 7), not of the stored value and
not of the older entry's asset (payload 1). -/
theorem C23_getDataCopy_null_entry_counterexample :
    (nullEntrySaveGame._stateMachineHistory.getLast?.map
      (fun entry => entry._data.lookup ['d'])) = some (some none) ∧
    DuplicateObject ['u'] none = none ∧
    nullEntrySaveGame.GetDataCopy (some (UDSMDataAsset.mk ['d'] 7)) ['u'] =
      some (UDSMDataAsset.mk ['u'] 7) ∧
    nullEntrySaveGame.GetDataCopy (some (UDSMDataAsset.mk ['d'] 7)) ['u'] ≠
      DuplicateObject ['u'] none :=
  ⟨rfl, rfl, rfl, fun h => Option.noConfusion h⟩

/-- C23 at a history with two entries storing assets under the name `d`: the copy
has the payload of the newer one. -/
theorem C23_getDataCopy_latest_or_default_witness :
    (UDSMSaveGame.mk
        [FDSMNodeID.mk none [(['d'], some (UDSMDataAsset.mk ['c'] 1))],
          FDSMNodeID.mk none [(['e'], none)],
          FDSMNodeID.mk none [(['d'], some (UDSMDataAsset.mk ['c'] 2))],
          FDSMNodeID.mk none []] false (-1) : UDSMSaveGame 0).GetDataCopy
      (some (UDSMDataAsset.mk ['d'] 7)) ['u'] = some (UDSMDataAsset.mk ['u'] 2) :=
  (C23_getDataCopy_latest_or_default
    (UDSMSaveGame.mk
      [FDSMNodeID.mk none [(['d'], some (UDSMDataAsset.mk ['c'] 1))],
        FDSMNodeID.mk none [(['e'], none)],
        FDSMNodeID.mk none [(['d'], some (UDSMDataAsset.mk ['c'] 2))],
        FDSMNodeID.mk none []] false (-1) : UDSMSaveGame 0)
    (UDSMDataAsset.mk ['d'] 7) ['u']).1
    [FDSMNodeID.mk none [(['d'], some (UDSMDataAsset.mk ['c'] 1))],
      FDSMNodeID.mk none [(['e'], none)]]
    [FDSMNodeID.mk none []]
    (FDSMNodeID.mk none [(['d'], some (UDSMDataAsset.mk ['c'] 2))])
    (UDSMDataAsset.mk ['c'] 2) rfl
    (by
      intro e he
      simp only [List.mem_singleton] at he
      subst he
      rfl)
    rfl

/-! ## Suppressed transitions and loading -/

theorem transitionState_suppressed {n : Nat} (self : ADSMGameMode n) (engine : Engine n)
    (h : self._IsTransitionAllowed = false) : self.TransitionState engine = some self := by
  unfold ADSMGameMode.TransitionState
  simp [h]

theorem requestTransition_Internal_suppressed {n : Nat} (self : ADSMGameMode n)
    (engine : Engine n) (h : self._IsTransitionAllowed = false) :
    ∃ b, self.RequestTransition_Internal engine = some (b, self) := by
  unfold ADSMGameMode.RequestTransition_Internal
  rw [transitionState_suppressed self engine h]
  split_ifs
  · exact ⟨true, rfl⟩
  · exact ⟨false, rfl⟩

/-- C24 (the code at the failing input: a non-empty slot name and a loaded save
game that is to be loaded up to index 0, whose only history entry names a node
that is not found): `LoadSaveGame_Internal` leaves at the `return` inside its
loop and `_IsTransitionAllowed`, true before the call, is false afterwards;
with an entry whose node is found, and with no save game in the slot, it is true
afterwards. -/
theorem C24_load_failure_leaves_transitions_suppressed :
    freshGameMode._IsTransitionAllowed = true ∧
    (freshGameMode.LoadSaveGame_Internal (SaveLoadInfo.mk ['s'] true) (some staleSaveGame)
      (fun _ => none)).map (fun after => after._IsTransitionAllowed) = some false ∧
    (freshGameMode.LoadSaveGame_Internal (SaveLoadInfo.mk ['s'] true) (some validSaveGame)
      (fun _ => none)).map (fun after => after._IsTransitionAllowed) = some true ∧
    (freshGameMode.LoadSaveGame_Internal (SaveLoadInfo.mk ['s'] true) none
      (fun _ => none)).map (fun after => after._IsTransitionAllowed) = some true :=
  ⟨rfl, rfl, rfl, rfl⟩

/-- C25 (the code at the failing input: transitions suppressed, no current node,
no current policy, and a request for a node that can be entered and declares
`UDSMDefaultPolicy`): `RequestCustomTransition` returns true and leaves a current
policy behind, with no current node; whereas `TransitionState` and
`RequestTransition_Internal` leave every suppressed manager as it is. -/
theorem C25_requestCustomTransition_sets_policy_while_suppressed :
    suppressedGameMode._IsTransitionAllowed = false ∧
    suppressedGameMode._currentPolicy = none ∧
    (∃ after, suppressedGameMode.RequestCustomTransition plainEngine (some dataNode) =
        some (true, after) ∧
      after._currentPolicy.isSome = true ∧ after._currentNode = none ∧
      after._IsTransitionAllowed = false) ∧
    (∀ (n : Nat) (self : ADSMGameMode n) (engine : Engine n),
      self._IsTransitionAllowed = false →
      self.TransitionState engine = some self ∧
      ∃ b, self.RequestTransition_Internal engine = some (b, self)) :=
  ⟨rfl, rfl, ⟨_, rfl, rfl, rfl, rfl⟩, fun _ self engine h =>
    ⟨transitionState_suppressed self engine h,
      requestTransition_Internal_suppressed self engine h⟩⟩

/-! ## A node whose condition definitions do not bind -/

theorem bindLoop_nonnull (BindCondition : FName → UDSMConditionBase → Bool) (reset : Bool) :
    ∀ (defs : List (FName × Option UDSMConditionBase)) (CondGrpValid : Bool),
      (∀ e ∈ defs, e.2.isSome = true) →
      ∃ v, (bindLoop BindCondition reset defs CondGrpValid).1 = some v := by
  intro defs
  induction defs with
  | nil =>
    intro v _
    exact ⟨v, rfl⟩
  | cons e rest ih =>
    intro v h
    obtain ⟨key, c⟩ := e
    cases c with
    | none =>
      have := h (key, none) (List.mem_cons_self _ _)
      simp at this
    | some cond =>
      simp only [bindLoop]
      exact ih _ (fun x hx => h x (List.mem_cons_of_mem _ hx))

/-- C21 (the claim as stated, on the node of the condition tests with the group
`true` when no definition binds): `ValidateConditionGroups` fails, and
`EvaluateEnterConditions` on the node afterwards returns true. -/
theorem C21_unbound_node_enterable_counterexample :
    ∃ after,
      (conditionGroupNode [(['g'], ['t', 'r', 'u', 'e'])]).ValidateConditionGroups
        (fun _ _ => false) false = some (false, after) ∧
      after.EvaluateEnterConditions false = some (true, []) :=
  ⟨_, rfl, rfl⟩

/-- C21 (as amended): if `ValidateConditionGroups` fails because some condition
definition does not bind, no definition being null, then it returns false, the
node has no compiled condition-group evaluators afterwards, and every later
`EvaluateEnterConditions` call returns, with the verdict true exactly when every
entry of the native and of the hook can-enter map is true. -/
theorem C21_unbound_node_has_no_evaluators {n : Nat} (node : DefaultNode n)
    (BindCondition : FName → UDSMConditionBase → Bool) (reset : Bool)
    (hnonnull : ∀ e ∈ node._ConditionDefinitions, e.2.isSome = true)
    (hunbound : ∃ e ∈ node._ConditionDefinitions, ∃ cond,
      e.2 = some cond ∧ BindCondition e.1 cond = false) :
    ∃ after, node.ValidateConditionGroups BindCondition reset = some (false, after) ∧
      after._expressionEvaluators = [] ∧
      ∀ IsSelfTransition : Bool,
        (∃ r, after.EvaluateEnterConditions IsSelfTransition = some r) ∧
        ((∃ Conditions, after.EvaluateEnterConditions IsSelfTransition =
            some (true, Conditions)) ↔
          (∀ e ∈ node.CanEnterState IsSelfTransition, e.2 = true) ∧
          (∀ e ∈ node.CanEnterStateEvent IsSelfTransition, e.2 = true)) := by
  obtain ⟨v, hv⟩ := bindLoop_nonnull BindCondition reset node._ConditionDefinitions true hnonnull
  have hfalse : v = false := by
    cases v with
    | false => rfl
    | true =>
      have hall := ((bindLoop_fst BindCondition reset node._ConditionDefinitions true).1 hv).2
      obtain ⟨e, he, cond, hc, hb⟩ := hunbound
      obtain ⟨cond', hc', hb'⟩ := hall e he
      rw [hc] at hc'
      cases hc'
      rw [hb] at hb'
      cases hb'
  subst hfalse
  refine ⟨{ ({ node with _ConditionDefinitions :=
      (bindLoop BindCondition reset node._ConditionDefinitions true).2 } : DefaultNode n) with
    _expressionEvaluators := [] }, ?_, ?_, ?_⟩
  · unfold DefaultNode.ValidateConditionGroups
    simp only [hv, Bool.false_eq_true, if_false]
  · rfl
  · intro IsSelfTransition
    constructor
    · apply evaluateEnterConditions_isSome
      intro ev hev
      simp at hev
    · rw [evaluateEnterConditions_true]
      simp

/-- C21 (as amended) on the node of the condition tests with the group `true`
when no definition binds. -/
theorem C21_unbound_node_has_no_evaluators_witness :
    (∀ e ∈ (conditionGroupNode [(['g'], ['t', 'r', 'u', 'e'])])._ConditionDefinitions,
      e.2.isSome = true) ∧
    (∃ e ∈ (conditionGroupNode [(['g'], ['t', 'r', 'u', 'e'])])._ConditionDefinitions,
      ∃ cond, e.2 = some cond ∧ (fun _ _ => false) e.1 cond = false) ∧
    ∃ after,
      (conditionGroupNode [(['g'], ['t', 'r', 'u', 'e'])]).ValidateConditionGroups
        (fun _ _ => false) false = some (false, after) ∧
      after._expressionEvaluators = [] := by
  have h1 : ∀ e ∈ (conditionGroupNode [(['g'], ['t', 'r', 'u', 'e'])])._ConditionDefinitions,
      e.2.isSome = true := by
    intro e he
    simp only [conditionGroupNode, conditionTestNode, List.mem_cons, List.mem_singleton,
      List.not_mem_nil, or_false] at he
    rcases he with rfl | rfl <;> rfl
  have h2 : ∃ e ∈ (conditionGroupNode [(['g'], ['t', 'r', 'u', 'e'])])._ConditionDefinitions,
      ∃ cond, e.2 = some cond ∧ (fun _ _ => false) e.1 cond = false :=
    ⟨(['t', 'r', 'u', 'e'], some UDSMConditionTrue), by simp [conditionGroupNode,
      conditionTestNode], UDSMConditionTrue, rfl, rfl⟩
  obtain ⟨after, ha, hb, -⟩ := C21_unbound_node_has_no_evaluators
    (conditionGroupNode [(['g'], ['t', 'r', 'u', 'e'])]) (fun _ _ => false) false h1 h2
  exact ⟨h1, h2, after, ha, hb⟩

/-- C26 (the code at the failing input `"a) && (b"`): `ValidateConditionString`
accepts the string; its tokens are `a`, `)`, `&&`, `(`, `b`; at the token `)` the
infix-to-postfix step reads `operators.Last()` on the empty operator stack, so
`TransformExpressionToReversePolishOrder` and with it `CompileConditionString`
fail a check and return nothing. The postfix reduction, on the other hand,
fails no check on any token list. -/
theorem C26_accepted_string_fails_operator_stack_check :
    ValidateConditionString ['a', ')', ' ', '&', '&', ' ', '(', 'b'] = true ∧
    TokenizeExpression ['a', ')', ' ', '&', '&', ' ', '(', 'b']
      ['(', ')', '|', '&', '!'] [['&'], ['|']] = [['a'], [')'], ['&', '&'], ['('], ['b']] ∧
    unwindToParen [] [['a']] = none ∧
    TransformExpressionToReversePolishOrder [['a'], [')'], ['&', '&'], ['('], ['b']]
      operatorPrecedenceTable = none ∧
    CompileConditionString ['a', ')', ' ', '&', '&', ' ', '(', 'b'] (fun _ => true) = none ∧
    ∀ (tokens : List FString) (cb : CondValCB), EvaluateExpression tokens cb ≠ none :=
  ⟨by decide, by decide, rfl, rfl, rfl, fun tokens cb => evaluateExpression_ne_none cb tokens⟩

/-! ## One step of `FindPolicy` -/

theorem newObjects_some {n : Nat} (engine : Engine n) :
    ∀ applicable : List (Option (Fin n)),
      (∀ x ∈ applicable, ∃ c, x = some c) →
      ∃ instances, newObjects engine applicable = some instances ∧
        ∀ c, some c ∈ applicable →
          ∃ i ∈ instances, engine.NewObject (some c) = some i := by
  intro applicable
  induction applicable with
  | nil =>
    intro _
    exact ⟨[], rfl, by simp⟩
  | cons x rest ih =>
    intro h
    obtain ⟨c, hc⟩ := h x (List.mem_cons_self _ _)
    subst hc
    obtain ⟨instances, hi, hall⟩ := ih (fun y hy => h y (List.mem_cons_of_mem _ hy))
    refine ⟨UDSMPolicy.mk c (engine.policyClass c)._priority
      (engine.policyClass c).bTransitionAfterPolicy false [] :: instances, ?_, ?_⟩
    · simp only [newObjects, Engine.NewObject, hi]
    · intro c' hc'
      rcases List.mem_cons.1 hc' with heq | hmem
      · simp only [Option.some.injEq] at heq
        subst heq
        exact ⟨_, List.mem_cons_self _ _, rfl⟩
      · obtain ⟨i, hi1, hi2⟩ := hall c' hmem
        exact ⟨i, List.mem_cons_of_mem _ hi1, hi2⟩

/-- C29: in a call of `FindPolicy` in which the applicable policies are not empty,
exactly one policy is activated against the current candidates: a fresh object
of an applicable class whose priority is greater than or equal to that of every
applicable class; if its activation fails a check so does the call, and
otherwise the call returns what the recursive call returns, which receives the
node list of the activated policy as candidates and the applied list extended
by the activated policy. -/
theorem C29_findPolicy_step_activates_best {n : Nat} (engine : Engine n)
    (hsort : engine.SortSpec) (self : ADSMGameMode n) (bSelfTransition : Bool) (fuel : Nat)
    (first : Option (DefaultNode n)) (rest : List (Option (DefaultNode n)))
    (appliedPolicies : List (UDSMPolicy n)) (applicable : List (Option (Fin n)))
    (happ : applicablePolicies first rest appliedPolicies = some (some applicable))
    (hne : applicable ≠ []) :
    ∃ c fresh, some c ∈ applicable ∧ engine.NewObject (some c) = some fresh ∧
      (∀ c', some c' ∈ applicable → (engine.policyClass c')._priority ≤ fresh.GetPriority) ∧
      ((fresh.ActivatePolicy engine (first :: rest) self bSelfTransition = none ∧
          FindPolicyAux engine self bSelfTransition (fuel + 1) (first :: rest) appliedPolicies =
            some none) ∨
        ∃ policy, fresh.ActivatePolicy engine (first :: rest) self bSelfTransition =
            some policy ∧
          policy.GetPriority = fresh.GetPriority ∧
          FindPolicyAux engine self bSelfTransition (fuel + 1) (first :: rest) appliedPolicies =
            FindPolicyAux engine self bSelfTransition fuel policy.GetPolicyNodes
              (appliedPolicies ++ [policy])) := by
  have hsome : ∀ x ∈ applicable, ∃ c, x = some c := fun x hx => by
    obtain ⟨c, hc, -⟩ := applicablePolicies_mem first rest appliedPolicies applicable happ x hx
    exact ⟨c, hc⟩
  obtain ⟨instances, hnew, hall⟩ := newObjects_some engine applicable hsome
  have hlen : applicable.length > 0 := List.length_pos.2 hne
  have hinst : instances ≠ [] := by
    obtain ⟨x, hx⟩ := List.exists_mem_of_ne_nil _ hne
    obtain ⟨c, hc⟩ := hsome x hx
    subst hc
    obtain ⟨i, hi, -⟩ := hall c hx
    exact List.ne_nil_of_mem hi
  have hsorted : engine.SortByPriority instances ≠ [] := by
    intro hnil
    have := (hsort instances).1
    rw [hnil] at this
    exact hinst this.symm.eq_nil
  obtain ⟨last, hlast⟩ := Option.isSome_iff_exists.1 (List.getLast?_isSome.2 hsorted)
  have hmem : last ∈ instances :=
    ((hsort instances).1.mem_iff).1 (List.mem_of_mem_getLast? hlast)
  obtain ⟨h1, h2⟩ := newObjects_mem engine applicable instances hnew last hmem
  have hmax : ∀ c', some c' ∈ applicable →
      (engine.policyClass c')._priority ≤ last.GetPriority := by
    intro c' hc'
    obtain ⟨i, hi1, hi2⟩ := hall c' hc'
    have hi' : i ∈ engine.SortByPriority instances := ((hsort instances).1.mem_iff).2 hi1
    have hprio : i.GetPriority = (engine.policyClass c')._priority := by
      simp only [Engine.NewObject, Option.some.injEq] at hi2
      subst hi2
      rfl
    rw [← hprio]
    rcases pairwise_getLast _ _ last (hsort instances).2 hlast i hi' with rfl | hle
    · exact le_refl _
    · exact hle
  refine ⟨last.policyClass, last, h1, h2, hmax, ?_⟩
  rw [findPolicyAux_succ]
  simp only [happ, hlen, if_true, hnew, hlast]
  cases hact : last.ActivatePolicy engine (first :: rest) self bSelfTransition with
  | none => exact Or.inl ⟨rfl, rfl⟩
  | some policy =>
    refine Or.inr ⟨policy, rfl, ?_, rfl⟩
    have := (activatePolicy_class last policy engine (first :: rest) self bSelfTransition
      hact).2
    simp only [UDSMPolicy.GetPriority, this]

/-- C29 on three plain nodes that declare both built-in policies: the tag policy
(class 1, priority 10) is the one activated in the first call. -/
theorem C29_findPolicy_step_activates_best_witness :
    plainEngine.SortSpec ∧
    applicablePolicies (some (plainNode 2 true [['B']] [some 0, some 1]))
        [some (plainNode 2 false [['A']] [some 1, none, some 0]),
          some (plainNode 2 true [['A']] [some 0, some 1])] [] =
      some (some [some 0, some 1]) ∧
    ∃ c fresh, some c ∈ [some (0 : Fin 2), some 1] ∧
      plainEngine.NewObject (some c) = some fresh ∧
      fresh.policyClass = 1 ∧ fresh.GetPriority = 10 := by
  refine ⟨plainEngine_sortSpec, rfl, ?_⟩
  obtain ⟨c, fresh, h1, h2, h3, -⟩ := C29_findPolicy_step_activates_best plainEngine
    plainEngine_sortSpec (idleGameMode 2) false 2
    (some (plainNode 2 true [['B']] [some 0, some 1]))
    [some (plainNode 2 false [['A']] [some 1, none, some 0]),
      some (plainNode 2 true [['A']] [some 0, some 1])] [] [some 0, some 1] rfl (by simp)
  have h10 := h3 1 (by simp)
  refine ⟨c, fresh, h1, h2, ?_⟩
  simp only [Engine.NewObject, Option.some.injEq] at h2
  subst h2
  fin_cases c
  · exact absurd h10 (by decide)
  · exact ⟨rfl, rfl⟩

/-! ## Failure of `FindPolicy` -/

theorem intersectLoop_subset {n : Nat} :
    ∀ (nodes : List (Option (DefaultNode n))) (acc L : List (Option (Fin n))),
      intersectLoop nodes acc = some (some L) → ∀ x ∈ L, x ∈ acc := by
  intro nodes
  induction nodes with
  | nil =>
    intro acc L h x hx
    simp only [intersectLoop, Option.some.injEq] at h
    subst h
    exact hx
  | cons first rest ih =>
    intro acc L h x hx
    cases first with
    | none => simp [intersectLoop] at h
    | some node =>
      simp only [intersectLoop] at h
      split_ifs at h with hempty
      · simp at h
      · have := (List.mem_filter.1 (ih _ L h x hx)).2
        simp only [Bool.and_eq_true] at this
        simpa using this.2

theorem intersectLoop_all_nodes {n : Nat} :
    ∀ (nodes : List (Option (DefaultNode n))) (acc L : List (Option (Fin n))),
      intersectLoop nodes acc = some (some L) → ∀ x ∈ L,
        ∀ p ∈ nodes, ∃ node, p = some node ∧ x ∈ node._nodePolicies := by
  intro nodes
  induction nodes with
  | nil =>
    intro acc L _ x _ p hp
    simp at hp
  | cons first rest ih =>
    intro acc L h x hx p hp
    cases first with
    | none => simp [intersectLoop] at h
    | some node =>
      simp only [intersectLoop] at h
      split_ifs at h with hempty
      · simp at h
      · rcases List.mem_cons.1 hp with rfl | hp'
        · exact ⟨node, rfl, (List.mem_filter.1 (intersectLoop_subset rest _ L h x hx)).1⟩
        · exact ih _ L h x hx p hp'

theorem intersectLoop_common {n : Nat} (c : Fin n) :
    ∀ (nodes : List (Option (DefaultNode n))) (acc : List (Option (Fin n))),
      (∀ p ∈ nodes, ∃ node, p = some node ∧ some c ∈ node._nodePolicies) →
      some c ∈ acc →
      ∃ L, intersectLoop nodes acc = some (some L) ∧ some c ∈ L := by
  intro nodes
  induction nodes with
  | nil =>
    intro acc _ hacc
    exact ⟨acc, rfl, hacc⟩
  | cons first rest ih =>
    intro acc h hacc
    obtain ⟨node, hnode, hc⟩ := h first (List.mem_cons_self _ _)
    subst hnode
    have hmem : some c ∈ node._nodePolicies.filter
        (fun policy => policy.isSome && acc.contains policy) := by
      simp [List.mem_filter, hc, hacc]
    simp only [intersectLoop]
    split_ifs with hempty
    · have hnil : node._nodePolicies.filter
          (fun policy => policy.isSome && acc.contains policy) = [] := by
        simpa using hempty
      rw [hnil] at hmem
      simp at hmem
    · exact ih _ (fun p hp => h p (List.mem_cons_of_mem _ hp)) hmem

theorem applicablePolicies_all_nodes {n : Nat} (first : Option (DefaultNode n))
    (rest : List (Option (DefaultNode n))) (appliedPolicies : List (UDSMPolicy n))
    (L : List (Option (Fin n)))
    (h : applicablePolicies first rest appliedPolicies = some (some L)) :
    ∀ x ∈ L, ∀ p ∈ first :: rest, ∃ node, p = some node ∧ x ∈ node._nodePolicies := by
  intro x hx
  cases first with
  | none => simp [applicablePolicies] at h
  | some node0 =>
    simp only [applicablePolicies] at h
    cases hi : intersectLoop (some node0 :: rest) node0._nodePolicies with
    | none => simp [hi] at h
    | some o =>
      cases o with
      | none => simp [hi] at h
      | some intersected =>
        simp only [hi, Option.some.injEq] at h
        subst h
        exact intersectLoop_all_nodes _ _ _ hi x
          ((removeAppliedLoop_mem x appliedPolicies intersected).1 hx).1

theorem applicablePolicies_common {n : Nat} (c : Fin n) (first : Option (DefaultNode n))
    (rest : List (Option (DefaultNode n))) (appliedPolicies : List (UDSMPolicy n))
    (h : ∀ p ∈ first :: rest, ∃ node, p = some node ∧ some c ∈ node._nodePolicies) :
    applicablePolicies first rest appliedPolicies ≠ some none ∧
    applicablePolicies first rest appliedPolicies ≠ none := by
  obtain ⟨node0, hnode, hc⟩ := h first (List.mem_cons_self _ _)
  subst hnode
  obtain ⟨L, hL, -⟩ := intersectLoop_common c (some node0 :: rest) node0._nodePolicies h hc
  simp [applicablePolicies, hL]

theorem activatePolicy_nodes_among {n : Nat} (engine : Engine n)
    (hamong : engine.OutputsAmongInputs) (fresh policy : UDSMPolicy n)
    (candidates : List (Option (DefaultNode n))) (gameMode : ADSMGameMode n)
    (bSelfTransition : Bool)
    (h : fresh.ActivatePolicy engine candidates gameMode bSelfTransition = some policy) :
    ∀ p ∈ policy.GetPolicyNodes, p ∈ candidates := by
  obtain ⟨h1, h2⟩ := hamong fresh.policyClass candidates gameMode bSelfTransition
  unfold UDSMPolicy.ActivatePolicy at h
  cases hn : (engine.policyClass fresh.policyClass).ApplyPolicy
      candidates gameMode bSelfTransition with
  | none => simp [hn] at h
  | some r =>
    obtain ⟨nodes, success⟩ := r
    simp only [hn] at h
    split_ifs at h
    simp only [Option.some.injEq] at h
    subst h
    intro p hp
    simp only [UDSMPolicy.GetPolicyNodes, List.mem_append] at hp
    rcases hp with hp | hp
    · exact h1 nodes success hn p hp
    · exact h2 p hp

theorem findPolicyAux_failure {n : Nat} (engine : Engine n) (hsort : engine.SortSpec)
    (hamong : engine.OutputsAmongInputs) (self : ADSMGameMode n) (bSelfTransition : Bool) :
    ∀ (fuel : Nat) (transitionNodes : List (Option (DefaultNode n)))
      (appliedPolicies : List (UDSMPolicy n)) (res : FindPolicyResult n),
      (appliedPolicies = [] ∨
        ∃ c : Fin n, ∀ p ∈ transitionNodes,
          ∃ node, p = some node ∧ some c ∈ node._nodePolicies) →
      FindPolicyAux engine self bSelfTransition fuel transitionNodes appliedPolicies =
        some (some res) →
      res.bSuccess = false →
      ∀ q ∈ res.appliedPolicies, q.IsPolicyAppliedSuccesfully = false := by
  intro fuel
  induction fuel with
  | zero =>
    intro _ _ _ _ h
    simp [FindPolicyAux] at h
  | succ fuel ih =>
    intro transitionNodes appliedPolicies res hinv h hfail
    rw [findPolicyAux_succ] at h
    have hbase : some (some (bestSuccessful engine appliedPolicies)) = some (some res) →
        ∀ q ∈ res.appliedPolicies, q.IsPolicyAppliedSuccesfully = false := by
      intro hb
      simp only [Option.some.injEq] at hb
      subst hb
      rw [bestSuccessful_applied]
      exact bestSuccessful_failure engine hsort appliedPolicies hfail
    cases transitionNodes with
    | nil => exact hbase h
    | cons first rest =>
      simp only at h
      cases happ : applicablePolicies first rest appliedPolicies with
      | none => simp [happ] at h
      | some o =>
        cases o with
        | none =>
          simp only [happ, Option.some.injEq] at h
          subst h
          rcases hinv with hnil | ⟨c, hc⟩
          · intro q hq
            simp only [hnil, List.not_mem_nil] at hq
          · exact absurd happ (applicablePolicies_common c first rest appliedPolicies hc).1
        | some applicable =>
          simp only [happ] at h
          split_ifs at h
          · cases hnew : newObjects engine applicable with
            | none => simp [hnew] at h
            | some instances =>
              simp only [hnew] at h
              cases hlast : (engine.SortByPriority instances).getLast? with
              | none => simp [hlast] at h
              | some last =>
                simp only [hlast] at h
                cases hact : last.ActivatePolicy engine (first :: rest) self bSelfTransition with
                | none => simp [hact] at h
                | some policy =>
                  simp only [hact] at h
                  have hstep := findPolicy_step engine hsort self bSelfTransition first rest
                    (first :: rest) appliedPolicies applicable instances last policy
                    happ hnew hlast hact
                  have hall := applicablePolicies_all_nodes first rest appliedPolicies
                    applicable happ (some policy.policyClass) hstep.1
                  have hsub := activatePolicy_nodes_among engine hamong last policy
                    (first :: rest) self bSelfTransition hact
                  exact ih _ _ res
                    (Or.inr ⟨policy.policyClass, fun p hp => hall p (hsub p hp)⟩) h hfail
          · exact hbase h

theorem applyDefaultLoop_among {n : Nat} (bSelfTransition : Bool) :
    ∀ (inputNodes acc out : List (Option (DefaultNode n))),
      applyDefaultLoop bSelfTransition inputNodes acc = some out →
      ∀ p ∈ out, p ∈ acc ∨ p ∈ inputNodes := by
  intro inputNodes
  induction inputNodes with
  | nil =>
    intro acc out h p hp
    simp only [applyDefaultLoop, Option.some.injEq] at h
    subst h
    exact Or.inl hp
  | cons first rest ih =>
    intro acc out h p hp
    cases first with
    | none => simp [applyDefaultLoop] at h
    | some node =>
      simp only [applyDefaultLoop] at h
      cases he : node.EvaluateEnterConditions bSelfTransition with
      | none => simp [he] at h
      | some r =>
        obtain ⟨verdict, Conditions⟩ := r
        cases verdict with
        | true =>
          simp only [he] at h
          rcases ih _ out h p hp with hacc | hrest
          · rcases List.mem_append.1 hacc with ha | hb
            · exact Or.inl ha
            · simp only [List.mem_singleton] at hb
              subst hb
              exact Or.inr (List.mem_cons_self _ _)
          · exact Or.inr (List.mem_cons_of_mem _ hrest)
        | false =>
          simp only [he] at h
          rcases ih _ out h p hp with hacc | hrest
          · exact Or.inl hacc
          · exact Or.inr (List.mem_cons_of_mem _ hrest)

theorem filterByTag_among {n : Nat} (tag : FName) :
    ∀ (inputNodes out : List (Option (DefaultNode n))),
      filterByTag tag inputNodes = some out → ∀ p ∈ out, p ∈ inputNodes := by
  intro inputNodes
  induction inputNodes with
  | nil =>
    intro out h p hp
    simp only [filterByTag, Option.some.injEq] at h
    subst h
    exact hp
  | cons first rest ih =>
    intro out h p hp
    cases first with
    | none => simp [filterByTag] at h
    | some node =>
      simp only [filterByTag] at h
      cases hf : filterByTag tag rest with
      | none => simp [hf] at h
      | some filtered =>
        simp only [hf] at h
        split_ifs at h
        · simp only [Option.some.injEq] at h
          subst h
          rcases List.mem_cons.1 hp with rfl | hp'
          · exact List.mem_cons_self _ _
          · exact List.mem_cons_of_mem _ (ih filtered hf p hp')
        · simp only [Option.some.injEq] at h
          subst h
          exact List.mem_cons_of_mem _ (ih _ hf p hp)

theorem orderByTagLoop_among {n : Nat} (inputNodes : List (Option (DefaultNode n))) :
    ∀ (TagOrder : List FName) (acc out : List (Option (DefaultNode n))),
      orderByTagLoop inputNodes TagOrder acc = some out →
      ∀ p ∈ out, p ∈ acc ∨ p ∈ inputNodes := by
  intro TagOrder
  induction TagOrder with
  | nil =>
    intro acc out h p hp
    simp only [orderByTagLoop, Option.some.injEq] at h
    subst h
    exact Or.inl hp
  | cons tag rest ih =>
    intro acc out h p hp
    simp only [orderByTagLoop] at h
    cases hf : filterByTag tag inputNodes with
    | none => simp [hf] at h
    | some filtered =>
      simp only [hf] at h
      rcases ih _ out h p hp with hacc | hin
      · rcases List.mem_append.1 hacc with ha | hb
        · exact Or.inl ha
        · exact Or.inr (filterByTag_among tag inputNodes filtered hf p hb)
      · exact Or.inr hin

theorem defaultPolicy_among {n : Nat} (inputNodes nodes : List (Option (DefaultNode n)))
    (bSelfTransition success : Bool)
    (h : UDSMDefaultPolicy.ApplyPolicy inputNodes bSelfTransition = some (nodes, success)) :
    ∀ p ∈ nodes, p ∈ inputNodes := by
  unfold UDSMDefaultPolicy.ApplyPolicy at h
  cases hl : applyDefaultLoop bSelfTransition inputNodes [] with
  | none => simp [hl] at h
  | some out =>
    simp only [hl] at h
    have hout : nodes = out := by
      split at h <;> simp only [Option.some.injEq, Prod.mk.injEq] at h <;> exact h.1.symm
    subst hout
    intro p hp
    rcases applyDefaultLoop_among bSelfTransition inputNodes [] nodes hl p hp with h1 | h2
    · simp at h1
    · exact h2

theorem orderByTagPolicy_among {n : Nat} (TagOrder : List FName)
    (inputNodes nodes : List (Option (DefaultNode n))) (success : Bool)
    (h : UDSMOrderByTagPolicy.ApplyPolicy TagOrder inputNodes = some (nodes, success)) :
    ∀ p ∈ nodes, p ∈ inputNodes := by
  unfold UDSMOrderByTagPolicy.ApplyPolicy at h
  cases hl : orderByTagLoop inputNodes TagOrder [] with
  | none => simp [hl] at h
  | some out =>
    simp only [hl, Option.some.injEq, Prod.mk.injEq] at h
    obtain ⟨hout, -⟩ := h
    subst hout
    intro p hp
    rcases orderByTagLoop_among inputNodes TagOrder [] out hl p hp with h1 | h2
    · simp at h1
    · exact h2

theorem plainEngine_outputsAmongInputs : plainEngine.OutputsAmongInputs := by
  intro c inputNodes gameMode bSelfTransition
  constructor
  · intro nodes success h
    by_cases hc : c = 0
    · simp only [plainEngine, hc, if_true, UDSMDefaultPolicy] at h
      exact defaultPolicy_among inputNodes nodes bSelfTransition success h
    · simp only [plainEngine, hc, if_false, UDSMOrderByTagPolicy] at h
      exact orderByTagPolicy_among _ inputNodes nodes success h
  · intro p hp
    by_cases hc : c = 0
    · simp [plainEngine, hc, UDSMDefaultPolicy] at hp
    · simp [plainEngine, hc, UDSMOrderByTagPolicy] at hp

/-- C28 (the claim as stated, with a policy whose output node is not among its
input nodes and declares no policy): the policy is activated and reports
success, the next call of `FindPolicy` leaves at its early return, and
`FindPolicy` reports failure. -/
theorem C28_findPolicy_failure_after_success_counterexample :
    ∃ res, (idleGameMode 1).FindPolicy strayEngine [some (plainNode 1 true [] [some 0])]
        false [] = some res ∧
      res.bSuccess = false ∧
      ∃ q ∈ res.appliedPolicies, q.IsPolicyAppliedSuccesfully = true :=
  ⟨_, rfl, rfl, _, List.mem_singleton_self _, rfl⟩

/-- C28 (as amended): if every policy implementation returns only nodes that are
among its input nodes, as the header of `ApplyPolicyEvent` asks, then
`FindPolicy` reports failure only if none of the policies activated during the
chain of calls reports success. -/
theorem C28_findPolicy_failure_means_no_success {n : Nat} (engine : Engine n)
    (hsort : engine.SortSpec) (hamong : engine.OutputsAmongInputs) (self : ADSMGameMode n)
    (transitionNodes : List (Option (DefaultNode n))) (bSelfTransition : Bool)
    (res : FindPolicyResult n)
    (hfind : self.FindPolicy engine transitionNodes bSelfTransition [] = some res)
    (hfail : res.bSuccess = false) :
    ∀ q ∈ res.appliedPolicies, q.IsPolicyAppliedSuccesfully = false :=
  findPolicyAux_failure engine hsort hamong self bSelfTransition _ _ _ res (Or.inl rfl)
    (findPolicy_eq_some self engine transitionNodes bSelfTransition [] res hfind) hfail

/-- C28 (as amended) with the built-in policies on two plain nodes that can both
be entered: the default policy is activated, fails, and `FindPolicy` reports
failure. -/
theorem C28_findPolicy_failure_means_no_success_witness :
    plainEngine.SortSpec ∧ plainEngine.OutputsAmongInputs ∧
    ∃ res, (idleGameMode 2).FindPolicy plainEngine
        [some (plainNode 2 true [] [some 0]), some (plainNode 2 true [['A']] [some 0])]
        false [] = some res ∧
      res.bSuccess = false ∧ res.appliedPolicies.length = 1 ∧
      ∀ q ∈ res.appliedPolicies, q.IsPolicyAppliedSuccesfully = false :=
  ⟨plainEngine_sortSpec, plainEngine_outputsAmongInputs, _, rfl, rfl, rfl,
    C28_findPolicy_failure_means_no_success plainEngine plainEngine_sortSpec
      plainEngine_outputsAmongInputs (idleGameMode 2)
      [some (plainNode 2 true [] [some 0]), some (plainNode 2 true [['A']] [some 0])]
      false _ rfl rfl⟩

/-! ## The postfix form rearranges the tokens that are not parentheses -/

theorem unwindToParen_filter :
    ∀ (operators result : List FString) (st : List FString × List FString),
      unwindToParen operators result = some st →
      (st.2 ++ st.1).filter nonParen = (result ++ operators).filter nonParen := by
  intro operators
  induction operators with
  | nil =>
    intro result st h
    simp [unwindToParen] at h
  | cons op rest ih =>
    intro result st h
    simp only [unwindToParen] at h
    split_ifs at h with hop
    · simp only [Option.some.injEq] at h
      subst h
      subst hop
      simp [List.filter_append, List.filter_cons, nonParen, parenthesis]
    · rw [ih _ st h]
      simp

theorem unwindByPrecedence_append (operatorPrecedence : List (FString × Int))
    (token : FString) :
    ∀ (operators result : List FString) (st : List FString × List FString),
      unwindByPrecedence operatorPrecedence token operators result = some st →
      st.2 ++ st.1 = result ++ operators := by
  intro operators
  induction operators with
  | nil =>
    intro result st h
    simp only [unwindByPrecedence, Option.some.injEq] at h
    subst h
    rfl
  | cons op rest ih =>
    intro result st h
    simp only [unwindByPrecedence] at h
    split_ifs at h with hparen
    · simp only [Option.some.injEq] at h
      subst h
      rfl
    · cases h1 : operatorPrecedence.lookup op with
      | none => simp [h1] at h
      | some pLast =>
        cases h2 : operatorPrecedence.lookup token with
        | none => simp [h1, h2] at h
        | some pToken =>
          simp only [h1, h2] at h
          split_ifs at h with hge
          · rw [ih _ st h]
            simp
          · simp only [Option.some.injEq] at h
            subst h
            rfl

theorem rpoLoop_perm (operatorPrecedence : List (FString × Int)) :
    ∀ (tokens operators result : List FString) (st : List FString × List FString),
      rpoLoop operatorPrecedence tokens operators result = some st →
      ((st.2 ++ st.1).filter nonParen).Perm
        ((tokens ++ (result ++ operators)).filter nonParen) := by
  intro tokens
  induction tokens with
  | nil =>
    intro operators result st h
    simp only [rpoLoop, Option.some.injEq] at h
    subst h
    simp
  | cons token rest ih =>
    intro operators result st h
    simp only [rpoLoop] at h
    split_ifs at h with hopen hclose hop
    · have := ih _ _ st h
      subst hopen
      have h2 : (rest ++ (result ++ (['('] : FString) :: operators)).filter nonParen =
          ((['('] : FString) :: rest ++ (result ++ operators)).filter nonParen := by
        simp [List.filter_append, List.filter_cons, nonParen, parenthesis]
      rw [← h2]
      exact this
    · cases hu : unwindToParen operators result with
      | none => simp [hu] at h
      | some st1 =>
        simp only [hu] at h
        have := ih _ _ st h
        have hf := unwindToParen_filter operators result st1 hu
        subst hclose
        have h2 : (rest ++ (st1.2 ++ st1.1)).filter nonParen =
            (rest ++ (result ++ operators)).filter nonParen := by
          rw [List.filter_append, hf, ← List.filter_append]
        rw [h2] at this
        have h3 : (([')'] : FString) :: rest ++ (result ++ operators)).filter nonParen =
            (rest ++ (result ++ operators)).filter nonParen := by
          simp [List.filter_cons, nonParen, parenthesis]
        rw [h3]
        exact this
    · cases hu : unwindByPrecedence operatorPrecedence token operators result with
      | none => simp [hu] at h
      | some st1 =>
        simp only [hu] at h
        have := ih _ _ st h
        have ha := unwindByPrecedence_append operatorPrecedence token operators result st1 hu
        refine this.trans (List.Perm.filter _ ?_)
        rw [← ha, ← List.append_assoc rest]
        refine List.perm_middle.trans ?_
        simp
    · have := ih _ _ st h
      refine this.trans (List.Perm.filter _ ?_)
      rw [List.append_assoc result, List.singleton_append, ← List.append_assoc rest]
      refine List.perm_middle.trans ?_
      simp

theorem transform_perm (operatorPrecedence : List (FString × Int))
    (tokens rpo : List FString)
    (h : TransformExpressionToReversePolishOrder tokens operatorPrecedence = some rpo) :
    (rpo.filter nonParen).Perm (tokens.filter nonParen) := by
  unfold TransformExpressionToReversePolishOrder at h
  cases hl : rpoLoop operatorPrecedence tokens [] [] with
  | none => simp [hl] at h
  | some st =>
    simp only [hl, Option.some.injEq] at h
    subst h
    simpa using rpoLoop_perm operatorPrecedence tokens [] [] st hl

theorem evaluateLoop_length (cb : CondValCB) :
    ∀ (tokens : List FString) (stack final : List StackElem),
      evaluateLoop cb tokens stack = some (some final) →
      final.length + tokens.countP isBinary = stack.length + tokens.countP isPushed := by
  intro tokens
  induction tokens with
  | nil =>
    intro stack final h
    simp only [evaluateLoop, Option.some.injEq] at h
    subst h
    simp
  | cons token rest ih =>
    intro stack final h
    rw [evaluateLoop_cons] at h
    split_ifs at h with hbang hbin
    · have hb : isBinary token = false := by
        subst hbang
        decide
      have hp : isPushed token = false := by
        subst hbang
        decide
      cases stack with
      | nil => simp at h
      | cons top stack1 =>
        simp only at h
        cases hg : GetConditionByName top cb with
        | none => simp [hg] at h
        | some f =>
          simp only [hg, FExpressionEvaluator.ofNegate] at h
          have := ih _ final h
          simp only [List.countP_cons, hb, hp, List.length_cons] at this ⊢
          simpa using this
    · have hb : isBinary token = true := by
        simp [isBinary, hbin]
      have hp : isPushed token = false := by
        simp [isPushed, hb]
      cases stack with
      | nil => simp at h
      | cons e0 stack1 =>
        cases stack1 with
        | nil => simp at h
        | cons e1 stack2 =>
          simp only at h
          cases hg0 : GetConditionByName e0 cb with
          | none => simp [hg0] at h
          | some f0 =>
            cases hg1 : GetConditionByName e1 cb with
            | none => simp [hg0, hg1] at h
            | some f1 =>
              simp only [hg0, hg1, FExpressionEvaluator.ofBinary] at h
              have := ih _ final h
              simp only [List.countP_cons, hb, hp, List.length_cons] at this ⊢
              simp only [if_true, Bool.false_eq_true, if_false] at this ⊢
              omega
    · have hb : isBinary token = false := by
        simp [isBinary, hbin]
      have hp : isPushed token = true := by
        simp [isPushed, hb, hbang]
      have := ih _ final h
      simp only [List.countP_cons, hb, hp, List.length_cons] at this ⊢
      simp only [if_true, Bool.false_eq_true, if_false] at this ⊢
      omega

/-! ## Operands that follow one another -/

theorem seqExpr_idents_length (t : SeqExpr) :
    t.idents.length = t.binaries + 1 + t.juxts := by
  induction t with
  | ident x => rfl
  | neg e ih => exact ih
  | paren e ih => exact ih
  | and l r ihl ihr =>
    simp only [SeqExpr.idents, SeqExpr.binaries, SeqExpr.juxts, List.length_append, ihl, ihr]
    omega
  | or l r ihl ihr =>
    simp only [SeqExpr.idents, SeqExpr.binaries, SeqExpr.juxts, List.length_append, ihl, ihr]
    omega
  | juxt l r ihl ihr =>
    simp only [SeqExpr.idents, SeqExpr.binaries, SeqExpr.juxts, List.length_append, ihl, ihr]
    omega

theorem isIdentifier_counts {x : FString} (h : isIdentifier x = true) :
    isBinary x = false ∧ isPushed x = true ∧ nonParen x = true := by
  have h1 := isIdentifier_ne_bang h
  have h2 := isIdentifier_ne_andand h
  have h3 := isIdentifier_ne_oror h
  have h4 := isIdentifier_ne_open h
  have h5 := isIdentifier_ne_close h
  simp [isBinary, isPushed, nonParen, parenthesis, h1, h2, h3, h4, h5]

theorem seqExpr_toks_binary (t : SeqExpr) (hid : ∀ x ∈ t.idents, isIdentifier x = true) :
    (t.toks.filter nonParen).countP isBinary = t.binaries := by
  induction t with
  | ident x =>
    have := isIdentifier_counts (hid x (by simp [SeqExpr.idents]))
    simp [SeqExpr.toks, SeqExpr.binaries, List.filter_cons, this.1, this.2.2]
  | neg e ih =>
    have := ih hid
    simpa [SeqExpr.toks, SeqExpr.binaries, List.filter_cons, nonParen, parenthesis,
      isBinary] using this
  | paren e ih =>
    have := ih hid
    simpa [SeqExpr.toks, SeqExpr.binaries, List.filter_cons, List.filter_append, nonParen,
      parenthesis] using this
  | and l r ihl ihr =>
    have h1 := ihl (fun x hx => hid x (List.mem_append_left _ hx))
    have h2 := ihr (fun x hx => hid x (List.mem_append_right _ hx))
    simp only [SeqExpr.toks, SeqExpr.binaries, List.filter_append, List.filter_cons,
      List.countP_append]
    have h3 : nonParen ['&', '&'] = true := by decide
    have h4 : isBinary ['&', '&'] = true := by decide
    simp only [h3, if_true, List.countP_cons, h4, h1, h2]
    omega
  | or l r ihl ihr =>
    have h1 := ihl (fun x hx => hid x (List.mem_append_left _ hx))
    have h2 := ihr (fun x hx => hid x (List.mem_append_right _ hx))
    simp only [SeqExpr.toks, SeqExpr.binaries, List.filter_append, List.filter_cons,
      List.countP_append]
    have h3 : nonParen ['|', '|'] = true := by decide
    have h4 : isBinary ['|', '|'] = true := by decide
    simp only [h3, if_true, List.countP_cons, h4, h1, h2]
    omega
  | juxt l r ihl ihr =>
    have h1 := ihl (fun x hx => hid x (List.mem_append_left _ hx))
    have h2 := ihr (fun x hx => hid x (List.mem_append_right _ hx))
    simp only [SeqExpr.toks, SeqExpr.binaries, List.filter_append, List.countP_append, h1, h2]

theorem seqExpr_toks_pushed (t : SeqExpr) (hid : ∀ x ∈ t.idents, isIdentifier x = true) :
    (t.toks.filter nonParen).countP isPushed = t.idents.length := by
  induction t with
  | ident x =>
    have := isIdentifier_counts (hid x (by simp [SeqExpr.idents]))
    simp [SeqExpr.toks, SeqExpr.idents, List.filter_cons, this.2.1, this.2.2]
  | neg e ih =>
    have := ih hid
    simpa [SeqExpr.toks, SeqExpr.idents, List.filter_cons, nonParen, parenthesis,
      isPushed] using this
  | paren e ih =>
    have := ih hid
    simpa [SeqExpr.toks, SeqExpr.idents, List.filter_cons, List.filter_append, nonParen,
      parenthesis] using this
  | and l r ihl ihr =>
    have h1 := ihl (fun x hx => hid x (List.mem_append_left _ hx))
    have h2 := ihr (fun x hx => hid x (List.mem_append_right _ hx))
    simp only [SeqExpr.toks, SeqExpr.idents, List.filter_append, List.filter_cons,
      List.countP_append, List.length_append]
    have h3 : nonParen ['&', '&'] = true := by decide
    have h4 : isPushed ['&', '&'] = false := by decide
    simp only [h3, if_true, List.countP_cons, h4, h1, h2]
    simp
  | or l r ihl ihr =>
    have h1 := ihl (fun x hx => hid x (List.mem_append_left _ hx))
    have h2 := ihr (fun x hx => hid x (List.mem_append_right _ hx))
    simp only [SeqExpr.toks, SeqExpr.idents, List.filter_append, List.filter_cons,
      List.countP_append, List.length_append]
    have h3 : nonParen ['|', '|'] = true := by decide
    have h4 : isPushed ['|', '|'] = false := by decide
    simp only [h3, if_true, List.countP_cons, h4, h1, h2]
    simp
  | juxt l r ihl ihr =>
    have h1 := ihl (fun x hx => hid x (List.mem_append_left _ hx))
    have h2 := ihr (fun x hx => hid x (List.mem_append_right _ hx))
    simp only [SeqExpr.toks, SeqExpr.idents, List.filter_append, List.countP_append,
      List.length_append, h1, h2]

theorem countP_isBinary_filter (l : List FString) :
    (l.filter nonParen).countP isBinary = l.countP isBinary := by
  rw [List.countP_filter]
  apply List.countP_congr
  intro x _
  constructor
  · intro h
    simp only [Bool.and_eq_true] at h
    exact h.1
  · intro h
    simp only [Bool.and_eq_true, h, true_and]
    simp only [isBinary, decide_eq_true_eq] at h
    rcases h with rfl | rfl <;> decide

theorem countP_isPushed_filter_le (l : List FString) :
    (l.filter nonParen).countP isPushed ≤ l.countP isPushed := by
  rw [List.countP_filter]
  apply List.countP_mono_left
  intro x _ h
  simp only [Bool.and_eq_true] at h
  exact h.1

/-- C27 (the claim as stated, at the expression `a b` on a node that defines the
conditions `a`, `b` and `ab`): the two identifiers follow one another with no
operator between them; spaces are removed before the string is split, the only
token is `ab`, and `CompileConditionString` returns an evaluator, which
evaluates the condition `ab`. -/
theorem C27_adjacent_identifiers_compile_counterexample :
    ValidateConditionString ['a', ' ', 'b'] = true ∧
    TokenizeExpression ['a', ' ', 'b'] ['(', ')', '|', '&', '!'] [['&'], ['|']] =
      [['a', 'b']] ∧
    ∃ ev f, CompileConditionString ['a', ' ', 'b'] mergedNameNode.ValidateConditionName =
        some (some ev) ∧
      ev.GetEvaluateFunction = some f ∧ f (some mergedNameNode) = some true :=
  ⟨by decide, by decide, _, _, rfl, rfl, rfl⟩

/-- C27 (as amended): `CompileConditionString` returns no evaluator for every
condition string whose tokens form an expression in which, at one place or
more, two operands follow one another with no `&&` or `||` between them, as in
`true !false !true`; this holds for every name-validation callback. (Two
identifiers separated by spaces only are not two tokens: they are read as one
identifier.) -/
theorem C27_adjacent_operands_no_evaluator (t : SeqExpr)
    (hid : ∀ x ∈ t.idents, isIdentifier x = true) (hjuxt : 0 < t.juxts)
    (conditionString : FString)
    (htokens : TokenizeExpression conditionString ['(', ')', '|', '&', '!'] [['&'], ['|']] =
      t.toks)
    (condNameValidation : CondValCB) :
    ∀ ev, CompileConditionString conditionString condNameValidation ≠ some (some ev) := by
  intro ev hcompile
  unfold CompileConditionString at hcompile
  split_ifs at hcompile with hvalid
  · simp only [htokens] at hcompile
    cases hrpo : TransformExpressionToReversePolishOrder t.toks operatorPrecedenceTable with
    | none => simp [hrpo] at hcompile
    | some rpo =>
      simp only [hrpo] at hcompile
      have hperm := transform_perm _ _ _ hrpo
      have hbin : rpo.countP isBinary = t.binaries := by
        rw [← countP_isBinary_filter, hperm.countP_eq, seqExpr_toks_binary t hid]
      have hpush : t.idents.length ≤ rpo.countP isPushed := by
        rw [← seqExpr_toks_pushed t hid, ← hperm.countP_eq]
        exact countP_isPushed_filter_le rpo
      have hlen := seqExpr_idents_length t
      unfold EvaluateExpression at hcompile
      split at hcompile
      · rename_i x
        have : List.countP isPushed [x] ≤ 1 := by
          simp only [List.countP_cons, List.countP_nil]
          split_ifs <;> omega
        omega
      · cases hloop : evaluateLoop condNameValidation rpo [] with
        | none => simp [hloop] at hcompile
        | some o =>
          cases o with
          | none => simp [hloop] at hcompile
          | some stack =>
            have hcount := evaluateLoop_length condNameValidation rpo [] stack hloop
            simp only [hloop] at hcompile
            split at hcompile
            · simp at hcompile
            · simp only [List.length_singleton, List.length_nil] at hcount
              omega
            · simp at hcompile
            · simp at hcompile
  · simp at hcompile

/-- C27 (as amended) at `true !false !true`, the string of the test. -/
theorem C27_adjacent_operands_no_evaluator_witness :
    (∀ x ∈ adjacentOperandsTest.idents, isIdentifier x = true) ∧
    0 < adjacentOperandsTest.juxts ∧
    TokenizeExpression
        ['t', 'r', 'u', 'e', ' ', '!', 'f', 'a', 'l', 's', 'e', ' ', '!', 't', 'r', 'u', 'e']
        ['(', ')', '|', '&', '!'] [['&'], ['|']] = adjacentOperandsTest.toks ∧
    ∀ ev, CompileConditionString
        ['t', 'r', 'u', 'e', ' ', '!', 'f', 'a', 'l', 's', 'e', ' ', '!', 't', 'r', 'u', 'e']
        conditionTestNode.ValidateConditionName ≠ some (some ev) :=
  ⟨by decide, by decide, by decide,
    C27_adjacent_operands_no_evaluator adjacentOperandsTest (by decide) (by decide)
      ['t', 'r', 'u', 'e', ' ', '!', 'f', 'a', 'l', 's', 'e', ' ', '!', 't', 'r', 'u', 'e']
      (by decide) conditionTestNode.ValidateConditionName⟩

/-! ## The closures of a compiled expression -/

theorem evaluateLoop_rpn_closure (cb : CondValCB) (t : CondExpr)
    (hid : ∀ x ∈ t.idents, isIdentifier x = true ∧ cb x = true) :
    ∃ elem,
      (∀ rest stack,
        evaluateLoop cb (t.rpn ++ rest) stack = evaluateLoop cb rest (elem :: stack)) ∧
      GetConditionByName elem cb = some t.closure ∧
      ((∃ x, elem = StackElem.str x ∧ t.rpn = [x]) ∨
        (elem = StackElem.eval (FExpressionEvaluator.mk [] (some t.closure)) ∧
          2 ≤ t.rpn.length)) := by
  induction t with
  | ident x =>
    have hx := hid x (by simp [CondExpr.idents])
    refine ⟨StackElem.str x, ?_, getConditionByName_str hx.1 hx.2, Or.inl ⟨x, rfl, rfl⟩⟩
    intro rest stack
    exact evaluateLoop_ident cb x hx.1 rest stack
  | notIdent x =>
    have hx := hid x (by simp [CondExpr.idents])
    refine ⟨StackElem.eval (FExpressionEvaluator.mk [] (some (negateClosure (conditionLeaf x)))),
      ?_, rfl, Or.inr ⟨rfl, by simp [CondExpr.rpn]⟩⟩
    intro rest stack
    show evaluateLoop cb (x :: ['!'] :: rest) stack = _
    rw [evaluateLoop_ident cb x hx.1,
      evaluateLoop_bang cb _ _ (getConditionByName_str hx.1 hx.2)]
  | notParen e ih =>
    obtain ⟨elem, hloop, hget, -⟩ := ih hid
    refine ⟨StackElem.eval (FExpressionEvaluator.mk [] (some (negateClosure e.closure))),
      ?_, rfl, Or.inr ⟨rfl, ?_⟩⟩
    · intro rest stack
      show evaluateLoop cb ((e.rpn ++ [['!']]) ++ rest) stack = _
      rw [List.append_assoc, hloop, List.singleton_append, evaluateLoop_bang cb _ _ hget]
    · have := rpn_length_pos e
      simp only [CondExpr.rpn, List.length_append, List.length_singleton]
      omega
  | paren e ih => exact ih hid
  | and l r ihl ihr =>
    obtain ⟨el, hloopl, hgetl, -⟩ := ihl (fun x hx => hid x (List.mem_append_left _ hx))
    obtain ⟨er, hloopr, hgetr, -⟩ := ihr (fun x hx => hid x (List.mem_append_right _ hx))
    refine ⟨StackElem.eval
      (FExpressionEvaluator.mk [] (some (binaryClosure l.closure r.closure true))),
      ?_, rfl, Or.inr ⟨rfl, ?_⟩⟩
    · intro rest stack
      show evaluateLoop cb ((l.rpn ++ (r.rpn ++ [['&', '&']])) ++ rest) stack = _
      rw [List.append_assoc, hloopl, List.append_assoc, hloopr, List.singleton_append,
        evaluateLoop_andand cb _ _ _ _ hgetr hgetl]
    · have := rpn_length_pos l
      have := rpn_length_pos r
      simp only [CondExpr.rpn, List.length_append, List.length_singleton]
      omega
  | or l r ihl ihr =>
    obtain ⟨el, hloopl, hgetl, -⟩ := ihl (fun x hx => hid x (List.mem_append_left _ hx))
    obtain ⟨er, hloopr, hgetr, -⟩ := ihr (fun x hx => hid x (List.mem_append_right _ hx))
    refine ⟨StackElem.eval
      (FExpressionEvaluator.mk [] (some (binaryClosure l.closure r.closure false))),
      ?_, rfl, Or.inr ⟨rfl, ?_⟩⟩
    · intro rest stack
      show evaluateLoop cb ((l.rpn ++ (r.rpn ++ [['|', '|']])) ++ rest) stack = _
      rw [List.append_assoc, hloopl, List.append_assoc, hloopr, List.singleton_append,
        evaluateLoop_oror cb _ _ _ _ hgetr hgetl]
    · have := rpn_length_pos l
      have := rpn_length_pos r
      simp only [CondExpr.rpn, List.length_append, List.length_singleton]
      omega

theorem evaluateExpression_closure (cb : CondValCB) (t : CondExpr)
    (hid : ∀ x ∈ t.idents, isIdentifier x = true ∧ cb x = true) :
    ∃ ev, EvaluateExpression t.rpn cb = some (some ev) ∧
      ev.GetEvaluateFunction = some t.compiled := by
  obtain ⟨elem, hloop, hget, hshape⟩ := evaluateLoop_rpn_closure cb t hid
  rcases hshape with ⟨x, hx, hr⟩ | ⟨he, hlen⟩
  · subst hx
    refine ⟨FExpressionEvaluator.mk []
      (some (binaryClosure t.closure (fun _ => some false) false)), ?_, ?_⟩
    · rw [hr]
      simp [EvaluateExpression, hget, FExpressionEvaluator.ofBinary]
    · simp [FExpressionEvaluator.GetEvaluateFunction, CondExpr.compiled, hr]
  · subst he
    refine ⟨FExpressionEvaluator.mk [] (some t.closure), ?_, ?_⟩
    · have h := hloop [] []
      rw [List.append_nil] at h
      rcases hrpn : t.rpn with _ | ⟨a, _ | ⟨b, rest⟩⟩
      · rw [hrpn] at hlen
        simp at hlen
      · rw [hrpn] at hlen
        simp at hlen
      · rw [hrpn] at h
        simp only [EvaluateExpression]
        rw [h]
        simp [evaluateLoop]
    · rcases hrpn : t.rpn with _ | ⟨a, _ | ⟨b, rest⟩⟩
      · rw [hrpn] at hlen
        simp at hlen
      · rw [hrpn] at hlen
        simp at hlen
      · simp [FExpressionEvaluator.GetEvaluateFunction, CondExpr.compiled, hrpn]

theorem compile_closure (t : CondExpr) (cb : CondValCB) (hc : t.canonical = true)
    (hid : ∀ x ∈ t.idents, isIdentifier x = true ∧ cb x = true) :
    ∃ ev, CompileConditionString t.render cb = some (some ev) ∧
      ev.GetEvaluateFunction = some t.compiled := by
  obtain ⟨ev, hev, hf⟩ := evaluateExpression_closure cb t hid
  refine ⟨ev, ?_, hf⟩
  have hid1 : ∀ x ∈ t.idents, isIdentifier x = true := fun x hx => (hid x hx).1
  unfold CompileConditionString
  rw [validate_render t hid1]
  simp only [if_true]
  rw [tokenize_render t hid1, transform_toks t hc hid1]
  exact hev

theorem traced_fst (t : CondExpr) (ptr : NodePtr) :
    (t.traced ptr).map Prod.fst = t.closure ptr := by
  induction t with
  | ident x =>
    simp only [CondExpr.traced, CondExpr.closure, tracedLeaf]
    cases conditionLeaf x ptr <;> rfl
  | notIdent x =>
    simp only [CondExpr.traced, CondExpr.closure, tracedNegate, tracedLeaf, negateClosure]
    cases conditionLeaf x ptr <;> rfl
  | notParen e ih =>
    simp only [CondExpr.traced, CondExpr.closure, tracedNegate, negateClosure, ← ih]
    cases e.traced ptr <;> rfl
  | paren e ih => exact ih
  | and l r ihl ihr =>
    simp only [CondExpr.traced, CondExpr.closure, tracedBinary, binaryClosure, ← ihl, ← ihr]
    cases l.traced ptr with
    | none => rfl
    | some a => cases r.traced ptr <;> rfl
  | or l r ihl ihr =>
    simp only [CondExpr.traced, CondExpr.closure, tracedBinary, binaryClosure, ← ihl, ← ihr]
    cases l.traced ptr with
    | none => rfl
    | some a => cases r.traced ptr <;> rfl

theorem tracedCompiled_fst (t : CondExpr) (ptr : NodePtr) :
    (t.tracedCompiled ptr).map Prod.fst = t.compiled ptr := by
  have h := traced_fst t ptr
  unfold CondExpr.tracedCompiled CondExpr.compiled
  rcases t.rpn with _ | ⟨a, _ | ⟨a', rest⟩⟩
  · exact h
  · simp only [tracedBinary, binaryClosure, ← h]
    cases t.traced ptr <;> rfl
  · exact h

theorem traced_calls (t : CondExpr) (ptr : NodePtr)
    (hleaves : ∀ x ∈ t.idents, conditionLeaf x ptr ≠ none) :
    ∃ b, t.traced ptr = some (b, t.idents) := by
  induction t with
  | ident x =>
    have := hleaves x (by simp [CondExpr.idents])
    cases h : conditionLeaf x ptr with
    | none => exact absurd h this
    | some v => exact ⟨v, by simp [CondExpr.traced, tracedLeaf, h, CondExpr.idents]⟩
  | notIdent x =>
    have := hleaves x (by simp [CondExpr.idents])
    cases h : conditionLeaf x ptr with
    | none => exact absurd h this
    | some v =>
      exact ⟨!v, by simp [CondExpr.traced, tracedNegate, tracedLeaf, h, CondExpr.idents]⟩
  | notParen e ih =>
    obtain ⟨b, hb⟩ := ih hleaves
    exact ⟨!b, by simp [CondExpr.traced, tracedNegate, hb, CondExpr.idents]⟩
  | paren e ih => exact ih hleaves
  | and l r ihl ihr =>
    obtain ⟨bl, hl⟩ := ihl (fun x hx => hleaves x (List.mem_append_left _ hx))
    obtain ⟨br, hr⟩ := ihr (fun x hx => hleaves x (List.mem_append_right _ hx))
    exact ⟨bl && br, by simp [CondExpr.traced, tracedBinary, hl, hr, CondExpr.idents]⟩
  | or l r ihl ihr =>
    obtain ⟨bl, hl⟩ := ihl (fun x hx => hleaves x (List.mem_append_left _ hx))
    obtain ⟨br, hr⟩ := ihr (fun x hx => hleaves x (List.mem_append_right _ hx))
    exact ⟨bl || br, by simp [CondExpr.traced, tracedBinary, hl, hr, CondExpr.idents]⟩

theorem tracedCompiled_calls (t : CondExpr) (ptr : NodePtr)
    (hleaves : ∀ x ∈ t.idents, conditionLeaf x ptr ≠ none) :
    ∃ b, t.tracedCompiled ptr = some (b, t.idents) := by
  obtain ⟨b, hb⟩ := traced_calls t ptr hleaves
  unfold CondExpr.tracedCompiled
  rcases t.rpn with _ | ⟨a, _ | ⟨a', rest⟩⟩
  · exact ⟨b, hb⟩
  · exact ⟨b || false, by simp [tracedBinary, hb]⟩
  · exact ⟨b, hb⟩

/-- C30: for every expression of the grammar whose identifiers are accepted,
`CompileConditionString` returns the evaluator composed of the leaf, negating
and combining closures along the derivation of the string that follows the
precedences, the left operand of each `&&` and `||` being the `left` of its
combining closure. With the calls made explicit, this composition returns the
same values, and on every node pointer on which the leaves return, whatever
their values are, it calls the leaf of every identifier occurrence of the
expression exactly once, in the order of the occurrences from left to right,
so the left operand of each `&&` and `||` before the right one. -/
theorem C30_evaluator_calls_every_leaf_once (t : CondExpr) (condNameValidation : CondValCB)
    (hid : ∀ x ∈ t.idents, isIdentifier x = true ∧ condNameValidation x = true) :
    ∃ ev, CompileConditionString t.render condNameValidation = some (some ev) ∧
      ev.GetEvaluateFunction = some t.parse.compiled ∧
      t.parse.render = t.render ∧ t.parse.idents = t.idents ∧
      (∀ ptr : NodePtr, (t.parse.tracedCompiled ptr).map Prod.fst = t.parse.compiled ptr) ∧
      (∀ ptr : NodePtr, (∀ x ∈ t.idents, conditionLeaf x ptr ≠ none) →
        ∃ b, t.parse.tracedCompiled ptr = some (b, t.idents)) := by
  obtain ⟨ev, hev, hf⟩ := compile_closure t.parse condNameValidation
    (canonical_parse t) (by rw [idents_parse]; exact hid)
  rw [render_parse] at hev
  refine ⟨ev, hev, hf, render_parse t, idents_parse t, tracedCompiled_fst t.parse, ?_⟩
  intro ptr hleaves
  have := tracedCompiled_calls t.parse ptr (by rw [idents_parse]; exact hleaves)
  rw [idents_parse] at this
  exact this

/-- C30 at `true || false && false` on the node of the condition tests: the first
operand is true, and the evaluator still calls all three leaves, from left to
right. -/
theorem C30_evaluator_calls_every_leaf_once_witness :
    (∀ x ∈ firstOperandDecides.idents,
      isIdentifier x = true ∧ conditionTestNode.ValidateConditionName x = true) ∧
    firstOperandDecides.render =
      ['t', 'r', 'u', 'e', ' ', '|', '|', ' ', 'f', 'a', 'l', 's', 'e', ' ', '&', '&', ' ',
        'f', 'a', 'l', 's', 'e'] ∧
    ∃ ev, CompileConditionString firstOperandDecides.render
        conditionTestNode.ValidateConditionName = some (some ev) ∧
      ev.GetEvaluateFunction = some firstOperandDecides.parse.compiled ∧
      firstOperandDecides.parse.compiled (some conditionTestNode) = some true ∧
      firstOperandDecides.parse.tracedCompiled (some conditionTestNode) =
        some (true, [['t', 'r', 'u', 'e'], ['f', 'a', 'l', 's', 'e'],
          ['f', 'a', 'l', 's', 'e']]) := by
  have hid : ∀ x ∈ firstOperandDecides.idents,
      isIdentifier x = true ∧ conditionTestNode.ValidateConditionName x = true := by
    decide
  obtain ⟨ev, h1, h2, -, -, -, -⟩ := C30_evaluator_calls_every_leaf_once firstOperandDecides
    conditionTestNode.ValidateConditionName hid
  exact ⟨hid, rfl, ev, h1, h2, rfl, rfl⟩

/-! ## The postfix form of a token list with properly nested parentheses -/

theorem unwindToParen_split :
    ∀ (operators result : List FString), ['('] ∈ operators →
      ∃ popped remaining, unwindToParen operators result = some (remaining, result ++ popped) ∧
        operators = popped ++ ['('] :: remaining ∧ ['('] ∉ popped := by
  intro operators
  induction operators with
  | nil =>
    intro result h
    simp at h
  | cons op rest ih =>
    intro result h
    by_cases hop : op = ['(']
    · refine ⟨[], rest, ?_, ?_, ?_⟩
      · simp [unwindToParen, hop]
      · simp [hop]
      · simp
    · have hmem : ['('] ∈ rest := by
        rcases List.mem_cons.mp h with h1 | h1
        · exact absurd h1.symm hop
        · exact h1
      obtain ⟨popped, remaining, h1, h2, h3⟩ := ih (result ++ [op]) hmem
      refine ⟨op :: popped, remaining, ?_, ?_, ?_⟩
      · simp only [unwindToParen, if_neg hop]
        rw [h1]
        simp
      · simp [h2]
      · intro hin
        rcases List.mem_cons.mp hin with h4 | h4
        · exact hop h4.symm
        · exact h3 h4

theorem lookup_isSome_of_mem (operatorPrecedence : List (FString × Int)) (op : FString)
    (h : op ∈ operatorPrecedence.map Prod.fst) :
    ∃ p, operatorPrecedence.lookup op = some p := by
  induction operatorPrecedence with
  | nil => simp at h
  | cons e rest ih =>
    obtain ⟨k, v⟩ := e
    by_cases hk : op = k
    · subst hk
      exact ⟨v, by simp [List.lookup]⟩
    · have hmem : op ∈ rest.map Prod.fst := by
        simp only [List.map_cons, List.mem_cons] at h
        rcases h with h | h
        · exact absurd h hk
        · exact h
      obtain ⟨p, hp⟩ := ih hmem
      refine ⟨p, ?_⟩
      have : (op == k) = false := by simpa using hk
      simp [List.lookup, this, hp]

theorem unwindByPrecedence_split (operatorPrecedence : List (FString × Int)) (token : FString)
    (htoken : token ∈ operatorPrecedence.map Prod.fst) :
    ∀ (operators result : List FString),
      (∀ op ∈ operators, op = ['('] ∨ op ∈ operatorPrecedence.map Prod.fst) →
      ∃ popped remaining,
        unwindByPrecedence operatorPrecedence token operators result =
          some (remaining, result ++ popped) ∧
        operators = popped ++ remaining ∧ ∀ op ∈ popped, parenthesis.contains op = false := by
  intro operators
  induction operators with
  | nil =>
    intro result _
    exact ⟨[], [], by simp [unwindByPrecedence], rfl, by simp⟩
  | cons op rest ih =>
    intro result hops
    by_cases hparen : parenthesis.contains op = true
    · exact ⟨[], op :: rest,
        by simp only [unwindByPrecedence, hparen, if_true, List.append_nil], rfl, by simp⟩
    · have hop : op ∈ operatorPrecedence.map Prod.fst := by
        rcases hops op (List.mem_cons_self _ _) with h | h
        · subst h
          exact absurd (by decide) hparen
        · exact h
      obtain ⟨pLast, hLast⟩ := lookup_isSome_of_mem operatorPrecedence op hop
      obtain ⟨pToken, hToken⟩ := lookup_isSome_of_mem operatorPrecedence token htoken
      by_cases hge : pLast ≥ pToken
      · obtain ⟨popped, remaining, h1, h2, h3⟩ :=
          ih (result ++ [op]) (fun o ho => hops o (List.mem_cons_of_mem _ ho))
        refine ⟨op :: popped, remaining, ?_, ?_, ?_⟩
        · simp only [unwindByPrecedence, if_neg hparen, hLast, hToken, if_pos hge]
          rw [h1]
          simp
        · simp [h2]
        · intro o ho
          rcases List.mem_cons.mp ho with h4 | h4
          · subst h4
            simpa using hparen
          · exact h3 o h4
      · exact ⟨[], op :: rest,
          by simp only [unwindByPrecedence, if_neg hparen, hLast, hToken, if_neg hge,
            List.append_nil],
          rfl, by simp⟩

theorem isVariable_false_of_key (operatorPrecedence : List (FString × Int)) (op : FString)
    (h : op ∈ operatorPrecedence.map Prod.fst) : isVariable operatorPrecedence op = false := by
  simp only [isVariable, Bool.and_eq_false_iff, Bool.not_eq_false', List.contains_iff_exists_mem_beq]
  right
  exact ⟨op, h, by simp⟩

theorem rpoLoop_nested (operatorPrecedence : List (FString × Int)) :
    ∀ (tokens operators result : List FString) (depth : Nat),
      (∀ op ∈ operators, op = ['('] ∨
        (parenthesis.contains op = false ∧ op ∈ operatorPrecedence.map Prod.fst)) →
      operators.count ['('] = depth →
      nestedFrom tokens depth = true →
      ∃ remaining added,
        rpoLoop operatorPrecedence tokens operators result = some (remaining, result ++ added) ∧
        (∀ op ∈ remaining,
          parenthesis.contains op = false ∧ op ∈ operatorPrecedence.map Prod.fst) ∧
        (∀ t ∈ added, parenthesis.contains t = false) ∧
        added.filter (isVariable operatorPrecedence) =
          tokens.filter (isVariable operatorPrecedence) := by
  intro tokens
  induction tokens with
  | nil =>
    intro operators result depth hops hcount hnest
    simp only [nestedFrom, beq_iff_eq] at hnest
    subst hnest
    refine ⟨operators, [], by simp [rpoLoop], ?_, by simp, by simp⟩
    intro op hop
    rcases hops op hop with h | h
    · subst h
      exact absurd hop (List.count_eq_zero.mp hcount)
    · exact h
  | cons token rest ih =>
    intro operators result depth hops hcount hnest
    by_cases hopen : token = ['(']
    · subst hopen
      simp only [nestedFrom, if_true] at hnest
      obtain ⟨remaining, added, h1, h2, h3, h4⟩ :=
        ih ((['('] : FString) :: operators) result (depth + 1)
          (by
            intro op hop
            rcases List.mem_cons.mp hop with h | h
            · exact Or.inl h
            · exact hops op h)
          (by simp [hcount]) hnest
      refine ⟨remaining, added, ?_, h2, h3, ?_⟩
      · simp only [rpoLoop, if_true]
        exact h1
      · rw [h4]
        simp [List.filter_cons, isVariable]
    · by_cases hclose : token = [')']
      · subst hclose
        cases depth with
        | zero => simp [nestedFrom] at hnest
        | succ d =>
          simp only [nestedFrom, if_neg hopen, if_true] at hnest
          have hmem : ['('] ∈ operators := by
            apply List.count_pos_iff.mp
            omega
          obtain ⟨popped, remaining1, hu, hsplit, hnot⟩ :=
            unwindToParen_split operators result hmem
          have hcount1 : remaining1.count ['('] = d := by
            rw [hsplit, List.count_append, List.count_cons_self,
              List.count_eq_zero.mpr hnot] at hcount
            omega
          have hops1 : ∀ op ∈ remaining1, op = ['('] ∨
              (parenthesis.contains op = false ∧ op ∈ operatorPrecedence.map Prod.fst) := by
            intro op hop
            apply hops
            rw [hsplit]
            simp [hop]
          obtain ⟨remaining, added, h1, h2, h3, h4⟩ :=
            ih remaining1 (result ++ popped) d hops1 hcount1 hnest
          have hpopped : ∀ op ∈ popped,
              parenthesis.contains op = false ∧ op ∈ operatorPrecedence.map Prod.fst := by
            intro op hop
            rcases hops op (by rw [hsplit]; simp [hop]) with h | h
            · subst h
              exact absurd hop hnot
            · exact h
          refine ⟨remaining, popped ++ added, ?_, h2, ?_, ?_⟩
          · simp only [rpoLoop, if_neg hopen, if_true, hu]
            rw [h1, List.append_assoc]
          · intro t ht
            rcases List.mem_append.mp ht with h | h
            · exact (hpopped t h).1
            · exact h3 t h
          · rw [List.filter_append, h4]
            have : popped.filter (isVariable operatorPrecedence) = [] := by
              apply List.filter_eq_nil_iff.mpr
              intro op hop
              simp [isVariable_false_of_key operatorPrecedence op (hpopped op hop).2]
            rw [this]
            simp [List.filter_cons, isVariable]
      · simp only [nestedFrom, if_neg hopen, if_neg hclose] at hnest
        by_cases hkey : (operatorPrecedence.map Prod.fst).contains token = true
        · have hkeymem : token ∈ operatorPrecedence.map Prod.fst := by simpa using hkey
          obtain ⟨popped, remaining1, hu, hsplit, hnot⟩ :=
            unwindByPrecedence_split operatorPrecedence token hkeymem operators result
              (fun op hop => (hops op hop).imp id And.right)
          have hnotopen : ['('] ∉ popped := by
            intro hin
            have := hnot _ hin
            revert this
            decide
          have htokparen : parenthesis.contains token = false := by
            simp [parenthesis, hopen, hclose]
          have hcount1 : (token :: remaining1).count ['('] = depth := by
            rw [hsplit, List.count_append, List.count_eq_zero.mpr hnotopen] at hcount
            rw [List.count_cons_of_ne (Ne.symm hopen)]
            omega
          have hops1 : ∀ op ∈ token :: remaining1, op = ['('] ∨
              (parenthesis.contains op = false ∧ op ∈ operatorPrecedence.map Prod.fst) := by
            intro op hop
            rcases List.mem_cons.mp hop with h | h
            · subst h
              exact Or.inr ⟨htokparen, hkeymem⟩
            · apply hops
              rw [hsplit]
              simp [h]
          obtain ⟨remaining, added, h1, h2, h3, h4⟩ :=
            ih (token :: remaining1) (result ++ popped) depth hops1 hcount1 hnest
          refine ⟨remaining, popped ++ added, ?_, h2, ?_, ?_⟩
          · simp only [rpoLoop, if_neg hopen, if_neg hclose, hkey, if_true, hu]
            rw [h1, List.append_assoc]
          · intro t ht
            rcases List.mem_append.mp ht with h | h
            · exact hnot t h
            · exact h3 t h
          · rw [List.filter_append, h4]
            have : popped.filter (isVariable operatorPrecedence) = [] := by
              apply List.filter_eq_nil_iff.mpr
              intro op hop
              rcases hops op (by rw [hsplit]; simp [hop]) with h | h
              · subst h
                exact absurd hop hnotopen
              · simp [isVariable_false_of_key operatorPrecedence op h.2]
            rw [this]
            simp [List.filter_cons, isVariable_false_of_key operatorPrecedence token hkeymem]
        · obtain ⟨remaining, added, h1, h2, h3, h4⟩ :=
            ih operators (result ++ [token]) depth hops hcount hnest
          have hvar : isVariable operatorPrecedence token = true := by
            simp only [isVariable, Bool.and_eq_true, Bool.not_eq_true', decide_eq_false_iff_not]
            exact ⟨⟨hopen, hclose⟩, by simpa using hkey⟩
          refine ⟨remaining, token :: added, ?_, h2, ?_, ?_⟩
          · simp only [rpoLoop, if_neg hopen, if_neg hclose, hkey]
            rw [h1]
            simp
          · intro t ht
            rcases List.mem_cons.mp ht with h | h
            · subst h
              simp [parenthesis, hopen, hclose]
            · exact h3 t h
          · simp [List.filter_cons, hvar, h4]

/-- On a token list with properly nested parentheses the conversion returns; its
result has no parenthesis, and its variables are those of the input, in the
same order. -/
theorem transform_nested (operatorPrecedence : List (FString × Int)) (tokens : List FString)
    (hnest : ProperlyNested tokens = true) :
    ∃ rpo, TransformExpressionToReversePolishOrder tokens operatorPrecedence = some rpo ∧
      (∀ t ∈ rpo, parenthesis.contains t = false) ∧
      rpo.filter (isVariable operatorPrecedence) =
        tokens.filter (isVariable operatorPrecedence) := by
  obtain ⟨remaining, added, h1, h2, h3, h4⟩ :=
    rpoLoop_nested operatorPrecedence tokens [] [] 0 (by simp) (by simp) hnest
  refine ⟨added ++ remaining, ?_, ?_, ?_⟩
  · simp [TransformExpressionToReversePolishOrder, h1]
  · intro t ht
    rcases List.mem_append.mp ht with h | h
    · exact h3 t h
    · exact (h2 t h).1
  · rw [List.filter_append, h4]
    have : remaining.filter (isVariable operatorPrecedence) = [] := by
      apply List.filter_eq_nil_iff.mpr
      intro op hop
      simp [isVariable_false_of_key operatorPrecedence op (h2 op hop).2]
    rw [this]
    simp

theorem isIdentifier_isVariable {x : FString} (h : isIdentifier x = true) :
    isVariable operatorPrecedenceTable x = true := by
  simp only [isVariable, operatorPrecedenceTable, Bool.and_eq_true, Bool.not_eq_true',
    decide_eq_false_iff_not]
  refine ⟨⟨isIdentifier_ne_open h, isIdentifier_ne_close h⟩, ?_⟩
  have h1 := isIdentifier_ne_oror h
  have h2 := isIdentifier_ne_andand h
  have h3 := isIdentifier_ne_bang h
  simp [h1, h2, h3]

theorem filter_isIdentifier_of_isVariable (l : List FString) :
    (l.filter (isVariable operatorPrecedenceTable)).filter isIdentifier =
      l.filter isIdentifier := by
  rw [List.filter_filter]
  apply List.filter_congr
  intro x _
  cases hx : isIdentifier x with
  | false => simp
  | true => simp [isIdentifier_isVariable hx]

/-- C31: for every token list with properly nested parentheses,
`TransformExpressionToReversePolishOrder` with the precedences `||` = 0,
`&&` = 1, `!` = 2 returns a list that contains no parenthesis, is a permutation
of the input tokens that are not parentheses, and has the identifier tokens
(more generally, the tokens that are neither parenthesis nor operator) in the
order of the input. -/
theorem C31_postfix_of_nested_tokens (tokens : List FString)
    (hnest : ProperlyNested tokens = true) :
    ∃ rpo, TransformExpressionToReversePolishOrder tokens operatorPrecedenceTable = some rpo ∧
      (['('] ∉ rpo ∧ [')'] ∉ rpo) ∧
      rpo.Perm (tokens.filter nonParen) ∧
      rpo.filter isIdentifier = tokens.filter isIdentifier ∧
      rpo.filter (isVariable operatorPrecedenceTable) =
        tokens.filter (isVariable operatorPrecedenceTable) := by
  obtain ⟨rpo, h1, h2, h3⟩ := transform_nested operatorPrecedenceTable tokens hnest
  have hall : rpo.filter nonParen = rpo := by
    apply List.filter_eq_self.mpr
    intro t ht
    simp only [nonParen, h2 t ht, Bool.not_false]
  refine ⟨rpo, h1, ⟨?_, ?_⟩, ?_, ?_, h3⟩
  · intro hin
    have := h2 _ hin
    revert this
    decide
  · intro hin
    have := h2 _ hin
    revert this
    decide
  · have := transform_perm operatorPrecedenceTable tokens rpo h1
    rwa [hall] at this
  · rw [← filter_isIdentifier_of_isVariable rpo, h3, filter_isIdentifier_of_isVariable]

/-- C31 on the tokens of `!(a || b) && (c || !d)`. -/
theorem C31_postfix_of_nested_tokens_witness :
    ProperlyNested nestedTokensTest = true ∧
    ∃ rpo, TransformExpressionToReversePolishOrder nestedTokensTest operatorPrecedenceTable =
        some rpo ∧
      (['('] ∉ rpo ∧ [')'] ∉ rpo) ∧
      rpo.Perm (nestedTokensTest.filter nonParen) ∧
      rpo.filter isIdentifier = nestedTokensTest.filter isIdentifier ∧
      rpo.filter (isVariable operatorPrecedenceTable) =
        nestedTokensTest.filter (isVariable operatorPrecedenceTable) :=
  ⟨by decide, C31_postfix_of_nested_tokens nestedTokensTest (by decide)⟩

/-! ## The tokens of `TokenizeExpression` spell the string without its spaces -/

theorem splitWords_flatten (delims : List TCHAR) :
    ∀ (s w : FString), (splitWords delims s w).flatten = w ++ s := by
  intro s
  induction s with
  | nil =>
    intro w
    cases w <;> simp [splitWords]
  | cons c cs ih =>
    intro w
    cases hc : delims.contains c with
    | true =>
      rw [splitWords_cons_delim delims c cs w hc, List.flatten_append, List.flatten_cons, ih]
      cases w <;> simp
    | false =>
      rw [splitWords_cons_other delims c cs w hc, ih]
      simp

theorem splitWords_ne_nil (delims : List TCHAR) :
    ∀ (s w : FString), ∀ t ∈ splitWords delims s w, t ≠ [] := by
  intro s
  induction s with
  | nil =>
    intro w t ht
    cases w with
    | nil => simp [splitWords] at ht
    | cons a w1 =>
      simp only [splitWords, List.isEmpty_cons, Bool.false_eq_true, if_false,
        List.mem_singleton] at ht
      subst ht
      simp
  | cons c cs ih =>
    intro w t ht
    cases hc : delims.contains c with
    | true =>
      rw [splitWords_cons_delim delims c cs w hc] at ht
      rcases List.mem_append.mp ht with h | h
      · cases w with
        | nil => simp at h
        | cons a w1 =>
          simp only [List.isEmpty_cons, Bool.false_eq_true, if_false, List.mem_singleton] at h
          subst h
          simp
      · rcases List.mem_cons.mp h with h1 | h1
        · subst h1
          simp
        · exact ih [] t h1
    | false =>
      rw [splitWords_cons_other delims c cs w hc] at ht
      exact ih _ t ht

theorem appendToLast_flatten (mergedTokens : List FString) (t : FString)
    (h : mergedTokens ≠ []) :
    (appendToLast mergedTokens t).flatten = mergedTokens.flatten ++ t := by
  unfold appendToLast
  cases hl : mergedTokens.getLast? with
  | none => exact absurd (List.getLast?_eq_none_iff.mp hl) h
  | some l =>
    have := List.dropLast_append_getLast? l hl
    simp only
    conv_rhs => rw [← this]
    simp

theorem appendToLast_ne_nil (mergedTokens : List FString) (t : FString)
    (h : ∀ x ∈ mergedTokens, x ≠ []) : ∀ x ∈ appendToLast mergedTokens t, x ≠ [] := by
  unfold appendToLast
  cases hl : mergedTokens.getLast? with
  | none => exact h
  | some l =>
    intro x hx
    simp only [List.mem_append, List.mem_singleton] at hx
    rcases hx with hx | hx
    · exact h x (List.mem_of_mem_dropLast hx)
    · subst hx
      have hmem : l ∈ mergedTokens := by
        have := List.dropLast_append_getLast? l hl
        rw [← this]
        simp
      have := h l hmem
      intro hnil
      exact this (List.append_eq_nil.mp hnil).1

theorem appendToLast_eq_nil (mergedTokens : List FString) (t : FString)
    (h : mergedTokens ≠ []) : appendToLast mergedTokens t ≠ [] := by
  unfold appendToLast
  cases hl : mergedTokens.getLast? with
  | none => exact h
  | some l => simp

theorem mergeLoop_flatten (mergeTokens : List FString) :
    ∀ (rest mergedTokens : List FString) (currentToken : FString), mergedTokens ≠ [] →
      (mergeLoop mergeTokens rest mergedTokens currentToken).flatten =
        mergedTokens.flatten ++ rest.flatten := by
  intro rest
  induction rest with
  | nil =>
    intro mergedTokens currentToken _
    simp [mergeLoop]
  | cons t rest ih =>
    intro mergedTokens currentToken h
    rw [mergeLoop]
    split_ifs
    · rw [ih _ _ (appendToLast_eq_nil mergedTokens t h), appendToLast_flatten mergedTokens t h]
      simp
    · rw [ih _ _ (by simp)]
      simp

theorem mergeLoop_ne_nil (mergeTokens : List FString) :
    ∀ (rest mergedTokens : List FString) (currentToken : FString),
      (∀ x ∈ rest, x ≠ []) → (∀ x ∈ mergedTokens, x ≠ []) →
      ∀ x ∈ mergeLoop mergeTokens rest mergedTokens currentToken, x ≠ [] := by
  intro rest
  induction rest with
  | nil =>
    intro mergedTokens currentToken _ h
    simpa [mergeLoop] using h
  | cons t rest ih =>
    intro mergedTokens currentToken hrest h
    rw [mergeLoop]
    split_ifs
    · exact ih _ _ (fun x hx => hrest x (List.mem_cons_of_mem _ hx))
        (appendToLast_ne_nil mergedTokens t h)
    · refine ih _ _ (fun x hx => hrest x (List.mem_cons_of_mem _ hx)) ?_
      intro x hx
      rcases List.mem_append.mp hx with h1 | h1
      · exact h x h1
      · simp only [List.mem_singleton] at h1
        subst h1
        exact hrest x (List.mem_cons_self _ _)

theorem mergePrecedingTokens_flatten (refTokens mergeTokens : List FString) :
    (MergePrecedingTokens refTokens mergeTokens).flatten = refTokens.flatten := by
  cases refTokens with
  | nil => rfl
  | cons t0 rest =>
    simp only [MergePrecedingTokens]
    rw [mergeLoop_flatten mergeTokens rest [t0] t0 (by simp)]
    simp

theorem mergePrecedingTokens_ne_nil (refTokens mergeTokens : List FString)
    (h : ∀ x ∈ refTokens, x ≠ []) : ∀ x ∈ MergePrecedingTokens refTokens mergeTokens, x ≠ [] := by
  cases refTokens with
  | nil => simp [MergePrecedingTokens]
  | cons t0 rest =>
    simp only [MergePrecedingTokens]
    refine mergeLoop_ne_nil mergeTokens rest [t0] t0
      (fun x hx => h x (List.mem_cons_of_mem _ hx)) ?_
    intro x hx
    simp only [List.mem_singleton] at hx
    subst hx
    exact h x (List.mem_cons_self _ _)

/-- C36: for every string (and every choice of split and merge operators, in
particular those of `CompileConditionString`), the tokens returned by
`TokenizeExpression` are all non-empty and their concatenation in order is
the string with every space removed. -/
theorem C36_tokens_spell_string_without_spaces (conditionString : FString)
    (splitOperators : List TCHAR) (mergeOperators : List FString) :
    (∀ token ∈ TokenizeExpression conditionString splitOperators mergeOperators, token ≠ []) ∧
    (TokenizeExpression conditionString splitOperators mergeOperators).flatten =
      conditionString.filter (fun c => c != ' ') := by
  unfold TokenizeExpression
  simp only
  rw [tokenizeLoop_eq splitOperators _ _ [] (le_refl _)]
  simp only [List.nil_append]
  constructor
  · exact mergePrecedingTokens_ne_nil _ _ (splitWords_ne_nil splitOperators _ [])
  · rw [mergePrecedingTokens_flatten, splitWords_flatten]
    rfl

/-! ## The last element of the evaluation stack -/

/-- C40: in `EvaluateExpression`, for every token list with at least two tokens,
whenever the loop over the tokens ends with exactly one element on the
evaluation stack, that element holds an `FExpressionEvaluator` and not an
`FString`, so `Get<FExpressionEvaluator>()` finds its type and the function
returns that evaluator. -/
theorem C40_single_stack_element_is_evaluator (tokens : List FString)
    (condNameValidation : CondValCB) (evaluationStack : List StackElem)
    (hlen : 2 ≤ tokens.length)
    (hloop : evaluateLoop condNameValidation tokens [] = some (some evaluationStack))
    (hone : evaluationStack.length = 1) :
    ∃ e, evaluationStack = [StackElem.eval e] ∧
      EvaluateExpression tokens condNameValidation = some (some e) := by
  rcases evaluationStack with _ | ⟨elem, _ | ⟨elem2, rest⟩⟩
  · simp at hone
  · cases elem with
    | str s =>
      have := evaluateLoop_single_name condNameValidation tokens s hloop
      subst this
      simp at hlen
    | eval e =>
      refine ⟨e, rfl, ?_⟩
      unfold EvaluateExpression
      split
      · simp at hlen
      · simp only [hloop]
  · simp at hone

/-- C40 on the postfix tokens `true`, `false`, `!`, `&&` with the conditions of
the condition test: the loop ends with one evaluator on the stack. -/
theorem C40_single_stack_element_is_evaluator_witness :
    2 ≤ postfixTokensTest.length ∧
    ∃ evaluationStack,
      evaluateLoop conditionTestNode.ValidateConditionName postfixTokensTest [] =
        some (some evaluationStack) ∧
      evaluationStack.length = 1 ∧
      ∃ e, evaluationStack = [StackElem.eval e] ∧
        EvaluateExpression postfixTokensTest conditionTestNode.ValidateConditionName =
          some (some e) :=
  ⟨by decide, _, rfl, rfl,
    C40_single_stack_element_is_evaluator postfixTokensTest
      conditionTestNode.ValidateConditionName _ (by decide) rfl rfl⟩

/-! ## The debug map of `EvaluateEnterConditions` -/

theorem tmapAdd_mem {α β : Type} [DecidableEq α] (m : List (α × β)) (key : α) (value : β)
    (e : α × β) (h : e ∈ TMap.Add m key value) : e ∈ m ∨ e = (key, value) := by
  unfold TMap.Add at h
  split_ifs at h
  · simp only [List.mem_map] at h
    obtain ⟨a, ha, rfl⟩ := h
    split_ifs
    · exact Or.inr rfl
    · exact Or.inl ha
  · simpa using h

theorem tmapAdd_fresh {α β : Type} [DecidableEq α] (m : List (α × β)) (key : α) (value : β)
    (h : key ∉ m.map Prod.fst) : TMap.Add m key value = m ++ [(key, value)] := by
  unfold TMap.Add
  have : m.any (fun e => decide (e.1 = key)) = false := by
    rw [List.any_eq_false]
    intro e he
    simp only [decide_eq_true_eq]
    intro hk
    exact h (List.mem_map.mpr ⟨e, he, hk⟩)
  simp [this]

theorem foldl_tmapAdd_mem :
    ∀ (reports Conditions : List (FName × Bool)) (e : FName × Bool),
      e ∈ reports.foldl (fun m r => TMap.Add m r.1 r.2) Conditions →
      e ∈ Conditions ∨ e ∈ reports := by
  intro reports
  induction reports with
  | nil =>
    intro Conditions e h
    exact Or.inl h
  | cons r rest ih =>
    intro Conditions e h
    rw [List.foldl_cons] at h
    rcases ih _ e h with h1 | h1
    · rcases tmapAdd_mem Conditions r.1 r.2 e h1 with h2 | h2
      · exact Or.inl h2
      · exact Or.inr (by rw [h2]; exact List.mem_cons_self _ _)
    · exact Or.inr (List.mem_cons_of_mem _ h1)

theorem foldl_tmapAdd_nodup :
    ∀ (reports Conditions : List (FName × Bool)),
      (Conditions.map Prod.fst ++ reports.map Prod.fst).Nodup →
      reports.foldl (fun m r => TMap.Add m r.1 r.2) Conditions = Conditions ++ reports := by
  intro reports
  induction reports with
  | nil =>
    intro Conditions _
    simp
  | cons r rest ih =>
    intro Conditions h
    rw [List.foldl_cons]
    have hfresh : r.1 ∉ Conditions.map Prod.fst := by
      intro hin
      rw [List.nodup_append] at h
      exact h.2.2 hin (by simp)
    rw [tmapAdd_fresh Conditions r.1 r.2 hfresh, ih]
    · simp
    · simpa [List.append_assoc] using h

theorem canEnterLoop_eq :
    ∀ (l : List (FName × Bool)) (flag : Bool) (Conditions : List (FName × Bool)),
      canEnterLoop l flag Conditions =
        (flag && l.all (fun e => e.2), l.foldl (fun m r => TMap.Add m r.1 r.2) Conditions) := by
  intro l
  induction l with
  | nil =>
    intro flag Conditions
    simp [canEnterLoop]
  | cons e rest ih =>
    intro flag Conditions
    rw [canEnterLoop, ih]
    simp [Bool.and_assoc]

theorem enterGroupsLoop_eq (self : NodePtr) :
    ∀ (evaluators : List FExpressionEvaluator) (flag : Bool)
      (Conditions : List (FName × Bool)) (r : Bool × List (FName × Bool)),
      enterGroupsLoop self evaluators flag Conditions = some r →
      ∃ results : List (FName × Bool),
        results.map Prod.fst = evaluators.map (fun e => e.name) ∧
        r = (flag && results.all (fun e => e.2),
          results.foldl (fun m x => TMap.Add m x.1 x.2) Conditions) := by
  intro evaluators
  induction evaluators with
  | nil =>
    intro flag Conditions r h
    simp only [enterGroupsLoop, Option.some.injEq] at h
    exact ⟨[], rfl, by simp [← h]⟩
  | cons e rest ih =>
    intro flag Conditions r h
    simp only [enterGroupsLoop] at h
    cases hf : e.GetEvaluateFunction with
    | none => simp [hf] at h
    | some f =>
      simp only [hf] at h
      cases hres : f self with
      | none => simp [hres] at h
      | some result =>
        simp only [hres] at h
        obtain ⟨results, h1, h2⟩ := ih _ _ r h
        refine ⟨(e.name, result) :: results, by simp [h1], ?_⟩
        rw [h2]
        simp [Bool.and_assoc]

/-- What `EvaluateEnterConditions` returns, in terms of the reports added to the
debug map: the verdict is the conjunction of all reported values, the map is
the result of adding the reports in order. -/
theorem evaluateEnterConditions_reports {n : Nat} (node : DefaultNode n)
    (IsSelfTransition : Bool) (verdict : Bool) (Conditions : List (FName × Bool))
    (h : node.EvaluateEnterConditions IsSelfTransition = some (verdict, Conditions)) :
    ∃ reports : List (FName × Bool),
      reports.map Prod.fst = node.reportedNames IsSelfTransition ∧
      verdict = reports.all (fun e => e.2) ∧
      Conditions = reports.foldl (fun m x => TMap.Add m x.1 x.2) [] := by
  unfold DefaultNode.EvaluateEnterConditions at h
  simp only [canEnterLoop_eq] at h
  cases hg : enterGroupsLoop (some node.toUDSMDefaultNode) node._expressionEvaluators true
      (List.foldl (fun m r => TMap.Add m r.1 r.2)
        (List.foldl (fun m r => TMap.Add m r.1 r.2) [] (node.CanEnterState IsSelfTransition))
        (node.CanEnterStateEvent IsSelfTransition)) with
  | none => simp [hg] at h
  | some r3 =>
    simp only [hg, Option.some.injEq, Prod.mk.injEq] at h
    obtain ⟨results, h1, h2⟩ := enterGroupsLoop_eq _ _ _ _ _ hg
    refine ⟨node.CanEnterState IsSelfTransition ++
      (node.CanEnterStateEvent IsSelfTransition ++ results), ?_, ?_, ?_⟩
    · simp [DefaultNode.reportedNames, h1]
    · rw [← h.1, h2]
      simp [List.all_append, Bool.and_assoc]
    · rw [← h.2, h2]
      simp [List.foldl_append]

/-- C39 does not hold as stated: on a node whose native map reports `enter` as
false and whose hook map reports `enter` as true, `EvaluateEnterConditions`
returns false, while the debug map it produces has the single entry `enter`
with the value true. -/
theorem C39_debug_map_overwritten_counterexample :
    collidingNamesNode.EvaluateEnterConditions false =
      some (false, [(['e', 'n', 't', 'e', 'r'], true)]) ∧
    ¬ (false = true ↔
      ∀ e ∈ [((['e', 'n', 't', 'e', 'r'] : FName), true)], e.2 = true) := by
  constructor
  · decide
  · simp

/-- C39 (as amended): when `EvaluateEnterConditions` returns true, every entry of
the debug map it produces is true; and when no name is reported twice (the
keys of the native map, the keys of the hook map and the names of the
evaluators are pairwise different), it returns true iff every entry of the
debug map is true. -/
theorem C39_verdict_and_debug_map {n : Nat} (node : DefaultNode n) (IsSelfTransition : Bool)
    (verdict : Bool) (Conditions : List (FName × Bool))
    (h : node.EvaluateEnterConditions IsSelfTransition = some (verdict, Conditions)) :
    (verdict = true → ∀ e ∈ Conditions, e.2 = true) ∧
    ((node.reportedNames IsSelfTransition).Nodup →
      (verdict = true ↔ ∀ e ∈ Conditions, e.2 = true)) := by
  obtain ⟨reports, hnames, hverdict, hmap⟩ :=
    evaluateEnterConditions_reports node IsSelfTransition verdict Conditions h
  have hforward : verdict = true → ∀ e ∈ Conditions, e.2 = true := by
    intro hv e he
    rw [hmap] at he
    rcases foldl_tmapAdd_mem reports [] e he with h1 | h1
    · simp at h1
    · rw [hverdict, List.all_eq_true] at hv
      exact hv e h1
  refine ⟨hforward, fun hnodup => ⟨hforward, ?_⟩⟩
  intro hall
  have heq : Conditions = reports := by
    rw [hmap, foldl_tmapAdd_nodup reports [] (by simpa [hnames] using hnodup)]
    simp
  rw [hverdict, List.all_eq_true]
  intro e he
  exact hall e (by rw [heq]; exact he)

/-- C39 (as amended) on a node whose native map reports the single entry `enter`
as false: the verdict is false and the debug map shows that entry. -/
theorem C39_verdict_and_debug_map_witness :
    (plainNode 0 false [] []).EvaluateEnterConditions false =
      some (false, [(['e', 'n', 't', 'e', 'r'], false)]) ∧
    ((plainNode 0 false [] []).reportedNames false).Nodup ∧
    (false = true ↔ ∀ e ∈ [((['e', 'n', 't', 'e', 'r'] : FName), false)], e.2 = true) :=
  have h : (plainNode 0 false [] []).EvaluateEnterConditions false =
      some (false, [(['e', 'n', 't', 'e', 'r'], false)]) := by decide
  have hn : ((plainNode 0 false [] []).reportedNames false).Nodup := by decide
  ⟨h, hn, (C39_verdict_and_debug_map (plainNode 0 false [] []) false false _ h).2 hn⟩

/-! ## The record of calls and the manager afterwards -/

theorem endStateCalls_fst {n : Nat} (self : ADSMGameMode n) :
    self.EndStateCalls.1 = self.EndState := by
  unfold ADSMGameMode.EndStateCalls ADSMGameMode.EndState
  split <;> rfl

theorem beginStateCalls_fst {n : Nat} (self : ADSMGameMode n) (node : Option (DefaultNode n)) :
    (self.BeginStateCalls node).map Prod.fst = self.BeginState node := by
  unfold ADSMGameMode.BeginStateCalls ADSMGameMode.BeginState
  cases node <;> rfl

theorem handleNextNodeCalls_fst {n : Nat} (self : ADSMGameMode n) :
    self.handleNextNodeCalls.map Prod.fst = self.handleNextNode := by
  unfold ADSMGameMode.handleNextNodeCalls ADSMGameMode.handleNextNode
  cases self._currentPolicy with
  | none => rfl
  | some currentPolicy =>
    simp only
    split_ifs
    · cases h : currentPolicy.HandleNextNode.1 with
      | none => rfl
      | some nextNode => exact beginStateCalls_fst _ _
    · rfl

theorem transitionStateCalls_fst {n : Nat} (self : ADSMGameMode n) (engine : Engine n) :
    (self.TransitionStateCalls engine).map Prod.fst = self.TransitionState engine := by
  unfold ADSMGameMode.TransitionStateCalls ADSMGameMode.TransitionState
  simp only [endStateCalls_fst]
  split_ifs
  · rfl
  · cases hf : self.EndState.FindPolicy engine self.EndState._defaultNodes false [] with
    | none => rfl
    | some found =>
      simp only
      split_ifs
      · rw [← handleNextNodeCalls_fst]
        cases ADSMGameMode.handleNextNodeCalls
          { self.EndState with _currentPolicy := found.policy } <;> rfl
      · rfl
  · rw [← handleNextNodeCalls_fst]
    cases self.EndState.handleNextNodeCalls <;> rfl

theorem updateStateMachineCalls_fst {n : Nat} (self : ADSMGameMode n) (engine : Engine n)
    (DeltaTime : float) :
    (self.UpdateStateMachineCalls engine DeltaTime).map Prod.fst =
      self.UpdateStateMachine engine DeltaTime := by
  unfold ADSMGameMode.UpdateStateMachineCalls ADSMGameMode.UpdateStateMachine
  split_ifs
  · exact transitionStateCalls_fst self engine
  · cases self._currentNode with
    | none => rfl
    | some currentNode =>
      cases h : currentNode._node <;> simp [h]

theorem endStateCalls_snd {n : Nat} (self : ADSMGameMode n) :
    self.EndStateCalls.2 = [] ∨ ∃ node, self.EndStateCalls.2 = endPhase node := by
  unfold ADSMGameMode.EndStateCalls
  split
  · rename_i currentNode _ _ _
    cases h : currentNode._node with
    | none => exact Or.inl rfl
    | some node => exact Or.inr ⟨node, rfl⟩
  · exact Or.inl rfl

theorem endStateCalls_no_findPolicy {n : Nat} (self : ADSMGameMode n) :
    self.EndStateCalls.2.all (fun call => !call.isFindPolicy) = true := by
  rcases endStateCalls_snd self with h | ⟨node, h⟩ <;> rw [h] <;> rfl

theorem endStateCalls_no_update {n : Nat} (self : ADSMGameMode n) :
    self.EndStateCalls.2.all (fun call => !call.isUpdate) = true := by
  rcases endStateCalls_snd self with h | ⟨node, h⟩ <;> rw [h] <;> rfl

/-! ## A transition while the current policy has nodes left -/

/-- C33 does not hold as stated: while transitions are suppressed,
`TransitionState` on a manager whose current policy has one node in its queue
begins no node and leaves the queue as it is; and while transitions are
allowed, on a manager whose current policy has a null pointer at the head of
its queue of two, it begins no node and drops the policy. -/
theorem C33_suppressed_transition_keeps_queue_counterexample :
    ((suppressedQueuedGameMode._currentPolicy.map
        (fun policy => policy._policyNodesOrdered.length)) = some 1 ∧
      ∃ after calls, suppressedQueuedGameMode.TransitionStateCalls plainEngine =
          some (after, calls) ∧
        suppressedQueuedGameMode.TransitionState plainEngine = some after ∧
        after._currentNode.isNone = true ∧
        (after._currentPolicy.map (fun policy => policy._policyNodesOrdered.length)) =
          some 1 ∧
        calls.length = 0) ∧
    (nullHeadGameMode._IsTransitionAllowed = true ∧
      (nullHeadGameMode._currentPolicy.map
        (fun policy => policy._policyNodesOrdered.length)) = some 2 ∧
      ∃ after calls, nullHeadGameMode.TransitionStateCalls plainEngine = some (after, calls) ∧
        nullHeadGameMode.TransitionState plainEngine = some after ∧
        after._currentNode.isNone = true ∧ after._currentPolicy.isNone = true ∧
        calls.length = 0) :=
  ⟨⟨rfl, _, _, rfl, rfl, rfl, rfl, rfl⟩, rfl, rfl, _, _, rfl, rfl, rfl, rfl, rfl⟩

/-- C33 (as amended): while transitions are allowed, `TransitionState` on a
manager whose current policy has a queue with a valid node at its head ends
the current state, begins exactly that node and leaves the rest of the queue
to the policy, without calling `FindPolicy`; and when the queue is empty and
the policy's `TransitionAfterPolicy` flag is false, it ends the current state
and leaves the manager with no current node and no current policy, again
without calling `FindPolicy`. -/
theorem C33_transitionState_drains_queue {n : Nat} (self : ADSMGameMode n) (engine : Engine n)
    (policy : UDSMPolicy n) (hallowed : self._IsTransitionAllowed = true)
    (hpolicy : self._currentPolicy = some policy) :
    (∀ head rest, policy._policyNodesOrdered = some head :: rest →
      ∃ after calls, self.TransitionStateCalls engine = some (after, calls) ∧
        self.TransitionState engine = some after ∧
        after._currentNode = some (UDSMActiveNode.Create (some head)) ∧
        after._currentPolicy = some { policy with _policyNodesOrdered := rest } ∧
        calls = self.EndStateCalls.2 ++ beginPhase head ∧
        calls.all (fun call => !call.isFindPolicy) = true) ∧
    (policy._policyNodesOrdered = [] → policy.TransitionAfterPolicy = false →
      ∃ after calls, self.TransitionStateCalls engine = some (after, calls) ∧
        self.TransitionState engine = some after ∧
        after._currentNode = none ∧ after._currentPolicy = none ∧ after.IsActive = false ∧
        calls = self.EndStateCalls.2 ∧
        calls.all (fun call => !call.isFindPolicy) = true) := by
  have hpol : self.EndStateCalls.1._currentPolicy = some policy := by
    rw [endStateCalls_fst, endState_currentPolicy, hpolicy]
  constructor
  · intro head rest hqueue
    have hfin : policy.HasPolicyFinished = false := by
      simp [UDSMPolicy.HasPolicyFinished, hqueue]
    have hcalls : self.TransitionStateCalls engine =
        some ({ self.EndStateCalls.1 with
            _currentPolicy := some { policy with _policyNodesOrdered := rest }
            _currentNode := some (UDSMActiveNode.Create (some head))
            _hasStateEnded := head.OnBeginState || head.OnBeginStateEvent },
          self.EndStateCalls.2 ++ beginPhase head) := by
      unfold ADSMGameMode.TransitionStateCalls
      simp only [hallowed, Bool.not_true, Bool.false_eq_true, if_false, hpol, hfin,
        Bool.false_and, ADSMGameMode.handleNextNodeCalls, Bool.not_false, if_true,
        UDSMPolicy.HandleNextNode, hqueue, ADSMGameMode.BeginStateCalls]
    refine ⟨_, _, hcalls, ?_, rfl, rfl, rfl, ?_⟩
    · rw [← transitionStateCalls_fst, hcalls]
      rfl
    · rw [List.all_append, endStateCalls_no_findPolicy]
      rfl
  · intro hqueue hflag
    have hfin : policy.HasPolicyFinished = true := by
      simp [UDSMPolicy.HasPolicyFinished, hqueue]
    have hcalls : self.TransitionStateCalls engine =
        some ({ self.EndStateCalls.1 with _currentPolicy := none, _currentNode := none },
          self.EndStateCalls.2) := by
      unfold ADSMGameMode.TransitionStateCalls
      simp only [hallowed, Bool.not_true, Bool.false_eq_true, if_false, hpol, hfin, hflag,
        Bool.and_false, ADSMGameMode.handleNextNodeCalls, Bool.not_true, List.append_nil]
    refine ⟨_, _, hcalls, ?_, rfl, rfl, rfl, rfl, endStateCalls_no_findPolicy self⟩
    rw [← transitionStateCalls_fst, hcalls]
    rfl

/-- C33 (as amended) on a manager whose policy has `dataNode` in its queue, and
on one whose policy has an empty queue and allows no transition after it. -/
theorem C33_transitionState_drains_queue_witness :
    (queuedGameMode._IsTransitionAllowed = true ∧
      ∃ after calls, queuedGameMode.TransitionStateCalls plainEngine = some (after, calls) ∧
        queuedGameMode.TransitionState plainEngine = some after ∧
        after._currentNode = some (UDSMActiveNode.Create (some dataNode)) ∧
        after._currentPolicy = some (UDSMPolicy.mk 1 10 true true []) ∧
        calls = queuedGameMode.EndStateCalls.2 ++ beginPhase dataNode ∧
        calls.all (fun call => !call.isFindPolicy) = true) ∧
    (drainedGameMode._IsTransitionAllowed = true ∧
      ∃ after calls, drainedGameMode.TransitionStateCalls plainEngine = some (after, calls) ∧
        drainedGameMode.TransitionState plainEngine = some after ∧
        after._currentNode = none ∧ after._currentPolicy = none ∧ after.IsActive = false ∧
        calls = drainedGameMode.EndStateCalls.2 ∧
        calls.all (fun call => !call.isFindPolicy) = true) :=
  ⟨⟨rfl, (C33_transitionState_drains_queue queuedGameMode plainEngine
      (UDSMPolicy.mk 1 10 true true [some dataNode]) rfl rfl).1 dataNode [] rfl⟩,
    ⟨rfl, (C33_transitionState_drains_queue drainedGameMode plainEngine
      (UDSMPolicy.mk 1 10 false true []) rfl rfl).2 rfl rfl⟩⟩

/-! ## One call of `UpdateStateMachine` -/

theorem findPolicyAux_success_policy {n : Nat} (engine : Engine n) (self : ADSMGameMode n)
    (bSelfTransition : Bool) :
    ∀ (fuel : Nat) (transitionNodes : List (Option (DefaultNode n)))
      (appliedPolicies : List (UDSMPolicy n)) (res : FindPolicyResult n),
      FindPolicyAux engine self bSelfTransition fuel transitionNodes appliedPolicies =
        some (some res) →
      res.bSuccess = true → ∃ policy, res.policy = some policy := by
  intro fuel
  induction fuel with
  | zero =>
    intro _ _ _ h
    simp [FindPolicyAux] at h
  | succ fuel ih =>
    intro transitionNodes appliedPolicies res h hs
    rw [findPolicyAux_succ] at h
    have hbase : some (some (bestSuccessful engine appliedPolicies)) = some (some res) →
        ∃ policy, res.policy = some policy := by
      intro hb
      simp only [Option.some.injEq] at hb
      subst hb
      unfold bestSuccessful at hs ⊢
      simp only at hs ⊢
      split
      · exact ⟨_, rfl⟩
      · rename_i hl
        simp [hl] at hs
    cases transitionNodes with
    | nil => exact hbase h
    | cons first rest =>
      simp only at h
      cases happ : applicablePolicies first rest appliedPolicies with
      | none => simp [happ] at h
      | some o =>
        cases o with
        | none =>
          simp only [happ, Option.some.injEq] at h
          subst h
          simp at hs
        | some applicable =>
          simp only [happ] at h
          split_ifs at h
          · cases hnew : newObjects engine applicable with
            | none => simp [hnew] at h
            | some instances =>
              simp only [hnew] at h
              cases hlast : (engine.SortByPriority instances).getLast? with
              | none => simp [hlast] at h
              | some last =>
                simp only [hlast] at h
                cases hact : last.ActivatePolicy engine (first :: rest) self bSelfTransition with
                | none => simp [hact] at h
                | some policy =>
                  simp only [hact] at h
                  exact ih _ _ res h hs
          · exact hbase h

theorem findPolicy_success_policy {n : Nat} (self : ADSMGameMode n) (engine : Engine n)
    (transitionNodes : List (Option (DefaultNode n))) (bSelfTransition : Bool)
    (appliedPolicies : List (UDSMPolicy n)) (res : FindPolicyResult n)
    (h : self.FindPolicy engine transitionNodes bSelfTransition appliedPolicies = some res)
    (hs : res.bSuccess = true) : ∃ policy, res.policy = some policy :=
  findPolicyAux_success_policy engine self bSelfTransition _ _ _ res
    (findPolicy_eq_some self engine transitionNodes bSelfTransition appliedPolicies res h) hs

/-- What `handleNextNodeCalls` leaves on a manager with a current policy: no
current node and no calls, or a begun node and its begin phase. -/
theorem handleNextNodeCalls_cases {n : Nat} (self : ADSMGameMode n) (policy : UDSMPolicy n)
    (hpolicy : self._currentPolicy = some policy) :
    ∃ after calls, self.handleNextNodeCalls = some (after, calls) ∧
      after._stateMachineData = self._stateMachineData ∧
      ((after._currentNode = none ∧ after._currentPolicy = none ∧
          after._hasStateEnded = self._hasStateEnded ∧ calls = []) ∨
        (∃ next, after._currentNode = some (UDSMActiveNode.Create (some next)) ∧
          after._currentPolicy.isSome = true ∧ calls = beginPhase next)) := by
  unfold ADSMGameMode.handleNextNodeCalls
  simp only [hpolicy]
  split_ifs
  · cases h : policy.HandleNextNode.1 with
    | none => exact ⟨_, _, rfl, rfl, Or.inl ⟨rfl, rfl, rfl, rfl⟩⟩
    | some nextNode =>
      exact ⟨_, _, rfl, rfl, Or.inr ⟨nextNode, rfl, rfl, rfl⟩⟩
  · exact ⟨_, _, rfl, rfl, Or.inl ⟨rfl, rfl, rfl, rfl⟩⟩

/-- What a call of `TransitionState` does while transitions are allowed: it
returns unless `FindPolicy` fails a check; after the calls of `EndState` it
calls `FindPolicy` at most once, and either leaves the manager without current
node and current policy or begins a node as its last calls. -/
theorem transitionStateCalls_cases {n : Nat} (self : ADSMGameMode n) (engine : Engine n)
    (hallowed : self._IsTransitionAllowed = true) :
    (self.TransitionStateCalls engine = none →
      self.EndStateCalls.1.FindPolicy engine self.EndStateCalls.1._defaultNodes false [] =
        none) ∧
    ∀ after calls, self.TransitionStateCalls engine = some (after, calls) →
      after._stateMachineData = self.EndStateCalls.1._stateMachineData ∧
      ∃ resolution : List (Call n),
        (resolution = [] ∨
          resolution = [Call.FindPolicy self.EndStateCalls.1._defaultNodes false]) ∧
        ((after._currentNode = none ∧ after._currentPolicy = none ∧
            after._hasStateEnded = self.EndStateCalls.1._hasStateEnded ∧
            calls = self.EndStateCalls.2 ++ resolution) ∨
          ∃ next, after._currentNode = some (UDSMActiveNode.Create (some next)) ∧
            after._currentPolicy.isSome = true ∧
            calls = self.EndStateCalls.2 ++ (resolution ++ beginPhase next)) := by
  unfold ADSMGameMode.TransitionStateCalls
  simp only [hallowed, Bool.not_true, Bool.false_eq_true, if_false]
  generalize self.EndStateCalls = ended
  split_ifs with hneed
  · cases hfind : ended.1.FindPolicy engine ended.1._defaultNodes false [] with
    | none => simp
    | some found =>
      simp only
      split_ifs with hsuccess
      · obtain ⟨policy, hp⟩ := findPolicy_success_policy _ engine _ _ _ found hfind hsuccess
        obtain ⟨after1, calls1, h1, h2, h3⟩ := handleNextNodeCalls_cases
          { ended.1 with _currentPolicy := found.policy } policy hp
        simp only [h1]
        refine ⟨by simp, ?_⟩
        intro after calls hres
        simp only [Option.some.injEq, Prod.mk.injEq] at hres
        obtain ⟨rfl, rfl⟩ := hres
        refine ⟨h2, [Call.FindPolicy ended.1._defaultNodes false], Or.inr rfl, ?_⟩
        rcases h3 with ⟨hn, hq, hf, hc⟩ | ⟨next, hn, hq, hc⟩
        · exact Or.inl ⟨hn, hq, hf, by rw [hc]⟩
        · exact Or.inr ⟨next, hn, hq, by rw [hc]; rfl⟩
      · refine ⟨by simp, ?_⟩
        intro after calls hres
        simp only [Option.some.injEq, Prod.mk.injEq] at hres
        obtain ⟨rfl, rfl⟩ := hres
        exact ⟨rfl, [Call.FindPolicy ended.1._defaultNodes false], Or.inr rfl,
          Or.inl ⟨rfl, rfl, rfl, rfl⟩⟩
  · cases hp : ended.1._currentPolicy with
    | none => simp [hp] at hneed
    | some policy =>
      obtain ⟨after1, calls1, h1, h2, h3⟩ := handleNextNodeCalls_cases ended.1 policy hp
      simp only [h1]
      refine ⟨by simp, ?_⟩
      intro after calls hres
      simp only [Option.some.injEq, Prod.mk.injEq] at hres
      obtain ⟨rfl, rfl⟩ := hres
      refine ⟨h2, [], Or.inl rfl, ?_⟩
      rcases h3 with ⟨hn, hq, hf, hc⟩ | ⟨next, hn, hq, hc⟩
      · exact Or.inl ⟨hn, hq, hf, by rw [hc]⟩
      · exact Or.inr ⟨next, hn, hq, by rw [hc]; rfl⟩

/-- C32 does not hold as stated. While transitions are suppressed, a call of
`UpdateStateMachine` on a manager whose current node has reported its end
calls no function of the node; the node stays current, the ended flag stays
set and nothing is added to the history. Without the save game object, the
call begins the next node without the end phase of the current one. And with
the ended flag clear and a current node whose node object has been destroyed,
the call runs no update phase. -/
theorem C32_suppressed_update_ends_nothing_counterexample :
    (suppressedEndedGameMode._hasStateEnded = true ∧
      suppressedEndedGameMode._currentNode.isSome = true ∧
      ∃ after calls, suppressedEndedGameMode.UpdateStateMachineCalls plainEngine 0 =
          some (after, calls) ∧
        suppressedEndedGameMode.UpdateStateMachine plainEngine 0 = some after ∧
        calls.length = 0 ∧ after._currentNode.isSome = true ∧ after._hasStateEnded = true ∧
        (after._stateMachineData.map (fun data => data._stateMachineHistory.length)) =
          some 0) ∧
    (unsavedEndedGameMode._hasStateEnded = true ∧
      unsavedEndedGameMode._IsTransitionAllowed = true ∧
      unsavedEndedGameMode._currentNode.isSome = true ∧
      ∃ after calls, unsavedEndedGameMode.UpdateStateMachineCalls plainEngine 0 =
          some (after, calls) ∧
        calls = Call.FindPolicy unsavedEndedGameMode._defaultNodes false ::
          beginPhase (plainNode 2 true [] [some 0]) ∧
        calls.all (fun call => !call.isNodeFunction NodeFunction.OnEndState) = true) ∧
    (destroyedNodeGameMode._hasStateEnded = false ∧
      destroyedNodeGameMode._currentNode.isSome = true ∧
      ∃ after calls, destroyedNodeGameMode.UpdateStateMachineCalls plainEngine 0 =
          some (after, calls) ∧
        calls.length = 0) :=
  ⟨⟨rfl, rfl, _, _, rfl, rfl, rfl, rfl, rfl, rfl⟩, ⟨rfl, rfl, rfl, _, _, rfl, rfl, rfl⟩,
    rfl, rfl, _, _, rfl, rfl⟩

/-- C32 (as amended): while transitions are allowed and the manager holds its
save game object, one call of `UpdateStateMachine` with the ended flag set and
a valid current node returns unless `FindPolicy` fails a check; it runs the end
phase of the current node and adds it to the history, calls `FindPolicy` at
most once, and, when the resolution yields a node, runs the begin phase of that
node as the last calls, with no call of the update phase in between. One call
with the flag clear and a valid current node runs exactly the update phase of
that node, keeps the current node, the current policy and the history, and
sets the ended flag to what the update functions report. -/
theorem C32_one_update_call {n : Nat} (self : ADSMGameMode n) (engine : Engine n)
    (DeltaTime : float) (active : UDSMActiveNode n) (node : DefaultNode n)
    (hnode : self._currentNode = some active) (hvalid : active._node = some node) :
    (self._hasStateEnded = true → self._IsTransitionAllowed = true →
      ∀ data, self._stateMachineData = some data →
      (self.UpdateStateMachineCalls engine DeltaTime = none →
        self.EndState.FindPolicy engine self.EndState._defaultNodes false [] = none) ∧
      ∀ after calls, self.UpdateStateMachineCalls engine DeltaTime = some (after, calls) →
        self.UpdateStateMachine engine DeltaTime = some after ∧
        after._stateMachineData =
          some (data.AddMemory (some node) active._cachedReferences) ∧
        calls.all (fun call => !call.isUpdate) = true ∧
        ∃ resolution : List (Call n),
          (resolution = [] ∨ resolution = [Call.FindPolicy self._defaultNodes false]) ∧
          ((after._currentNode = none ∧ after._hasStateEnded = false ∧
              calls = endPhase node ++ resolution) ∨
            ∃ next, after._currentNode = some (UDSMActiveNode.Create (some next)) ∧
              calls = endPhase node ++ (resolution ++ beginPhase next))) ∧
    (self._hasStateEnded = false →
      self.UpdateStateMachineCalls engine DeltaTime =
        some ({ self with
            _hasStateEnded :=
              node.OnUpdateState DeltaTime || node.OnUpdateStateEvent DeltaTime },
          updatePhase node) ∧
      self.UpdateStateMachine engine DeltaTime =
        some { self with
          _hasStateEnded :=
            node.OnUpdateState DeltaTime || node.OnUpdateStateEvent DeltaTime }) := by
  constructor
  · intro hended hallowed data hdata
    have hend : self.EndStateCalls =
        ({ self with
            _stateMachineData := some (data.AddMemory (some node) active._cachedReferences)
            _hasStateEnded := false }, endPhase node) := by
      unfold ADSMGameMode.EndStateCalls
      simp only [hnode, hdata, hvalid]
    have hupd : self.UpdateStateMachineCalls engine DeltaTime =
        self.TransitionStateCalls engine := by
      unfold ADSMGameMode.UpdateStateMachineCalls
      simp only [hended, if_true]
    obtain ⟨hnone, hsome⟩ := transitionStateCalls_cases self engine hallowed
    rw [hupd]
    constructor
    · intro h
      have := hnone h
      rw [endStateCalls_fst] at this
      exact this
    · intro after calls hres
      obtain ⟨h1, resolution, h2, h3⟩ := hsome after calls hres
      rw [hend] at h1 h2 h3
      refine ⟨?_, h1, ?_, resolution, h2, ?_⟩
      · rw [← updateStateMachineCalls_fst, hupd, hres]
        rfl
      · rcases h3 with ⟨-, -, -, hc⟩ | ⟨next, -, -, hc⟩ <;>
          rcases h2 with h2 | h2 <;> rw [hc, h2] <;> rfl
      · rcases h3 with ⟨hn, -, hf, hc⟩ | ⟨next, hn, -, hc⟩
        · exact Or.inl ⟨hn, hf, hc⟩
        · exact Or.inr ⟨next, hn, hc⟩
  · intro hclear
    constructor
    · unfold ADSMGameMode.UpdateStateMachineCalls
      simp only [hclear, Bool.false_eq_true, if_false, hnode, hvalid]
    · unfold ADSMGameMode.UpdateStateMachine
      simp only [hclear, Bool.false_eq_true, if_false, hnode, hvalid]


/-- C32 (as amended) on a running manager: with the ended flag set the call ends
the current node, calls `FindPolicy` and begins the registered node; with the
flag clear it runs the update phase of the current node and nothing else. -/
theorem C32_one_update_call_witness :
    (endedGameMode._hasStateEnded = true ∧ endedGameMode._IsTransitionAllowed = true ∧
      ∃ after calls, endedGameMode.UpdateStateMachineCalls plainEngine 0 = some (after, calls) ∧
        endedGameMode.UpdateStateMachine plainEngine 0 = some after ∧
        calls.all (fun call => !call.isUpdate) = true ∧
        after._currentNode =
          some (UDSMActiveNode.Create (some (plainNode 2 true [] [some 0]))) ∧
        calls = endPhase (plainNode 2 true [] [some 0]) ++
          (Call.FindPolicy endedGameMode._defaultNodes false ::
            beginPhase (plainNode 2 true [] [some 0])) ∧
        (after._stateMachineData.map (fun data => data._stateMachineHistory.length)) =
          some 1) ∧
    (updatingGameMode._hasStateEnded = false ∧
      updatingGameMode.UpdateStateMachineCalls plainEngine 0 =
        some (updatingGameMode, updatePhase (plainNode 2 true [] [some 0])) ∧
      updatingGameMode.UpdateStateMachine plainEngine 0 = some updatingGameMode) := by
  have hA := (C32_one_update_call endedGameMode plainEngine 0 _ _ rfl rfl).1 rfl rfl _ rfl
  have hB := (C32_one_update_call updatingGameMode plainEngine 0 _ _ rfl rfl).2 rfl
  have hres : endedGameMode.UpdateStateMachineCalls plainEngine 0 = some (_, _) := rfl
  obtain ⟨h1, -, h3, -⟩ := hA.2 _ _ hres
  exact ⟨⟨rfl, rfl, _, _, hres, h1, h3, rfl, rfl, rfl⟩, rfl, hB.1, hB.2⟩

/-! ## An invariant of the reachable states -/

theorem endState_stateMachineData {n : Nat} (self : ADSMGameMode n) :
    self.EndState._stateMachineData.isSome = self._stateMachineData.isSome := by
  unfold ADSMGameMode.EndState
  split
  · rename_i h1 h2
    simp [h2]
  · rfl

theorem endState_hasStateEnded {n : Nat} (self : ADSMGameMode n)
    (hdata : self._stateMachineData.isSome = true)
    (hflag : self._hasStateEnded = true → self._currentNode.isSome = true) :
    self.EndState._hasStateEnded = false := by
  unfold ADSMGameMode.EndState
  cases hn : self._currentNode with
  | none =>
    simp only
    cases hf : self._hasStateEnded with
    | false => rfl
    | true =>
      have := hflag hf
      simp [hn] at this
  | some currentNode =>
    cases hd : self._stateMachineData with
    | none => simp [hd] at hdata
    | some data => rfl

theorem transitionState_invariant {n : Nat} (self after : ADSMGameMode n) (engine : Engine n)
    (hdata : self._stateMachineData.isSome = true)
    (hflag : self._hasStateEnded = true → self._currentNode.isSome = true)
    (hnode : self._currentNode.isSome = true → self._currentPolicy.isSome = true)
    (hcall : self.TransitionState engine = some after) :
    after._stateMachineData.isSome = true ∧
    (after._hasStateEnded = true → after._currentNode.isSome = true) ∧
    (after._currentNode.isSome = true → after._currentPolicy.isSome = true) := by
  cases hallowed : self._IsTransitionAllowed with
  | false =>
    have := transitionState_suppressed self engine hallowed
    rw [this, Option.some.injEq] at hcall
    subst hcall
    exact ⟨hdata, hflag, hnode⟩
  | true =>
    rw [← transitionStateCalls_fst] at hcall
    cases hc : self.TransitionStateCalls engine with
    | none => simp [hc] at hcall
    | some r =>
      obtain ⟨after1, calls⟩ := r
      simp only [hc, Option.map_some', Option.some.injEq] at hcall
      subst hcall
      obtain ⟨h1, resolution, -, h3⟩ :=
        (transitionStateCalls_cases self engine hallowed).2 after1 calls hc
      rw [endStateCalls_fst] at h1 h3
      refine ⟨by rw [h1, endState_stateMachineData, hdata], ?_⟩
      rcases h3 with ⟨hn, hp, hf, -⟩ | ⟨next, hn, hp, -⟩
      · rw [endState_hasStateEnded self hdata hflag] at hf
        constructor
        · intro h
          rw [hf] at h
          cases h
        · intro h
          rw [hn] at h
          cases h
      · exact ⟨fun _ => by rw [hn]; rfl, fun _ => hp⟩

theorem updateStateMachine_invariant {n : Nat} (self after : ADSMGameMode n)
    (engine : Engine n) (DeltaTime : float)
    (hdata : self._stateMachineData.isSome = true)
    (hflag : self._hasStateEnded = true → self._currentNode.isSome = true)
    (hnode : self._currentNode.isSome = true → self._currentPolicy.isSome = true)
    (hcall : self.UpdateStateMachine engine DeltaTime = some after) :
    after._stateMachineData.isSome = true ∧
    (after._hasStateEnded = true → after._currentNode.isSome = true) ∧
    (after._currentNode.isSome = true → after._currentPolicy.isSome = true) := by
  unfold ADSMGameMode.UpdateStateMachine at hcall
  split_ifs at hcall with hended
  · exact transitionState_invariant self after engine hdata hflag hnode hcall
  · cases hn : self._currentNode with
    | none =>
      simp only [hn, Option.some.injEq] at hcall
      subst hcall
      exact ⟨hdata, hflag, hnode⟩
    | some currentNode =>
      simp only [hn] at hcall
      have hsome : self._currentNode.isSome = true := by rw [hn]; rfl
      cases hv : currentNode._node with
      | none =>
        simp only [hv, Option.some.injEq] at hcall
        subst hcall
        refine ⟨hdata, ?_, fun _ => hnode hsome⟩
        intro h
        simp at h
      | some node =>
        simp only [hv, Option.some.injEq] at hcall
        subst hcall
        exact ⟨hdata, fun _ => rfl, fun _ => hnode hsome⟩

theorem requestTransition_Internal_invariant {n : Nat} (self after : ADSMGameMode n)
    (engine : Engine n) (result : Bool)
    (hdata : self._stateMachineData.isSome = true)
    (hflag : self._hasStateEnded = true → self._currentNode.isSome = true)
    (hnode : self._currentNode.isSome = true → self._currentPolicy.isSome = true)
    (hcall : self.RequestTransition_Internal engine = some (result, after)) :
    after._stateMachineData.isSome = true ∧
    (after._hasStateEnded = true → after._currentNode.isSome = true) ∧
    (after._currentNode.isSome = true → after._currentPolicy.isSome = true) := by
  unfold ADSMGameMode.RequestTransition_Internal at hcall
  split_ifs at hcall
  · cases ht : self.TransitionState engine with
    | none => simp [ht] at hcall
    | some after1 =>
      simp only [ht, Option.some.injEq, Prod.mk.injEq] at hcall
      obtain ⟨-, rfl⟩ := hcall
      exact transitionState_invariant self after1 engine hdata hflag hnode ht
  · simp only [Option.some.injEq, Prod.mk.injEq] at hcall
    obtain ⟨-, rfl⟩ := hcall
    exact ⟨hdata, hflag, hnode⟩

theorem requestCustomTransition_invariant {n : Nat} (self after : ADSMGameMode n)
    (engine : Engine n) (node : Option (DefaultNode n)) (result : Bool)
    (hdata : self._stateMachineData.isSome = true)
    (hflag : self._hasStateEnded = true → self._currentNode.isSome = true)
    (hnode : self._currentNode.isSome = true → self._currentPolicy.isSome = true)
    (hcall : self.RequestCustomTransition engine node = some (result, after)) :
    after._stateMachineData.isSome = true ∧
    (after._hasStateEnded = true → after._currentNode.isSome = true) ∧
    (after._currentNode.isSome = true → after._currentPolicy.isSome = true) := by
  unfold ADSMGameMode.RequestCustomTransition at hcall
  split_ifs at hcall with hactive
  · cases hf : self.FindPolicy engine [node] true [] with
    | none => simp [hf] at hcall
    | some found =>
      simp only [hf] at hcall
      split_ifs at hcall with hsuccess
      · cases ht : ADSMGameMode.TransitionState
            { self with _currentPolicy := found.policy } engine with
        | none => simp [ht] at hcall
        | some after1 =>
          simp only [ht, Option.some.injEq, Prod.mk.injEq] at hcall
          obtain ⟨-, rfl⟩ := hcall
          refine transitionState_invariant
            ({ self with _currentPolicy := found.policy } : ADSMGameMode n) after1 engine
            hdata hflag ?_ ht
          intro hsome
          have hsome1 : self._currentNode.isSome = true := hsome
          have := hnode hsome1
          simp [ADSMGameMode.IsActive, hsome1, this] at hactive
      · simp only [Option.some.injEq, Prod.mk.injEq] at hcall
        obtain ⟨-, rfl⟩ := hcall
        exact ⟨hdata, hflag, hnode⟩
  · simp only [Option.some.injEq, Prod.mk.injEq] at hcall
    obtain ⟨-, rfl⟩ := hcall
    exact ⟨hdata, hflag, hnode⟩

theorem stopStateMachine_invariant {n : Nat} (self : ADSMGameMode n)
    (hdata : self._stateMachineData.isSome = true) :
    self.StopStateMachine._stateMachineData.isSome = true ∧
    (self.StopStateMachine._hasStateEnded = true →
      self.StopStateMachine._currentNode.isSome = true) ∧
    (self.StopStateMachine._currentNode.isSome = true →
      self.StopStateMachine._currentPolicy.isSome = true) := by
  unfold ADSMGameMode.StopStateMachine
  cases hn : self._currentNode with
  | none =>
    refine ⟨hdata, ?_, ?_⟩
    · intro h
      simp at h
    · intro h
      simp [hn] at h
  | some currentNode =>
    refine ⟨?_, ?_, ?_⟩
    · show self.EndState._stateMachineData.isSome = true
      rw [endState_stateMachineData, hdata]
    · intro h
      simp at h
    · intro h
      simp at h

theorem reachable_invariant {n : Nat} (engine : Engine n) (self : ADSMGameMode n)
    (h : Reachable engine self) :
    self._stateMachineData.isSome = true ∧
    (self._hasStateEnded = true → self._currentNode.isSome = true) ∧
    (self._currentNode.isSome = true → self._currentPolicy.isSome = true) := by
  induction h with
  | initial s hi =>
    simp only [ADSMGameMode.IsInitial, Bool.and_eq_true, Bool.not_eq_true',
      Option.isNone_iff_eq_none] at hi
    obtain ⟨⟨⟨⟨h1, h2⟩, h3⟩, h4⟩, h5⟩ := hi
    refine ⟨h1, fun h => ?_, fun h => ?_⟩
    · rw [h4] at h
      cases h
    · rw [h2] at h
      cases h
  | TransitionState s after _ hcall ih =>
    exact transitionState_invariant s after engine ih.1 ih.2.1 ih.2.2 hcall
  | UpdateStateMachine s after DeltaTime _ hcall ih =>
    exact updateStateMachine_invariant s after engine DeltaTime ih.1 ih.2.1 ih.2.2 hcall
  | RequestTransition_Internal s after result _ hcall ih =>
    exact requestTransition_Internal_invariant s after engine result ih.1 ih.2.1 ih.2.2 hcall
  | RequestCustomTransition s after node result _ hcall ih =>
    exact requestCustomTransition_invariant s after engine node result ih.1 ih.2.1 ih.2.2 hcall
  | StopStateMachine s _ ih =>
    exact stopStateMachine_invariant s ih.1

/-- C37: in every state reachable from an initial state through `TransitionState`,
`UpdateStateMachine`, `RequestTransition_Internal`, `RequestCustomTransition`
and `StopStateMachine`, if the ended flag `_hasStateEnded` is set then there is
a current node, and if there is a current node then there is a current
policy. -/
theorem C37_reachable_states_invariant {n : Nat} (engine : Engine n) (self : ADSMGameMode n)
    (hreach : Reachable engine self) :
    (self._hasStateEnded = true → self._currentNode.isSome = true) ∧
    (self._currentNode.isSome = true → self._currentPolicy.isSome = true) :=
  (reachable_invariant engine self hreach).2

/-- C37 on the state after the first transition of a manager on which `dataNode`
has registered: the node is current under the default policy. -/
theorem C37_reachable_states_invariant_witness :
    registeredGameMode.IsInitial = true ∧
    ∃ after, registeredGameMode.TransitionState plainEngine = some after ∧
      Reachable plainEngine after ∧
      after._currentNode.isSome = true ∧ after._currentPolicy.isSome = true ∧
      (after._hasStateEnded = true → after._currentNode.isSome = true) ∧
      (after._currentNode.isSome = true → after._currentPolicy.isSome = true) := by
  have hcall : registeredGameMode.TransitionState plainEngine = some _ := rfl
  have hreach := Reachable.TransitionState registeredGameMode _
    (Reachable.initial registeredGameMode rfl) hcall
  have h := C37_reachable_states_invariant plainEngine _ hreach
  exact ⟨rfl, _, hcall, hreach, rfl, rfl, h.1, h.2⟩

/-! ## Successful built-in policies have a node to begin -/

theorem applyDefaultLoop_valid {n : Nat} (bSelfTransition : Bool) :
    ∀ (inputNodes acc out : List (Option (DefaultNode n))),
      applyDefaultLoop bSelfTransition inputNodes acc = some out →
      (∀ p ∈ acc, p.isSome = true) → ∀ p ∈ out, p.isSome = true := by
  intro inputNodes
  induction inputNodes with
  | nil =>
    intro acc out h hacc
    simp only [applyDefaultLoop, Option.some.injEq] at h
    subst h
    exact hacc
  | cons first rest ih =>
    intro acc out h hacc
    cases first with
    | none => simp [applyDefaultLoop] at h
    | some node =>
      simp only [applyDefaultLoop] at h
      cases he : node.EvaluateEnterConditions bSelfTransition with
      | none => simp [he] at h
      | some r =>
        obtain ⟨verdict, debug⟩ := r
        cases verdict with
        | true =>
          simp only [he] at h
          refine ih _ out h ?_
          intro p hp
          rcases List.mem_append.mp hp with h1 | h1
          · exact hacc p h1
          · simp only [List.mem_singleton] at h1
            subst h1
            rfl
        | false =>
          simp only [he] at h
          exact ih _ out h hacc

theorem filterByTag_valid {n : Nat} (tag : FName) :
    ∀ (inputNodes out : List (Option (DefaultNode n))),
      filterByTag tag inputNodes = some out → ∀ p ∈ out, p.isSome = true := by
  intro inputNodes
  induction inputNodes with
  | nil =>
    intro out h
    simp only [filterByTag, Option.some.injEq] at h
    subst h
    simp
  | cons first rest ih =>
    intro out h
    cases first with
    | none => simp [filterByTag] at h
    | some node =>
      simp only [filterByTag] at h
      cases hf : filterByTag tag rest with
      | none => simp [hf] at h
      | some filtered =>
        simp only [hf] at h
        split_ifs at h
        · simp only [Option.some.injEq] at h
          subst h
          intro p hp
          rcases List.mem_cons.mp hp with h1 | h1
          · subst h1
            rfl
          · exact ih filtered hf p h1
        · simp only [Option.some.injEq] at h
          subst h
          exact ih filtered hf

theorem orderByTagLoop_valid {n : Nat} (inputNodes : List (Option (DefaultNode n))) :
    ∀ (TagOrder : List FName) (acc out : List (Option (DefaultNode n))),
      orderByTagLoop inputNodes TagOrder acc = some out →
      (∀ p ∈ acc, p.isSome = true) → ∀ p ∈ out, p.isSome = true := by
  intro TagOrder
  induction TagOrder with
  | nil =>
    intro acc out h hacc
    simp only [orderByTagLoop, Option.some.injEq] at h
    subst h
    exact hacc
  | cons tag rest ih =>
    intro acc out h hacc
    simp only [orderByTagLoop] at h
    cases hf : filterByTag tag inputNodes with
    | none => simp [hf] at h
    | some filtered =>
      simp only [hf] at h
      refine ih _ out h ?_
      intro p hp
      rcases List.mem_append.mp hp with h1 | h1
      · exact hacc p h1
      · exact filterByTag_valid tag inputNodes filtered hf p h1

theorem nonempty_valid_head {n : Nat} (nodes : List (Option (DefaultNode n)))
    (hlen : 0 < nodes.length) (hvalid : ∀ p ∈ nodes, p.isSome = true) :
    ∃ node rest, nodes = some node :: rest := by
  cases nodes with
  | nil => simp at hlen
  | cons first rest =>
    cases first with
    | none =>
      have := hvalid none (List.mem_cons_self _ _)
      simp at this
    | some node => exact ⟨node, rest, rfl⟩

theorem defaultPolicy_success {n : Nat} (inputNodes nodes : List (Option (DefaultNode n)))
    (bSelfTransition : Bool)
    (h : UDSMDefaultPolicy.ApplyPolicy inputNodes bSelfTransition = some (nodes, true)) :
    ∃ node rest, nodes = some node :: rest := by
  unfold UDSMDefaultPolicy.ApplyPolicy at h
  cases hl : applyDefaultLoop bSelfTransition inputNodes [] with
  | none => simp [hl] at h
  | some transitionNodes =>
    simp only [hl] at h
    have hvalid := applyDefaultLoop_valid bSelfTransition inputNodes [] transitionNodes hl
      (by simp)
    split at h
    · simp at h
    · rename_i hlen
      simp only [Option.some.injEq, Prod.mk.injEq, and_true] at h
      subst h
      exact nonempty_valid_head transitionNodes (by omega) hvalid
    · simp at h

theorem orderByTagPolicy_success {n : Nat} (TagOrder : List FName)
    (inputNodes nodes : List (Option (DefaultNode n)))
    (h : UDSMOrderByTagPolicy.ApplyPolicy TagOrder inputNodes = some (nodes, true)) :
    ∃ node rest, nodes = some node :: rest := by
  unfold UDSMOrderByTagPolicy.ApplyPolicy at h
  cases hl : orderByTagLoop inputNodes TagOrder [] with
  | none => simp [hl] at h
  | some outputNodes =>
    simp only [hl, Option.some.injEq, Prod.mk.injEq, decide_eq_true_eq] at h
    obtain ⟨rfl, hlen⟩ := h
    exact nonempty_valid_head outputNodes hlen
      (orderByTagLoop_valid inputNodes TagOrder [] outputNodes hl (by simp))

theorem activatePolicy_builtIn_success {n : Nat} (engine : Engine n)
    (hbuiltin : engine.OnlyBuiltIn) (fresh policy : UDSMPolicy n)
    (candidates : List (Option (DefaultNode n))) (gameMode : ADSMGameMode n)
    (bSelfTransition : Bool)
    (h : fresh.ActivatePolicy engine candidates gameMode bSelfTransition = some policy)
    (hsuccess : policy.IsPolicyAppliedSuccesfully = true) :
    ∃ node rest, policy.GetPolicyNodes = some node :: rest := by
  obtain ⟨hevent, hnative⟩ := hbuiltin fresh.policyClass
  unfold UDSMPolicy.ActivatePolicy at h
  simp only [hevent] at h
  cases ha : (engine.policyClass fresh.policyClass).ApplyPolicy candidates gameMode
      bSelfTransition with
  | none => simp [ha] at h
  | some r =>
    obtain ⟨nodes, success⟩ := r
    simp only [ha, List.length_nil, gt_iff_lt, lt_self_iff_false, decide_False, Bool.false_and,
      Bool.or_self, Bool.false_eq_true, if_false, List.append_nil, Bool.false_or,
      Option.some.injEq] at h
    subst h
    simp only [UDSMPolicy.IsPolicyAppliedSuccesfully] at hsuccess
    subst hsuccess
    simp only [UDSMPolicy.GetPolicyNodes]
    rcases hnative with hd | ⟨TagOrder, ht⟩
    · rw [hd] at ha
      exact defaultPolicy_success candidates nodes bSelfTransition ha
    · rw [ht] at ha
      exact orderByTagPolicy_success TagOrder candidates nodes ha

theorem findPolicy_builtIn_success {n : Nat} (engine : Engine n) (hsort : engine.SortSpec)
    (hbuiltin : engine.OnlyBuiltIn) (self : ADSMGameMode n)
    (transitionNodes : List (Option (DefaultNode n))) (bSelfTransition : Bool)
    (found : FindPolicyResult n)
    (hfind : self.FindPolicy engine transitionNodes bSelfTransition [] = some found)
    (hsuccess : found.bSuccess = true) :
    ∃ policy node rest, found.policy = some policy ∧
      policy.GetPolicyNodes = some node :: rest := by
  obtain ⟨activated, h1, -, -, h4, -, h6⟩ := findPolicyAux_chain engine hsort self
    bSelfTransition _ _ _ found
    (findPolicy_eq_some self engine transitionNodes bSelfTransition [] found hfind)
  obtain ⟨policy, hp, hmem, hs, -⟩ := h6 hsuccess
  rw [h1, List.nil_append] at hmem
  obtain ⟨candidates, fresh, -, hact⟩ := h4 policy hmem
  obtain ⟨node, rest, hnodes⟩ := activatePolicy_builtIn_success engine hbuiltin fresh policy
    candidates self bSelfTransition hact hs
  exact ⟨policy, node, rest, hp, hnodes⟩

/-- While transitions are allowed, `TransitionState` on a manager whose current
policy has a valid node at the head of its queue begins that node. -/
theorem transitionState_begins_head {n : Nat} (self : ADSMGameMode n) (engine : Engine n)
    (policy : UDSMPolicy n) (node : DefaultNode n) (rest : List (Option (DefaultNode n)))
    (hallowed : self._IsTransitionAllowed = true) (hpolicy : self._currentPolicy = some policy)
    (hqueue : policy._policyNodesOrdered = some node :: rest) :
    self.TransitionState engine =
      some { self.EndState with
        _currentPolicy := some { policy with _policyNodesOrdered := rest }
        _currentNode := some (UDSMActiveNode.Create (some node))
        _hasStateEnded := node.OnBeginState || node.OnBeginStateEvent } := by
  have hpol : self.EndState._currentPolicy = some policy := by
    rw [endState_currentPolicy, hpolicy]
  have hfin : policy.HasPolicyFinished = false := by
    simp [UDSMPolicy.HasPolicyFinished, hqueue]
  unfold ADSMGameMode.TransitionState
  simp only [hallowed, Bool.not_true, Bool.false_eq_true, if_false, hpol, hfin,
    Bool.false_and, ADSMGameMode.handleNextNode, Bool.not_false, if_true,
    UDSMPolicy.HandleNextNode, hqueue, ADSMGameMode.BeginState]

theorem plainEngine_onlyBuiltIn : plainEngine.OnlyBuiltIn := by
  intro c
  refine ⟨?_, ?_⟩
  · intro inputNodes gameMode bSelfTransition
    simp only [plainEngine]
    split_ifs <;> rfl
  · by_cases hc : c = 0
    · left
      intro inputNodes gameMode bSelfTransition
      simp [plainEngine, hc, UDSMDefaultPolicy]
    · right
      refine ⟨[['A'], ['B']], ?_⟩
      intro inputNodes gameMode bSelfTransition
      simp [plainEngine, hc, UDSMOrderByTagPolicy]

/-- C38: with only the built-in policies (`UDSMDefaultPolicy` and
`UDSMOrderByTagPolicy`, the hook `ApplyPolicyEvent` returning nothing), every
activated policy that reports success has a non-empty node list with a valid
node at its head; hence whenever the call of `FindPolicy` in `TransitionState`
reports success, `TransitionState` begins the first node of the found policy
and the manager is active afterwards. The same holds for the call of
`TransitionState` that follows a successful `FindPolicy` in
`RequestCustomTransition`, while transitions are allowed. -/
theorem C38_builtIn_success_begins_node {n : Nat} (engine : Engine n)
    (hsort : engine.SortSpec) (hbuiltin : engine.OnlyBuiltIn) :
    (∀ (fresh policy : UDSMPolicy n) (candidates : List (Option (DefaultNode n)))
        (gameMode : ADSMGameMode n) (bSelfTransition : Bool),
      fresh.ActivatePolicy engine candidates gameMode bSelfTransition = some policy →
      policy.IsPolicyAppliedSuccesfully = true →
      ∃ node rest, policy.GetPolicyNodes = some node :: rest) ∧
    (∀ (self : ADSMGameMode n) (found : FindPolicyResult n),
      self._IsTransitionAllowed = true →
      (∀ p, self._currentPolicy = some p →
        p.HasPolicyFinished = true ∧ p.TransitionAfterPolicy = true) →
      self.EndState.FindPolicy engine self.EndState._defaultNodes false [] = some found →
      found.bSuccess = true →
      ∃ policy node rest after, found.policy = some policy ∧
        policy.GetPolicyNodes = some node :: rest ∧
        self.TransitionState engine = some after ∧
        after._currentNode = some (UDSMActiveNode.Create (some node)) ∧
        after._currentPolicy = some { policy with _policyNodesOrdered := rest } ∧
        after.IsActive = true) ∧
    (∀ (self : ADSMGameMode n) (requested : Option (DefaultNode n))
        (found : FindPolicyResult n),
      self._IsTransitionAllowed = true → self.IsActive = false →
      self.FindPolicy engine [requested] true [] = some found →
      found.bSuccess = true →
      ∃ policy node rest after, found.policy = some policy ∧
        policy.GetPolicyNodes = some node :: rest ∧
        self.RequestCustomTransition engine requested = some (true, after) ∧
        after._currentNode = some (UDSMActiveNode.Create (some node)) ∧
        after._currentPolicy = some { policy with _policyNodesOrdered := rest } ∧
        after.IsActive = true) := by
  refine ⟨?_, ?_, ?_⟩
  · intro fresh policy candidates gameMode bSelfTransition h hs
    exact activatePolicy_builtIn_success engine hbuiltin fresh policy candidates gameMode
      bSelfTransition h hs
  · intro self found hallowed hneed hfind hsuccess
    obtain ⟨policy, node, rest, hp, hnodes⟩ := findPolicy_builtIn_success engine hsort hbuiltin
      _ _ _ found hfind hsuccess
    have hpol := endState_currentPolicy self
    have hfin : policy.HasPolicyFinished = false := by
      simp only [UDSMPolicy.GetPolicyNodes] at hnodes
      simp [UDSMPolicy.HasPolicyFinished, hnodes]
    simp only [UDSMPolicy.GetPolicyNodes] at hnodes
    refine ⟨policy, node, rest,
      { self.EndState with
        _currentPolicy := some { policy with _policyNodesOrdered := rest }
        _currentNode := some (UDSMActiveNode.Create (some node))
        _hasStateEnded := node.OnBeginState || node.OnBeginStateEvent },
      hp, hnodes, ?_, rfl, rfl, rfl⟩
    unfold ADSMGameMode.TransitionState
    simp only [hallowed, Bool.not_true, Bool.false_eq_true, if_false, hpol]
    split_ifs with hc
    · simp only [hfind, hsuccess, if_true, hp, ADSMGameMode.handleNextNode, hfin,
        Bool.not_false, UDSMPolicy.HandleNextNode, hnodes, ADSMGameMode.BeginState]
    · exfalso
      apply hc
      cases hcur : self._currentPolicy with
      | none => rfl
      | some p =>
        obtain ⟨h1, h2⟩ := hneed p hcur
        simp [h1, h2]
  · intro self requested found hallowed hidle hfind hsuccess
    obtain ⟨policy, node, rest, hp, hnodes⟩ := findPolicy_builtIn_success engine hsort hbuiltin
      _ _ _ found hfind hsuccess
    simp only [UDSMPolicy.GetPolicyNodes] at hnodes
    have ht := transitionState_begins_head
      ({ self with _currentPolicy := found.policy } : ADSMGameMode n) engine policy node rest
      hallowed hp hnodes
    refine ⟨policy, node, rest,
      { ADSMGameMode.EndState { self with _currentPolicy := found.policy } with
        _currentPolicy := some { policy with _policyNodesOrdered := rest }
        _currentNode := some (UDSMActiveNode.Create (some node))
        _hasStateEnded := node.OnBeginState || node.OnBeginStateEvent },
      hp, hnodes, ?_, rfl, rfl, rfl⟩
    unfold ADSMGameMode.RequestCustomTransition
    simp only [hidle, Bool.not_false, if_true, hfind, hsuccess, ht]

/-- C38 on a manager with the two built-in policy classes on which `dataNode` has
registered: `FindPolicy` reports success with the default policy, and the
transition begins `dataNode`. -/
theorem C38_builtIn_success_begins_node_witness :
    plainEngine.SortSpec ∧ plainEngine.OnlyBuiltIn ∧
    registeredGameMode._IsTransitionAllowed = true ∧
    (∃ found, registeredGameMode.EndState.FindPolicy plainEngine
        registeredGameMode.EndState._defaultNodes false [] = some found ∧
      found.bSuccess = true) ∧
    ∃ (policy : UDSMPolicy 2) (node : DefaultNode 2) (rest : List (Option (DefaultNode 2)))
        (after : ADSMGameMode 2),
      policy.GetPolicyNodes = some node :: rest ∧
      registeredGameMode.TransitionState plainEngine = some after ∧
      after._currentNode = some (UDSMActiveNode.Create (some node)) ∧
      after._currentPolicy = some { policy with _policyNodesOrdered := rest } ∧
      after.IsActive = true := by
  have hneed : ∀ p, registeredGameMode._currentPolicy = some p →
      p.HasPolicyFinished = true ∧ p.TransitionAfterPolicy = true := by
    intro p hp
    simp [registeredGameMode, freshGameMode, idleGameMode] at hp
  have hfind : registeredGameMode.EndState.FindPolicy plainEngine
      registeredGameMode.EndState._defaultNodes false [] = some _ := rfl
  obtain ⟨policy, node, rest, after, -, h2, h3, h4, h5, h6⟩ :=
    (C38_builtIn_success_begins_node plainEngine plainEngine_sortSpec
      plainEngine_onlyBuiltIn).2.1 registeredGameMode _ rfl hneed hfind rfl
  exact ⟨plainEngine_sortSpec, plainEngine_onlyBuiltIn, rfl, ⟨_, hfind, rfl⟩,
    policy, node, rest, after, h2, h3, h4, h5, h6⟩

/-! ## Binding a compare condition -/

/-- C34, the code at a failing input: on the data asset `r` of `dataNode`, the
left chain `target`, `missing` of `unresolvedNameCompare` has a second name
that does not resolve on the object `target` points to, and the right chain
`target` resolves; `EvaluatePropertyChain` leaves the property of `target` in
`outProperty` for both chains, and `UDSMConditionCompare::BindCondition`
returns true. -/
theorem C34_bind_succeeds_with_unresolved_name :
    dataNode.ValidateDataAssetByName ['r'] = some (UDSMDataAsset.mk ['r'] 3) ∧
    (∃ object,
      (reflectedAsset (UDSMDataAsset.mk ['r'] 3)).FindPropertyByName
          ['t', 'a', 'r', 'g', 'e', 't'] =
        some (PropertyType.FObjectProperty 0, some object) ∧
      object.FindPropertyByName ['m', 'i', 's', 's', 'i', 'n', 'g'] = none) ∧
    resolvedLeaf true unresolvedNameCompare._PropertyChainLeft
      (some (reflectedAsset (UDSMDataAsset.mk ['r'] 3))) none = none ∧
    (EvaluatePropertyChain unresolvedNameCompare._PropertyChainLeft
      (some (reflectedAsset (UDSMDataAsset.mk ['r'] 3))) none none true).2 =
        some (PropertyType.FObjectProperty 0) ∧
    (EvaluatePropertyChain unresolvedNameCompare._PropertyChainRight
      (some (reflectedAsset (UDSMDataAsset.mk ['r'] 3))) none none true).2 =
        some (PropertyType.FObjectProperty 0) ∧
    unresolvedNameCompare.BindCondition (some dataNode) reflectedAsset = true :=
  ⟨rfl, ⟨_, rfl, rfl⟩, by decide, by decide, by decide, by decide⟩

/-- C35, the code at two failing inputs: with the operator `EQUAL` selected and
both chains resolving to the `bool` property `flag`, which is not of a numeric
type, `UDSMConditionNumberTypeCompare::BindCondition` returns true; and it
returns true for the left chain `count`, `missing`, whose second name does not
resolve. -/
theorem C35_bind_succeeds_without_numeric_leaves :
    boolNumberCompare._CompareType ≠ ENumberComparison.NONE ∧
    resolvedLeaf true boolNumberCompare._PropertyChainLeft
      (some (reflectedAsset (UDSMDataAsset.mk ['r'] 3))) none =
        some PropertyType.FBoolProperty ∧
    resolvedLeaf true boolNumberCompare._PropertyChainRight
      (some (reflectedAsset (UDSMDataAsset.mk ['r'] 3))) none =
        some PropertyType.FBoolProperty ∧
    PropertyType.FBoolProperty.isNumeric = false ∧
    boolNumberCompare.BindCondition (some dataNode) reflectedAsset = true ∧
    resolvedLeaf true unresolvedNumberCompare._PropertyChainLeft
      (some (reflectedAsset (UDSMDataAsset.mk ['r'] 3))) none = none ∧
    unresolvedNumberCompare.BindCondition (some dataNode) reflectedAsset = true :=
  ⟨by decide, by decide, by decide, rfl, by decide, by decide, by decide⟩

end DSM
